import Mathlib

/-!
# Storm: BDD analysis of static fault trees and the DFT next-state generator

Shallow embedding of
* `src/storm-dft/modelchecker/dft/SFTBDDChecker.cpp` (scalar and vector kernels, importance
  measures, minimal cut sets),
* `src/generator/DftNextStateGenerator.cpp` (`expand`, `createMergeFailedState`), and
* `src/storm/utility/vector.h` (`reduceVector`, `clip`, `getSortedIndices`, `isUnique`,
  `toIntegralVector`, `filterVector`, `filterVectorInPlace`).

`ValueType`, a `double` in the checker, is taken to be `ℚ` (exact arithmetic); bounds on the
importance measures are stated where every rounding step preserves them. 32/64 bit indices
are `Nat`. The propagation of the generator is also described on the specification side, by
relations that do not count iterations, and the embedded code is compared with them.
-/

namespace Storm

/-! ## The BDD capability set -/

/-- A BDD as seen through `isOne / isZero / isTerminal / TopVar / Then / Else / GetBDD`.
Every node, terminal or inner, carries the identity `GetBDD` reports for it. -/
inductive Bdd where
  | terminal (id : Nat) (value : Bool) : Bdd
  | node (id : Nat) (var : Nat) (thenBdd : Bdd) (elseBdd : Bdd) : Bdd
deriving DecidableEq, Repr

namespace Bdd

/-- Node identity (`bdd.GetBDD()`). -/
def GetBDD : Bdd → Nat
  | terminal id _ => id
  | node id _ _ _ => id

def isOne : Bdd → Bool
  | terminal _ true => true
  | _ => false

def isZero : Bdd → Bool
  | terminal _ false => true
  | _ => false

def isTerminal : Bdd → Bool
  | terminal _ _ => true
  | node _ _ _ _ => false

/-- All nodes reachable from a BDD, itself included. -/
def subnodes : Bdd → List Bdd
  | terminal id v => [terminal id v]
  | node id v t e => node id v t e :: (subnodes t ++ subnodes e)

/-- Variables labelling the inner nodes of a BDD. -/
def vars : Bdd → Finset Nat
  | terminal _ _ => ∅
  | node _ v t e => insert v (vars t ∪ vars e)

/-- Truth value of a BDD when exactly the variables in `s` are true. -/
def eval (s : Finset Nat) : Bdd → Bool
  | terminal _ value => value
  | node _ v t e => if v ∈ s then eval s t else eval s e

/-- No variable is repeated on a root-to-terminal path. -/
def NoRepeat : Bdd → Prop
  | terminal _ _ => True
  | node _ v t e => v ∉ vars t ∧ v ∉ vars e ∧ NoRepeat t ∧ NoRepeat e

/-- Variable indices strictly increase along every root-to-terminal path. -/
def Ordered : Bdd → Prop
  | terminal _ _ => True
  | node _ v t e => (∀ u ∈ vars t, v < u) ∧ (∀ u ∈ vars e, v < u) ∧ Ordered t ∧ Ordered e

/-- Node identities are those of a hash-consed package: inside the BDD, equal identities
mean equal nodes. -/
def HashConsed (b : Bdd) : Prop :=
  ∀ n ∈ subnodes b, ∀ m ∈ subnodes b, n.GetBDD = m.GetBDD → n = m

instance decNoRepeat : (b : Bdd) → Decidable (NoRepeat b)
  | terminal _ _ => isTrue trivial
  | node _ v t e =>
    have := decNoRepeat t
    have := decNoRepeat e
    inferInstanceAs (Decidable (v ∉ vars t ∧ v ∉ vars e ∧ NoRepeat t ∧ NoRepeat e))

instance decOrdered : (b : Bdd) → Decidable (Ordered b)
  | terminal _ _ => isTrue trivial
  | node _ v t e =>
    have := decOrdered t
    have := decOrdered e
    inferInstanceAs (Decidable ((∀ u ∈ vars t, v < u) ∧ (∀ u ∈ vars e, v < u) ∧
      Ordered t ∧ Ordered e))

instance decHashConsed (b : Bdd) : Decidable (HashConsed b) := by
  unfold HashConsed; infer_instance

end Bdd

/-! ## Scalar kernels (`SFTBDDChecker.cpp`, anonymous namespace) -/

/-- The map `std::map<uint32_t, ValueType>`; `none` is an absent key (`at` throws). -/
abbrev ProbabilityMap := Nat → Option ℚ

/-- The cache `std::map<uint64_t, ValueType>` keyed by `GetBDD`. -/
abbrev ScalarCache := Nat → Option ℚ

def emptyCache : ScalarCache := fun _ => none

/-- Embedding of `recursiveProbability`; the cache is threaded through, `none` is the
exception of `indexToProbability.at`. -/
def recursiveProbability (indexToProbability : ProbabilityMap) :
    Bdd → ScalarCache → Option (ℚ × ScalarCache)
  | .terminal _ true, bddToProbability => some (1, bddToProbability)
  | .terminal _ false, bddToProbability => some (0, bddToProbability)
  | .node id currentVar thenBdd elseBdd, bddToProbability =>
    match bddToProbability id with
    | some cached => some (cached, bddToProbability)
    | none =>
      match indexToProbability currentVar with
      | none => none
      | some currentProbability =>
        match recursiveProbability indexToProbability thenBdd bddToProbability with
        | none => none
        | some (thenProbability, cache1) =>
          match recursiveProbability indexToProbability elseBdd cache1 with
          | none => none
          | some (elseProbability, cache2) =>
            let probability :=
              currentProbability * thenProbability + (1 - currentProbability) * elseProbability
            some (probability, Function.update cache2 id (some probability))

/-- Embedding of `recursiveBirnbaumFactor`; both caches are threaded through. -/
def recursiveBirnbaumFactor (variableIndex : Nat) (indexToProbability : ProbabilityMap) :
    Bdd → ScalarCache → ScalarCache → Option (ℚ × ScalarCache × ScalarCache)
  | .terminal _ _, bddToProbability, bddToBirnbaumFactor =>
    some (0, bddToProbability, bddToBirnbaumFactor)
  | .node id currentVar thenBdd elseBdd, bddToProbability, bddToBirnbaumFactor =>
    match bddToBirnbaumFactor id with
    | some cached => some (cached, bddToProbability, bddToBirnbaumFactor)
    | none =>
      match indexToProbability currentVar with
      | none => none
      | some currentProbability =>
        if currentVar > variableIndex then
          some (0, bddToProbability, bddToBirnbaumFactor)
        else if currentVar = variableIndex then
          match recursiveProbability indexToProbability thenBdd bddToProbability with
          | none => none
          | some (thenProbability, cache1) =>
            match recursiveProbability indexToProbability elseBdd cache1 with
            | none => none
            | some (elseProbability, cache2) =>
              let birnbaumFactor := thenProbability - elseProbability
              some (birnbaumFactor, cache2,
                Function.update bddToBirnbaumFactor id (some birnbaumFactor))
        else
          match recursiveBirnbaumFactor variableIndex indexToProbability thenBdd
              bddToProbability bddToBirnbaumFactor with
          | none => none
          | some (thenBirnbaumFactor, cacheP1, cacheB1) =>
            match recursiveBirnbaumFactor variableIndex indexToProbability elseBdd
                cacheP1 cacheB1 with
            | none => none
            | some (elseBirnbaumFactor, cacheP2, cacheB2) =>
              let birnbaumFactor := currentProbability * thenBirnbaumFactor +
                (1 - currentProbability) * elseBirnbaumFactor
              some (birnbaumFactor, cacheP2,
                Function.update cacheB2 id (some birnbaumFactor))

/-! ## Minimal cut sets -/

/-- Embedding of `SFTBDDChecker::recursiveMCS`; returns the buffer and the output vector. -/
def recursiveMCS : Bdd → List Nat → List (List Nat) → List Nat × List (List Nat)
  | .terminal _ true, buffer, minimalCutSets => (buffer, minimalCutSets ++ [buffer])
  | .terminal _ false, buffer, minimalCutSets => (buffer, minimalCutSets)
  | .node _ currentVar thenBdd elseBdd, buffer, minimalCutSets =>
    let r1 := recursiveMCS thenBdd (buffer ++ [currentVar]) minimalCutSets
    recursiveMCS elseBdd r1.1.dropLast r1.2

/-- Embedding of `SFTBDDChecker::getMinimalCutSetsAsIndices`. `Minsol` belongs to the BDD
package and is a parameter; `topLevelGateBdd` is the result of `getTopLevelGateBdd()`. -/
def getMinimalCutSetsAsIndices (Minsol : Bdd → Bdd) (topLevelGateBdd : Bdd) : List (List Nat) :=
  (recursiveMCS (Minsol topLevelGateBdd) [] []).2

/-! ## Specification-side notions for the BDD analyzer -/

/-- Weight of the assignment "exactly the variables of `V` in `s` are true" when each
variable `v` is independently true with probability `p v`. -/
def assignmentWeight (p : Nat → ℚ) (V s : Finset Nat) : ℚ :=
  ∏ v in V, if v ∈ s then p v else 1 - p v

/-- Probability that the BDD is true: sum over the satisfying assignments of its variables
of their weights. -/
def satProbability (p : Nat → ℚ) (b : Bdd) : ℚ :=
  ∑ s in b.vars.powerset.filter (fun s => b.eval s = true), assignmentWeight p b.vars s

/-- Uncached recursion `P(node) = p_v * P(then) + (1 - p_v) * P(else)`. -/
def probabilityOf (p : ProbabilityMap) : Bdd → Option ℚ
  | .terminal _ true => some 1
  | .terminal _ false => some 0
  | .node _ v t e =>
    match p v, probabilityOf p t, probabilityOf p e with
    | some pv, some pt, some pe => some (pv * pt + (1 - pv) * pe)
    | _, _, _ => none

/-- Every root-to-one path of a BDD as its list of decisions `(variable, branch taken)`,
paths through the then branch listed before paths through the else branch. -/
def pathsToOne : Bdd → List (List (Nat × Bool))
  | .terminal _ true => [[]]
  | .terminal _ false => []
  | .node _ v t e =>
    (pathsToOne t).map (fun π => (v, true) :: π) ++ (pathsToOne e).map (fun π => (v, false) :: π)

/-- Variables whose then branch a path takes, in root-to-leaf order. -/
def thenVars (π : List (Nat × Bool)) : List Nat :=
  (π.filter (fun d => d.2)).map (fun d => d.1)

/-- A set of variables that makes the BDD true when exactly its members are true. -/
def IsCutSet (b : Bdd) (s : Finset Nat) : Prop := b.eval s = true

/-- A cut set none of whose proper subsets is a cut set. -/
def IsMinimalCutSet (b : Bdd) (s : Finset Nat) : Prop :=
  IsCutSet b s ∧ ∀ t, t ⊂ s → ¬ IsCutSet b t

/-- The contract assumed of `Minsol`: the paths of `m` to the one terminal encode exactly the
minimal solutions of `b`. -/
def MinsolContract (b m : Bdd) : Prop :=
  ∀ s : Finset Nat, (∃ π ∈ pathsToOne m, (thenVars π).toFinset = s) ↔ IsMinimalCutSet b s


/-- Every cache entry for a node of `root` holds the value `f` assigns to that node. -/
def CacheSoundFor (f : Bdd → Option ℚ) (root : Bdd) (c : ScalarCache) : Prop :=
  ∀ n ∈ root.subnodes, ∀ q, c n.GetBDD = some q → f n = some q

/-- Soundness of a probability cache with respect to the uncached recursion. -/
def CacheSound (p : ProbabilityMap) (root : Bdd) (c : ScalarCache) : Prop :=
  CacheSoundFor (probabilityOf p) root c

/-- Uncached Birnbaum recursion for variable `k`, following the case split of the code. -/
def birnbaumOf (k : Nat) (p : ProbabilityMap) : Bdd → Option ℚ
  | .terminal _ _ => some 0
  | .node _ v t e =>
    match p v with
    | none => none
    | some pv =>
      if v > k then some 0
      else if v = k then
        match probabilityOf p t, probabilityOf p e with
        | some pt, some pe => some (pt - pe)
        | _, _ => none
      else
        match birnbaumOf k p t, birnbaumOf k p e with
        | some bt, some be => some (pv * bt + (1 - pv) * be)
        | _, _ => none

/-- Total version of `probabilityOf` for a map defined everywhere. -/
def probabilityTotal (p : Nat → ℚ) : Bdd → ℚ
  | .terminal _ true => 1
  | .terminal _ false => 0
  | .node _ v t e => p v * probabilityTotal p t + (1 - p v) * probabilityTotal p e

/-! ## Concrete BDDs used as instances -/

/-- The BDD of OR(0, 1) with variable 0 on top. -/
def exOr : Bdd :=
  .node 10 0 (.terminal 1 true) (.node 11 1 (.terminal 1 true) (.terminal 0 false))

/-- The BDD of AND(0, 1) with variable 0 on top. -/
def exAnd : Bdd :=
  .node 10 0 (.node 11 1 (.terminal 1 true) (.terminal 0 false)) (.terminal 0 false)

/-- Probabilities 1/2 and 1/3 for the variables 0 and 1. -/
def exProbabilities : ProbabilityMap :=
  fun v => if v = 0 then some (1 / 2) else if v = 1 then some (1 / 3) else none

/-- The BDD of OR(AND(0, 1), 2) in the order 0, 1, 2. -/
def exTop : Bdd :=
  .node 10 0 (.node 11 1 (.terminal 1 true) (.node 12 2 (.terminal 1 true) (.terminal 0 false)))
    (.node 12 2 (.terminal 1 true) (.terminal 0 false))

/-- The BDD whose paths to one are the minimal solutions of `exTop`. -/
def exMinsol : Bdd :=
  .node 20 0 (.node 21 1 (.terminal 1 true) (.terminal 0 false))
    (.node 12 2 (.terminal 1 true) (.terminal 0 false))

/-! ## The DFT next-state generator (`DftNextStateGenerator.cpp`) -/

/-- Modelled from the spec: `Choice` (its header is not among the sources) is an ordered list
of `(successor_id, weight)` that maps each successor id to one weight, plus the boolean
`markovian`; `actionIndex` is the first constructor argument. -/
structure Choice where
  actionIndex : Nat
  markovian : Bool
  distribution : List (Nat × ℚ)
deriving DecidableEq, Repr

/-- Modelled from the spec: a choice is a mapping from successor id to weight kept in
visitation order, so a weight added for an id already present is accumulated into its entry
and a new id is appended. -/
def addToDistribution : List (Nat × ℚ) → Nat → ℚ → List (Nat × ℚ)
  | [], state, value => [(state, value)]
  | (s, w) :: rest, state, value =>
    if s = state then (s, w + value) :: rest else (s, w) :: addToDistribution rest state value

namespace Choice

/-- Modelled from the spec: the constructor `Choice(actionIndex, markovian)`. -/
def new (actionIndex : Nat) (markovian : Bool) : Choice :=
  { actionIndex := actionIndex, markovian := markovian, distribution := [] }

/-- Modelled from the spec: `addProbability(state, value)`. -/
def addProbability (c : Choice) (state : Nat) (value : ℚ) : Choice :=
  { c with distribution := addToDistribution c.distribution state value }

/-- Modelled from the spec: what is left in a choice after `std::move(choice)`: every
dependency is "emitted as its own choice", so the variable holds no transitions afterwards. -/
def movedFrom (c : Choice) : Choice :=
  { c with distribution := [] }

/-- Weight a choice gives to a successor id. -/
def weight (c : Choice) (state : Nat) : ℚ :=
  ((c.distribution.filter (fun t => t.1 = state)).map (fun t => t.2)).sum

/-- Total weight of a choice. -/
def totalWeight (c : Choice) : ℚ :=
  (c.distribution.map (fun t => t.2)).sum

end Choice

/-- Modelled from the spec: `StateBehavior` is the ordered list of choices with the flag set
by `setExpanded()`. -/
structure StateBehavior where
  choices : List Choice
  expanded : Bool
deriving DecidableEq, Repr

namespace StateBehavior

def new : StateBehavior := { choices := [], expanded := false }

def addChoice (r : StateBehavior) (c : Choice) : StateBehavior :=
  { r with choices := r.choices ++ [c] }

def setExpanded (r : StateBehavior) : StateBehavior :=
  { r with expanded := true }

end StateBehavior

/-- Modelled from the spec: the propagation queues, four work-lists of element ids; enqueueing
deduplicates by id and tasks are popped in FIFO order. -/
structure Queues where
  failurePropagation : List Nat
  failsafePropagation : List Nat
  dontCarePropagation : List Nat
  restrictionCheck : List Nat
deriving DecidableEq, Repr

namespace Queues

def empty : Queues :=
  { failurePropagation := [], failsafePropagation := [], dontCarePropagation := [],
    restrictionCheck := [] }

def enqueue (l : List Nat) (x : Nat) : List Nat := if x ∈ l then l else l ++ [x]

def propagateFailure (q : Queues) (g : Nat) : Queues :=
  { q with failurePropagation := enqueue q.failurePropagation g }

def propagateFailsafe (q : Queues) (g : Nat) : Queues :=
  { q with failsafePropagation := enqueue q.failsafePropagation g }

def propagateDontCare (q : Queues) (e : Nat) : Queues :=
  { q with dontCarePropagation := enqueue q.dontCarePropagation e }

def checkRestrictionLater (q : Queues) (r : Nat) : Queues :=
  { q with restrictionCheck := enqueue q.restrictionCheck r }

def failurePropagationDone (q : Queues) : Bool := q.failurePropagation.isEmpty

def restrictionChecksDone (q : Queues) : Bool := q.restrictionCheck.isEmpty

def failsafePropagationDone (q : Queues) : Bool := q.failsafePropagation.isEmpty

def dontCarePropagationDone (q : Queues) : Bool := q.dontCarePropagation.isEmpty

def nextFailurePropagation (q : Queues) : Option (Nat × Queues) :=
  match q.failurePropagation with
  | [] => none
  | next :: rest => some (next, { q with failurePropagation := rest })

def nextRestrictionCheck (q : Queues) : Option (Nat × Queues) :=
  match q.restrictionCheck with
  | [] => none
  | next :: rest => some (next, { q with restrictionCheck := rest })

def nextFailsafePropagation (q : Queues) : Option (Nat × Queues) :=
  match q.failsafePropagation with
  | [] => none
  | next :: rest => some (next, { q with failsafePropagation := rest })

def nextDontCarePropagation (q : Queues) : Option (Nat × Queues) :=
  match q.dontCarePropagation with
  | [] => none
  | next :: rest => some (next, { q with dontCarePropagation := rest })

end Queues

/-- The part of a basic element `expand` reads through the `DFTBE` pointer. -/
structure DFTBE where
  id : Nat
  parents : List Nat
  restrictions : List Nat
  activeFailureRate : ℚ
  passiveFailureRate : ℚ
deriving DecidableEq, Repr

/-- The collaborators of the generator (`storm::storage::DFT`, `DFTState`, the elements),
whose code is not among the sources: every member function the generator calls is a field,
stateful ones return the new state. `σ` is the type of DFT states, elements are their ids. -/
structure Dft (σ : Type) where
  /-- The constructor `DFTState(mDft, mStateGenerationInfo, id)`. -/
  makeState : Nat → σ
  setId : σ → Nat → σ
  canHaveNondeterminism : Bool
  /-- The call `mDft.hasFailed(state)`. -/
  hasFailed : σ → Bool
  isFailsafe : σ → Bool
  getTopLevelIndex : Nat
  /-- The call `mDft.getDependency(id)->probability()`. -/
  dependencyProbability : Nat → ℚ
  hasRepresentant : Nat → Bool
  /-- The call `mDft.getRepresentant(id)->id()`. -/
  getRepresentant : Nat → Nat
  nrFailableDependencies : σ → Nat
  nrFailableBEs : σ → Nat
  getId : σ → Nat
  getDependencyId : σ → Nat → Nat
  isActive : σ → Nat → Bool
  isOperational : σ → Nat → Bool
  isInvalid : σ → Bool
  /-- The call `state->hasFailed(id)`. -/
  stateHasFailed : σ → Nat → Bool
  /-- The call `letNextBEFail(index)`: the mutated state, the failing BE (`none` is the null
  pointer) and the dependency flag. -/
  letNextBEFail : σ → Nat → σ × Option DFTBE × Bool
  letDependencyBeUnsuccessful : σ → Nat → σ
  updateFailableDependencies : σ → Nat → σ
  updateDontCareDependencies : σ → Nat → σ
  /-- The call `element->checkFails(state, queues)` of gates and restrictions. -/
  checkFails : Nat → σ → Queues → σ × Queues
  checkFailsafe : Nat → σ → Queues → σ × Queues
  checkDontCareAnymore : Nat → σ → Queues → σ × Queues

/-- The generator object: its collaborators and its data members. -/
structure DftNextStateGenerator (σ : Type) where
  mDft : Dft σ
  state : Option σ
  enableDC : Bool
  mergeFailedStates : Bool
  mergeFailedStateId : Nat

/-- Ways a run of the generator ends without a result: a failed `STORM_LOG_ASSERT`, a missing
loaded state, or a propagation loop that does not finish within the fuel of the model. -/
inductive Failure where
  | noStateLoaded
  | dftHasFailed
  | nextBEIsNull
  | dependencyMismatch
  | rateIsZero
  | noUniqueFailedState
  | outOfFuel
deriving DecidableEq, Repr

namespace DftNextStateGenerator

variable {σ ρ : Type}

def isDeterministicModel (gen : DftNextStateGenerator σ) : Bool :=
  !gen.mDft.canHaveNondeterminism

/-- Embedding of `getInitialStates`; the callback is a function on the registry `ρ` of the
builder. -/
def getInitialStates (gen : DftNextStateGenerator σ) (stateToIdCallback : σ → ρ → Nat × ρ)
    (registry : ρ) : List Nat × σ × ρ :=
  let initialState := gen.mDft.makeState 0
  let r := stateToIdCallback initialState registry
  ([r.1], gen.mDft.setId initialState r.1, r.2)

def load (gen : DftNextStateGenerator σ) (state : σ) : DftNextStateGenerator σ :=
  { gen with state := some state }

/-- The loop `while (!queues.failurePropagationDone())`. -/
def drainFailurePropagation (dft : Dft σ) : Nat → σ → Queues → Option (σ × Queues)
  | 0, newState, queues =>
    if queues.failurePropagationDone then some (newState, queues) else none
  | fuel + 1, newState, queues =>
    match queues.nextFailurePropagation with
    | none => some (newState, queues)
    | some (next, queues1) =>
      let r := dft.checkFails next newState queues1
      drainFailurePropagation dft fuel (dft.updateFailableDependencies r.1 next) r.2

/-- The loop `while (!queues.restrictionChecksDone())`. -/
def drainRestrictionChecks (dft : Dft σ) : Nat → σ → Queues → Option (σ × Queues)
  | 0, newState, queues =>
    if queues.restrictionChecksDone then some (newState, queues) else none
  | fuel + 1, newState, queues =>
    match queues.nextRestrictionCheck with
    | none => some (newState, queues)
    | some (next, queues1) =>
      let r := dft.checkFails next newState queues1
      drainRestrictionChecks dft fuel (dft.updateFailableDependencies r.1 next) r.2

/-- The loop `while (!queues.failsafePropagationDone())`. -/
def drainFailsafePropagation (dft : Dft σ) : Nat → σ → Queues → Option (σ × Queues)
  | 0, newState, queues =>
    if queues.failsafePropagationDone then some (newState, queues) else none
  | fuel + 1, newState, queues =>
    match queues.nextFailsafePropagation with
    | none => some (newState, queues)
    | some (next, queues1) =>
      let r := dft.checkFailsafe next newState queues1
      drainFailsafePropagation dft fuel r.1 r.2

/-- The loop `while (enableDC && !queues.dontCarePropagationDone())`. -/
def drainDontCarePropagation (dft : Dft σ) (enableDC : Bool) :
    Nat → σ → Queues → Option (σ × Queues)
  | 0, newState, queues =>
    if enableDC && !queues.dontCarePropagationDone then none else some (newState, queues)
  | fuel + 1, newState, queues =>
    if enableDC then
      match queues.nextDontCarePropagation with
      | none => some (newState, queues)
      | some (next, queues1) =>
        let r := dft.checkDontCareAnymore next newState queues1
        drainDontCarePropagation dft enableDC fuel r.1 r.2
    else some (newState, queues)

end DftNextStateGenerator

namespace DftNextStateGenerator

variable {σ ρ : Type}

/-- Lines 70-129 of `expand`: clone the loaded state, let candidate `currentFailable` fail,
propagate the failure and check the restrictions. Returns the new state, the queues and the
failed BE. -/
def failNextBE (gen : DftNextStateGenerator σ) (fuel : Nat) (currentState : σ)
    (hasDependencies : Bool) (currentFailable : Nat) : Except Failure (σ × Queues × DFTBE) :=
  if gen.mDft.hasFailed currentState then .error .dftHasFailed
  else
    match gen.mDft.letNextBEFail currentState currentFailable with
    | (_, none, _) => .error .nextBEIsNull
    | (newState, some nextBE, dependencyFlag) =>
      if dependencyFlag != hasDependencies then .error .dependencyMismatch
      else
        let queues := nextBE.parents.foldl
          (fun q parent =>
            if gen.mDft.isOperational newState parent then q.propagateFailure parent else q)
          Queues.empty
        match drainFailurePropagation gen.mDft fuel newState queues with
        | none => .error .outOfFuel
        | some (newState1, queues1) =>
          let queues2 := nextBE.restrictions.foldl
            (fun q restr => q.checkRestrictionLater restr) queues1
          match drainRestrictionChecks gen.mDft fuel newState1 queues2 with
          | none => .error .outOfFuel
          | some (newState2, queues3) => .ok (newState2, queues3, nextBE)

/-- The successor of a candidate as far as it is known before the callback: the failed BE,
the new state, and whether the successor is bound to the merged failed state. -/
structure Successor (σ : Type) where
  nextBE : DFTBE
  newState : σ
  merged : Bool

/-- Lines 70-157 of `expand`, everything of an iteration before the callback; `none` is the
`continue` taken for an invalid successor. -/
def successorState (gen : DftNextStateGenerator σ) (fuel : Nat) (currentState : σ)
    (hasDependencies : Bool) (currentFailable : Nat) :
    Except Failure (Option (Successor σ)) :=
  match failNextBE gen fuel currentState hasDependencies currentFailable with
  | .error e => .error e
  | .ok (newState, queues, nextBE) =>
    if gen.mDft.isInvalid newState then .ok none
    else if gen.mDft.stateHasFailed newState gen.mDft.getTopLevelIndex
        && gen.mergeFailedStates then
      .ok (some { nextBE := nextBE, newState := newState, merged := true })
    else
      match drainFailsafePropagation gen.mDft fuel newState queues with
      | none => .error .outOfFuel
      | some (newState1, queues1) =>
        match drainDontCarePropagation gen.mDft gen.enableDC fuel newState1 queues1 with
        | none => .error .outOfFuel
        | some (newState2, _) =>
          .ok (some { nextBE := nextBE,
                      newState := gen.mDft.updateDontCareDependencies
                        (gen.mDft.updateFailableDependencies newState2 nextBE.id) nextBE.id,
                      merged := false })

/-- Lines 137-161: the id of the successor, `mergeFailedStateId` or the callback's answer. -/
def newStateId (gen : DftNextStateGenerator σ) (stateToIdCallback : σ → ρ → Nat × ρ)
    (succ : Successor σ) (registry : ρ) : Nat × ρ :=
  if succ.merged then (gen.mergeFailedStateId, registry)
  else stateToIdCallback succ.newState registry

/-- One iteration of the loop `while (currentFailable < failableCount)` on the variables
`choice`, `result` and the registry of the callback. -/
def expandStep (gen : DftNextStateGenerator σ) (fuel : Nat)
    (stateToIdCallback : σ → ρ → Nat × ρ) (currentState : σ) (hasDependencies : Bool)
    (currentFailable : Nat) (acc : Choice × StateBehavior × ρ) :
    Except Failure (Choice × StateBehavior × ρ) :=
  match successorState gen fuel currentState hasDependencies currentFailable with
  | .error e => .error e
  | .ok none => .ok acc
  | .ok (some succ) =>
    let idReg := newStateId gen stateToIdCallback succ acc.2.2
    if hasDependencies then
      let probability := gen.mDft.dependencyProbability
        (gen.mDft.getDependencyId currentState currentFailable)
      let choice := acc.1.addProbability idReg.1 probability
      if probability ≠ 1 then
        let unsuccessfulState :=
          gen.mDft.letDependencyBeUnsuccessful currentState currentFailable
        let unsuccessful := stateToIdCallback unsuccessfulState idReg.2
        let remainingProbability := 1 - probability
        let choice1 := choice.addProbability unsuccessful.1 remainingProbability
        .ok (choice1.movedFrom, acc.2.1.addChoice choice1, unsuccessful.2)
      else
        .ok (choice.movedFrom, acc.2.1.addChoice choice, idReg.2)
    else
      let isActive :=
        if gen.mDft.hasRepresentant succ.nextBE.id then
          gen.mDft.isActive currentState (gen.mDft.getRepresentant succ.nextBE.id)
        else true
      let rate := if isActive then succ.nextBE.activeFailureRate
        else succ.nextBE.passiveFailureRate
      if rate = 0 then .error .rateIsZero
      else .ok (acc.1.addProbability idReg.1 rate, acc.2.1, idReg.2)

/-- The loop `while (currentFailable < failableCount)`; the first argument is
`failableCount - currentFailable`. -/
def expandLoop (gen : DftNextStateGenerator σ) (fuel : Nat)
    (stateToIdCallback : σ → ρ → Nat × ρ) (currentState : σ) (hasDependencies : Bool) :
    Nat → Nat → Choice × StateBehavior × ρ → Except Failure (Choice × StateBehavior × ρ)
  | 0, _, acc => .ok acc
  | remaining + 1, currentFailable, acc =>
    match expandStep gen fuel stateToIdCallback currentState hasDependencies
        currentFailable acc with
    | .error e => .error e
    | .ok acc1 =>
      expandLoop gen fuel stateToIdCallback currentState hasDependencies remaining
        (currentFailable + 1) acc1

/-- Embedding of `expand`. -/
def expand (gen : DftNextStateGenerator σ) (fuel : Nat)
    (stateToIdCallback : σ → ρ → Nat × ρ) (registry : ρ) :
    Except Failure (StateBehavior × ρ) :=
  match gen.state with
  | none => .error .noStateLoaded
  | some currentState =>
    let result := StateBehavior.new
    let hasDependencies := decide (gen.mDft.nrFailableDependencies currentState > 0)
    let failableCount :=
      if hasDependencies then gen.mDft.nrFailableDependencies currentState
      else gen.mDft.nrFailableBEs currentState
    let choice := Choice.new 0 (!hasDependencies)
    if gen.mDft.hasFailed currentState || gen.mDft.isFailsafe currentState
        || gen.mDft.nrFailableBEs currentState == 0 then
      .ok ((result.addChoice
        (choice.addProbability (gen.mDft.getId currentState) 1)).setExpanded, registry)
    else
      match expandLoop gen fuel stateToIdCallback currentState hasDependencies
          failableCount 0 (choice, result, registry) with
      | .error e => .error e
      | .ok (choice1, result1, registry1) =>
        if !hasDependencies then .ok ((result1.addChoice choice1).setExpanded, registry1)
        else .ok (result1.setExpanded, registry1)

/-- Embedding of `createMergeFailedState`; returns the behaviour, the generator with the
recorded `mergeFailedStateId`, and the registry. -/
def createMergeFailedState (gen : DftNextStateGenerator σ)
    (stateToIdCallback : σ → ρ → Nat × ρ) (registry : ρ) :
    Except Failure (StateBehavior × DftNextStateGenerator σ × ρ) :=
  if !gen.mergeFailedStates then .error .noUniqueFailedState
  else
    let failedState := gen.mDft.makeState 0
    let r := stateToIdCallback failedState registry
    let choice := (Choice.new 0 true).addProbability r.1 1
    .ok ((StateBehavior.new.addChoice choice).setExpanded,
      { gen with mergeFailedStateId := r.1 }, r.2)

/-- The loop of `expand` run over an explicit sequence of candidate indices. -/
def expandOver (gen : DftNextStateGenerator σ) (fuel : Nat)
    (stateToIdCallback : σ → ρ → Nat × ρ) (currentState : σ) (hasDependencies : Bool) :
    List Nat → Choice × StateBehavior × ρ → Except Failure (Choice × StateBehavior × ρ)
  | [], acc => .ok acc
  | i :: rest, acc =>
    match expandStep gen fuel stateToIdCallback currentState hasDependencies i acc with
    | .error e => .error e
    | .ok acc1 => expandOver gen fuel stateToIdCallback currentState hasDependencies rest acc1

end DftNextStateGenerator

/-! ## A small fault tree used as a concrete instance

Basic elements 0, 1 and 5 below the AND gate 2 (top level); the restriction 3 demands that
BE 5 fails before BE 1; the dependency 4 lets the failure of BE 0 force BE 1 to fail with
probability 7/10; BE 5 is a spare represented by BE 1 and is activated by its failure. -/

structure ExState where
  id : Nat
  failed : List Nat
  failableDependencies : List Nat
  invalid : Bool
deriving DecidableEq, Repr

def exBE (i : Nat) : DFTBE :=
  if i = 0 then
    { id := 0, parents := [2], restrictions := [], activeFailureRate := 3,
      passiveFailureRate := 3 }
  else if i = 1 then
    { id := 1, parents := [2], restrictions := [3], activeFailureRate := 5,
      passiveFailureRate := 2 }
  else
    { id := 5, parents := [2], restrictions := [3], activeFailureRate := 7,
      passiveFailureRate := 4 }

def exFailableBEs (s : ExState) : List Nat := [0, 1, 5].filter (fun b => b ∉ s.failed)

def exDft : Dft ExState where
  makeState := fun id =>
    { id := id, failed := [], failableDependencies := [], invalid := false }
  setId := fun s id => { s with id := id }
  canHaveNondeterminism := true
  hasFailed := fun s => decide (2 ∈ s.failed)
  isFailsafe := fun _ => false
  getTopLevelIndex := 2
  dependencyProbability := fun _ => 7 / 10
  hasRepresentant := fun b => decide (b = 5)
  getRepresentant := fun _ => 1
  nrFailableDependencies := fun s => s.failableDependencies.length
  nrFailableBEs := fun s => (exFailableBEs s).length
  getId := fun s => s.id
  getDependencyId := fun s i => s.failableDependencies.getD i 0
  isActive := fun s e => decide (e ∈ s.failed)
  isOperational := fun s e => decide (e ∉ s.failed)
  isInvalid := fun s => s.invalid
  stateHasFailed := fun s e => decide (e ∈ s.failed)
  letNextBEFail := fun s i =>
    match s.failableDependencies with
    | [] =>
      match (exFailableBEs s).get? i with
      | none => (s, none, false)
      | some b => ({ s with failed := b :: s.failed }, some (exBE b), false)
    | _ :: _ =>
      ({ s with failed := 1 :: s.failed,
                failableDependencies := s.failableDependencies.eraseIdx i },
        some (exBE 1), true)
  letDependencyBeUnsuccessful := fun s i =>
    { s with failableDependencies := s.failableDependencies.eraseIdx i }
  updateFailableDependencies := fun s e =>
    if e = 0 ∧ 1 ∉ s.failed ∧ 4 ∉ s.failableDependencies then
      { s with failableDependencies := s.failableDependencies ++ [4] }
    else s
  updateDontCareDependencies := fun s _ => s
  checkFails := fun e s q =>
    if e = 2 then
      if 0 ∈ s.failed ∧ 1 ∈ s.failed ∧ 5 ∈ s.failed then ({ s with failed := 2 :: s.failed }, q)
      else (s, q)
    else if e = 3 then
      if 1 ∈ s.failed ∧ 5 ∉ s.failed then ({ s with invalid := true }, q) else (s, q)
    else (s, q)
  checkFailsafe := fun _ s q => (s, q)
  checkDontCareAnymore := fun _ s q => (s, q)

def exGenerator : DftNextStateGenerator ExState :=
  { mDft := exDft, state := none, enableDC := true, mergeFailedStates := false,
    mergeFailedStateId := 0 }

/-- A callback that registers states in a list and answers with the position of the state. -/
def exRegister (s : ExState) (registry : List ExState) : Nat × List ExState :=
  if s ∈ registry then (registry.indexOf s, registry) else (registry.length, registry ++ [s])

/-- The state in which nothing has failed. -/
def exInitial : ExState := exDft.makeState 0

/-- BE 0 has failed and the dependency 4 is pending, BE 5 is still operational. -/
def exTriggered : ExState :=
  { id := 1, failed := [0], failableDependencies := [4], invalid := false }

/-- BE 5 and then BE 0 have failed, the dependency 4 is pending. -/
def exReady : ExState :=
  { id := 2, failed := [0, 5], failableDependencies := [4], invalid := false }

/-- All basic elements and the top-level gate have failed. -/
def exFailed : ExState :=
  { id := 3, failed := [2, 1, 0, 5], failableDependencies := [], invalid := false }

namespace DftNextStateGenerator

variable {σ ρ : Type}

/-- The rate of a failing BE as the specification words it: the passive failure rate when the
BE has a representant that is not active in the given state, the active failure rate
otherwise. -/
def selectedRate (gen : DftNextStateGenerator σ) (currentState : σ) (nextBE : DFTBE) : ℚ :=
  if gen.mDft.hasRepresentant nextBE.id = true ∧
      gen.mDft.isActive currentState (gen.mDft.getRepresentant nextBE.id) = false then
    nextBE.passiveFailureRate
  else nextBE.activeFailureRate

/-- The resolution of the failable dependency `i` of a state whose successor is `succ`: the
choice with the transition to the successor and, unless the probability is one, the transition
to the state in which the dependency was unsuccessful. -/
def resolveDependency (gen : DftNextStateGenerator σ) (stateToIdCallback : σ → ρ → Nat × ρ)
    (currentState : σ) (i : Nat) (succ : Successor σ) (registry : ρ) : Choice × ρ :=
  let idReg := newStateId gen stateToIdCallback succ registry
  let p := gen.mDft.dependencyProbability (gen.mDft.getDependencyId currentState i)
  let unsuccessful :=
    stateToIdCallback (gen.mDft.letDependencyBeUnsuccessful currentState i) idReg.2
  if p = 1 then ((Choice.new 0 false).addProbability idReg.1 p, idReg.2)
  else (((Choice.new 0 false).addProbability idReg.1 p).addProbability unsuccessful.1 (1 - p),
    unsuccessful.2)

end DftNextStateGenerator

/-! ## The SFT BDD checker (`SFTBDDChecker.cpp`, member functions) -/

/-- Modelled from the spec: the kinds of basic elements the chunked evaluation tells apart,
exponential ones (vectorised) and all others (generic `unreliability(t)` per slot). -/
inductive BEType where
  | EXPONENTIAL
  | OTHER
deriving DecidableEq, Repr

/-- Modelled from the spec: what the checker reads of a basic element, its name, its kind,
the active failure rate of an exponential BE and the function `getUnreliability`. -/
structure BasicElement where
  name : String
  beType : BEType
  activeFailureRate : ℚ
  getUnreliability : ℚ → ℚ

/-- The checker object as far as the analysis reads it: the basic elements of the fault tree
(`getDFT()->getBasicElements()`), the name registry of the BDD manager and the BDD returned by
`getTopLevelGateBdd()`. -/
structure SFTBDDChecker where
  basicElements : List BasicElement
  getIndex : String → Nat
  getName : Nat → String
  topLevelGateBdd : Bdd

/-- Quotient of two values of exact arithmetic; `none` when the divisor is zero, where the
quotient of doubles is an infinity or NaN and no number. -/
def divide (x y : ℚ) : Option ℚ := if y = 0 then none else some (x / y)

namespace SFTBDDChecker

/-- The loop filling `indexToProbability` with `be->getUnreliability(timebound)`. -/
def indexToProbability (checker : SFTBDDChecker) (timebound : ℚ) : ProbabilityMap :=
  checker.basicElements.foldl
    (fun m be => Function.update m (checker.getIndex be.name)
      (some (be.getUnreliability timebound)))
    (fun _ => none)

/-- Embedding of `getProbabilityAtTimebound`. -/
def getProbabilityAtTimebound (checker : SFTBDDChecker) (bdd : Bdd) (timebound : ℚ) :
    Option ℚ :=
  match recursiveProbability (checker.indexToProbability timebound) bdd emptyCache with
  | none => none
  | some (probability, _) => some probability

/-- Embedding of `getBirnbaumFactorAtTimebound`. -/
def getBirnbaumFactorAtTimebound (checker : SFTBDDChecker) (beName : String)
    (timebound : ℚ) : Option ℚ :=
  match recursiveBirnbaumFactor (checker.getIndex beName)
      (checker.indexToProbability timebound) checker.topLevelGateBdd emptyCache emptyCache with
  | none => none
  | some (birnbaumFactor, _, _) => some birnbaumFactor

/-- The two kernel calls shared by the CIF, DIF, RAW and RRW functions: the top probability
and then, on the same probability cache, the Birnbaum factor. -/
def probabilityAndBirnbaumFactor (checker : SFTBDDChecker) (beName : String)
    (timebound : ℚ) : Option (ℚ × ℚ) :=
  match recursiveProbability (checker.indexToProbability timebound)
      checker.topLevelGateBdd emptyCache with
  | none => none
  | some (probability, bddToProbability) =>
    match recursiveBirnbaumFactor (checker.getIndex beName)
        (checker.indexToProbability timebound) checker.topLevelGateBdd
        bddToProbability emptyCache with
    | none => none
    | some (birnbaumFactor, _, _) => some (probability, birnbaumFactor)

/-- The value `indexToProbability[index]` of the non-const `operator[]`: zero for an absent
key. -/
def beProbability (checker : SFTBDDChecker) (beName : String) (timebound : ℚ) : ℚ :=
  ((checker.indexToProbability timebound) (checker.getIndex beName)).getD 0

/-- Embedding of `getCIFAtTimebound`; the outer `none` is an exception, the inner one a
quotient by zero. -/
def getCIFAtTimebound (checker : SFTBDDChecker) (beName : String) (timebound : ℚ) :
    Option (Option ℚ) :=
  match checker.probabilityAndBirnbaumFactor beName timebound with
  | none => none
  | some (probability, birnbaumFactor) =>
    some ((divide (checker.beProbability beName timebound) probability).map
      (fun x => x * birnbaumFactor))

/-- Embedding of `getDIFAtTimebound`. -/
def getDIFAtTimebound (checker : SFTBDDChecker) (beName : String) (timebound : ℚ) :
    Option (Option ℚ) :=
  match checker.probabilityAndBirnbaumFactor beName timebound with
  | none => none
  | some (probability, birnbaumFactor) =>
    let beProbability := checker.beProbability beName timebound
    some ((divide (beProbability * (1 - beProbability) * birnbaumFactor) probability).map
      (fun x => beProbability + x))

/-- Embedding of `getRAWAtTimebound`. -/
def getRAWAtTimebound (checker : SFTBDDChecker) (beName : String) (timebound : ℚ) :
    Option (Option ℚ) :=
  match checker.probabilityAndBirnbaumFactor beName timebound with
  | none => none
  | some (probability, birnbaumFactor) =>
    let beProbability := checker.beProbability beName timebound
    some ((divide ((1 - beProbability) * birnbaumFactor) probability).map (fun x => 1 + x))

/-- Embedding of `getRRWAtTimebound`. -/
def getRRWAtTimebound (checker : SFTBDDChecker) (beName : String) (timebound : ℚ) :
    Option (Option ℚ) :=
  match checker.probabilityAndBirnbaumFactor beName timebound with
  | none => none
  | some (probability, birnbaumFactor) =>
    let beProbability := checker.beProbability beName timebound
    some (divide probability (probability - beProbability * birnbaumFactor))

end SFTBDDChecker

/-! ## Vector kernels and the chunked evaluation -/

/-- The map `std::map<uint32_t, Eigen::ArrayXd>`. -/
abbrev VectorMap := Nat → Option (List ℚ)

/-- The cache `std::unordered_map<uint64_t, std::pair<bool, Eigen::ArrayXd>>`. -/
abbrev VectorCache := Nat → Option (Bool × List ℚ)

def emptyVectorCache : VectorCache := fun _ => none

/-- The array a pointer into the cache refers to, read at the time of use. -/
def slotValues (cache : VectorCache) (key : Nat) : List ℚ :=
  match cache key with
  | some entry => entry.2
  | none => []

/-- The element `cache[key]` after `operator[]`: an absent key gets the default entry. -/
def touch (cache : VectorCache) (key : Nat) : VectorCache :=
  match cache key with
  | some _ => cache
  | none => Function.update cache key (some (false, []))

/-- The loops `for (auto &i : cache) i.second.first = false`. -/
def invalidate (cache : VectorCache) : VectorCache :=
  fun key => (cache key).map (fun entry => (false, entry.2))

/-- Coefficient-wise `x * a + (1 - x) * b` on arrays. -/
def iteArray (x a b : List ℚ) : List ℚ :=
  List.zipWith (fun s t => s + t) (List.zipWith (fun p q => p * q) x a)
    (List.zipWith (fun p q => p * q) (x.map (fun p => 1 - p)) b)

/-- Embedding of `recursiveProbabilities`; the returned pointer is the key of its cache
slot. -/
def recursiveProbabilities (chunksize : Nat) (indexToProbabilities : VectorMap) :
    Bdd → VectorCache → Option (Nat × VectorCache)
  | .terminal bddId value, bddToProbabilities =>
    match bddToProbabilities bddId with
    | some (true, _) => some (bddId, bddToProbabilities)
    | _ =>
      some (bddId, Function.update (touch bddToProbabilities bddId) bddId
        (some (true, List.replicate chunksize (if value then 1 else 0))))
  | .node bddId currentVar thenBdd elseBdd, bddToProbabilities =>
    match bddToProbabilities bddId with
    | some (true, _) => some (bddId, bddToProbabilities)
    | _ =>
      match recursiveProbabilities chunksize indexToProbabilities thenBdd
          (touch bddToProbabilities bddId) with
      | none => none
      | some (thenProbabilities, cache1) =>
        match recursiveProbabilities chunksize indexToProbabilities elseBdd cache1 with
        | none => none
        | some (elseProbabilities, cache2) =>
          match indexToProbabilities currentVar with
          | none => none
          | some currentProbabilities =>
            some (bddId, Function.update cache2 bddId
              (some (true, iteArray currentProbabilities
                (slotValues cache2 thenProbabilities)
                (slotValues cache2 elseProbabilities))))

/-- Embedding of `recursiveBirnbaumFactors`; the returned pointer is the key of its slot in
the Birnbaum cache. The branch for terminals and for nodes above the variable assigns the
array of the slot and leaves its flag as it is. -/
def recursiveBirnbaumFactors (chunksize : Nat) (variableIndex : Nat)
    (indexToProbabilities : VectorMap) :
    Bdd → VectorCache → VectorCache → Option (Nat × VectorCache × VectorCache)
  | .terminal bddId _, bddToProbabilities, bddToBirnbaumFactors =>
    match bddToBirnbaumFactors bddId with
    | some (true, _) => some (bddId, bddToProbabilities, bddToBirnbaumFactors)
    | _ =>
      some (bddId, bddToProbabilities, Function.update (touch bddToBirnbaumFactors bddId) bddId
        (some (false, List.replicate chunksize 0)))
  | .node bddId currentVar thenBdd elseBdd, bddToProbabilities, bddToBirnbaumFactors =>
    match bddToBirnbaumFactors bddId with
    | some (true, _) => some (bddId, bddToProbabilities, bddToBirnbaumFactors)
    | _ =>
      if currentVar > variableIndex then
        some (bddId, bddToProbabilities,
          Function.update (touch bddToBirnbaumFactors bddId) bddId
            (some (false, List.replicate chunksize 0)))
      else
        match indexToProbabilities currentVar with
        | none => none
        | some currentProbabilities =>
          if currentVar = variableIndex then
            match recursiveProbabilities chunksize indexToProbabilities thenBdd
                bddToProbabilities with
            | none => none
            | some (thenProbabilities, cacheP1) =>
              match recursiveProbabilities chunksize indexToProbabilities elseBdd
                  cacheP1 with
              | none => none
              | some (elseProbabilities, cacheP2) =>
                some (bddId, cacheP2,
                  Function.update (touch bddToBirnbaumFactors bddId) bddId
                    (some (true, List.zipWith (fun s t => s - t)
                      (slotValues cacheP2 thenProbabilities)
                      (slotValues cacheP2 elseProbabilities))))
          else
            match recursiveBirnbaumFactors chunksize variableIndex indexToProbabilities
                thenBdd bddToProbabilities (touch bddToBirnbaumFactors bddId) with
            | none => none
            | some (thenBirnbaumFactors, cacheP1, cacheB1) =>
              match recursiveBirnbaumFactors chunksize variableIndex indexToProbabilities
                  elseBdd cacheP1 cacheB1 with
              | none => none
              | some (elseBirnbaumFactors, cacheP2, cacheB2) =>
                some (bddId, cacheP2, Function.update cacheB2 bddId
                  (some (true, iteArray currentProbabilities
                    (slotValues cacheB2 thenBirnbaumFactors)
                    (slotValues cacheB2 elseBirnbaumFactors))))

/-- The probabilities of a basic element for the timepoints of a chunk: the coefficient-wise
`1 - exp(-failureRate * t)` for an exponential BE, `getUnreliability` per slot otherwise.
The exponential function `exp` of the array library is a parameter. -/
def chunkProbabilities (exp : ℚ → ℚ) (be : BasicElement) (timepointsArray : List ℚ) : List ℚ :=
  match be.beType with
  | .EXPONENTIAL => timepointsArray.map (fun t => 1 - exp (-be.activeFailureRate * t))
  | .OTHER => timepointsArray.map (fun t => be.getUnreliability t)

/-- The loop `for (i = 0; i < n; ++i) result.push_back(array(i))`; `fallback` stands for a
read past the end of the array. -/
def readArray {α : Type} (fallback : α) (array : List α) (n : Nat) : List α :=
  (List.range n).map (fun i => array.getD i fallback)

namespace SFTBDDChecker

variable {κ : Type}

/-- The loop of `chunkCalculationTemplate`; the first argument bounds the number of
iterations, `func` is the callback acting on the variables it captures. -/
def chunkLoop (checker : SFTBDDChecker) (exp : ℚ → ℚ)
    (func : Nat → List ℚ → VectorMap → κ → Option κ) (timepoints : List ℚ) :
    Nat → Nat → Nat → VectorMap → κ → Option κ
  | 0, currentIndex, _, _, state =>
    if currentIndex < timepoints.length then none else some state
  | fuel + 1, currentIndex, chunksize, indexToProbabilities, state =>
    if currentIndex < timepoints.length then
      let sizeLeft := timepoints.length - currentIndex
      let chunksize1 := if sizeLeft < chunksize then sizeLeft else chunksize
      let timepointsArray := (timepoints.drop currentIndex).take chunksize1
      let indexToProbabilities1 := checker.basicElements.foldl
        (fun m be => Function.update m (checker.getIndex be.name)
          (some (chunkProbabilities exp be timepointsArray)))
        indexToProbabilities
      match func chunksize1 timepointsArray indexToProbabilities1 state with
      | none => none
      | some state1 =>
        chunkLoop checker exp func timepoints fuel (currentIndex + chunksize1) chunksize1
          indexToProbabilities1 state1
    else some state

/-- Embedding of `chunkCalculationTemplate`: every iteration consumes at least one
timepoint, so `timepoints.length` iterations are allowed. -/
def chunkCalculationTemplate (checker : SFTBDDChecker) (exp : ℚ → ℚ)
    (func : Nat → List ℚ → VectorMap → κ → Option κ) (timepoints : List ℚ)
    (chunksize : Nat) (state : κ) : Option κ :=
  chunkLoop checker exp func timepoints timepoints.length 0
    (if chunksize = 0 then timepoints.length else chunksize) (fun _ => none) state

/-- Embedding of `getProbabilitiesAtTimepoints`; the state of the callback is the cache and
the result vector. -/
def getProbabilitiesAtTimepoints (checker : SFTBDDChecker) (exp : ℚ → ℚ) (bdd : Bdd)
    (timepoints : List ℚ) (chunksize : Nat) : Option (List ℚ) :=
  (checker.chunkCalculationTemplate exp
    (fun currentChunksize _ indexToProbabilities (state : VectorCache × List ℚ) =>
      match recursiveProbabilities currentChunksize indexToProbabilities bdd
          (invalidate state.1) with
      | none => none
      | some (probabilitiesArray, cache) =>
        some (cache, state.2 ++
          readArray 0 (slotValues cache probabilitiesArray) currentChunksize))
    timepoints chunksize (emptyVectorCache, [])).map (fun state => state.2)

/-- Embedding of `getBirnbaumFactorsAtTimepoints`. -/
def getBirnbaumFactorsAtTimepoints (checker : SFTBDDChecker) (exp : ℚ → ℚ) (beName : String)
    (timepoints : List ℚ) (chunksize : Nat) : Option (List ℚ) :=
  (checker.chunkCalculationTemplate exp
    (fun currentChunksize _ indexToProbabilities
        (state : VectorCache × VectorCache × List ℚ) =>
      match recursiveBirnbaumFactors currentChunksize (checker.getIndex beName)
          indexToProbabilities checker.topLevelGateBdd (invalidate state.1)
          (invalidate state.2.1) with
      | none => none
      | some (birnbaumFactorsArray, cacheP, cacheB) =>
        some (cacheP, cacheB, state.2.2 ++
          readArray 0 (slotValues cacheB birnbaumFactorsArray) currentChunksize))
    timepoints chunksize (emptyVectorCache, emptyVectorCache, [])).map
    (fun state => state.2.2)

/-- The body shared by `getCIFsAtTimepoints`, `getDIFsAtTimepoints`, `getRAWsAtTimepoints`
and `getRRWsAtTimepoints`, which differ in the array expression `measure` applied to the
arrays of the BE probabilities, the top probabilities and the Birnbaum factors. -/
def measuresAtTimepoints (checker : SFTBDDChecker) (exp : ℚ → ℚ)
    (measure : List ℚ → List ℚ → List ℚ → List (Option ℚ)) (beName : String)
    (timepoints : List ℚ) (chunksize : Nat) : Option (List (Option ℚ)) :=
  (checker.chunkCalculationTemplate exp
    (fun currentChunksize _ indexToProbabilities
        (state : VectorCache × VectorCache × List (Option ℚ)) =>
      match recursiveProbabilities currentChunksize indexToProbabilities
          checker.topLevelGateBdd (invalidate state.1) with
      | none => none
      | some (probabilitiesArray, cacheP0) =>
        match recursiveBirnbaumFactors currentChunksize (checker.getIndex beName)
            indexToProbabilities checker.topLevelGateBdd cacheP0 (invalidate state.2.1) with
        | none => none
        | some (birnbaumFactorsArray, cacheP, cacheB) =>
          match indexToProbabilities (checker.getIndex beName) with
          | none => none
          | some beProbabilitiesArray =>
            some (cacheP, cacheB, state.2.2 ++
              readArray none
                (measure beProbabilitiesArray (slotValues cacheP probabilitiesArray)
                  (slotValues cacheB birnbaumFactorsArray))
                currentChunksize))
    timepoints chunksize (emptyVectorCache, emptyVectorCache, [])).map
    (fun state => state.2.2)

/-- The array `(q / P) * B`. -/
def CIFArray (q P B : List ℚ) : List (Option ℚ) :=
  List.zipWith (fun o b => o.map (fun x => x * b)) (List.zipWith divide q P) B

/-- The array `q + (q * (1 - q) * B) / P`. -/
def DIFArray (q P B : List ℚ) : List (Option ℚ) :=
  List.zipWith (fun qi o => o.map (fun x => qi + x)) q
    (List.zipWith divide
      (List.zipWith (fun s b => s * b)
        (List.zipWith (fun s t => s * t) q (q.map (fun s => 1 - s))) B) P)

/-- The array `1 + ((1 - q) * B) / P`. -/
def RAWArray (q P B : List ℚ) : List (Option ℚ) :=
  (List.zipWith divide (List.zipWith (fun s b => s * b) (q.map (fun s => 1 - s)) B) P).map
    (fun o => o.map (fun x => 1 + x))

/-- The array `P / (P - q * B)`. -/
def RRWArray (q P B : List ℚ) : List (Option ℚ) :=
  List.zipWith divide P
    (List.zipWith (fun s t => s - t) P (List.zipWith (fun s b => s * b) q B))

/-- Embedding of `getCIFsAtTimepoints`. -/
def getCIFsAtTimepoints (checker : SFTBDDChecker) (exp : ℚ → ℚ) (beName : String)
    (timepoints : List ℚ) (chunksize : Nat) : Option (List (Option ℚ)) :=
  checker.measuresAtTimepoints exp CIFArray beName timepoints chunksize

/-- Embedding of `getDIFsAtTimepoints`. -/
def getDIFsAtTimepoints (checker : SFTBDDChecker) (exp : ℚ → ℚ) (beName : String)
    (timepoints : List ℚ) (chunksize : Nat) : Option (List (Option ℚ)) :=
  checker.measuresAtTimepoints exp DIFArray beName timepoints chunksize

/-- Embedding of `getRAWsAtTimepoints`. -/
def getRAWsAtTimepoints (checker : SFTBDDChecker) (exp : ℚ → ℚ) (beName : String)
    (timepoints : List ℚ) (chunksize : Nat) : Option (List (Option ℚ)) :=
  checker.measuresAtTimepoints exp RAWArray beName timepoints chunksize

/-- Embedding of `getRRWsAtTimepoints`. -/
def getRRWsAtTimepoints (checker : SFTBDDChecker) (exp : ℚ → ℚ) (beName : String)
    (timepoints : List ℚ) (chunksize : Nat) : Option (List (Option ℚ)) :=
  checker.measuresAtTimepoints exp RRWArray beName timepoints chunksize

end SFTBDDChecker

/-! ## Specification-side notions for the checker -/

/-- Uncached Birnbaum recursion for a map defined everywhere. -/
def birnbaumTotal (k : Nat) (p : Nat → ℚ) : Bdd → ℚ
  | .terminal _ _ => 0
  | .node _ v t e =>
    if v > k then 0
    else if v = k then probabilityTotal p t - probabilityTotal p e
    else p v * birnbaumTotal k p t + (1 - p v) * birnbaumTotal k p e

namespace SFTBDDChecker

/-- The probability map of a timepoint when basic element `be` has probability `u be t`. -/
def probabilityMapWith (checker : SFTBDDChecker) (u : BasicElement → ℚ → ℚ) (t : ℚ) :
    ProbabilityMap :=
  checker.basicElements.foldl
    (fun m be => Function.update m (checker.getIndex be.name) (some (u be t)))
    (fun _ => none)

/-- The probability the chunked evaluation gives a basic element at a timepoint. -/
def unreliabilityInChunk (exp : ℚ → ℚ) (be : BasicElement) (t : ℚ) : ℚ :=
  match be.beType with
  | .EXPONENTIAL => 1 - exp (-be.activeFailureRate * t)
  | .OTHER => be.getUnreliability t

/-- Every variable of the BDD is the index of a basic element. -/
def Covers (checker : SFTBDDChecker) (bdd : Bdd) : Prop :=
  ∀ v ∈ bdd.vars, ∃ be ∈ checker.basicElements, checker.getIndex be.name = v

end SFTBDDChecker

/-! ## Concrete checkers used as instances -/

/-- One basic element named `a` with a variable probability `t`, BDD of one variable node. -/
def exSingle : SFTBDDChecker :=
  { basicElements :=
      [{ name := "a", beType := .OTHER, activeFailureRate := 1,
         getUnreliability := fun t => t }],
    getIndex := fun _ => 0,
    getName := fun _ => "a",
    topLevelGateBdd := .node 10 0 (.terminal 1 true) (.terminal 0 false) }

/-- The basic elements `a` and `b` with probabilities `t` and `t / 2` below an AND gate. -/
def exAndChecker : SFTBDDChecker :=
  { basicElements :=
      [{ name := "a", beType := .OTHER, activeFailureRate := 1,
         getUnreliability := fun t => t },
       { name := "b", beType := .OTHER, activeFailureRate := 1,
         getUnreliability := fun t => t / 2 }],
    getIndex := fun n => if n = "a" then 0 else 1,
    getName := fun v => if v = 0 then "a" else "b",
    topLevelGateBdd := exAnd }

/-- A checker whose top-level BDD is the negation of the variable of `a`. -/
def exNot : SFTBDDChecker :=
  { basicElements :=
      [{ name := "a", beType := .OTHER, activeFailureRate := 1,
         getUnreliability := fun t => t }],
    getIndex := fun _ => 0,
    getName := fun _ => "a",
    topLevelGateBdd := .node 10 0 (.terminal 0 false) (.terminal 1 true) }

/-- The generator of the small fault tree with merging of failed states enabled and 7 as
the recorded id of the merged failed state. -/
def exMergingGenerator : DftNextStateGenerator ExState :=
  { mDft := exDft, state := none, enableDC := true, mergeFailedStates := true,
    mergeFailedStateId := 7 }

/-- The basic elements `a` and `b` with probabilities `t` and `t / 2` below an OR gate. -/
def exOrChecker : SFTBDDChecker :=
  { basicElements :=
      [{ name := "a", beType := .OTHER, activeFailureRate := 1,
         getUnreliability := fun t => t },
       { name := "b", beType := .OTHER, activeFailureRate := 1,
         getUnreliability := fun t => t / 2 }],
    getIndex := fun n => if n = "a" then 0 else 1,
    getName := fun v => if v = 0 then "a" else "b",
    topLevelGateBdd := exOr }

/-- Every valid entry of a vector cache for a node of `root` holds the array `g` assigns to
that node. -/
def VectorCacheSound (g : Bdd → List ℚ) (root : Bdd) (c : VectorCache) : Prop :=
  ∀ n ∈ root.subnodes, ∀ a, c n.GetBDD = some (true, a) → a = g n

/-- A rational stand-in for the exponential function of the array library. -/
def exExp (x : ℚ) : ℚ := 1 / (1 - x)

/-- An exponential basic element `a` with rate 2, whose unreliability is given through
`exExp`, and a basic element `b` with probability `t / 2`, below an AND gate. -/
def exExponential : SFTBDDChecker :=
  { basicElements :=
      [{ name := "a", beType := .EXPONENTIAL, activeFailureRate := 2,
         getUnreliability := fun t => 1 - exExp (-2 * t) },
       { name := "b", beType := .OTHER, activeFailureRate := 1,
         getUnreliability := fun t => t / 2 }],
    getIndex := fun n => if n = "a" then 0 else 1,
    getName := fun v => if v = 0 then "a" else "b",
    topLevelGateBdd := exAnd }


/-! ## Name-mapped minimal cut sets -/

namespace SFTBDDChecker

/-- The loop `while (!mcs.empty())` of `getMinimalCutSets`: the names of the ids of
`mcs.back()` are pushed to `rval`, then `mcs.pop_back()`. -/
def getMinimalCutSetsLoop (getName : Nat → String) (mcs : List (List Nat))
    (rval : List (List String)) : List (List String) :=
  match mcs with
  | [] => rval
  | first :: rest =>
    getMinimalCutSetsLoop getName (first :: rest).dropLast
      (rval ++ [((first :: rest).getLast (List.cons_ne_nil first rest)).map getName])
termination_by mcs.length
decreasing_by simp

/-- Embedding of `SFTBDDChecker::getMinimalCutSets`; `Minsol` belongs to the BDD package. -/
def getMinimalCutSets (checker : SFTBDDChecker) (Minsol : Bdd → Bdd) : List (List String) :=
  getMinimalCutSetsLoop checker.getName
    (getMinimalCutSetsAsIndices Minsol checker.topLevelGateBdd) []

end SFTBDDChecker

/-! ## Vector utilities (`storm/utility/vector.h`) -/

/-- Ways a vector utility ends without a result: the exception of `STORM_LOG_THROW` or a
failed `STORM_LOG_ASSERT`. -/
inductive StormException where
  | NotImplementedException
  | assertionFailed
deriving DecidableEq, Repr

namespace Vector

/-- Modelled from the spec: the macro `STORM_LOG_THROW(cond, exception, message)` of
`macros.h`, which is not among the sources, throws `exception` unless `cond` holds. -/
def STORM_LOG_THROW (cond : Bool) (exception : StormException) : Except StormException Unit :=
  if cond then .ok () else .error exception

/-- Embedding of the overload of `toIntegralVector` that `enable_if` selects for every
`ValueType` other than `storm::RationalFunction`. -/
def toIntegralVector {ValueType TargetValueType : Type} [Inhabited ValueType]
    (_vec : List ValueType) : Except StormException (List TargetValueType × ValueType) :=
  match STORM_LOG_THROW false .NotImplementedException with
  | .error e => .error e
  | .ok _ => .ok ([], default)

/-- Embedding of `buildVectorForRange`: the vector `[min, min+1, ..., max-1]`, after the
assertion `min < max`. -/
def buildVectorForRange (min max : Nat) : Except StormException (List Nat) :=
  if min < max then .ok (List.range' min (max - min)) else .error .assertionFailed

/-- Embedding of `getSortedIndices`. The algorithm `std::sort` of the standard library is
the parameter `sort`; its comparator is `v[index1] > v[index2]`. -/
def getSortedIndices {T : Type} [LinearOrder T] [Inhabited T]
    (sort : (Nat → Nat → Bool) → List Nat → List Nat) (v : List T) :
    Except StormException (List Nat) :=
  match buildVectorForRange 0 v.length with
  | .error e => .error e
  | .ok res =>
    .ok (sort (fun index1 index2 => decide (v.getD index1 default > v.getD index2 default))
      res)

/-- The loop of `isUnique` over the sorted indices after the first. -/
def isUniqueLoop {T : Type} [DecidableEq T] [Inhabited T] (v : List T) : T → List Nat → Bool
  | _, [] => true
  | previous, index :: rest =>
    let current := v.getD index default
    if current = previous then false else isUniqueLoop v current rest

/-- Embedding of `isUnique`. -/
def isUnique {T : Type} [LinearOrder T] [Inhabited T]
    (sort : (Nat → Nat → Bool) → List Nat → List Nat) (v : List T) :
    Except StormException Bool :=
  if v.length < 2 then .ok true
  else
    match getSortedIndices sort v with
    | .error e => .error e
    | .ok [] => .ok true
    | .ok (index :: rest) => .ok (isUniqueLoop v (v.getD index default) rest)

/-- A sorting algorithm standing for `std::sort`: insertion of every element before the
first one that the comparator does not place in front of it. -/
def insertionSort (comp : Nat → Nat → Bool) (l : List Nat) : List Nat :=
  l.insertionSort (fun a b => comp b a = false)

end Vector


/-! ## The all-elements variants of the importance measures -/

namespace SFTBDDChecker

/-- The loop over the basic elements of `getAllBirnbaumFactorsAtTimebound`: the probability
cache is shared by the elements, the Birnbaum cache is a fresh one for each. -/
def allBirnbaumFactorsLoop (checker : SFTBDDChecker) (indexToProbability : ProbabilityMap) :
    List BasicElement → ScalarCache → List ℚ → Option (List ℚ)
  | [], _, birnbaumFactors => some birnbaumFactors
  | be :: rest, bddToProbability, birnbaumFactors =>
    match recursiveBirnbaumFactor (checker.getIndex be.name) indexToProbability
        checker.topLevelGateBdd bddToProbability emptyCache with
    | none => none
    | some (birnbaumFactor, cacheP, _) =>
      allBirnbaumFactorsLoop checker indexToProbability rest cacheP
        (birnbaumFactors ++ [birnbaumFactor])

/-- Embedding of `getAllBirnbaumFactorsAtTimebound`. -/
def getAllBirnbaumFactorsAtTimebound (checker : SFTBDDChecker) (timebound : ℚ) :
    Option (List ℚ) :=
  allBirnbaumFactorsLoop checker (checker.indexToProbability timebound)
    checker.basicElements emptyCache []

/-- The loop over the basic elements shared by `getAllCIFsAtTimebound`,
`getAllDIFsAtTimebound`, `getAllRAWsAtTimebound` and `getAllRRWsAtTimebound`, which differ
in the expression `measure` of the BE probability, the top probability and the Birnbaum
factor. -/
def allMeasuresLoop (checker : SFTBDDChecker) (indexToProbability : ProbabilityMap)
    (measure : ℚ → ℚ → ℚ → Option ℚ) (probability : ℚ) :
    List BasicElement → ScalarCache → List (Option ℚ) → Option (List (Option ℚ))
  | [], _, resultVector => some resultVector
  | be :: rest, bddToProbability, resultVector =>
    match recursiveBirnbaumFactor (checker.getIndex be.name) indexToProbability
        checker.topLevelGateBdd bddToProbability emptyCache with
    | none => none
    | some (birnbaumFactor, cacheP, _) =>
      allMeasuresLoop checker indexToProbability measure probability rest cacheP
        (resultVector ++ [measure ((indexToProbability (checker.getIndex be.name)).getD 0)
          probability birnbaumFactor])

/-- The body shared by the four functions: the top probability first, then the loop. -/
def allMeasuresAtTimebound (checker : SFTBDDChecker) (measure : ℚ → ℚ → ℚ → Option ℚ)
    (timebound : ℚ) : Option (List (Option ℚ)) :=
  match recursiveProbability (checker.indexToProbability timebound)
      checker.topLevelGateBdd emptyCache with
  | none => none
  | some (probability, bddToProbability) =>
    allMeasuresLoop checker (checker.indexToProbability timebound) measure probability
      checker.basicElements bddToProbability []

/-- Embedding of `getAllCIFsAtTimebound`. -/
def getAllCIFsAtTimebound (checker : SFTBDDChecker) (timebound : ℚ) :
    Option (List (Option ℚ)) :=
  checker.allMeasuresAtTimebound
    (fun beProbability probability birnbaumFactor =>
      (divide beProbability probability).map (fun x => x * birnbaumFactor)) timebound

/-- Embedding of `getAllDIFsAtTimebound`. -/
def getAllDIFsAtTimebound (checker : SFTBDDChecker) (timebound : ℚ) :
    Option (List (Option ℚ)) :=
  checker.allMeasuresAtTimebound
    (fun beProbability probability birnbaumFactor =>
      (divide (beProbability * (1 - beProbability) * birnbaumFactor) probability).map
        (fun x => beProbability + x)) timebound

/-- Embedding of `getAllRAWsAtTimebound`. -/
def getAllRAWsAtTimebound (checker : SFTBDDChecker) (timebound : ℚ) :
    Option (List (Option ℚ)) :=
  checker.allMeasuresAtTimebound
    (fun beProbability probability birnbaumFactor =>
      (divide ((1 - beProbability) * birnbaumFactor) probability).map (fun x => 1 + x))
    timebound

/-- Embedding of `getAllRRWsAtTimebound`. -/
def getAllRRWsAtTimebound (checker : SFTBDDChecker) (timebound : ℚ) :
    Option (List (Option ℚ)) :=
  checker.allMeasuresAtTimebound
    (fun beProbability probability birnbaumFactor =>
      divide probability (probability - beProbability * birnbaumFactor)) timebound

/-- The loop `for (i = 0; i < n; ++i) resultVector[row].push_back(array(i))`. -/
def pushRow {α : Type} (resultVector : List (List α)) (row : Nat) (values : List α) :
    List (List α) :=
  resultVector.set row (resultVector.getD row [] ++ values)

/-- The loop over the basic elements inside the callback of
`getAllBirnbaumFactorsAtTimepoints`: the Birnbaum cache is invalidated for every element,
the probability cache is shared. -/
def allBirnbaumFactorsChunk (checker : SFTBDDChecker) (currentChunksize : Nat)
    (indexToProbabilities : VectorMap) :
    List BasicElement → Nat → VectorCache → VectorCache → List (List ℚ) →
      Option (VectorCache × VectorCache × List (List ℚ))
  | [], _, bddToProbabilities, bddToBirnbaumFactors, resultVector =>
    some (bddToProbabilities, bddToBirnbaumFactors, resultVector)
  | be :: rest, basicElemetIndex, bddToProbabilities, bddToBirnbaumFactors, resultVector =>
    match recursiveBirnbaumFactors currentChunksize (checker.getIndex be.name)
        indexToProbabilities checker.topLevelGateBdd bddToProbabilities
        (invalidate bddToBirnbaumFactors) with
    | none => none
    | some (birnbaumFactorsArray, cacheP, cacheB) =>
      allBirnbaumFactorsChunk checker currentChunksize indexToProbabilities rest
        (basicElemetIndex + 1) cacheP cacheB
        (pushRow resultVector basicElemetIndex
          (readArray 0 (slotValues cacheB birnbaumFactorsArray) currentChunksize))

/-- Embedding of `getAllBirnbaumFactorsAtTimepoints`. -/
def getAllBirnbaumFactorsAtTimepoints (checker : SFTBDDChecker) (exp : ℚ → ℚ)
    (timepoints : List ℚ) (chunksize : Nat) : Option (List (List ℚ)) :=
  (checker.chunkCalculationTemplate exp
    (fun currentChunksize _ indexToProbabilities
        (state : VectorCache × VectorCache × List (List ℚ)) =>
      allBirnbaumFactorsChunk checker currentChunksize indexToProbabilities
        checker.basicElements 0 (invalidate state.1) state.2.1 state.2.2)
    timepoints chunksize
    (emptyVectorCache, emptyVectorCache, List.replicate checker.basicElements.length [])).map
    (fun state => state.2.2)

/-- The loop over the basic elements inside the callback of `getAllCIFsAtTimepoints`,
`getAllDIFsAtTimepoints`, `getAllRAWsAtTimepoints` and `getAllRRWsAtTimepoints`;
`probabilitiesArray` is the pointer returned by `recursiveProbabilities` before the loop. -/
def allMeasuresChunk (checker : SFTBDDChecker) (currentChunksize : Nat)
    (indexToProbabilities : VectorMap)
    (measure : List ℚ → List ℚ → List ℚ → List (Option ℚ)) (probabilitiesArray : Nat) :
    List BasicElement → Nat → VectorCache → VectorCache → List (List (Option ℚ)) →
      Option (VectorCache × VectorCache × List (List (Option ℚ)))
  | [], _, bddToProbabilities, bddToBirnbaumFactors, resultVector =>
    some (bddToProbabilities, bddToBirnbaumFactors, resultVector)
  | be :: rest, basicElemetIndex, bddToProbabilities, bddToBirnbaumFactors, resultVector =>
    match recursiveBirnbaumFactors currentChunksize (checker.getIndex be.name)
        indexToProbabilities checker.topLevelGateBdd bddToProbabilities
        (invalidate bddToBirnbaumFactors) with
    | none => none
    | some (birnbaumFactorsArray, cacheP, cacheB) =>
      match indexToProbabilities (checker.getIndex be.name) with
      | none => none
      | some beProbabilitiesArray =>
        allMeasuresChunk checker currentChunksize indexToProbabilities measure
          probabilitiesArray rest (basicElemetIndex + 1) cacheP cacheB
          (pushRow resultVector basicElemetIndex
            (readArray none
              (measure beProbabilitiesArray (slotValues cacheP probabilitiesArray)
                (slotValues cacheB birnbaumFactorsArray))
              currentChunksize))

/-- The body shared by the four all-elements functions at timepoints. -/
def allMeasuresAtTimepoints (checker : SFTBDDChecker) (exp : ℚ → ℚ)
    (measure : List ℚ → List ℚ → List ℚ → List (Option ℚ))
    (timepoints : List ℚ) (chunksize : Nat) : Option (List (List (Option ℚ))) :=
  (checker.chunkCalculationTemplate exp
    (fun currentChunksize _ indexToProbabilities
        (state : VectorCache × VectorCache × List (List (Option ℚ))) =>
      match recursiveProbabilities currentChunksize indexToProbabilities
          checker.topLevelGateBdd (invalidate state.1) with
      | none => none
      | some (probabilitiesArray, cacheP0) =>
        allMeasuresChunk checker currentChunksize indexToProbabilities measure
          probabilitiesArray checker.basicElements 0 cacheP0 state.2.1 state.2.2)
    timepoints chunksize
    (emptyVectorCache, emptyVectorCache, List.replicate checker.basicElements.length [])).map
    (fun state => state.2.2)

/-- Embedding of `getAllCIFsAtTimepoints`. -/
def getAllCIFsAtTimepoints (checker : SFTBDDChecker) (exp : ℚ → ℚ)
    (timepoints : List ℚ) (chunksize : Nat) : Option (List (List (Option ℚ))) :=
  checker.allMeasuresAtTimepoints exp CIFArray timepoints chunksize

/-- Embedding of `getAllDIFsAtTimepoints`. -/
def getAllDIFsAtTimepoints (checker : SFTBDDChecker) (exp : ℚ → ℚ)
    (timepoints : List ℚ) (chunksize : Nat) : Option (List (List (Option ℚ))) :=
  checker.allMeasuresAtTimepoints exp DIFArray timepoints chunksize

/-- Embedding of `getAllRAWsAtTimepoints`. -/
def getAllRAWsAtTimepoints (checker : SFTBDDChecker) (exp : ℚ → ℚ)
    (timepoints : List ℚ) (chunksize : Nat) : Option (List (List (Option ℚ))) :=
  checker.allMeasuresAtTimepoints exp RAWArray timepoints chunksize

/-- Embedding of `getAllRRWsAtTimepoints`. -/
def getAllRRWsAtTimepoints (checker : SFTBDDChecker) (exp : ℚ → ℚ)
    (timepoints : List ℚ) (chunksize : Nat) : Option (List (List (Option ℚ))) :=
  checker.allMeasuresAtTimepoints exp RRWArray timepoints chunksize

end SFTBDDChecker


namespace SFTBDDChecker

/-- An all-elements result is indexed by the order of the basic elements: it has one entry
for each basic element, and entry `i` is what the function for a single element returns for
the name of the `i`-th basic element. -/
def IndexedByElements {α : Type} (checker : SFTBDDChecker) (all : Option (List α))
    (single : String → Option α) : Prop :=
  ∃ result, all = some result ∧ result.length = checker.basicElements.length ∧
    ∀ (i : Nat) (h : i < checker.basicElements.length),
      result[i]? = single (checker.basicElements.get ⟨i, h⟩).name

end SFTBDDChecker


/-! ## A log of the propagation calls -/

/-- The collaborator calls made while the queues are drained. -/
inductive Call where
  | checkFails
  | checkFailsafe
  | checkDontCareAnymore
deriving DecidableEq, Repr

/-- One collaborator call: the function, the element it is called on and the queues it is
handed. -/
structure CallEvent where
  call : Call
  element : Nat
  queues : Queues
deriving DecidableEq, Repr

/-- The collaborators of `dft` with a log kept next to the state: `checkFails`,
`checkFailsafe` and `checkDontCareAnymore` append their call to the log, every other member
function acts on the state and leaves the log as it is. -/
def Dft.traced {σ : Type} (dft : Dft σ) : Dft (σ × List CallEvent) where
  makeState := fun id => (dft.makeState id, [])
  setId := fun s id => (dft.setId s.1 id, s.2)
  canHaveNondeterminism := dft.canHaveNondeterminism
  hasFailed := fun s => dft.hasFailed s.1
  isFailsafe := fun s => dft.isFailsafe s.1
  getTopLevelIndex := dft.getTopLevelIndex
  dependencyProbability := dft.dependencyProbability
  hasRepresentant := dft.hasRepresentant
  getRepresentant := dft.getRepresentant
  nrFailableDependencies := fun s => dft.nrFailableDependencies s.1
  nrFailableBEs := fun s => dft.nrFailableBEs s.1
  getId := fun s => dft.getId s.1
  getDependencyId := fun s i => dft.getDependencyId s.1 i
  isActive := fun s e => dft.isActive s.1 e
  isOperational := fun s e => dft.isOperational s.1 e
  isInvalid := fun s => dft.isInvalid s.1
  stateHasFailed := fun s e => dft.stateHasFailed s.1 e
  letNextBEFail := fun s i =>
    ((((dft.letNextBEFail s.1 i).1, s.2), (dft.letNextBEFail s.1 i).2.1,
      (dft.letNextBEFail s.1 i).2.2))
  letDependencyBeUnsuccessful := fun s i => (dft.letDependencyBeUnsuccessful s.1 i, s.2)
  updateFailableDependencies := fun s e => (dft.updateFailableDependencies s.1 e, s.2)
  updateDontCareDependencies := fun s e => (dft.updateDontCareDependencies s.1 e, s.2)
  checkFails := fun e s q =>
    (((dft.checkFails e s.1 q).1,
      s.2 ++ [{ call := .checkFails, element := e, queues := q }]),
      (dft.checkFails e s.1 q).2)
  checkFailsafe := fun e s q =>
    (((dft.checkFailsafe e s.1 q).1,
      s.2 ++ [{ call := .checkFailsafe, element := e, queues := q }]),
      (dft.checkFailsafe e s.1 q).2)
  checkDontCareAnymore := fun e s q =>
    (((dft.checkDontCareAnymore e s.1 q).1,
      s.2 ++ [{ call := .checkDontCareAnymore, element := e, queues := q }]),
      (dft.checkDontCareAnymore e s.1 q).2)

namespace DftNextStateGenerator

/-- The generator over the logging collaborators. -/
def traced {σ : Type} (gen : DftNextStateGenerator σ) :
    DftNextStateGenerator (σ × List CallEvent) :=
  { mDft := gen.mDft.traced, state := gen.state.map (fun s => (s, [])),
    enableDC := gen.enableDC, mergeFailedStates := gen.mergeFailedStates,
    mergeFailedStateId := gen.mergeFailedStateId }

end DftNextStateGenerator

/-- The small fault tree with a gate 2 whose check announces the failsafe propagation of gate
6 and the don't-care propagation of element 7. -/
def exPropagatingDft : Dft ExState :=
  { exDft with
    checkFails := fun e s q =>
      ((exDft.checkFails e s q).1,
        if e = 2 then ((exDft.checkFails e s q).2.propagateFailsafe 6).propagateDontCare 7
        else (exDft.checkFails e s q).2) }

def exPropagatingGenerator : DftNextStateGenerator ExState :=
  { mDft := exPropagatingDft, state := none, enableDC := true, mergeFailedStates := false,
    mergeFailedStateId := 0 }


/-! ## Specification-side notions for the generator: failed elements and the registry -/

/-- The contract of the collaborators that the monotonicity of failures rests on: no member
function that changes a state lowers its number of failed basic elements. -/
structure Dft.FailureMonotone {σ : Type} (dft : Dft σ) (failedBEs : σ → Nat) : Prop where
  letNextBEFail : ∀ s i, failedBEs s ≤ failedBEs (dft.letNextBEFail s i).1
  letDependencyBeUnsuccessful :
    ∀ s i, failedBEs s ≤ failedBEs (dft.letDependencyBeUnsuccessful s i)
  updateFailableDependencies :
    ∀ s e, failedBEs s ≤ failedBEs (dft.updateFailableDependencies s e)
  updateDontCareDependencies :
    ∀ s e, failedBEs s ≤ failedBEs (dft.updateDontCareDependencies s e)
  checkFails : ∀ e s q, failedBEs s ≤ failedBEs (dft.checkFails e s q).1
  checkFailsafe : ∀ e s q, failedBEs s ≤ failedBEs (dft.checkFailsafe e s q).1
  checkDontCareAnymore : ∀ e s q, failedBEs s ≤ failedBEs (dft.checkDontCareAnymore e s q).1

namespace DftNextStateGenerator

variable {σ ρ : Type}

/-- A callback together with a record of its calls: the states it was called with, each with
the id it answered. -/
def recording (stateToIdCallback : σ → ρ → Nat × ρ) :
    σ → ρ × List (σ × Nat) → Nat × (ρ × List (σ × Nat)) :=
  fun s r => ((stateToIdCallback s r.1).1,
    ((stateToIdCallback s r.1).2, r.2 ++ [(s, (stateToIdCallback s r.1).1)]))

/-- The id is the one of the merged failed state, or it was answered by the callback for a
state with at least `bound` failed basic elements. -/
def IdentifiesFailed (gen : DftNextStateGenerator σ) (failedBEs : σ → Nat) (bound : Nat)
    (log : List (σ × Nat)) (id : Nat) : Prop :=
  (gen.mergeFailedStates = true ∧ id = gen.mergeFailedStateId) ∨
    ∃ s, (s, id) ∈ log ∧ bound ≤ failedBEs s

end DftNextStateGenerator

/-- The number of failed basic elements (0, 1 and 5) of a state of the small fault tree. -/
def exFailedBEs (s : ExState) : Nat := ([0, 1, 5].filter (fun b => b ∈ s.failed)).length

/-- The merging generator of the small fault tree after `createMergeFailedState` has
recorded the id 0 for the merged failed state. -/
def exMergedGenerator : DftNextStateGenerator ExState :=
  { mDft := exDft, state := none, enableDC := true, mergeFailedStates := true,
    mergeFailedStateId := 0 }


namespace DftNextStateGenerator

variable {σ ρ : Type}

/-- What a register callback guarantees about the ids it hands out, in terms of a relation
`Known registry state id` ("the registry holds `state` under `id`"): a state is known under
the id answered for it, a known state stays known under its id whatever is registered later,
and the callback answers with the id a state is known under. -/
structure RegistryLaws (stateToIdCallback : σ → ρ → Nat × ρ) (Known : ρ → σ → Nat → Prop) :
    Prop where
  registers : ∀ s r, Known (stateToIdCallback s r).2 s (stateToIdCallback s r).1
  keeps : ∀ s i r s1, Known r s i → Known (stateToIdCallback s1 r).2 s i
  answers : ∀ s i r, Known r s i → (stateToIdCallback s r).1 = i

/-- The second registry knows every state the first one knows, under the same id. -/
def RegistryExtends (Known : ρ → σ → Nat → Prop) (r r1 : ρ) : Prop :=
  ∀ s i, Known r s i → Known r1 s i

end DftNextStateGenerator

/-- The list registry holds a state under its position. -/
def exKnown (registry : List ExState) (s : ExState) (id : Nat) : Prop :=
  s ∈ registry ∧ registry.indexOf s = id


namespace Vector

end Vector


namespace Vector

/-- The inner loop of `reduceVector` over the rest of a row group,
`for (...; sourceIt != sourceIte; ++sourceIt, ++localChoice)`, on the variables `sourceIt`,
`localChoice`, `*targetIt` and `*choiceIt`. The first argument bounds the iterations; `none`
is a read past the end of `source`. -/
def reduceGroupLoop {T : Type} (source : List T) (filter : T → T → Bool) (sourceIte : Nat) :
    Nat → Nat → Nat → T → Nat → Option (Nat × T × Nat)
  | 0, sourceIt, _, targetValue, choice =>
    if sourceIt = sourceIte then some (sourceIt, targetValue, choice) else none
  | fuel + 1, sourceIt, localChoice, targetValue, choice =>
    if sourceIt = sourceIte then some (sourceIt, targetValue, choice)
    else
      match source[sourceIt]? with
      | none => none
      | some value =>
        if filter value targetValue then
          reduceGroupLoop source filter sourceIte fuel (sourceIt + 1) (localChoice + 1)
            value localChoice
        else
          reduceGroupLoop source filter sourceIte fuel (sourceIt + 1) (localChoice + 1)
            targetValue choice

/-- The test that `choiceIt` points into the vector of choices, when there is one. -/
def choiceInRange (choices : Option (List Nat)) (row : Nat) : Bool :=
  match choices with
  | none => true
  | some cs => decide (row < cs.length)

/-- The outer loop of `reduceVector`, `for (; targetIt != targetIte; ++targetIt,
++rowGroupingIt)`, in the branch compiled without `STORM_HAVE_INTELTBB`: `row` is the
position of `targetIt`, `rowGroupingIt` and `choiceIt`, and `sourceIt` is carried from one
group to the next. Every iteration of the inner loop reads one more element of `source`, so
`source.length + 1` iterations are allowed. `none` is an access outside a vector. -/
def reduceVectorLoop {T : Type} (source : List T) (rowGrouping : List Nat)
    (filter : T → T → Bool) :
    Nat → Nat → Nat → List T → Option (List Nat) → Option (List T × Option (List Nat))
  | 0, _, _, target, choices => some (target, choices)
  | remaining + 1, row, sourceIt, target, choices =>
    match source[sourceIt]?, rowGrouping[row + 1]? with
    | some first, some sourceIte =>
      if choiceInRange choices row then
        match reduceGroupLoop source filter sourceIte (source.length + 1) (sourceIt + 1) 1
            first 0 with
        | none => none
        | some (sourceIt1, targetValue, choice) =>
          reduceVectorLoop source rowGrouping filter remaining (row + 1) sourceIt1
            (target.set row targetValue) (choices.map (fun cs => cs.set row choice))
      else none
    | _, _ => none

/-- Embedding of `reduceVector` (the sequential branch); `choices` is `none` for the null
pointer. The new contents of `target` and of `choices` are returned. -/
def reduceVector {T : Type} (source target : List T) (rowGrouping : List Nat)
    (filter : T → T → Bool) (choices : Option (List Nat)) :
    Option (List T × Option (List Nat)) :=
  reduceVectorLoop source rowGrouping filter target.length 0 0 target choices

/-- Embedding of `reduceVectorMin`: the filter is `std::less<T>()`. -/
def reduceVectorMin {T : Type} [LinearOrder T] (source target : List T)
    (rowGrouping : List Nat) (choices : Option (List Nat)) :
    Option (List T × Option (List Nat)) :=
  reduceVector source target rowGrouping (fun v1 v2 => decide (v1 < v2)) choices

/-- Embedding of `reduceVectorMax`: the filter is `std::greater<T>()`. -/
def reduceVectorMax {T : Type} [LinearOrder T] (source target : List T)
    (rowGrouping : List Nat) (choices : Option (List Nat)) :
    Option (List T × Option (List Nat)) :=
  reduceVector source target rowGrouping (fun v1 v2 => decide (v1 > v2)) choices

/-- The row grouping has one entry more than there are groups, starts at offset 0, and
delimits non-empty consecutive groups that lie within a source of the given length. -/
def RowGroups (sourceLength : Nat) (rowGrouping : List Nat) (groups : Nat) : Prop :=
  rowGrouping.length = groups + 1 ∧ rowGrouping.getD 0 0 = 0 ∧
  (∀ g, g < groups → rowGrouping.getD g 0 < rowGrouping.getD (g + 1) 0) ∧
  rowGrouping.getD groups 0 ≤ sourceLength

/-- The elements of row group `g`. -/
def rowGroup {T : Type} (source : List T) (rowGrouping : List Nat) (g : Nat) : List T :=
  (source.drop (rowGrouping.getD g 0)).take
    (rowGrouping.getD (g + 1) 0 - rowGrouping.getD g 0)

/-- The selection made by a scan from left to right that replaces the current value by every
element the filter prefers to it; `localChoice` is the offset of the head of the list. -/
def selectFrom {T : Type} (filter : T → T → Bool) : List T → Nat → T → Nat → T × Nat
  | [], _, targetValue, choice => (targetValue, choice)
  | value :: rest, localChoice, targetValue, choice =>
    if filter value targetValue then selectFrom filter rest (localChoice + 1) value localChoice
    else selectFrom filter rest (localChoice + 1) targetValue choice

/-- The value `t` stands at offset `c` of the group, the filter prefers no element of the
group to it, and it is preferred to every element before offset `c`. -/
def IsSelected {T : Type} (filter : T → T → Bool) (group : List T) (t : T) (c : Nat) : Prop :=
  group[c]? = some t ∧ (∀ x ∈ group, filter x t = false) ∧
  (∀ j, j < c → ∀ y, group[j]? = some y → filter t y = true)

end Vector


/-- Modelled from the spec: `storm::storage::BitVector`, whose code is not among the sources,
as the list of its bits, with the member functions the vector utilities call. -/
structure BitVector where
  bits : List Bool
deriving DecidableEq, Repr

namespace BitVector

def size (filter : BitVector) : Nat := filter.bits.length

def getNumberOfSetBits (filter : BitVector) : Nat := filter.bits.count true

/-- Modelled from the spec: `getNextSetIndex(startingIndex)`, the first position from
`startingIndex` on whose bit is set, `size()` when there is none. -/
def getNextSetIndex (filter : BitVector) (startingIndex : Nat) : Nat :=
  if filter.bits.length ≤ startingIndex then filter.bits.length
  else startingIndex + ((filter.bits.drop startingIndex).takeWhile (fun b => !b)).length

/-- Modelled from the spec: `getNextUnsetIndex(startingIndex)`, the first position from
`startingIndex` on whose bit is not set, `size()` when there is none. -/
def getNextUnsetIndex (filter : BitVector) (startingIndex : Nat) : Nat :=
  if filter.bits.length ≤ startingIndex then filter.bits.length
  else startingIndex + ((filter.bits.drop startingIndex).takeWhile (fun b => b)).length

/-- The positions of the set bits of a list of bits whose first position is `offset`. -/
def setIndicesFrom : Nat → List Bool → List Nat
  | _, [] => []
  | offset, true :: rest => offset :: setIndicesFrom (offset + 1) rest
  | offset, false :: rest => setIndicesFrom (offset + 1) rest

/-- Modelled from the spec: the positions the iterator of a bit vector visits, those of the
set bits in ascending order. -/
def setIndices (filter : BitVector) : List Nat := setIndicesFrom 0 filter.bits

end BitVector

namespace Vector

/-- The loop `for (auto index : filter) result.push_back(in[index])`; `none` is a read past
the end of the input. -/
def filterVectorLoop {Type1 : Type} (input : List Type1) :
    List Nat → List Type1 → Option (List Type1)
  | [], result => some result
  | index :: rest, result =>
    match input[index]? with
    | none => none
    | some value => filterVectorLoop input rest (result ++ [value])

/-- Embedding of `filterVector`; `none` is a read past the end or the failed assertion on the
size of the result. -/
def filterVector {Type1 : Type} (input : List Type1) (filter : BitVector) :
    Option (List Type1) :=
  match filterVectorLoop input filter.setIndices [] with
  | none => none
  | some result => if result.length = filter.getNumberOfSetBits then some result else none

/-- The loop of `filterVectorInPlace`, `for (index = filter.getNextSetIndex(firstUnsetIndex
+ 1); index != size; index = filter.getNextSetIndex(index + 1))`, on `index`, the position of
`vIt` and the vector. The first argument bounds the iterations; the element moved from stays
readable, it is never read again. -/
def filterVectorInPlaceLoop {Type1 : Type} (filter : BitVector) (size : Nat) :
    Nat → Nat → Nat → List Type1 → Option (Nat × List Type1)
  | 0, index, vIt, v => if index = size then some (vIt, v) else none
  | fuel + 1, index, vIt, v =>
    if index = size then some (vIt, v)
    else
      match v[index]? with
      | none => none
      | some value =>
        filterVectorInPlaceLoop filter size fuel (filter.getNextSetIndex (index + 1))
          (vIt + 1) (v.set vIt value)

/-- Embedding of `filterVectorInPlace`: the new contents of `v`; `none` is a failed
assertion. The index grows in every iteration, so `size` iterations are allowed. -/
def filterVectorInPlace {Type1 : Type} (v : List Type1) (filter : BitVector) :
    Option (List Type1) :=
  if v.length ≠ filter.size then none
  else
    let size := v.length
    let firstUnsetIndex := filter.getNextUnsetIndex 0
    let filtered :=
      if firstUnsetIndex < size then
        match filterVectorInPlaceLoop filter size size
            (filter.getNextSetIndex (firstUnsetIndex + 1)) firstUnsetIndex v with
        | none => none
        | some (vIt, v1) => some (v1.take vIt)
      else some v
    match filtered with
    | none => none
    | some v1 => if v1.length = filter.getNumberOfSetBits then some v1 else none

/-- The elements of a vector that stand at the set positions of a list of bits, in the order
of the vector. -/
def selected {Type1 : Type} (v : List Type1) (bits : List Bool) : List Type1 :=
  ((v.zip bits).filter (fun entry => entry.2)).map (fun entry => entry.1)

end Vector


namespace Vector

/-- Modelled from the spec: `storm::utility::asFraction` of `constants.h`, which is not among
the sources: numerator and denominator of the number in lowest terms, as values. -/
def asFraction (number : ℚ) : ℚ × ℚ := ((number.num : ℚ), (number.den : ℚ))

/-- Modelled from the spec: `storm::utility::isInteger` of `constants.h` on a rational
number. -/
def isInteger (number : ℚ) : Bool := decide (number.den = 1)

/-- The call `insert` of `std::set<ValueType>`: the set is kept ascending and without
repetitions. -/
def setInsert (set : List ℚ) (v : ℚ) : List ℚ :=
  if v ∈ set then set else set.orderedInsert (fun a b => a ≤ b) v

/-- The scaling factor `toIntegralVector` computes from the set of the non-zero numbers;
`lcm` and `gcd` are those of the library carl. -/
def integralFactor (lcm gcd : ℚ → ℚ → ℚ) (occurringNonZeroNumbers : List ℚ) : ℚ :=
  match occurringNonZeroNumbers with
  | [] => 1
  | [number] => 1 / number
  | first :: rest =>
    let lcm1 := rest.foldl (fun l number => lcm l (asFraction number).2) (asFraction first).2
    let gcd1 := rest.foldl (fun g number => gcd g (number * lcm1)) (first * lcm1)
    gcd1 / lcm1

/-- The loop that builds the result of `toIntegralVector`: every scaled number is pushed
behind what `result` holds, then asserted to be integral. -/
def integralLoop {TargetValueType : Type} (convertNumber : ℚ → TargetValueType)
    (isIntegral : TargetValueType → Bool) (factor : ℚ) :
    List ℚ → List TargetValueType → Except StormException (List TargetValueType)
  | [], result => .ok result
  | v :: rest, result =>
    let back := convertNumber (v / factor)
    if isIntegral back then
      integralLoop convertNumber isIntegral factor rest (result ++ [back])
    else .error .assertionFailed

/-- Embedding of the overload of `toIntegralVector` that `enable_if` selects for
`storm::RationalFunction`, on constants (rational numbers). The conversion
`convertNumber<TargetValueType, ValueType>`, the test `isInteger` on the target type and the
functions `carl::lcm` and `carl::gcd` are parameters; `result.resize(vec.size())` fills the
result with `vec.size()` value-initialised entries before the loop pushes its numbers. -/
def toIntegralVectorRationalFunction {TargetValueType : Type} [Zero TargetValueType]
    (lcm gcd : ℚ → ℚ → ℚ) (convertNumber : ℚ → TargetValueType)
    (isIntegral : TargetValueType → Bool) (vec : List ℚ) :
    Except StormException (List TargetValueType × ℚ) :=
  let occurringNonZeroNumbers :=
    vec.foldl (fun set v => if v = 0 then set else setInsert set v) []
  let factor := integralFactor lcm gcd occurringNonZeroNumbers
  match integralLoop convertNumber isIntegral factor vec
      (List.replicate vec.length (0 : TargetValueType)) with
  | .error e => .error e
  | .ok result => .ok (result, factor)

end Vector


/-- The value `recursiveProbability` computes for a node when started with an empty cache. -/
def probabilityKernel (p : ProbabilityMap) (n : Bdd) : Option ℚ :=
  (recursiveProbability p n emptyCache).map Prod.fst

/-- The value `recursiveBirnbaumFactor` computes for a node and the variable `k` when started
with empty caches. -/
def birnbaumKernel (k : Nat) (p : ProbabilityMap) (n : Bdd) : Option ℚ :=
  (recursiveBirnbaumFactor k p n emptyCache emptyCache).map Prod.fst

namespace SFTBDDChecker

/-- The top probability and the Birnbaum factor as the two functions that start from empty
caches return them. -/
def uncachedPair (checker : SFTBDDChecker) (beName : String) (timebound : ℚ) :
    Option (ℚ × ℚ) :=
  match checker.getProbabilityAtTimebound checker.topLevelGateBdd timebound,
    checker.getBirnbaumFactorAtTimebound beName timebound with
  | some probability, some birnbaumFactor => some (probability, birnbaumFactor)
  | _, _ => none

end SFTBDDChecker


/-- No entry of the cache is flagged valid. -/
def AllInvalid (c : VectorCache) : Prop := ∀ key a, c key ≠ some (true, a)

/-- Two caches agree wherever one of them holds a valid entry. -/
def AgreeOnValid (c c1 : VectorCache) : Prop :=
  ∀ key, c key = c1 key ∨ ((∀ a, c key ≠ some (true, a)) ∧ (∀ a, c1 key ≠ some (true, a)))

/-- Two runs, from `c` to `d` and from `c1` to `d1`, wrote the same entries: every slot is
equal in the results or untouched in both. -/
def SameWrites (c c1 d d1 : VectorCache) : Prop :=
  ∀ key, d key = d1 key ∨ (d key = c key ∧ d1 key = c1 key)

/-- Every valid entry of the cache holds an array of the given length. -/
def ValidLength (n : Nat) (c : VectorCache) : Prop :=
  ∀ key a, c key = some (true, a) → a.length = n

/-- Probabilities of the variables 0 and 1 for a chunk of two timepoints. -/
def exVectorMap : VectorMap :=
  fun v => if v = 0 then some [1 / 2, 1] else if v = 1 then some [1 / 3, 1 / 2] else none

/-- A cache left by a chunk of three timepoints after its flags were cleared. -/
def exStaleCache : VectorCache :=
  fun key => if key = 10 then some (false, [7, 7, 7]) else if key = 11 then some (false, [5, 5, 5])
    else none


/-- The heap of the `DFTState` objects behind the shared pointers: `cells` holds the object
at an address, the addresses below `next` are allocated. -/
structure StateHeap (σ : Type) where
  cells : Nat → σ
  next : Nat

namespace StateHeap

variable {σ : Type}

/-- The call `std::make_shared<DFTState>(value)`: a fresh object holding a copy. -/
def makeShared (heap : StateHeap σ) (value : σ) : Nat × StateHeap σ :=
  (heap.next, { cells := Function.update heap.cells heap.next value, next := heap.next + 1 })

/-- The object behind `pointer` after a member call that changed it. -/
def assign (heap : StateHeap σ) (pointer : Nat) (value : σ) : StateHeap σ :=
  { cells := Function.update heap.cells pointer value, next := heap.next }

/-- The second heap holds every object of the first one unchanged. -/
def Frame (heap heap1 : StateHeap σ) : Prop :=
  heap.next ≤ heap1.next ∧ ∀ a, a < heap.next → heap1.cells a = heap.cells a

end StateHeap

namespace DftNextStateGenerator

variable {σ ρ : Type}

/-- The loop `while (!queues.failurePropagationDone())` on the object behind `newState`. -/
def drainFailurePropagationOnHeap (dft : Dft σ) (newState : Nat) :
    Nat → StateHeap σ → Queues → Option (StateHeap σ × Queues)
  | 0, heap, queues =>
    if queues.failurePropagationDone then some (heap, queues) else none
  | fuel + 1, heap, queues =>
    match queues.nextFailurePropagation with
    | none => some (heap, queues)
    | some (next, queues1) =>
      let r := dft.checkFails next (heap.cells newState) queues1
      let heap1 := heap.assign newState r.1
      let heap2 :=
        heap1.assign newState (dft.updateFailableDependencies (heap1.cells newState) next)
      drainFailurePropagationOnHeap dft newState fuel heap2 r.2

/-- The loop `while (!queues.restrictionChecksDone())` on the object behind `newState`. -/
def drainRestrictionChecksOnHeap (dft : Dft σ) (newState : Nat) :
    Nat → StateHeap σ → Queues → Option (StateHeap σ × Queues)
  | 0, heap, queues =>
    if queues.restrictionChecksDone then some (heap, queues) else none
  | fuel + 1, heap, queues =>
    match queues.nextRestrictionCheck with
    | none => some (heap, queues)
    | some (next, queues1) =>
      let r := dft.checkFails next (heap.cells newState) queues1
      let heap1 := heap.assign newState r.1
      let heap2 :=
        heap1.assign newState (dft.updateFailableDependencies (heap1.cells newState) next)
      drainRestrictionChecksOnHeap dft newState fuel heap2 r.2

/-- The loop `while (!queues.failsafePropagationDone())` on the object behind `newState`. -/
def drainFailsafePropagationOnHeap (dft : Dft σ) (newState : Nat) :
    Nat → StateHeap σ → Queues → Option (StateHeap σ × Queues)
  | 0, heap, queues =>
    if queues.failsafePropagationDone then some (heap, queues) else none
  | fuel + 1, heap, queues =>
    match queues.nextFailsafePropagation with
    | none => some (heap, queues)
    | some (next, queues1) =>
      let r := dft.checkFailsafe next (heap.cells newState) queues1
      drainFailsafePropagationOnHeap dft newState fuel (heap.assign newState r.1) r.2

/-- The loop `while (enableDC && !queues.dontCarePropagationDone())` on the object behind
`newState`. -/
def drainDontCarePropagationOnHeap (dft : Dft σ) (enableDC : Bool) (newState : Nat) :
    Nat → StateHeap σ → Queues → Option (StateHeap σ × Queues)
  | 0, heap, queues =>
    if enableDC && !queues.dontCarePropagationDone then none else some (heap, queues)
  | fuel + 1, heap, queues =>
    if enableDC then
      match queues.nextDontCarePropagation with
      | none => some (heap, queues)
      | some (next, queues1) =>
        let r := dft.checkDontCareAnymore next (heap.cells newState) queues1
        drainDontCarePropagationOnHeap dft enableDC newState fuel
          (heap.assign newState r.1) r.2
    else some (heap, queues)

/-- Lines 70-129 of `expand` with the states on the heap: `newState` is a fresh object
copied from the object behind `currentState`, and every member call acts on the object
behind `newState`. Returns the pointer `newState`, the heap, the queues and the failed BE. -/
def failNextBEOnHeap (gen : DftNextStateGenerator σ) (fuel : Nat) (currentState : Nat)
    (heap : StateHeap σ) (hasDependencies : Bool) (currentFailable : Nat) :
    Except Failure (Nat × StateHeap σ × Queues × DFTBE) :=
  if gen.mDft.hasFailed (heap.cells currentState) then .error .dftHasFailed
  else
    let alloc := heap.makeShared (heap.cells currentState)
    let newState := alloc.1
    match gen.mDft.letNextBEFail (alloc.2.cells newState) currentFailable with
    | (_, none, _) => .error .nextBEIsNull
    | (mutated, some nextBE, dependencyFlag) =>
      let heap1 := alloc.2.assign newState mutated
      if dependencyFlag != hasDependencies then .error .dependencyMismatch
      else
        let queues := nextBE.parents.foldl
          (fun q parent =>
            if gen.mDft.isOperational (heap1.cells newState) parent then
              q.propagateFailure parent
            else q)
          Queues.empty
        match drainFailurePropagationOnHeap gen.mDft newState fuel heap1 queues with
        | none => .error .outOfFuel
        | some (heap2, queues1) =>
          let queues2 := nextBE.restrictions.foldl
            (fun q restr => q.checkRestrictionLater restr) queues1
          match drainRestrictionChecksOnHeap gen.mDft newState fuel heap2 queues2 with
          | none => .error .outOfFuel
          | some (heap3, queues3) => .ok (newState, heap3, queues3, nextBE)

/-- The successor of a candidate with the states on the heap: the failed BE, the pointer to
the new state, and whether the successor is bound to the merged failed state. -/
structure SuccessorOnHeap where
  nextBE : DFTBE
  newState : Nat
  merged : Bool

/-- Lines 70-157 of `expand` with the states on the heap; `none` is the `continue` taken for
an invalid successor. -/
def successorStateOnHeap (gen : DftNextStateGenerator σ) (fuel : Nat) (currentState : Nat)
    (heap : StateHeap σ) (hasDependencies : Bool) (currentFailable : Nat) :
    Except Failure (StateHeap σ × Option SuccessorOnHeap) :=
  match failNextBEOnHeap gen fuel currentState heap hasDependencies currentFailable with
  | .error e => .error e
  | .ok (newState, heap1, queues, nextBE) =>
    if gen.mDft.isInvalid (heap1.cells newState) then .ok (heap1, none)
    else if gen.mDft.stateHasFailed (heap1.cells newState) gen.mDft.getTopLevelIndex
        && gen.mergeFailedStates then
      .ok (heap1, some { nextBE := nextBE, newState := newState, merged := true })
    else
      match drainFailsafePropagationOnHeap gen.mDft newState fuel heap1 queues with
      | none => .error .outOfFuel
      | some (heap2, queues1) =>
        match drainDontCarePropagationOnHeap gen.mDft gen.enableDC newState fuel heap2
            queues1 with
        | none => .error .outOfFuel
        | some (heap3, _) =>
          let heap4 := heap3.assign newState
            (gen.mDft.updateFailableDependencies (heap3.cells newState) nextBE.id)
          let heap5 := heap4.assign newState
            (gen.mDft.updateDontCareDependencies (heap4.cells newState) nextBE.id)
          .ok (heap5, some { nextBE := nextBE, newState := newState, merged := false })

/-- One iteration of the loop of `expand` with the states on the heap; the callback is handed
the object behind the pointer it receives. -/
def expandStepOnHeap (gen : DftNextStateGenerator σ) (fuel : Nat)
    (stateToIdCallback : σ → ρ → Nat × ρ) (currentState : Nat) (hasDependencies : Bool)
    (currentFailable : Nat) (acc : Choice × StateBehavior × StateHeap σ × ρ) :
    Except Failure (Choice × StateBehavior × StateHeap σ × ρ) :=
  match successorStateOnHeap gen fuel currentState acc.2.2.1 hasDependencies
      currentFailable with
  | .error e => .error e
  | .ok (heap1, none) => .ok (acc.1, acc.2.1, heap1, acc.2.2.2)
  | .ok (heap1, some succ) =>
    let idReg :=
      if succ.merged then (gen.mergeFailedStateId, acc.2.2.2)
      else stateToIdCallback (heap1.cells succ.newState) acc.2.2.2
    if hasDependencies then
      let probability := gen.mDft.dependencyProbability
        (gen.mDft.getDependencyId (heap1.cells currentState) currentFailable)
      let choice := acc.1.addProbability idReg.1 probability
      if probability ≠ 1 then
        let alloc := heap1.makeShared (heap1.cells currentState)
        let heap2 := alloc.2.assign alloc.1
          (gen.mDft.letDependencyBeUnsuccessful (alloc.2.cells alloc.1) currentFailable)
        let unsuccessful := stateToIdCallback (heap2.cells alloc.1) idReg.2
        let remainingProbability := 1 - probability
        let choice1 := choice.addProbability unsuccessful.1 remainingProbability
        .ok (choice1.movedFrom, acc.2.1.addChoice choice1, heap2, unsuccessful.2)
      else
        .ok (choice.movedFrom, acc.2.1.addChoice choice, heap1, idReg.2)
    else
      let isActive :=
        if gen.mDft.hasRepresentant succ.nextBE.id then
          gen.mDft.isActive (heap1.cells currentState)
            (gen.mDft.getRepresentant succ.nextBE.id)
        else true
      let rate := if isActive then succ.nextBE.activeFailureRate
        else succ.nextBE.passiveFailureRate
      if rate = 0 then .error .rateIsZero
      else .ok (acc.1.addProbability idReg.1 rate, acc.2.1, heap1, idReg.2)

/-- The loop `while (currentFailable < failableCount)` with the states on the heap. -/
def expandLoopOnHeap (gen : DftNextStateGenerator σ) (fuel : Nat)
    (stateToIdCallback : σ → ρ → Nat × ρ) (currentState : Nat) (hasDependencies : Bool) :
    Nat → Nat → Choice × StateBehavior × StateHeap σ × ρ →
      Except Failure (Choice × StateBehavior × StateHeap σ × ρ)
  | 0, _, acc => .ok acc
  | remaining + 1, currentFailable, acc =>
    match expandStepOnHeap gen fuel stateToIdCallback currentState hasDependencies
        currentFailable acc with
    | .error e => .error e
    | .ok acc1 =>
      expandLoopOnHeap gen fuel stateToIdCallback currentState hasDependencies remaining
        (currentFailable + 1) acc1

/-- Embedding of `expand` with the `DFTState` objects on a heap: `currentState` is the
pointer the generator has loaded, every `make_shared<DFTState>(*currentState)` allocates a
copy, and the member calls change the object they are called on. The heap is returned with
the behaviour and the registry. -/
def expandOnHeap (gen : DftNextStateGenerator σ) (fuel : Nat)
    (stateToIdCallback : σ → ρ → Nat × ρ) (currentState : Nat) (heap : StateHeap σ)
    (registry : ρ) : Except Failure (StateBehavior × StateHeap σ × ρ) :=
  let result := StateBehavior.new
  let hasDependencies :=
    decide (gen.mDft.nrFailableDependencies (heap.cells currentState) > 0)
  let failableCount :=
    if hasDependencies then gen.mDft.nrFailableDependencies (heap.cells currentState)
    else gen.mDft.nrFailableBEs (heap.cells currentState)
  let choice := Choice.new 0 (!hasDependencies)
  if gen.mDft.hasFailed (heap.cells currentState)
      || gen.mDft.isFailsafe (heap.cells currentState)
      || gen.mDft.nrFailableBEs (heap.cells currentState) == 0 then
    .ok ((result.addChoice
      (choice.addProbability (gen.mDft.getId (heap.cells currentState)) 1)).setExpanded,
      heap, registry)
  else
    match expandLoopOnHeap gen fuel stateToIdCallback currentState hasDependencies
        failableCount 0 (choice, result, heap, registry) with
    | .error e => .error e
    | .ok (choice1, result1, heap1, registry1) =>
      if !hasDependencies then .ok ((result1.addChoice choice1).setExpanded, heap1, registry1)
      else .ok (result1.setExpanded, heap1, registry1)

end DftNextStateGenerator

/-- A heap holding the initial state of the small fault tree at address 0 and the state
`exTriggered` at address 1. -/
def exHeap : StateHeap ExState :=
  { cells := fun a => if a = 1 then exTriggered else exInitial, next := 2 }


namespace Vector

/-- The loop in the body of the lambda that `reduceVector` hands to `tbb::parallel_for` in
the branch compiled with `STORM_HAVE_INTELTBB`: `row` is the position of `targetIt` and of
`rowGroupingIt`, which start at `startRow`; `choiceIt` is the position of the iterator into
the choices, which the lambda starts at `choices->begin()`. `none` is an access outside a
vector. -/
def reduceVectorBlockLoop {T : Type} (source : List T) (rowGrouping : List Nat)
    (filter : T → T → Bool) :
    Nat → Nat → Nat → Nat → List T → Option (List Nat) →
      Option (List T × Option (List Nat))
  | 0, _, _, _, target, choices => some (target, choices)
  | remaining + 1, row, choiceIt, sourceIt, target, choices =>
    match source[sourceIt]?, rowGrouping[row + 1]? with
    | some first, some sourceIte =>
      if choiceInRange choices choiceIt then
        match reduceGroupLoop source filter sourceIte (source.length + 1) (sourceIt + 1) 1
            first 0 with
        | none => none
        | some (sourceIt1, targetValue, choice) =>
          reduceVectorBlockLoop source rowGrouping filter remaining (row + 1) (choiceIt + 1)
            sourceIt1 (target.set row targetValue)
            (choices.map (fun cs => cs.set choiceIt choice))
      else none
    | _, _ => none

/-- The body of the lambda for one block `range = [startRow, endRow)` of rows:
`targetIt = target.begin() + startRow`, `rowGroupingIt = rowGrouping.begin() + startRow`,
`sourceIt = source.begin() + *rowGroupingIt` and `choiceIt = choices->begin()`. -/
def reduceVectorBlock {T : Type} (source : List T) (rowGrouping : List Nat)
    (filter : T → T → Bool) (range : Nat × Nat) (target : List T)
    (choices : Option (List Nat)) : Option (List T × Option (List Nat)) :=
  match rowGrouping[range.1]? with
  | none => none
  | some sourceIt =>
    reduceVectorBlockLoop source rowGrouping filter (range.2 - range.1) range.1 0 sourceIt
      target choices

/-- Embedding of `reduceVector` in the branch compiled with `STORM_HAVE_INTELTBB`:
`tbb::parallel_for` splits the rows `[0, target.size())` into blocks and runs the lambda on
every block. The blocks are an argument, and the lambda is run on them one after the other in
the order of the list. -/
def reduceVectorTbb {T : Type} (source : List T) (rowGrouping : List Nat)
    (filter : T → T → Bool) :
    List (Nat × Nat) → List T → Option (List Nat) → Option (List T × Option (List Nat))
  | [], target, choices => some (target, choices)
  | range :: rest, target, choices =>
    match reduceVectorBlock source rowGrouping filter range target choices with
    | none => none
    | some (target1, choices1) =>
      reduceVectorTbb source rowGrouping filter rest target1 choices1

end Vector

/-! ## Specification-side description of the propagation of a candidate

The algorithm of one expansion as the specification words it (steps 3 to 7), as relations
that do not count iterations; the embedded code is compared with them. -/

namespace DftNextStateGenerator

variable {σ ρ : Type}

/-- Specification-side: a work-list is drained fully. Tasks are popped in FIFO order by `pop`
and handed, with the queues that remain, to `handle`, until `pop` finds the list empty.
`Drains pop handle s q log s1 q1`: started on the state `s` and the queues `q` this ends in
the state `s1` with the queues `q1`, and `log` lists in order the tasks that were handled,
each with the queues handed with it. -/
inductive Drains (pop : Queues → Option (Nat × Queues))
    (handle : Nat → σ → Queues → σ × Queues) :
    σ → Queues → List (Nat × Queues) → σ → Queues → Prop
  | done (s : σ) (q : Queues) (hpop : pop q = none) : Drains pop handle s q [] s q
  | step (s : σ) (q : Queues) (next : Nat) (q1 : Queues) (log : List (Nat × Queues))
      (s2 : σ) (q2 : Queues) (hpop : pop q = some (next, q1))
      (hrest : Drains pop handle (handle next s q1).1 (handle next s q1).2 log s2 q2) :
      Drains pop handle s q ((next, q1) :: log) s2 q2

/-- Specification-side: what is done with a gate popped from the failure propagation, and
with a restriction popped from the restriction checks: "run its semantic `checkFails`" and
"update dependent-failability sets on the new state". -/
def checkAndUpdate (dft : Dft σ) (next : Nat) (s : σ) (q : Queues) : σ × Queues :=
  (dft.updateFailableDependencies (dft.checkFails next s q).1 next, (dft.checkFails next s q).2)

/-- Specification-side: "enqueue failure-propagation requests onto every operational parent
of the newly failed BE". -/
def parentRequests (dft : Dft σ) (s : σ) (be : DFTBE) : Queues :=
  (be.parents.filter (fun parent => dft.isOperational s parent)).foldl
    Queues.propagateFailure Queues.empty

/-- The calls of one collaborator function on the tasks of a drained work-list. -/
def events (call : Call) (log : List (Nat × Queues)) : List CallEvent :=
  log.map (fun task => { call := call, element := task.1, queues := task.2 })

/-- Specification-side (steps 3 and 4): candidate `i` of the state `s` lets the basic element
`be` fail, and the failure is propagated to a fixed point: `letNextBEFail(i)` returns `be`
and a flag equal to `hasDep`, the failure propagation started with the operational parents
of `be` is drained (tasks `A`), then the restriction checks, to which the restrictions of
`be` are added, are drained (tasks `B`); this ends in the state `s2` with the queues `q2`. -/
def Propagates (gen : DftNextStateGenerator σ) (s : σ) (hasDep : Bool) (i : Nat)
    (be : DFTBE) (A B : List (Nat × Queues)) (s2 : σ) (q2 : Queues) : Prop :=
  gen.mDft.hasFailed s = false ∧
  ∃ s0 s1 q1, gen.mDft.letNextBEFail s i = (s0, some be, hasDep) ∧
    Drains Queues.nextFailurePropagation (checkAndUpdate gen.mDft) s0
      (parentRequests gen.mDft s0 be) A s1 q1 ∧
    Drains Queues.nextRestrictionCheck (checkAndUpdate gen.mDft) s1
      (be.restrictions.foldl Queues.checkRestrictionLater q1) B s2 q2

/-- Specification-side (step 6, second sentence): the failsafe propagation is drained (tasks
`C`), "then (if don't-care propagation enabled)" the don't-care propagation is drained
(tasks `D`); this leads from the state `s2` with the queues `q2` to the state `s4`. -/
def Settles (gen : DftNextStateGenerator σ) (s2 : σ) (q2 : Queues)
    (C D : List (Nat × Queues)) (s4 : σ) : Prop :=
  ∃ s3 q3, Drains Queues.nextFailsafePropagation gen.mDft.checkFailsafe s2 q2 C s3 q3 ∧
    ((gen.enableDC = true ∧
        ∃ q4, Drains Queues.nextDontCarePropagation gen.mDft.checkDontCareAnymore s3 q3 D
          s4 q4) ∨
      (gen.enableDC = false ∧ D = [] ∧ s4 = s3))

/-- Specification-side (steps 3 to 6): what the failure of candidate `i` of the state `s`
leads to, with the collaborator calls made on the way. The successor is discarded (`none`)
when the propagated state is invalid; it is bound to the merged failed state when the top
level has failed in it and merging is enabled; otherwise the failsafe and the don't-care
propagation are run and the sets of the failed element are updated. -/
inductive LeadsTo (gen : DftNextStateGenerator σ) (s : σ) (hasDep : Bool) (i : Nat) :
    Option (Successor σ) → List CallEvent → Prop
  | discarded (be : DFTBE) (A B : List (Nat × Queues)) (s2 : σ) (q2 : Queues)
      (hprop : Propagates gen s hasDep i be A B s2 q2)
      (hinvalid : gen.mDft.isInvalid s2 = true) :
      LeadsTo gen s hasDep i none (events .checkFails A ++ events .checkFails B)
  | merged (be : DFTBE) (A B : List (Nat × Queues)) (s2 : σ) (q2 : Queues)
      (hprop : Propagates gen s hasDep i be A B s2 q2)
      (hvalid : gen.mDft.isInvalid s2 = false)
      (htop : gen.mDft.stateHasFailed s2 gen.mDft.getTopLevelIndex = true)
      (hmerge : gen.mergeFailedStates = true) :
      LeadsTo gen s hasDep i (some { nextBE := be, newState := s2, merged := true })
        (events .checkFails A ++ events .checkFails B)
  | registered (be : DFTBE) (A B C D : List (Nat × Queues)) (s2 s4 : σ) (q2 : Queues)
      (hprop : Propagates gen s hasDep i be A B s2 q2)
      (hvalid : gen.mDft.isInvalid s2 = false)
      (hnot : gen.mDft.stateHasFailed s2 gen.mDft.getTopLevelIndex = false ∨
        gen.mergeFailedStates = false)
      (hsettle : Settles gen s2 q2 C D s4) :
      LeadsTo gen s hasDep i
        (some { nextBE := be,
                newState := gen.mDft.updateDontCareDependencies
                  (gen.mDft.updateFailableDependencies s4 be.id) be.id,
                merged := false })
        (events .checkFails A ++ events .checkFails B ++ events .checkFailsafe C
          ++ events .checkDontCareAnymore D)

/-- Specification-side (step 6): the id bound to a successor, "the canonical merged-failed
id" or the answer of the callback with which the new state is registered. -/
def boundId (gen : DftNextStateGenerator σ) (stateToIdCallback : σ → ρ → Nat × ρ)
    (succ : Successor σ) (registry : ρ) : Nat × ρ :=
  if succ.merged = true then (gen.mergeFailedStateId, registry)
  else stateToIdCallback succ.newState registry

/-- Specification-side (step 7, mode B): the transitions for the outcomes of the candidates,
in candidate order: a discarded successor has none, and every other successor has the
transition to the id bound to it with the selected rate of the failed basic element. The
second component is the registry after the registrations. -/
def rateTransitions (gen : DftNextStateGenerator σ) (stateToIdCallback : σ → ρ → Nat × ρ)
    (s : σ) : List (Option (Successor σ)) → ρ → List (Nat × ℚ) × ρ
  | [], registry => ([], registry)
  | none :: rest, registry => rateTransitions gen stateToIdCallback s rest registry
  | some succ :: rest, registry =>
    let bound := boundId gen stateToIdCallback succ registry
    let r := rateTransitions gen stateToIdCallback s rest bound.2
    ((bound.1, selectedRate gen s succ.nextBE) :: r.1, r.2)

/-- Specification-side (step 7, mode D): the choice for dependency `i` with the successor
`succ`: "add a transition (successor, p). If p < 1, clone the original state, apply
`letDependencyBeUnsuccessful(i)`, register, and add a transition (successorUnsuccessful,
1 - p)". The second component is the registry after the registrations. -/
def dependencyResolution (gen : DftNextStateGenerator σ)
    (stateToIdCallback : σ → ρ → Nat × ρ) (s : σ) (i : Nat) (succ : Successor σ)
    (registry : ρ) : Choice × ρ :=
  let bound := boundId gen stateToIdCallback succ registry
  let p := gen.mDft.dependencyProbability (gen.mDft.getDependencyId s i)
  if p = 1 then
    ({ actionIndex := 0, markovian := false, distribution := [(bound.1, p)] }, bound.2)
  else
    let unsuccessful := stateToIdCallback (gen.mDft.letDependencyBeUnsuccessful s i) bound.2
    ({ actionIndex := 0, markovian := false,
       distribution := addToDistribution [(bound.1, p)] unsuccessful.1 (1 - p) },
      unsuccessful.2)

/-- Specification-side (step 7, mode D): the choices for the outcomes of the dependencies
`first`, `first + 1`, ..., "one choice per dependency" with a successor that is not
discarded, "in the same order as the iterated dependencies". The second component is the
registry after the registrations. -/
def dependencyResolutions (gen : DftNextStateGenerator σ)
    (stateToIdCallback : σ → ρ → Nat × ρ) (s : σ) :
    Nat → List (Option (Successor σ)) → ρ → List Choice × ρ
  | _, [], registry => ([], registry)
  | first, none :: rest, registry =>
    dependencyResolutions gen stateToIdCallback s (first + 1) rest registry
  | first, some succ :: rest, registry =>
    let resolved := dependencyResolution gen stateToIdCallback s first succ registry
    let r := dependencyResolutions gen stateToIdCallback s (first + 1) rest resolved.2
    (resolved.1 :: r.1, r.2)

/-- The candidates, counted from `first`, whose successor is not discarded. -/
def successorIndices {σ : Type} : Nat → List (Option (Successor σ)) → List Nat
  | _, [] => []
  | first, none :: rest => successorIndices (first + 1) rest
  | first, some _ :: rest => first :: successorIndices (first + 1) rest

end DftNextStateGenerator

namespace DftNextStateGenerator

variable {σ : Type}

/-- The shape shared by the four loops of `expand` that drain a queue: `loop` counts down the
iterations still allowed, ends when `pop` finds the queue empty and otherwise hands the
popped task to `handle`. -/
structure IsDrain (loop : Nat → σ → Queues → Option (σ × Queues))
    (pop : Queues → Option (Nat × Queues)) (handle : Nat → σ → Queues → σ × Queues) :
    Prop where
  zero_done : ∀ s q, pop q = none → loop 0 s q = some (s, q)
  zero_pending : ∀ s q task, pop q = some task → loop 0 s q = none
  succ_done : ∀ n s q, pop q = none → loop (n + 1) s q = some (s, q)
  succ_pending : ∀ n s q next q1, pop q = some (next, q1) →
    loop (n + 1) s q = loop n (handle next s q1).1 (handle next s q1).2

end DftNextStateGenerator

/-! ## Theorems: BDD analyzer -/

theorem Bdd.eval_congr (b : Bdd) (s s' : Finset Nat)
    (h : ∀ u ∈ b.vars, (u ∈ s ↔ u ∈ s')) : b.eval s = b.eval s' := by
  induction b with
  | terminal id value => rfl
  | node id v t e iht ihe =>
    have hv : v ∈ s ↔ v ∈ s' := h v (by simp [Bdd.vars])
    have ht := iht (fun u hu => h u (by simp [Bdd.vars, hu]))
    have he := ihe (fun u hu => h u (by simp [Bdd.vars, hu]))
    by_cases hs : v ∈ s
    · have hs' := hv.mp hs
      simp [Bdd.eval, hs, hs', ht]
    · have hs' : v ∉ s' := fun c => hs (hv.mpr c)
      simp [Bdd.eval, hs, hs', he]

theorem assignmentWeight_insert_false (p : Nat → ℚ) (a : Nat) (V s : Finset Nat)
    (ha : a ∉ V) (hs : s ⊆ V) :
    assignmentWeight p (insert a V) s = (1 - p a) * assignmentWeight p V s := by
  have has : a ∉ s := fun c => ha (hs c)
  unfold assignmentWeight
  rw [Finset.prod_insert ha]
  simp [has]

theorem assignmentWeight_insert_true (p : Nat → ℚ) (a : Nat) (V s : Finset Nat)
    (ha : a ∉ V) :
    assignmentWeight p (insert a V) (insert a s) = p a * assignmentWeight p V s := by
  unfold assignmentWeight
  rw [Finset.prod_insert ha]
  simp only [Finset.mem_insert, true_or, if_true]
  congr 1
  apply Finset.prod_congr rfl
  intro u hu
  have hne : u ≠ a := fun c => ha (c ▸ hu)
  simp [hne]

theorem assignmentWeight_sum (p : Nat → ℚ) (V : Finset Nat) :
    ∑ s in V.powerset, assignmentWeight p V s = 1 := by
  induction V using Finset.induction_on with
  | empty => simp [assignmentWeight]
  | @insert a V ha ih =>
    rw [Finset.sum_powerset_insert ha]
    have h1 : ∑ s in V.powerset, assignmentWeight p (insert a V) s
        = ∑ s in V.powerset, (1 - p a) * assignmentWeight p V s :=
      Finset.sum_congr rfl (fun s hs =>
        assignmentWeight_insert_false p a V s ha (Finset.mem_powerset.mp hs))
    have h2 : ∑ s in V.powerset, assignmentWeight p (insert a V) (insert a s)
        = ∑ s in V.powerset, p a * assignmentWeight p V s :=
      Finset.sum_congr rfl (fun s _ => assignmentWeight_insert_true p a V s ha)
    rw [h1, h2, ← Finset.mul_sum, ← Finset.mul_sum, ih]
    ring

theorem sum_sat_eq_probabilityTotal (p : Nat → ℚ) (b : Bdd) :
    ∀ V : Finset Nat, b.NoRepeat → b.vars ⊆ V →
      ∑ s in V.powerset, (if b.eval s = true then assignmentWeight p V s else 0)
        = probabilityTotal p b := by
  induction b with
  | terminal id value =>
    intro V _ _
    cases value
    · simp [Bdd.eval, probabilityTotal]
    · simp [Bdd.eval, probabilityTotal, assignmentWeight_sum]
  | node id v t e iht ihe =>
    intro V hnr hsub
    obtain ⟨hvt, hve, hnt, hne⟩ := hnr
    have hvV : v ∈ V := hsub (by simp [Bdd.vars])
    have hvV' : v ∉ V.erase v := Finset.not_mem_erase v V
    have htV' : t.vars ⊆ V.erase v := by
      intro u hu
      refine Finset.mem_erase.mpr ⟨fun c => hvt (c ▸ hu), hsub (by simp [Bdd.vars, hu])⟩
    have heV' : e.vars ⊆ V.erase v := by
      intro u hu
      refine Finset.mem_erase.mpr ⟨fun c => hve (c ▸ hu), hsub (by simp [Bdd.vars, hu])⟩
    have hV : V = insert v (V.erase v) := (Finset.insert_erase hvV).symm
    rw [hV, Finset.sum_powerset_insert hvV']
    have h1 : ∑ s in (V.erase v).powerset,
        (if (Bdd.node id v t e).eval s = true then
          assignmentWeight p (insert v (V.erase v)) s else 0)
        = ∑ s in (V.erase v).powerset,
          (1 - p v) * (if e.eval s = true then assignmentWeight p (V.erase v) s else 0) := by
      apply Finset.sum_congr rfl
      intro s hs
      have hsV := Finset.mem_powerset.mp hs
      have hvs : v ∉ s := fun c => hvV' (hsV c)
      rw [assignmentWeight_insert_false p v _ s hvV' hsV]
      simp only [Bdd.eval, hvs, if_false]
      split <;> simp
    have h2 : ∑ s in (V.erase v).powerset,
        (if (Bdd.node id v t e).eval (insert v s) = true then
          assignmentWeight p (insert v (V.erase v)) (insert v s) else 0)
        = ∑ s in (V.erase v).powerset,
          p v * (if t.eval s = true then assignmentWeight p (V.erase v) s else 0) := by
      apply Finset.sum_congr rfl
      intro s _
      rw [assignmentWeight_insert_true p v _ s hvV']
      have hev : t.eval (insert v s) = t.eval s := by
        apply Bdd.eval_congr
        intro u hu
        have hne : u ≠ v := fun c => hvt (c ▸ hu)
        simp [hne]
      simp only [Bdd.eval, Finset.mem_insert, true_or, if_true, hev]
      split <;> simp
    rw [h1, h2, ← Finset.mul_sum, ← Finset.mul_sum, iht _ hnt htV', ihe _ hne heV']
    simp only [probabilityTotal]
    ring

theorem satProbability_eq_probabilityTotal (p : Nat → ℚ) (b : Bdd) (h : b.NoRepeat) :
    satProbability p b = probabilityTotal p b := by
  unfold satProbability
  rw [Finset.sum_filter]
  exact sum_sat_eq_probabilityTotal p b b.vars h (Finset.Subset.refl _)

theorem probabilityOf_eq_total (p : ProbabilityMap) (b : Bdd)
    (hp : ∀ v ∈ b.vars, (p v).isSome = true) :
    probabilityOf p b = some (probabilityTotal (fun v => (p v).getD 0) b) := by
  induction b with
  | terminal id value => cases value <;> rfl
  | node id v t e iht ihe =>
    have ht := iht (fun u hu => hp u (by simp [Bdd.vars, hu]))
    have he := ihe (fun u hu => hp u (by simp [Bdd.vars, hu]))
    have hv := hp v (by simp [Bdd.vars])
    obtain ⟨pv, hpv⟩ := Option.isSome_iff_exists.mp hv
    simp [probabilityOf, probabilityTotal, ht, he, hpv]

theorem Bdd.self_mem_subnodes (b : Bdd) : b ∈ b.subnodes := by
  cases b <;> simp [Bdd.subnodes]

theorem Bdd.subnodes_trans (root : Bdd) :
    ∀ b ∈ root.subnodes, ∀ n ∈ b.subnodes, n ∈ root.subnodes := by
  induction root with
  | terminal id value =>
    intro b hb n hn
    simp only [Bdd.subnodes, List.mem_singleton] at hb
    subst hb
    exact hn
  | node id v t e iht ihe =>
    intro b hb n hn
    simp only [Bdd.subnodes, List.mem_cons, List.mem_append] at hb
    rcases hb with hb | hb | hb
    · subst hb
      exact hn
    · simp only [Bdd.subnodes, List.mem_cons, List.mem_append]
      exact Or.inr (Or.inl (iht b hb n hn))
    · simp only [Bdd.subnodes, List.mem_cons, List.mem_append]
      exact Or.inr (Or.inr (ihe b hb n hn))

theorem Bdd.then_mem_subnodes {root : Bdd} {id v : Nat} {t e : Bdd}
    (h : Bdd.node id v t e ∈ root.subnodes) : t ∈ root.subnodes :=
  Bdd.subnodes_trans root _ h t (by simp [Bdd.subnodes, Bdd.self_mem_subnodes])

theorem Bdd.else_mem_subnodes {root : Bdd} {id v : Nat} {t e : Bdd}
    (h : Bdd.node id v t e ∈ root.subnodes) : e ∈ root.subnodes :=
  Bdd.subnodes_trans root _ h e (by simp [Bdd.subnodes, Bdd.self_mem_subnodes])

theorem cacheSound_empty (p : ProbabilityMap) (root : Bdd) : CacheSound p root emptyCache := by
  intro n _ q h
  simp [emptyCache] at h

theorem cacheSoundFor_empty (f : Bdd → Option ℚ) (root : Bdd) :
    CacheSoundFor f root emptyCache := by
  intro n _ q h
  simp [emptyCache] at h

theorem cacheSoundFor_update (f : Bdd → Option ℚ) (root : Bdd) (hhc : root.HashConsed)
    (c : ScalarCache) (hc : CacheSoundFor f root c) (b : Bdd) (hb : b ∈ root.subnodes) (q : ℚ)
    (hq : f b = some q) :
    CacheSoundFor f root (Function.update c b.GetBDD (some q)) := by
  intro n hn q' h
  by_cases hid : n.GetBDD = b.GetBDD
  · have hnb : n = b := hhc n hn b hb hid
    rw [hid, Function.update_same] at h
    rw [hnb, hq, ← h]
  · rw [Function.update_noteq hid] at h
    exact hc n hn q' h

/-- The memoised traversal agrees with the uncached recursion whenever the cache is sound. -/
theorem recursiveProbability_memo (p : ProbabilityMap) (root : Bdd) (hhc : root.HashConsed)
    (b : Bdd) :
    b ∈ root.subnodes → ∀ c, CacheSound p root c →
      (∀ q, probabilityOf p b = some q →
        ∃ c', recursiveProbability p b c = some (q, c') ∧ CacheSound p root c') ∧
      (probabilityOf p b = none → recursiveProbability p b c = none) := by
  induction b with
  | terminal id value =>
    intro _ c hc
    cases value
    · refine ⟨fun q hq => ⟨c, ?_, hc⟩, fun h => ?_⟩
      · simp only [probabilityOf, Option.some.injEq] at hq
        simp [recursiveProbability, hq]
      · simp [probabilityOf] at h
    · refine ⟨fun q hq => ⟨c, ?_, hc⟩, fun h => ?_⟩
      · simp only [probabilityOf, Option.some.injEq] at hq
        simp [recursiveProbability, hq]
      · simp [probabilityOf] at h
  | node id v t e iht ihe =>
    intro hb c hc
    have ht := Bdd.then_mem_subnodes hb
    have he := Bdd.else_mem_subnodes hb
    cases hcid : c id with
    | some q0 =>
      have hq0 : probabilityOf p (Bdd.node id v t e) = some q0 := hc _ hb q0 hcid
      refine ⟨fun q hq => ⟨c, ?_, hc⟩, fun h => ?_⟩
      · rw [hq0] at hq
        simp only [Option.some.injEq] at hq
        simp [recursiveProbability, hcid, hq]
      · rw [hq0] at h
        cases h
    | none =>
      cases hpv : p v with
      | none =>
        refine ⟨fun q hq => ?_, fun _ => ?_⟩
        · simp [probabilityOf, hpv] at hq
        · simp [recursiveProbability, hcid, hpv]
      | some pv =>
        obtain ⟨iht1, iht2⟩ := iht ht c hc
        cases hpt : probabilityOf p t with
        | none =>
          have hr := iht2 hpt
          refine ⟨fun q hq => ?_, fun _ => ?_⟩
          · simp [probabilityOf, hpv, hpt] at hq
          · simp [recursiveProbability, hcid, hpv, hr]
        | some pt =>
          obtain ⟨c1, hr1, hc1⟩ := iht1 pt hpt
          obtain ⟨ihe1, ihe2⟩ := ihe he c1 hc1
          cases hpe : probabilityOf p e with
          | none =>
            have hr := ihe2 hpe
            refine ⟨fun q hq => ?_, fun _ => ?_⟩
            · simp [probabilityOf, hpv, hpt, hpe] at hq
            · simp [recursiveProbability, hcid, hpv, hr1, hr]
          | some pe =>
            obtain ⟨c2, hr2, hc2⟩ := ihe1 pe hpe
            have hnode : probabilityOf p (Bdd.node id v t e)
                = some (pv * pt + (1 - pv) * pe) := by
              simp [probabilityOf, hpv, hpt, hpe]
            refine ⟨fun q hq => ?_, fun h => ?_⟩
            · rw [hnode] at hq
              simp only [Option.some.injEq] at hq
              subst hq
              refine ⟨Function.update c2 id (some (pv * pt + (1 - pv) * pe)), ?_, ?_⟩
              · simp [recursiveProbability, hcid, hpv, hr1, hr2]
              · exact cacheSoundFor_update _ root hhc c2 hc2 (Bdd.node id v t e) hb _ hnode
            · rw [hnode] at h
              cases h

/-- C1: for an ordered, hash-consed BDD and a probability map covering its variables,
`recursiveProbability` started with an empty cache returns the probability that the BDD is
true under independent variables (the sum over satisfying assignments of the product of
`p_v` / `1 - p_v`); for the BDD of OR(a,b) this is `1 - (1 - p_a)(1 - p_b)`. -/
theorem recursiveProbability_eq_satProbability (b : Bdd) (p : ProbabilityMap)
    (hord : b.NoRepeat) (hhc : b.HashConsed) (hp : ∀ v ∈ b.vars, (p v).isSome = true) :
    (∃ c, recursiveProbability p b emptyCache
        = some (satProbability (fun v => (p v).getD 0) b, c)) ∧
    (∀ (i j i1 i0 x y : Nat) (px py : ℚ), p x = some px → p y = some py →
      (∃ c, recursiveProbability p
          (.node i x (.terminal i1 true) (.node j y (.terminal i1 true) (.terminal i0 false)))
          emptyCache = some (1 - (1 - px) * (1 - py), c)) ∧
      (x ≠ y → satProbability (fun v => (p v).getD 0)
          (.node i x (.terminal i1 true) (.node j y (.terminal i1 true) (.terminal i0 false)))
        = 1 - (1 - px) * (1 - py))) := by
  refine ⟨?_, ?_⟩
  · have hmemo := (recursiveProbability_memo p b hhc b (Bdd.self_mem_subnodes b) emptyCache
      (cacheSound_empty p b)).1 _ (probabilityOf_eq_total p b hp)
    obtain ⟨c, hc, _⟩ := hmemo
    exact ⟨c, by rw [hc, satProbability_eq_probabilityTotal _ _ hord]⟩
  · intro i j i1 i0 x y px py hx hy
    refine ⟨?_, ?_⟩
    · simp only [recursiveProbability, emptyCache, hx, hy]
      refine ⟨_, congrArg some (Prod.ext ?_ rfl)⟩
      show px * 1 + (1 - px) * (py * 1 + (1 - py) * 0) = 1 - (1 - px) * (1 - py)
      ring
    · intro hxy
      rw [satProbability_eq_probabilityTotal]
      · simp only [probabilityTotal, hx, hy, Option.getD_some]
        ring
      · simp [Bdd.NoRepeat, Bdd.vars, hxy]

theorem recursiveProbability_eq_satProbability_witness :
    (∃ c, recursiveProbability exProbabilities exOr emptyCache
        = some (satProbability (fun v => (exProbabilities v).getD 0) exOr, c)) ∧
    (∀ (i j i1 i0 x y : Nat) (px py : ℚ), exProbabilities x = some px →
      exProbabilities y = some py →
      (∃ c, recursiveProbability exProbabilities
          (.node i x (.terminal i1 true) (.node j y (.terminal i1 true) (.terminal i0 false)))
          emptyCache = some (1 - (1 - px) * (1 - py), c)) ∧
      (x ≠ y → satProbability (fun v => (exProbabilities v).getD 0)
          (.node i x (.terminal i1 true) (.node j y (.terminal i1 true) (.terminal i0 false)))
        = 1 - (1 - px) * (1 - py))) :=
  recursiveProbability_eq_satProbability exOr exProbabilities (by decide) (by decide)
    (by decide)

/-- The memoised Birnbaum traversal agrees with the uncached recursion on sound caches. -/
theorem recursiveBirnbaumFactor_memo (k : Nat) (p : ProbabilityMap) (root : Bdd)
    (hhc : root.HashConsed) (b : Bdd) :
    b ∈ root.subnodes → ∀ cp cb, CacheSound p root cp →
      CacheSoundFor (birnbaumOf k p) root cb →
      (∀ q, birnbaumOf k p b = some q →
        ∃ cp' cb', recursiveBirnbaumFactor k p b cp cb = some (q, cp', cb') ∧
          CacheSound p root cp' ∧ CacheSoundFor (birnbaumOf k p) root cb') ∧
      (birnbaumOf k p b = none → recursiveBirnbaumFactor k p b cp cb = none) := by
  induction b with
  | terminal id value =>
    intro _ cp cb hcp hcb
    refine ⟨fun q hq => ⟨cp, cb, ?_, hcp, hcb⟩, fun h => ?_⟩
    · simp only [birnbaumOf, Option.some.injEq] at hq
      simp [recursiveBirnbaumFactor, hq]
    · simp [birnbaumOf] at h
  | node id v t e iht ihe =>
    intro hb cp cb hcp hcb
    have ht := Bdd.then_mem_subnodes hb
    have he := Bdd.else_mem_subnodes hb
    cases hcid : cb id with
    | some q0 =>
      have hq0 : birnbaumOf k p (Bdd.node id v t e) = some q0 := hcb _ hb q0 hcid
      refine ⟨fun q hq => ⟨cp, cb, ?_, hcp, hcb⟩, fun h => ?_⟩
      · rw [hq0] at hq
        simp only [Option.some.injEq] at hq
        simp [recursiveBirnbaumFactor, hcid, hq]
      · rw [hq0] at h
        cases h
    | none =>
      cases hpv : p v with
      | none =>
        refine ⟨fun q hq => ?_, fun _ => ?_⟩
        · simp [birnbaumOf, hpv] at hq
        · simp [recursiveBirnbaumFactor, hcid, hpv]
      | some pv =>
        by_cases hgt : v > k
        · refine ⟨fun q hq => ⟨cp, cb, ?_, hcp, hcb⟩, fun h => ?_⟩
          · simp only [birnbaumOf, hpv, hgt, if_true, Option.some.injEq] at hq
            simp [recursiveBirnbaumFactor, hcid, hpv, hgt, hq]
          · simp [birnbaumOf, hpv, hgt] at h
        · by_cases heq : v = k
          · subst heq
            obtain ⟨pt1, pt2⟩ := recursiveProbability_memo p root hhc t ht cp hcp
            cases hpt : probabilityOf p t with
            | none =>
              have hr := pt2 hpt
              refine ⟨fun q hq => ?_, fun _ => ?_⟩
              · simp [birnbaumOf, hpv, hgt, hpt] at hq
              · simp [recursiveBirnbaumFactor, hcid, hpv, hgt, hr]
            | some pt =>
              obtain ⟨c1, hr1, hc1⟩ := pt1 pt hpt
              obtain ⟨pe1, pe2⟩ := recursiveProbability_memo p root hhc e he c1 hc1
              cases hpe : probabilityOf p e with
              | none =>
                have hr := pe2 hpe
                refine ⟨fun q hq => ?_, fun _ => ?_⟩
                · simp [birnbaumOf, hpv, hgt, hpt, hpe] at hq
                · simp [recursiveBirnbaumFactor, hcid, hpv, hgt, hr1, hr]
              | some pe =>
                obtain ⟨c2, hr2, hc2⟩ := pe1 pe hpe
                have hnode : birnbaumOf v p (Bdd.node id v t e) = some (pt - pe) := by
                  simp [birnbaumOf, hpv, hgt, hpt, hpe]
                refine ⟨fun q hq => ?_, fun h => ?_⟩
                · rw [hnode] at hq
                  simp only [Option.some.injEq] at hq
                  subst hq
                  refine ⟨c2, Function.update cb id (some (pt - pe)), ?_, hc2, ?_⟩
                  · simp [recursiveBirnbaumFactor, hcid, hpv, hgt, hr1, hr2]
                  · exact cacheSoundFor_update _ root hhc cb hcb (Bdd.node id v t e) hb _ hnode
                · rw [hnode] at h
                  cases h
          · obtain ⟨iht1, iht2⟩ := iht ht cp cb hcp hcb
            cases hbt : birnbaumOf k p t with
            | none =>
              have hr := iht2 hbt
              refine ⟨fun q hq => ?_, fun _ => ?_⟩
              · simp [birnbaumOf, hpv, hgt, heq, hbt] at hq
              · simp [recursiveBirnbaumFactor, hcid, hpv, hgt, heq, hr]
            | some bt =>
              obtain ⟨cp1, cb1, hr1, hcp1, hcb1⟩ := iht1 bt hbt
              obtain ⟨ihe1, ihe2⟩ := ihe he cp1 cb1 hcp1 hcb1
              cases hbe : birnbaumOf k p e with
              | none =>
                have hr := ihe2 hbe
                refine ⟨fun q hq => ?_, fun _ => ?_⟩
                · simp [birnbaumOf, hpv, hgt, heq, hbt, hbe] at hq
                · simp [recursiveBirnbaumFactor, hcid, hpv, hgt, heq, hr1, hr]
              | some be =>
                obtain ⟨cp2, cb2, hr2, hcp2, hcb2⟩ := ihe1 be hbe
                have hnode : birnbaumOf k p (Bdd.node id v t e)
                    = some (pv * bt + (1 - pv) * be) := by
                  simp [birnbaumOf, hpv, hgt, heq, hbt, hbe]
                refine ⟨fun q hq => ?_, fun h => ?_⟩
                · rw [hnode] at hq
                  simp only [Option.some.injEq] at hq
                  subst hq
                  refine ⟨cp2, Function.update cb2 id (some (pv * bt + (1 - pv) * be)),
                    ?_, hcp2, ?_⟩
                  · simp [recursiveBirnbaumFactor, hcid, hpv, hgt, heq, hr1, hr2]
                  · exact cacheSoundFor_update _ root hhc cb2 hcb2 (Bdd.node id v t e) hb _ hnode
                · rw [hnode] at h
                  cases h

theorem probabilityTotal_congr (P P' : Nat → ℚ) (b : Bdd)
    (h : ∀ u ∈ b.vars, P u = P' u) : probabilityTotal P b = probabilityTotal P' b := by
  induction b with
  | terminal id value => cases value <;> rfl
  | node id v t e iht ihe =>
    have hv := h v (by simp [Bdd.vars])
    have ht := iht (fun u hu => h u (by simp [Bdd.vars, hu]))
    have he := ihe (fun u hu => h u (by simp [Bdd.vars, hu]))
    simp only [probabilityTotal, hv, ht, he]

theorem probabilityTotal_update_of_lt (P : Nat → ℚ) (k : Nat) (x : ℚ) (b : Bdd)
    (h : ∀ u ∈ b.vars, k < u) :
    probabilityTotal (Function.update P k x) b = probabilityTotal P b := by
  apply probabilityTotal_congr
  intro u hu
  exact Function.update_noteq (Nat.ne_of_gt (h u hu)) _ _

theorem getD_update (p : ProbabilityMap) (k : Nat) (x : ℚ) :
    (fun v => ((Function.update p k (some x)) v).getD 0)
      = Function.update (fun v => (p v).getD 0) k x := by
  funext v
  by_cases h : v = k
  · subst h; simp
  · simp [Function.update_noteq h]

/-- Under the ordering invariant the uncached Birnbaum recursion is the difference of the
top probabilities with `p_k` set to one and to zero. -/
theorem birnbaumOf_eq_diff (k : Nat) (p : ProbabilityMap) (b : Bdd) (hord : b.Ordered)
    (hp : ∀ v ∈ b.vars, (p v).isSome = true) :
    birnbaumOf k p b
      = some (probabilityTotal (Function.update (fun v => (p v).getD 0) k 1) b
          - probabilityTotal (Function.update (fun v => (p v).getD 0) k 0) b) := by
  induction b with
  | terminal id value => cases value <;> simp [birnbaumOf, probabilityTotal]
  | node id v t e iht ihe =>
    obtain ⟨hot, hoe, hordt, horde⟩ := hord
    have hpt : ∀ u ∈ t.vars, (p u).isSome = true := fun u hu => hp u (by simp [Bdd.vars, hu])
    have hpe : ∀ u ∈ e.vars, (p u).isSome = true := fun u hu => hp u (by simp [Bdd.vars, hu])
    obtain ⟨pv, hpv⟩ := Option.isSome_iff_exists.mp (hp v (by simp [Bdd.vars]))
    by_cases hgt : v > k
    · have hall : ∀ u ∈ (Bdd.node id v t e).vars, k < u := by
        intro u hu
        simp only [Bdd.vars, Finset.mem_insert, Finset.mem_union] at hu
        rcases hu with rfl | hu | hu
        · exact hgt
        · exact lt_trans hgt (hot u hu)
        · exact lt_trans hgt (hoe u hu)
      rw [probabilityTotal_update_of_lt _ k 1 _ hall, probabilityTotal_update_of_lt _ k 0 _ hall]
      simp [birnbaumOf, hpv, hgt]
    · by_cases heq : v = k
      · subst heq
        have e1 := probabilityOf_eq_total p t hpt
        have e2 := probabilityOf_eq_total p e hpe
        simp only [birnbaumOf, hpv, hgt, if_false, if_true, e1, e2, probabilityTotal,
          Function.update_same, probabilityTotal_update_of_lt _ v _ t hot,
          probabilityTotal_update_of_lt _ v _ e hoe]
        congr 1
        ring
      · have ht := iht hordt hpt
        have he := ihe horde hpe
        simp only [birnbaumOf, hpv, hgt, heq, if_false, ht, he, probabilityTotal,
          Function.update_noteq heq, hpv, Option.getD_some]
        congr 1
        ring

theorem recursiveProbability_empty_total (p : ProbabilityMap) (b : Bdd) (hhc : b.HashConsed)
    (hp : ∀ v ∈ b.vars, (p v).isSome = true) :
    ∃ c, recursiveProbability p b emptyCache
      = some (probabilityTotal (fun v => (p v).getD 0) b, c) := by
  obtain ⟨c, hc, _⟩ := (recursiveProbability_memo p b hhc b (Bdd.self_mem_subnodes b)
    emptyCache (cacheSoundFor_empty _ b)).1 _ (probabilityOf_eq_total p b hp)
  exact ⟨c, hc⟩

theorem covers_update (p : ProbabilityMap) (k : Nat) (x : ℚ) (b : Bdd)
    (hp : ∀ v ∈ b.vars, (p v).isSome = true) :
    ∀ v ∈ b.vars, ((Function.update p k (some x)) v).isSome = true := by
  intro v hv
  by_cases h : v = k
  · subst h; simp
  · rw [Function.update_noteq h]; exact hp v hv

/-- C2: for a BDD whose variable indices strictly increase along every path (hash-consed, with
a probability map covering its variables) `recursiveBirnbaumFactor k` started with empty caches
returns `recursiveProbability` under `p[k:=1]` minus `recursiveProbability` under `p[k:=0]`;
for the BDD of AND(a,b) the Birnbaum factor of `a` is `p_b`. -/
theorem recursiveBirnbaumFactor_eq_diff (k : Nat) (b : Bdd) (p : ProbabilityMap)
    (hord : b.Ordered) (hhc : b.HashConsed) (hp : ∀ v ∈ b.vars, (p v).isSome = true) :
    (∃ q1 q0 c1 c0 cp cb,
      recursiveProbability (Function.update p k (some 1)) b emptyCache = some (q1, c1) ∧
      recursiveProbability (Function.update p k (some 0)) b emptyCache = some (q0, c0) ∧
      recursiveBirnbaumFactor k p b emptyCache emptyCache = some (q1 - q0, cp, cb)) ∧
    (∀ (i j i1 i0 x y : Nat) (px py : ℚ), p x = some px → p y = some py →
      (∃ cp cb, recursiveBirnbaumFactor x p
          (.node i x (.node j y (.terminal i1 true) (.terminal i0 false)) (.terminal i0 false))
          emptyCache emptyCache = some (py, cp, cb)) ∧
      (y < x → ∃ cp cb, recursiveBirnbaumFactor x p
          (.node i y (.node j x (.terminal i1 true) (.terminal i0 false)) (.terminal i0 false))
          emptyCache emptyCache = some (py, cp, cb))) := by
  refine ⟨?_, ?_⟩
  · obtain ⟨c1, h1⟩ := recursiveProbability_empty_total (Function.update p k (some 1)) b hhc
      (covers_update p k 1 b hp)
    obtain ⟨c0, h0⟩ := recursiveProbability_empty_total (Function.update p k (some 0)) b hhc
      (covers_update p k 0 b hp)
    obtain ⟨cp, cb, hB, _, _⟩ := (recursiveBirnbaumFactor_memo k p b hhc b
      (Bdd.self_mem_subnodes b) emptyCache emptyCache (cacheSoundFor_empty _ b)
      (cacheSoundFor_empty _ b)).1 _ (birnbaumOf_eq_diff k p b hord hp)
    rw [getD_update] at h1 h0
    exact ⟨_, _, c1, c0, cp, cb, h1, h0, hB⟩
  · intro i j i1 i0 x y px py hx hy
    refine ⟨?_, ?_⟩
    · simp only [recursiveBirnbaumFactor, recursiveProbability, emptyCache, hx, hy,
        gt_iff_lt, lt_irrefl, if_false, if_true]
      refine ⟨_, _, congrArg some (Prod.ext ?_ rfl)⟩
      show py * 1 + (1 - py) * 0 - 0 = py
      ring
    · intro hyx
      have h1 : ¬ x < y := Nat.not_lt.mpr (Nat.le_of_lt hyx)
      have h2 : ¬ y = x := Nat.ne_of_lt hyx
      simp only [recursiveBirnbaumFactor, recursiveProbability, emptyCache, hx, hy,
        gt_iff_lt, lt_irrefl, if_false, if_true, h1, h2]
      refine ⟨_, _, congrArg some (Prod.ext ?_ rfl)⟩
      show py * (1 - 0) + (1 - py) * 0 = py
      ring

theorem recursiveBirnbaumFactor_eq_diff_witness :
    ∃ q1 q0 c1 c0 cp cb,
      recursiveProbability (Function.update exProbabilities 0 (some 1)) exAnd emptyCache
        = some (q1, c1) ∧
      recursiveProbability (Function.update exProbabilities 0 (some 0)) exAnd emptyCache
        = some (q0, c0) ∧
      recursiveBirnbaumFactor 0 exProbabilities exAnd emptyCache emptyCache
        = some (q1 - q0, cp, cb) :=
  (recursiveBirnbaumFactor_eq_diff 0 exAnd exProbabilities (by decide) (by decide)
    (by decide)).1

theorem thenVars_cons_true (v : Nat) (π : List (Nat × Bool)) :
    thenVars ((v, true) :: π) = v :: thenVars π := by
  simp [thenVars]

theorem thenVars_cons_false (v : Nat) (π : List (Nat × Bool)) :
    thenVars ((v, false) :: π) = thenVars π := by
  simp [thenVars]

theorem recursiveMCS_eq_paths (b : Bdd) (buffer : List Nat) (out : List (List Nat)) :
    recursiveMCS b buffer out
      = (buffer, out ++ (pathsToOne b).map (fun π => buffer ++ thenVars π)) := by
  induction b generalizing buffer out with
  | terminal id value =>
    cases value <;> simp [recursiveMCS, pathsToOne, thenVars]
  | node id v t e iht ihe =>
    simp only [recursiveMCS, iht, ihe, List.dropLast_concat, pathsToOne, List.map_append,
      List.map_map, List.append_assoc]
    congr 2

/-- C4: `recursiveMCS` appends to the output exactly one entry per path to the one terminal,
in depth-first order with the then branch first; each entry is the initial buffer followed by
the variables whose then branch the path takes; earlier entries are kept and the buffer is
returned to its initial content. -/
theorem recursiveMCS_appends_paths (b : Bdd) (buffer : List Nat) (out : List (List Nat)) :
    recursiveMCS b buffer out
      = (buffer, out ++ (pathsToOne b).map (fun π => buffer ++ thenVars π)) :=
  recursiveMCS_eq_paths b buffer out

theorem getMinimalCutSetsAsIndices_eq (Minsol : Bdd → Bdd) (top : Bdd) :
    getMinimalCutSetsAsIndices Minsol top = (pathsToOne (Minsol top)).map thenVars := by
  simp [getMinimalCutSetsAsIndices, recursiveMCS_eq_paths]

/-- Minimal cut sets of a function that is `OR(AND(a,b), c)`. -/
theorem isMinimalCutSet_or_and (top : Bdd) (a b c : Nat) (hac : a ≠ c) (hbc : b ≠ c)
    (htop : ∀ s : Finset Nat, top.eval s = decide ((a ∈ s ∧ b ∈ s) ∨ c ∈ s))
    (s : Finset Nat) : IsMinimalCutSet top s ↔ (s = {a, b} ∨ s = {c}) := by
  have hcut : ∀ s : Finset Nat, IsCutSet top s ↔ ((a ∈ s ∧ b ∈ s) ∨ c ∈ s) := by
    intro s
    simp [IsCutSet, htop s]
  constructor
  · rintro ⟨hs, hmin⟩
    rcases (hcut s).mp hs with ⟨ha, hb⟩ | hc
    · left
      by_contra hne
      have hsub : ({a, b} : Finset Nat) ⊆ s := by
        intro u hu
        simp only [Finset.mem_insert, Finset.mem_singleton] at hu
        rcases hu with rfl | rfl
        · exact ha
        · exact hb
      exact hmin {a, b} (Finset.ssubset_iff_subset_ne.mpr ⟨hsub, fun h => hne h.symm⟩)
        ((hcut _).mpr (Or.inl ⟨by simp, by simp⟩))
    · right
      by_contra hne
      have hsub : ({c} : Finset Nat) ⊆ s := by
        intro u hu
        simp only [Finset.mem_singleton] at hu
        subst hu
        exact hc
      exact hmin {c} (Finset.ssubset_iff_subset_ne.mpr ⟨hsub, fun h => hne h.symm⟩)
        ((hcut _).mpr (Or.inr (by simp)))
  · rintro (rfl | rfl)
    · refine ⟨(hcut _).mpr (Or.inl ⟨by simp, by simp⟩), ?_⟩
      intro t ht hcutt
      rcases (hcut t).mp hcutt with ⟨ha, hb⟩ | hc
      · apply ht.2
        intro u hu
        simp only [Finset.mem_insert, Finset.mem_singleton] at hu
        rcases hu with rfl | rfl
        · exact ha
        · exact hb
      · have := ht.1 hc
        simp only [Finset.mem_insert, Finset.mem_singleton] at this
        rcases this with h | h
        · exact hac h.symm
        · exact hbc h.symm
    · refine ⟨(hcut _).mpr (Or.inr (by simp)), ?_⟩
      intro t ht hcutt
      have htc : ∀ u ∈ t, u = c := fun u hu => by simpa using ht.1 hu
      rcases (hcut t).mp hcutt with ⟨ha, _⟩ | hc
      · exact hac (htc a ha)
      · apply ht.2
        intro u hu
        simp only [Finset.mem_singleton] at hu
        subst hu
        exact hc

theorem thenVars_subset_vars (b : Bdd) :
    ∀ π ∈ pathsToOne b, ∀ u ∈ thenVars π, u ∈ b.vars := by
  induction b with
  | terminal id value =>
    intro π hπ u hu
    cases value
    · simp [pathsToOne] at hπ
    · simp only [pathsToOne, List.mem_singleton] at hπ
      subst hπ
      simp [thenVars] at hu
  | node id v t e iht ihe =>
    intro π hπ u hu
    simp only [pathsToOne, List.mem_append, List.mem_map] at hπ
    rcases hπ with ⟨π', hπ', rfl⟩ | ⟨π', hπ', rfl⟩
    · rw [thenVars_cons_true, List.mem_cons] at hu
      rcases hu with rfl | hu
      · simp [Bdd.vars]
      · simp [Bdd.vars, iht π' hπ' u hu]
    · rw [thenVars_cons_false] at hu
      simp [Bdd.vars, ihe π' hπ' u hu]

/-- In a BDD without repeated variables distinct paths to one have distinct then-sets. -/
theorem pathSets_nodup (b : Bdd) (h : b.NoRepeat) :
    ((pathsToOne b).map (fun π => (thenVars π).toFinset)).Nodup := by
  induction b with
  | terminal id value => cases value <;> simp [pathsToOne]
  | node id v t e iht ihe =>
    obtain ⟨hvt, hve, hnt, hne⟩ := h
    have hnot : ∀ (x : Bdd), v ∉ x.vars → ∀ π ∈ pathsToOne x, v ∉ (thenVars π).toFinset := by
      intro x hx π hπ hmem
      exact hx (thenVars_subset_vars x π hπ v (List.mem_toFinset.mp hmem))
    simp only [pathsToOne, List.map_append, List.map_map]
    rw [List.nodup_append]
    refine ⟨?_, ?_, ?_⟩
    · have hmap : List.map ((fun π => (thenVars π).toFinset) ∘ fun π => (v, true) :: π)
          (pathsToOne t)
          = List.map (fun s => insert v s)
            (List.map (fun π => (thenVars π).toFinset) (pathsToOne t)) := by
        rw [List.map_map]
        apply List.map_congr_left
        intro π _
        simp [thenVars_cons_true]
      rw [hmap]
      apply List.Nodup.map_on _ (iht hnt)
      intro s hs s' hs' heq
      simp only [List.mem_map] at hs hs'
      obtain ⟨π, hπ, rfl⟩ := hs
      obtain ⟨π', hπ', rfl⟩ := hs'
      have h1 := hnot t hvt π hπ
      have h2 := hnot t hvt π' hπ'
      rw [← Finset.erase_insert h1, ← Finset.erase_insert h2, heq]
    · have hmap : List.map ((fun π => (thenVars π).toFinset) ∘ fun π => (v, false) :: π)
          (pathsToOne e)
          = List.map (fun π => (thenVars π).toFinset) (pathsToOne e) := by
        apply List.map_congr_left
        intro π _
        simp [thenVars_cons_false]
      rw [hmap]
      exact ihe hne
    · intro s hs hs'
      simp only [List.mem_map, Function.comp] at hs hs'
      obtain ⟨π, _, rfl⟩ := hs
      obtain ⟨π', hπ', heq⟩ := hs'
      rw [thenVars_cons_false] at heq
      have h2 := hnot e hve π' hπ'
      rw [heq, thenVars_cons_true] at h2
      simp at h2

/-- C3: if `Minsol` returns a BDD whose paths to one encode exactly the minimal solutions of
the top-level BDD, every cut set returned by `getMinimalCutSetsAsIndices` makes the top-level
BDD true when exactly its variables are true and no proper subset does; for a top-level BDD
computing OR(AND(a,b), c), in any variable order, the result consists of the sets `{a,b}` and
`{c}` (exactly two entries when the `Minsol` BDD repeats no variable on a path). -/
theorem getMinimalCutSetsAsIndices_sound (Minsol : Bdd → Bdd) (top : Bdd)
    (hMinsol : MinsolContract top (Minsol top)) :
    (∀ cs ∈ getMinimalCutSetsAsIndices Minsol top,
      top.eval cs.toFinset = true ∧ ∀ t, t ⊂ cs.toFinset → top.eval t = false) ∧
    (∀ a b c : Nat, a ≠ c → b ≠ c →
      (∀ s : Finset Nat, top.eval s = decide ((a ∈ s ∧ b ∈ s) ∨ c ∈ s)) →
      ((getMinimalCutSetsAsIndices Minsol top).map List.toFinset).toFinset
          = {{a, b}, {c}} ∧
      ((Minsol top).NoRepeat → (getMinimalCutSetsAsIndices Minsol top).length = 2)) := by
  refine ⟨?_, ?_⟩
  · intro cs hcs
    rw [getMinimalCutSetsAsIndices_eq, List.mem_map] at hcs
    obtain ⟨π, hπ, rfl⟩ := hcs
    have hmin : IsMinimalCutSet top (thenVars π).toFinset :=
      (hMinsol _).mp ⟨π, hπ, rfl⟩
    refine ⟨hmin.1, fun t ht => ?_⟩
    have := hmin.2 t ht
    simpa [IsCutSet] using this
  · intro a b c hac hbc htop
    have hset : ((getMinimalCutSetsAsIndices Minsol top).map List.toFinset).toFinset
        = {{a, b}, {c}} := by
      ext s
      rw [getMinimalCutSetsAsIndices_eq]
      simp only [List.mem_toFinset, List.mem_map, Finset.mem_insert, Finset.mem_singleton]
      rw [← isMinimalCutSet_or_and top a b c hac hbc htop s, ← hMinsol s]
      constructor
      · rintro ⟨l, ⟨π, hπ, rfl⟩, rfl⟩
        exact ⟨π, hπ, rfl⟩
      · rintro ⟨π, hπ, rfl⟩
        exact ⟨_, ⟨π, hπ, rfl⟩, rfl⟩
    refine ⟨hset, fun hnr => ?_⟩
    have hnd : ((getMinimalCutSetsAsIndices Minsol top).map List.toFinset).Nodup := by
      rw [getMinimalCutSetsAsIndices_eq, List.map_map]
      exact pathSets_nodup _ hnr
    have hcard := List.toFinset_card_of_nodup hnd
    rw [hset, List.length_map] at hcard
    rw [← hcard]
    apply Finset.card_pair
    intro heq
    have : c ∈ ({a, b} : Finset Nat) := by rw [heq]; simp
    simp only [Finset.mem_insert, Finset.mem_singleton] at this
    rcases this with h | h
    · exact hac h.symm
    · exact hbc h.symm

theorem exTop_eval (s : Finset Nat) : exTop.eval s = decide ((0 ∈ s ∧ 1 ∈ s) ∨ 2 ∈ s) := by
  by_cases h0 : 0 ∈ s <;> by_cases h1 : 1 ∈ s <;> by_cases h2 : 2 ∈ s <;>
    simp [exTop, Bdd.eval, h0, h1, h2]

theorem exMinsol_contract : MinsolContract exTop exMinsol := by
  intro s
  rw [isMinimalCutSet_or_and exTop 0 1 2 (by decide) (by decide) exTop_eval s]
  simp [exMinsol, pathsToOne, thenVars, eq_comm]

theorem getMinimalCutSetsAsIndices_sound_witness :
    MinsolContract exTop ((fun _ => exMinsol) exTop) ∧
    (∀ cs ∈ getMinimalCutSetsAsIndices (fun _ => exMinsol) exTop,
      exTop.eval cs.toFinset = true ∧ ∀ t, t ⊂ cs.toFinset → exTop.eval t = false) :=
  ⟨exMinsol_contract,
    (getMinimalCutSetsAsIndices_sound (fun _ => exMinsol) exTop exMinsol_contract).1⟩


/-! ## Theorems: next-state generator -/

theorem addToDistribution_weight (d : List (Nat × ℚ)) (s : Nat) (v : ℚ) (s' : Nat) :
    (((addToDistribution d s v).filter (fun t => t.1 = s')).map (fun t => t.2)).sum
      = ((d.filter (fun t => t.1 = s')).map (fun t => t.2)).sum + (if s = s' then v else 0) := by
  induction d with
  | nil =>
    by_cases h : s = s' <;> simp [addToDistribution, h]
  | cons hd tl ih =>
    obtain ⟨a, w⟩ := hd
    by_cases ha : a = s
    · subst ha
      by_cases h : a = s'
      · simp [addToDistribution, h]; ring
      · simp [addToDistribution, h]
    · rw [addToDistribution, if_neg ha]
      by_cases h : a = s'
      · rw [List.filter_cons_of_pos (by simpa using h), List.filter_cons_of_pos (by simpa using h)]
        simp only [List.map_cons, List.sum_cons, ih]
        ring
      · rw [List.filter_cons_of_neg (by simpa using h), List.filter_cons_of_neg (by simpa using h)]
        exact ih

theorem addToDistribution_total (d : List (Nat × ℚ)) (s : Nat) (v : ℚ) :
    ((addToDistribution d s v).map (fun t => t.2)).sum = (d.map (fun t => t.2)).sum + v := by
  induction d with
  | nil => simp [addToDistribution]
  | cons hd tl ih =>
    obtain ⟨a, w⟩ := hd
    by_cases ha : a = s
    · simp [addToDistribution, ha]; ring
    · simp only [addToDistribution, ha, if_false, List.map_cons, List.sum_cons, ih]
      ring

theorem Choice.weight_addProbability (c : Choice) (s : Nat) (v : ℚ) (s' : Nat) :
    (c.addProbability s v).weight s' = c.weight s' + (if s = s' then v else 0) := by
  simp only [Choice.weight, Choice.addProbability, addToDistribution_weight]

theorem Choice.totalWeight_addProbability (c : Choice) (s : Nat) (v : ℚ) :
    (c.addProbability s v).totalWeight = c.totalWeight + v := by
  simp only [Choice.totalWeight, Choice.addProbability, addToDistribution_total]

theorem Choice.weight_foldl (ts : List (Nat × ℚ)) (c : Choice) (s' : Nat) :
    (ts.foldl (fun c t => c.addProbability t.1 t.2) c).weight s'
      = c.weight s' + ((ts.filter (fun t => t.1 = s')).map (fun t => t.2)).sum := by
  induction ts generalizing c with
  | nil => simp
  | cons hd tl ih =>
    rw [List.foldl_cons, ih, Choice.weight_addProbability]
    by_cases h : hd.1 = s'
    · simp [List.filter_cons, h]; ring
    · simp [List.filter_cons, h]

theorem Choice.totalWeight_foldl (ts : List (Nat × ℚ)) (c : Choice) :
    (ts.foldl (fun c t => c.addProbability t.1 t.2) c).totalWeight
      = c.totalWeight + (ts.map (fun t => t.2)).sum := by
  induction ts generalizing c with
  | nil => simp
  | cons hd tl ih =>
    rw [List.foldl_cons, ih, Choice.totalWeight_addProbability]
    simp; ring

namespace DftNextStateGenerator

variable {σ ρ : Type}

theorem expandLoop_eq_expandOver (gen : DftNextStateGenerator σ) (fuel : Nat)
    (cb : σ → ρ → Nat × ρ) (s : σ) (hd : Bool) (n : Nat) :
    ∀ k acc, expandLoop gen fuel cb s hd n k acc
      = expandOver gen fuel cb s hd (List.range' k n) acc := by
  induction n with
  | zero => intro k acc; rfl
  | succ n ih =>
    intro k acc
    simp only [expandLoop, List.range'_succ, expandOver]
    cases expandStep gen fuel cb s hd k acc with
    | error e => rfl
    | ok acc1 => exact ih (k + 1) acc1

theorem rate_eq_selectedRate (gen : DftNextStateGenerator σ) (s : σ) (be : DFTBE) :
    (if (if gen.mDft.hasRepresentant be.id = true then
          gen.mDft.isActive s (gen.mDft.getRepresentant be.id) else true) = true
      then be.activeFailureRate else be.passiveFailureRate) = selectedRate gen s be := by
  unfold selectedRate
  cases gen.mDft.hasRepresentant be.id <;>
    cases gen.mDft.isActive s (gen.mDft.getRepresentant be.id) <;> simp

/-- One iteration in mode B for a candidate with a successor. -/
theorem expandStep_modeB (gen : DftNextStateGenerator σ) (fuel : Nat) (cb : σ → ρ → Nat × ρ)
    (s : σ) (i : Nat) (acc : Choice × StateBehavior × ρ) (succ : Successor σ)
    (hs : successorState gen fuel s false i = .ok (some succ))
    (hr : selectedRate gen s succ.nextBE ≠ 0) :
    expandStep gen fuel cb s false i acc
      = .ok (acc.1.addProbability (newStateId gen cb succ acc.2.2).1
          (selectedRate gen s succ.nextBE), acc.2.1, (newStateId gen cb succ acc.2.2).2) := by
  simp only [expandStep, hs, rate_eq_selectedRate, hr, if_false]
  simp

/-- One iteration in mode D for a candidate with a successor. -/
theorem expandStep_modeD (gen : DftNextStateGenerator σ) (fuel : Nat) (cb : σ → ρ → Nat × ρ)
    (s : σ) (i : Nat) (result : StateBehavior) (reg : ρ) (succ : Successor σ)
    (hs : successorState gen fuel s true i = .ok (some succ)) :
    expandStep gen fuel cb s true i (Choice.new 0 false, result, reg)
      = .ok (Choice.new 0 false, result.addChoice (resolveDependency gen cb s i succ reg).1,
          (resolveDependency gen cb s i succ reg).2) := by
  by_cases hp : gen.mDft.dependencyProbability (gen.mDft.getDependencyId s i) = 1
  · simp [expandStep, hs, resolveDependency, hp, Choice.movedFrom, Choice.addProbability,
      Choice.new]
  · simp [expandStep, hs, resolveDependency, hp, Choice.movedFrom, Choice.addProbability,
      Choice.new]

theorem expandStep_invalid (gen : DftNextStateGenerator σ) (fuel : Nat) (cb : σ → ρ → Nat × ρ)
    (s : σ) (hd : Bool) (i : Nat) (acc : Choice × StateBehavior × ρ)
    (hs : successorState gen fuel s hd i = .ok none) :
    expandStep gen fuel cb s hd i acc = .ok acc := by
  simp [expandStep, hs]

end DftNextStateGenerator

namespace DftNextStateGenerator

variable {σ ρ : Type}

theorem expandStep_load (gen : DftNextStateGenerator σ) (s' : σ) (fuel : Nat)
    (cb : σ → ρ → Nat × ρ) (s : σ) (hd : Bool) (i : Nat) (acc : Choice × StateBehavior × ρ) :
    expandStep (gen.load s') fuel cb s hd i acc = expandStep gen fuel cb s hd i acc := rfl

theorem expandLoop_load (gen : DftNextStateGenerator σ) (s' : σ) (fuel : Nat)
    (cb : σ → ρ → Nat × ρ) (s : σ) (hd : Bool) (n : Nat) :
    ∀ k acc, expandLoop (gen.load s') fuel cb s hd n k acc
      = expandLoop gen fuel cb s hd n k acc := by
  induction n with
  | zero => intro k acc; rfl
  | succ n ih =>
    intro k acc
    simp only [expandLoop, expandStep_load, ih]

theorem expand_load_absorbing (gen : DftNextStateGenerator σ) (fuel : Nat) (cb : σ → ρ → Nat × ρ)
    (s : σ) (registry : ρ)
    (habs : gen.mDft.hasFailed s = true ∨ gen.mDft.isFailsafe s = true ∨
      gen.mDft.nrFailableBEs s = 0) :
    expand (gen.load s) fuel cb registry
      = .ok ({ choices := [{ actionIndex := 0,
                             markovian := !decide (gen.mDft.nrFailableDependencies s > 0),
                             distribution := [(gen.mDft.getId s, 1)] }],
               expanded := true }, registry) := by
  have hcond : (gen.mDft.hasFailed s || gen.mDft.isFailsafe s
      || gen.mDft.nrFailableBEs s == 0) = true := by
    rcases habs with h | h | h <;> simp [h]
  simp only [expand, load, hcond, if_true]
  rfl

theorem expand_load_loop (gen : DftNextStateGenerator σ) (fuel : Nat) (cb : σ → ρ → Nat × ρ)
    (s : σ) (registry : ρ)
    (hf : gen.mDft.hasFailed s = false) (hfs : gen.mDft.isFailsafe s = false)
    (hbe : gen.mDft.nrFailableBEs s ≠ 0) :
    expand (gen.load s) fuel cb registry
      = match expandOver gen fuel cb s (decide (gen.mDft.nrFailableDependencies s > 0))
          (List.range (if decide (gen.mDft.nrFailableDependencies s > 0) = true
            then gen.mDft.nrFailableDependencies s else gen.mDft.nrFailableBEs s))
          (Choice.new 0 (!decide (gen.mDft.nrFailableDependencies s > 0)),
            StateBehavior.new, registry) with
        | .error e => .error e
        | .ok (choice1, result1, registry1) =>
          if (!decide (gen.mDft.nrFailableDependencies s > 0)) = true then
            .ok ((result1.addChoice choice1).setExpanded, registry1)
          else .ok (result1.setExpanded, registry1) := by
  have hcond : (gen.mDft.hasFailed s || gen.mDft.isFailsafe s
      || gen.mDft.nrFailableBEs s == 0) = false := by
    simp [hf, hfs, hbe]
  have hloop : ∀ hd n acc, expandLoop (gen.load s) fuel cb s hd n 0 acc
      = expandOver gen fuel cb s hd (List.range n) acc := by
    intro hd n acc
    rw [List.range_eq_range', expandLoop_load]
    exact expandLoop_eq_expandOver gen fuel cb s hd n 0 acc
  simp only [expand, load, hcond] at *
  simp only [hloop]
  rfl

end DftNextStateGenerator

namespace DftNextStateGenerator

variable {σ ρ : Type}

/-- C5: for a loaded state in which the top-level element has failed, or in which the fault
tree is failsafe, or which has no failable BE, `expand` returns an expanded behaviour with
exactly one choice whose only transition is the self-loop `(id of s, 1)`, and the register
callback is not invoked: whatever the callback and its registry, the registry is returned
unchanged. -/
theorem expand_absorbing (gen : DftNextStateGenerator σ) (fuel : Nat) (s : σ)
    (habs : gen.mDft.hasFailed s = true ∨ gen.mDft.isFailsafe s = true ∨
      gen.mDft.nrFailableBEs s = 0) :
    ∀ (ρ : Type) (cb : σ → ρ → Nat × ρ) (registry : ρ),
      ∃ choice, expand (gen.load s) fuel cb registry
          = .ok ({ choices := [choice], expanded := true }, registry) ∧
        choice.distribution = [(gen.mDft.getId s, 1)] := by
  intro ρ cb registry
  exact ⟨_, expand_load_absorbing gen fuel cb s registry habs, rfl⟩

theorem expand_absorbing_witness :
    ∃ choice, expand (exGenerator.load exFailed) 10 exRegister []
        = .ok ({ choices := [choice], expanded := true }, []) ∧
      choice.distribution = [(exGenerator.mDft.getId exFailed, 1)] :=
  expand_absorbing exGenerator 10 exFailed (Or.inl (by decide)) (List ExState) exRegister []

end DftNextStateGenerator

namespace DftNextStateGenerator

variable {σ ρ : Type}

/-- C8 fails as stated: in the state `exTriggered` the only failable dependency forces BE 1
to fail before BE 5, the successor is invalid and is discarded, so `expand` emits no choice
although the state is not absorbing and has one failable dependency. -/
theorem expand_choice_per_dependency_counterexample :
    exDft.hasFailed exTriggered = false ∧ exDft.isFailsafe exTriggered = false ∧
    exDft.nrFailableBEs exTriggered ≠ 0 ∧ exDft.nrFailableDependencies exTriggered = 1 ∧
    expand (exGenerator.load exTriggered) 10 exRegister []
      = .ok ({ choices := [], expanded := true }, []) ∧
    ¬ ∃ result registry1,
      expand (exGenerator.load exTriggered) 10 exRegister [] = .ok (result, registry1) ∧
      result.choices.length = exDft.nrFailableDependencies exTriggered := by
  refine ⟨by decide, by decide, by decide, by decide, rfl, ?_⟩
  rintro ⟨result, registry1, h, hlen⟩
  have h0 : expand (exGenerator.load exTriggered) 10 exRegister []
      = .ok ({ choices := [], expanded := true }, []) := rfl
  rw [h0] at h
  injection h with h
  injection h with h1 _
  subst h1
  simp at hlen
  exact absurd hlen (by decide)

theorem drainFailurePropagation_congr (d1 d2 : Dft σ) (h1 : d1.checkFails = d2.checkFails)
    (h2 : d1.updateFailableDependencies = d2.updateFailableDependencies) :
    ∀ fuel s q, drainFailurePropagation d1 fuel s q = drainFailurePropagation d2 fuel s q := by
  intro fuel
  induction fuel with
  | zero => intro s q; rfl
  | succ n ih =>
    intro s q
    simp only [drainFailurePropagation, h1, h2, ih]

theorem drainRestrictionChecks_congr (d1 d2 : Dft σ) (h1 : d1.checkFails = d2.checkFails)
    (h2 : d1.updateFailableDependencies = d2.updateFailableDependencies) :
    ∀ fuel s q, drainRestrictionChecks d1 fuel s q = drainRestrictionChecks d2 fuel s q := by
  intro fuel
  induction fuel with
  | zero => intro s q; rfl
  | succ n ih =>
    intro s q
    simp only [drainRestrictionChecks, h1, h2, ih]

theorem drainFailsafePropagation_congr (d1 d2 : Dft σ)
    (h1 : d1.checkFailsafe = d2.checkFailsafe) :
    ∀ fuel s q, drainFailsafePropagation d1 fuel s q = drainFailsafePropagation d2 fuel s q := by
  intro fuel
  induction fuel with
  | zero => intro s q; rfl
  | succ n ih =>
    intro s q
    simp only [drainFailsafePropagation, h1, ih]

theorem drainDontCarePropagation_congr (d1 d2 : Dft σ) (dc : Bool)
    (h1 : d1.checkDontCareAnymore = d2.checkDontCareAnymore) :
    ∀ fuel s q,
      drainDontCarePropagation d1 dc fuel s q = drainDontCarePropagation d2 dc fuel s q := by
  intro fuel
  induction fuel with
  | zero => intro s q; rfl
  | succ n ih =>
    intro s q
    simp only [drainDontCarePropagation, h1, ih]

/-- The successor of a candidate does not depend on the answers of `isActive`. -/
theorem successorState_isActive (gen : DftNextStateGenerator σ) (isActive1 : σ → Nat → Bool)
    (fuel : Nat) (s : σ) (hd : Bool) (i : Nat) :
    successorState { gen with mDft := { gen.mDft with isActive := isActive1 } } fuel s hd i
      = successorState gen fuel s hd i := by
  simp only [successorState, failNextBE]
  rw [funext (fun nf => funext (fun st => funext (fun q => drainFailurePropagation_congr
      { gen.mDft with isActive := isActive1 } gen.mDft rfl rfl nf st q))),
    funext (fun nf => funext (fun st => funext (fun q => drainRestrictionChecks_congr
      { gen.mDft with isActive := isActive1 } gen.mDft rfl rfl nf st q))),
    funext (fun nf => funext (fun st => funext (fun q => drainFailsafePropagation_congr
      { gen.mDft with isActive := isActive1 } gen.mDft rfl nf st q))),
    funext (fun dc => funext (fun nf => funext (fun st => funext (fun q =>
      drainDontCarePropagation_congr
      { gen.mDft with isActive := isActive1 } gen.mDft dc rfl nf st q))))]

/-- C9: in mode B the weight an iteration adds for the failing BE is its active failure rate
when the BE has no representant or the representant is active in the loaded state, and its
passive failure rate when it has a representant that is not active in the loaded state; the
answers of `isActive` on other states, the successor included, do not influence the
iteration. -/
theorem expandStep_rate (gen : DftNextStateGenerator σ) (fuel : Nat) (cb : σ → ρ → Nat × ρ)
    (s : σ) (i : Nat) (acc : Choice × StateBehavior × ρ) (succ : Successor σ)
    (hs : successorState gen fuel s false i = .ok (some succ)) :
    ((gen.mDft.hasRepresentant succ.nextBE.id = false ∨
        gen.mDft.isActive s (gen.mDft.getRepresentant succ.nextBE.id) = true) →
      succ.nextBE.activeFailureRate ≠ 0 →
      expandStep gen fuel cb s false i acc
        = .ok (acc.1.addProbability (newStateId gen cb succ acc.2.2).1
            succ.nextBE.activeFailureRate, acc.2.1, (newStateId gen cb succ acc.2.2).2)) ∧
    ((gen.mDft.hasRepresentant succ.nextBE.id = true ∧
        gen.mDft.isActive s (gen.mDft.getRepresentant succ.nextBE.id) = false) →
      succ.nextBE.passiveFailureRate ≠ 0 →
      expandStep gen fuel cb s false i acc
        = .ok (acc.1.addProbability (newStateId gen cb succ acc.2.2).1
            succ.nextBE.passiveFailureRate, acc.2.1, (newStateId gen cb succ acc.2.2).2)) ∧
    (∀ isActive1 : σ → Nat → Bool, (∀ e, isActive1 s e = gen.mDft.isActive s e) →
      expandStep { gen with mDft := { gen.mDft with isActive := isActive1 } } fuel cb s false i acc
        = expandStep gen fuel cb s false i acc) := by
  refine ⟨?_, ?_, ?_⟩
  · intro h hr
    have hsel : selectedRate gen s succ.nextBE = succ.nextBE.activeFailureRate := by
      unfold selectedRate
      rcases h with h | h <;> simp [h]
    have := expandStep_modeB gen fuel cb s i acc succ hs (by rw [hsel]; exact hr)
    rw [hsel] at this
    exact this
  · intro h hr
    have hsel : selectedRate gen s succ.nextBE = succ.nextBE.passiveFailureRate := by
      unfold selectedRate
      simp [h.1, h.2]
    have := expandStep_modeB gen fuel cb s i acc succ hs (by rw [hsel]; exact hr)
    rw [hsel] at this
    exact this
  · intro isActive1 hsame
    have hs1 := successorState_isActive gen isActive1 fuel s false i
    simp only [expandStep, hs1, hs, hsame]
    rfl

end DftNextStateGenerator

namespace DftNextStateGenerator

variable {σ ρ : Type}

theorem expandStep_rate_witness :
    expandStep exGenerator 10 exRegister exInitial false 2
        (Choice.new 0 true, StateBehavior.new, [])
      = .ok ((Choice.new 0 true).addProbability 0 4, StateBehavior.new,
          [{ id := 0, failed := [5], failableDependencies := [], invalid := false }]) :=
  (expandStep_rate exGenerator 10 exRegister exInitial 2
    (Choice.new 0 true, StateBehavior.new, [])
    { nextBE := exBE 5,
      newState := { id := 0, failed := [5], failableDependencies := [], invalid := false },
      merged := false } rfl).2.1 ⟨by decide, by decide⟩ (by decide)

theorem successorState_invalid (gen : DftNextStateGenerator σ) (fuel : Nat) (s : σ) (hd : Bool)
    (i : Nat) (newState : σ) (queues : Queues) (nextBE : DFTBE)
    (hfail : failNextBE gen fuel s hd i = .ok (newState, queues, nextBE))
    (hinv : gen.mDft.isInvalid newState = true) :
    successorState gen fuel s hd i = .ok none := by
  simp [successorState, hfail, hinv]

theorem expandOver_skip (gen : DftNextStateGenerator σ) (fuel : Nat) (cb : σ → ρ → Nat × ρ)
    (s : σ) (hd : Bool) (i : Nat) (hs : successorState gen fuel s hd i = .ok none)
    (l1 l2 : List Nat) :
    ∀ acc, expandOver gen fuel cb s hd (l1 ++ i :: l2) acc
      = expandOver gen fuel cb s hd (l1 ++ l2) acc := by
  induction l1 with
  | nil =>
    intro acc
    simp only [List.nil_append, expandOver, expandStep_invalid gen fuel cb s hd i acc hs]
  | cons j rest ih =>
    intro acc
    simp only [List.cons_append, expandOver]
    cases expandStep gen fuel cb s hd j acc with
    | error e => rfl
    | ok acc1 => exact ih acc1

theorem range_erase (n i : Nat) (hi : i < n) :
    (List.range n).erase i = List.range' 0 i ++ List.range' (i + 1) (n - i - 1) ∧
    List.range n = List.range' 0 i ++ i :: List.range' (i + 1) (n - i - 1) := by
  have hsplit : List.range n = List.range' 0 i ++ i :: List.range' (i + 1) (n - i - 1) := by
    have h1 : (n - i - 1 + 1) + i = n := by omega
    have h2 := List.range'_append_1 0 i (n - i - 1 + 1)
    rw [h1, Nat.zero_add, List.range'_succ] at h2
    rw [List.range_eq_range', ← h2]
  refine ⟨?_, hsplit⟩
  rw [hsplit, List.erase_append_right, List.erase_cons_head]
  simp

/-- C10: a candidate whose successor state has its invalid flag set after failure propagation
and restriction checking contributes nothing: its iteration leaves the choice, the behaviour
and the registry of the callback unchanged (no transition, no call of the callback) and the
loop goes on; the loop over all candidates gives the same result as the loop over the
candidates without the invalid one. -/
theorem expand_invalid_candidate (gen : DftNextStateGenerator σ) (fuel : Nat) (s : σ)
    (hd : Bool) (i : Nat) (newState : σ) (queues : Queues) (nextBE : DFTBE)
    (hfail : failNextBE gen fuel s hd i = .ok (newState, queues, nextBE))
    (hinv : gen.mDft.isInvalid newState = true) :
    ∀ (ρ : Type) (cb : σ → ρ → Nat × ρ),
      (∀ acc, expandStep gen fuel cb s hd i acc = .ok acc) ∧
      (∀ l1 l2 acc, expandOver gen fuel cb s hd (l1 ++ i :: l2) acc
        = expandOver gen fuel cb s hd (l1 ++ l2) acc) ∧
      (∀ n acc, i < n → expandLoop gen fuel cb s hd n 0 acc
        = expandOver gen fuel cb s hd ((List.range n).erase i) acc) := by
  intro ρ cb
  have hs := successorState_invalid gen fuel s hd i newState queues nextBE hfail hinv
  refine ⟨fun acc => expandStep_invalid gen fuel cb s hd i acc hs,
    fun l1 l2 acc => expandOver_skip gen fuel cb s hd i hs l1 l2 acc, ?_⟩
  intro n acc hi
  obtain ⟨he, hr⟩ := range_erase n i hi
  rw [expandLoop_eq_expandOver, ← List.range_eq_range', he, hr]
  exact expandOver_skip gen fuel cb s hd i hs _ _ acc

theorem expand_invalid_candidate_witness :
    (∀ acc, expandStep exGenerator 10 exRegister exInitial false 1 acc = .ok acc) ∧
    (∀ l1 l2 acc, expandOver exGenerator 10 exRegister exInitial false (l1 ++ 1 :: l2) acc
      = expandOver exGenerator 10 exRegister exInitial false (l1 ++ l2) acc) ∧
    (∀ n acc, 1 < n → expandLoop exGenerator 10 exRegister exInitial false n 0 acc
      = expandOver exGenerator 10 exRegister exInitial false ((List.range n).erase 1) acc) :=
  expand_invalid_candidate exGenerator 10 exInitial false 1
    { id := 0, failed := [1], failableDependencies := [], invalid := true }
    Queues.empty (exBE 1) rfl rfl (List ExState) exRegister

end DftNextStateGenerator

namespace DftNextStateGenerator

variable {σ ρ : Type}

theorem successorState_merged (gen : DftNextStateGenerator σ) (fuel : Nat) (s : σ) (hd : Bool)
    (i : Nat) (newState : σ) (queues : Queues) (nextBE : DFTBE)
    (hfail : failNextBE gen fuel s hd i = .ok (newState, queues, nextBE))
    (hvalid : gen.mDft.isInvalid newState = false)
    (hmerge : gen.mergeFailedStates = true)
    (htop : gen.mDft.stateHasFailed newState gen.mDft.getTopLevelIndex = true) :
    successorState gen fuel s hd i
      = .ok (some { nextBE := nextBE, newState := newState, merged := true }) := by
  simp [successorState, hfail, hvalid, hmerge, htop]

theorem successorState_registered (gen : DftNextStateGenerator σ) (fuel : Nat) (s : σ)
    (hd : Bool) (i : Nat) (newState : σ) (queues : Queues) (nextBE : DFTBE)
    (hfail : failNextBE gen fuel s hd i = .ok (newState, queues, nextBE))
    (hvalid : gen.mDft.isInvalid newState = false)
    (hno : gen.mergeFailedStates = false ∨
      gen.mDft.stateHasFailed newState gen.mDft.getTopLevelIndex = false)
    (s1 s2 : σ) (q1 q2 : Queues)
    (h1 : drainFailsafePropagation gen.mDft fuel newState queues = some (s1, q1))
    (h2 : drainDontCarePropagation gen.mDft gen.enableDC fuel s1 q1 = some (s2, q2)) :
    successorState gen fuel s hd i
      = .ok (some { nextBE := nextBE,
                    newState := gen.mDft.updateDontCareDependencies
                      (gen.mDft.updateFailableDependencies s2 nextBE.id) nextBE.id,
                    merged := false }) := by
  have hcond : (gen.mDft.stateHasFailed newState gen.mDft.getTopLevelIndex
      && gen.mergeFailedStates) = false := by
    rcases hno with h | h <;> simp [h]
  simp [successorState, hfail, hvalid, hcond, h1, h2]

theorem expandStep_modeD_explicit (gen : DftNextStateGenerator σ) (fuel : Nat)
    (cb : σ → ρ → Nat × ρ) (s : σ) (i : Nat) (result : StateBehavior) (registry : ρ)
    (succ : Successor σ) (hs : successorState gen fuel s true i = .ok (some succ))
    (id : Nat) (registry0 : ρ) (hid : newStateId gen cb succ registry = (id, registry0)) :
    expandStep gen fuel cb s true i (Choice.new 0 false, result, registry)
      = .ok (Choice.new 0 false,
          result.addChoice
            (if gen.mDft.dependencyProbability (gen.mDft.getDependencyId s i) = 1 then
              (Choice.new 0 false).addProbability id
                (gen.mDft.dependencyProbability (gen.mDft.getDependencyId s i))
            else
              ((Choice.new 0 false).addProbability id
                (gen.mDft.dependencyProbability (gen.mDft.getDependencyId s i))).addProbability
                (cb (gen.mDft.letDependencyBeUnsuccessful s i) registry0).1
                (1 - gen.mDft.dependencyProbability (gen.mDft.getDependencyId s i))),
          if gen.mDft.dependencyProbability (gen.mDft.getDependencyId s i) = 1 then registry0
          else (cb (gen.mDft.letDependencyBeUnsuccessful s i) registry0).2) := by
  rw [expandStep_modeD gen fuel cb s i result registry succ hs]
  by_cases hp : gen.mDft.dependencyProbability (gen.mDft.getDependencyId s i) = 1
  · simp [resolveDependency, hp, hid]
  · simp [resolveDependency, hp, hid]

/-- C11: for a candidate whose successor is valid. With merging enabled and the top-level
element failed in the successor, the successor is bound to `mergeFailedStateId`, which is
the id the callback returned in `createMergeFailedState`; the callback is not invoked for
the successor (its registry is passed on unchanged), and the emitted transition goes to
that id, the same for every state and candidate. With merging disabled or the top level
not failed, the id is what the callback returns for the new state. -/
theorem expand_successor_id (gen : DftNextStateGenerator σ) (fuel : Nat) (s : σ) (hd : Bool)
    (i : Nat) (newState : σ) (queues : Queues) (nextBE : DFTBE)
    (hfail : failNextBE gen fuel s hd i = .ok (newState, queues, nextBE))
    (hvalid : gen.mDft.isInvalid newState = false) :
    (gen.mergeFailedStates = true →
      gen.mDft.stateHasFailed newState gen.mDft.getTopLevelIndex = true →
      successorState gen fuel s hd i
        = .ok (some { nextBE := nextBE, newState := newState, merged := true }) ∧
      (∀ (ρ : Type) (cb0 : σ → ρ → Nat × ρ) (reg0 reg1 : ρ) (gen0 : DftNextStateGenerator σ)
          (behavior : StateBehavior),
        createMergeFailedState gen0 cb0 reg0 = .ok (behavior, gen, reg1) →
        gen.mergeFailedStateId = (cb0 (gen0.mDft.makeState 0) reg0).1) ∧
      (∀ (ρ : Type) (cb : σ → ρ → Nat × ρ) (registry : ρ),
        newStateId gen cb { nextBE := nextBE, newState := newState, merged := true } registry
          = (gen.mergeFailedStateId, registry)) ∧
      (∀ (ρ : Type) (cb : σ → ρ → Nat × ρ) (acc : Choice × StateBehavior × ρ),
        hd = false → selectedRate gen s nextBE ≠ 0 →
        expandStep gen fuel cb s false i acc
          = .ok (acc.1.addProbability gen.mergeFailedStateId (selectedRate gen s nextBE),
              acc.2.1, acc.2.2)) ∧
      (∀ (ρ : Type) (cb : σ → ρ → Nat × ρ) (result : StateBehavior) (registry : ρ),
        hd = true →
        expandStep gen fuel cb s true i (Choice.new 0 false, result, registry)
          = .ok (Choice.new 0 false,
              result.addChoice
                (if gen.mDft.dependencyProbability (gen.mDft.getDependencyId s i) = 1 then
                  (Choice.new 0 false).addProbability gen.mergeFailedStateId
                    (gen.mDft.dependencyProbability (gen.mDft.getDependencyId s i))
                else
                  ((Choice.new 0 false).addProbability gen.mergeFailedStateId
                    (gen.mDft.dependencyProbability
                      (gen.mDft.getDependencyId s i))).addProbability
                    (cb (gen.mDft.letDependencyBeUnsuccessful s i) registry).1
                    (1 - gen.mDft.dependencyProbability (gen.mDft.getDependencyId s i))),
              if gen.mDft.dependencyProbability (gen.mDft.getDependencyId s i) = 1 then
                registry
              else (cb (gen.mDft.letDependencyBeUnsuccessful s i) registry).2))) ∧
    ((gen.mergeFailedStates = false ∨
        gen.mDft.stateHasFailed newState gen.mDft.getTopLevelIndex = false) →
      ∀ (s1 s2 : σ) (q1 q2 : Queues),
        drainFailsafePropagation gen.mDft fuel newState queues = some (s1, q1) →
        drainDontCarePropagation gen.mDft gen.enableDC fuel s1 q1 = some (s2, q2) →
        successorState gen fuel s hd i
          = .ok (some { nextBE := nextBE,
                        newState := gen.mDft.updateDontCareDependencies
                          (gen.mDft.updateFailableDependencies s2 nextBE.id) nextBE.id,
                        merged := false }) ∧
        (∀ (ρ : Type) (cb : σ → ρ → Nat × ρ) (registry : ρ),
          newStateId gen cb
              { nextBE := nextBE,
                newState := gen.mDft.updateDontCareDependencies
                  (gen.mDft.updateFailableDependencies s2 nextBE.id) nextBE.id,
                merged := false } registry
            = cb (gen.mDft.updateDontCareDependencies
                (gen.mDft.updateFailableDependencies s2 nextBE.id) nextBE.id) registry) ∧
        (∀ (ρ : Type) (cb : σ → ρ → Nat × ρ) (acc : Choice × StateBehavior × ρ),
          hd = false → selectedRate gen s nextBE ≠ 0 →
          expandStep gen fuel cb s false i acc
            = .ok (acc.1.addProbability
                (cb (gen.mDft.updateDontCareDependencies
                  (gen.mDft.updateFailableDependencies s2 nextBE.id) nextBE.id) acc.2.2).1
                (selectedRate gen s nextBE), acc.2.1,
                (cb (gen.mDft.updateDontCareDependencies
                  (gen.mDft.updateFailableDependencies s2 nextBE.id) nextBE.id) acc.2.2).2)) ∧
        (∀ (ρ : Type) (cb : σ → ρ → Nat × ρ) (result : StateBehavior) (registry : ρ),
          hd = true →
          ∃ choice registry1,
            expandStep gen fuel cb s true i (Choice.new 0 false, result, registry)
              = .ok (Choice.new 0 false, result.addChoice choice, registry1) ∧
            (choice = (Choice.new 0 false).addProbability
                (cb (gen.mDft.updateDontCareDependencies
                  (gen.mDft.updateFailableDependencies s2 nextBE.id) nextBE.id) registry).1
                (gen.mDft.dependencyProbability (gen.mDft.getDependencyId s i)) ∨
              ∃ unsuccessfulId, choice = ((Choice.new 0 false).addProbability
                (cb (gen.mDft.updateDontCareDependencies
                  (gen.mDft.updateFailableDependencies s2 nextBE.id) nextBE.id) registry).1
                (gen.mDft.dependencyProbability
                  (gen.mDft.getDependencyId s i))).addProbability unsuccessfulId
                (1 - gen.mDft.dependencyProbability (gen.mDft.getDependencyId s i))))) := by
  refine ⟨?_, ?_⟩
  · intro hmerge htop
    have hs := successorState_merged gen fuel s hd i newState queues nextBE hfail hvalid
      hmerge htop
    have hid : ∀ (ρ : Type) (cb : σ → ρ → Nat × ρ) (registry : ρ),
        newStateId gen cb { nextBE := nextBE, newState := newState, merged := true } registry
          = (gen.mergeFailedStateId, registry) := by
      intro ρ cb registry
      simp [newStateId]
    refine ⟨hs, ?_, hid, ?_, ?_⟩
    · intro ρ cb0 reg0 reg1 gen0 behavior hcreate
      unfold createMergeFailedState at hcreate
      by_cases hm : gen0.mergeFailedStates = true
      · simp only [hm, Bool.not_true, Bool.false_eq_true, if_false, Except.ok.injEq,
          Prod.mk.injEq] at hcreate
        rw [← hcreate.2.1]
      · simp [hm] at hcreate
    · intro ρ cb acc hhd hrate
      subst hhd
      have := expandStep_modeB gen fuel cb s i acc _ hs hrate
      rw [this, hid]
    · intro ρ cb result registry hhd
      subst hhd
      exact expandStep_modeD_explicit gen fuel cb s i result registry _ hs _ _
        (hid ρ cb registry)
  · intro hno s1 s2 q1 q2 h1 h2
    have hs := successorState_registered gen fuel s hd i newState queues nextBE hfail hvalid
      hno s1 s2 q1 q2 h1 h2
    have hid : ∀ (ρ : Type) (cb : σ → ρ → Nat × ρ) (registry : ρ),
        newStateId gen cb
            { nextBE := nextBE,
              newState := gen.mDft.updateDontCareDependencies
                (gen.mDft.updateFailableDependencies s2 nextBE.id) nextBE.id,
              merged := false } registry
          = cb (gen.mDft.updateDontCareDependencies
              (gen.mDft.updateFailableDependencies s2 nextBE.id) nextBE.id) registry := by
      intro ρ cb registry
      simp [newStateId]
    refine ⟨hs, hid, ?_, ?_⟩
    · intro ρ cb acc hhd hrate
      subst hhd
      have := expandStep_modeB gen fuel cb s i acc _ hs hrate
      rw [this, hid]
    · intro ρ cb result registry hhd
      subst hhd
      have hstep := expandStep_modeD_explicit gen fuel cb s i result registry _ hs
        (cb (gen.mDft.updateDontCareDependencies
          (gen.mDft.updateFailableDependencies s2 nextBE.id) nextBE.id) registry).1
        (cb (gen.mDft.updateDontCareDependencies
          (gen.mDft.updateFailableDependencies s2 nextBE.id) nextBE.id) registry).2
        (hid ρ cb registry)
      refine ⟨_, _, hstep, ?_⟩
      by_cases hp : gen.mDft.dependencyProbability (gen.mDft.getDependencyId s i) = 1
      · left; simp [hp]
      · right
        exact ⟨(cb (gen.mDft.letDependencyBeUnsuccessful s i)
          (cb (gen.mDft.updateDontCareDependencies
            (gen.mDft.updateFailableDependencies s2 nextBE.id) nextBE.id) registry).2).1,
          by rw [if_neg hp]⟩

theorem expand_successor_id_witness :
    successorState exMergingGenerator 10 exReady true 0
      = .ok (some { nextBE := exBE 1,
                    newState :=
                      { id := 2, failed := [2, 1, 0, 5], failableDependencies := [],
                        invalid := false },
                    merged := true }) ∧
    (∀ (ρ : Type) (cb : ExState → ρ → Nat × ρ) (registry : ρ),
      newStateId exMergingGenerator cb
          { nextBE := exBE 1,
            newState :=
              { id := 2, failed := [2, 1, 0, 5], failableDependencies := [],
                invalid := false },
            merged := true } registry
        = (exMergingGenerator.mergeFailedStateId, registry)) :=
  ⟨((expand_successor_id exMergingGenerator 10 exReady true 0
      { id := 2, failed := [2, 1, 0, 5], failableDependencies := [], invalid := false }
      Queues.empty (exBE 1) rfl rfl).1 rfl rfl).1,
   ((expand_successor_id exMergingGenerator 10 exReady true 0
      { id := 2, failed := [2, 1, 0, 5], failableDependencies := [], invalid := false }
      Queues.empty (exBE 1) rfl rfl).1 rfl rfl).2.2.1⟩

end DftNextStateGenerator

theorem Bdd.hashConsed_then {id v : Nat} {t e : Bdd} (h : (Bdd.node id v t e).HashConsed) :
    t.HashConsed := by
  intro n hn m hm hid
  exact h n (Bdd.subnodes_trans _ _ (Bdd.then_mem_subnodes (Bdd.self_mem_subnodes _)) n hn)
    m (Bdd.subnodes_trans _ _ (Bdd.then_mem_subnodes (Bdd.self_mem_subnodes _)) m hm) hid

theorem Bdd.hashConsed_else {id v : Nat} {t e : Bdd} (h : (Bdd.node id v t e).HashConsed) :
    e.HashConsed := by
  intro n hn m hm hid
  exact h n (Bdd.subnodes_trans _ _ (Bdd.else_mem_subnodes (Bdd.self_mem_subnodes _)) n hn)
    m (Bdd.subnodes_trans _ _ (Bdd.else_mem_subnodes (Bdd.self_mem_subnodes _)) m hm) hid

theorem birnbaumOf_eq_total (k : Nat) (p : ProbabilityMap) (b : Bdd)
    (hp : ∀ v ∈ b.vars, (p v).isSome = true) :
    birnbaumOf k p b = some (birnbaumTotal k (fun v => (p v).getD 0) b) := by
  induction b with
  | terminal id value => rfl
  | node id v t e iht ihe =>
    have hpt : ∀ u ∈ t.vars, (p u).isSome = true := fun u hu => hp u (by simp [Bdd.vars, hu])
    have hpe : ∀ u ∈ e.vars, (p u).isSome = true := fun u hu => hp u (by simp [Bdd.vars, hu])
    obtain ⟨pv, hpv⟩ := Option.isSome_iff_exists.mp (hp v (by simp [Bdd.vars]))
    by_cases hgt : v > k
    · simp [birnbaumOf, birnbaumTotal, hpv, hgt]
    · by_cases heq : v = k
      · subst heq
        simp [birnbaumOf, birnbaumTotal, hpv, probabilityOf_eq_total p t hpt,
          probabilityOf_eq_total p e hpe]
      · simp [birnbaumOf, birnbaumTotal, hpv, hgt, heq, iht hpt, ihe hpe]

theorem recursiveBirnbaumFactor_empty_total (k : Nat) (p : ProbabilityMap) (b : Bdd)
    (hhc : b.HashConsed) (hp : ∀ v ∈ b.vars, (p v).isSome = true) :
    ∃ cp cb, recursiveBirnbaumFactor k p b emptyCache emptyCache
      = some (birnbaumTotal k (fun v => (p v).getD 0) b, cp, cb) := by
  obtain ⟨cp, cb, h, _, _⟩ := (recursiveBirnbaumFactor_memo k p b hhc b
    (Bdd.self_mem_subnodes b) emptyCache emptyCache (cacheSoundFor_empty _ b)
    (cacheSoundFor_empty _ b)).1 _ (birnbaumOf_eq_total k p b hp)
  exact ⟨cp, cb, h⟩

/-- C14: for a hash-consed BDD node and a probability map covering its variables,
`recursiveBirnbaumFactor k` started with empty caches returns 0 for a terminal and for a
node whose top variable is greater than `k`, `P(then) - P(else)` when the top variable is
`k`, and `p_v * Birnbaum(k, then) + (1 - p_v) * Birnbaum(k, else)` when the top variable `v`
is smaller than `k`; `P` and `Birnbaum` are the values of `recursiveProbability` and
`recursiveBirnbaumFactor` started with empty caches on the children. -/
theorem recursiveBirnbaumFactor_cases (k : Nat) (b : Bdd) (p : ProbabilityMap)
    (hhc : b.HashConsed) (hp : ∀ v ∈ b.vars, (p v).isSome = true) :
    (b.isTerminal = true →
      ∃ cp cb, recursiveBirnbaumFactor k p b emptyCache emptyCache = some (0, cp, cb)) ∧
    (∀ id v t e, b = .node id v t e →
      (v > k →
        ∃ cp cb, recursiveBirnbaumFactor k p b emptyCache emptyCache = some (0, cp, cb)) ∧
      (v = k →
        ∃ pt pe c1 c2 cp cb,
          recursiveProbability p t emptyCache = some (pt, c1) ∧
          recursiveProbability p e emptyCache = some (pe, c2) ∧
          recursiveBirnbaumFactor k p b emptyCache emptyCache = some (pt - pe, cp, cb)) ∧
      (v < k →
        ∃ pv bt be cp1 cb1 cp2 cb2 cp cb,
          p v = some pv ∧
          recursiveBirnbaumFactor k p t emptyCache emptyCache = some (bt, cp1, cb1) ∧
          recursiveBirnbaumFactor k p e emptyCache emptyCache = some (be, cp2, cb2) ∧
          recursiveBirnbaumFactor k p b emptyCache emptyCache
            = some (pv * bt + (1 - pv) * be, cp, cb))) := by
  refine ⟨?_, ?_⟩
  · intro hterm
    cases b with
    | terminal id value => exact ⟨_, _, rfl⟩
    | node id v t e => simp [Bdd.isTerminal] at hterm
  · intro id v t e hb
    subst hb
    have hpt : ∀ u ∈ t.vars, (p u).isSome = true := fun u hu => hp u (by simp [Bdd.vars, hu])
    have hpe : ∀ u ∈ e.vars, (p u).isSome = true := fun u hu => hp u (by simp [Bdd.vars, hu])
    obtain ⟨pv, hpv⟩ := Option.isSome_iff_exists.mp (hp v (by simp [Bdd.vars]))
    obtain ⟨cp, cb, hB⟩ := recursiveBirnbaumFactor_empty_total k p _ hhc hp
    refine ⟨?_, ?_, ?_⟩
    · intro hgt
      refine ⟨cp, cb, ?_⟩
      rw [hB]
      simp [birnbaumTotal, hgt]
    · intro heq
      obtain ⟨c1, h1⟩ := recursiveProbability_empty_total p t (Bdd.hashConsed_then hhc) hpt
      obtain ⟨c2, h2⟩ := recursiveProbability_empty_total p e (Bdd.hashConsed_else hhc) hpe
      refine ⟨_, _, c1, c2, cp, cb, h1, h2, ?_⟩
      rw [hB]
      subst heq
      simp [birnbaumTotal]
    · intro hlt
      obtain ⟨cp1, cb1, h1⟩ :=
        recursiveBirnbaumFactor_empty_total k p t (Bdd.hashConsed_then hhc) hpt
      obtain ⟨cp2, cb2, h2⟩ :=
        recursiveBirnbaumFactor_empty_total k p e (Bdd.hashConsed_else hhc) hpe
      refine ⟨pv, _, _, cp1, cb1, cp2, cb2, cp, cb, hpv, h1, h2, ?_⟩
      rw [hB]
      have hgt : ¬ v > k := Nat.not_lt.mpr (Nat.le_of_lt hlt)
      have hne : ¬ v = k := Nat.ne_of_lt hlt
      simp [birnbaumTotal, hgt, hne, hpv]

theorem recursiveBirnbaumFactor_cases_witness :
    ∃ pv bt be cp1 cb1 cp2 cb2 cp cb,
      exProbabilities 0 = some pv ∧
      recursiveBirnbaumFactor 1 exProbabilities
        (.node 11 1 (.terminal 1 true) (.terminal 0 false)) emptyCache emptyCache
        = some (bt, cp1, cb1) ∧
      recursiveBirnbaumFactor 1 exProbabilities (.terminal 0 false) emptyCache emptyCache
        = some (be, cp2, cb2) ∧
      recursiveBirnbaumFactor 1 exProbabilities exAnd emptyCache emptyCache
        = some (pv * bt + (1 - pv) * be, cp, cb) :=
  ((recursiveBirnbaumFactor_cases 1 exAnd exProbabilities (by decide) (by decide)).2
    10 0 (.node 11 1 (.terminal 1 true) (.terminal 0 false)) (.terminal 0 false) rfl).2.2
    (by decide)

theorem convex_bounds (lo hi p a b : ℚ) (hp0 : 0 ≤ p) (hp1 : p ≤ 1) (ha : lo ≤ a ∧ a ≤ hi)
    (hb : lo ≤ b ∧ b ≤ hi) : lo ≤ p * a + (1 - p) * b ∧ p * a + (1 - p) * b ≤ hi := by
  have h1 : 0 ≤ 1 - p := by linarith
  constructor
  · nlinarith [mul_nonneg hp0 (sub_nonneg.mpr ha.1), mul_nonneg h1 (sub_nonneg.mpr hb.1)]
  · nlinarith [mul_nonneg hp0 (sub_nonneg.mpr ha.2), mul_nonneg h1 (sub_nonneg.mpr hb.2)]

theorem cacheInRange_update (c : ScalarCache) (lo hi : ℚ)
    (hc : ∀ id q, c id = some q → lo ≤ q ∧ q ≤ hi) (k : Nat) (x : ℚ) (hx : lo ≤ x ∧ x ≤ hi) :
    ∀ id q, Function.update c k (some x) id = some q → lo ≤ q ∧ q ≤ hi := by
  intro id q h
  by_cases hid : id = k
  · subst hid
    rw [Function.update_same] at h
    cases h
    exact hx
  · rw [Function.update_noteq hid] at h
    exact hc id q h

/-- From a cache with values in [0,1] the memoised traversal returns a value in [0,1] and
leaves such a cache. -/
theorem recursiveProbability_range (p : ProbabilityMap)
    (hrange : ∀ v q, p v = some q → 0 ≤ q ∧ q ≤ 1) (b : Bdd) :
    ∀ c, (∀ id q, c id = some q → (0 : ℚ) ≤ q ∧ q ≤ 1) →
      ∀ P c', recursiveProbability p b c = some (P, c') →
        (0 ≤ P ∧ P ≤ 1) ∧ ∀ id q, c' id = some q → (0 : ℚ) ≤ q ∧ q ≤ 1 := by
  induction b with
  | terminal id value =>
    intro c hc P c' h
    cases value
    · simp only [recursiveProbability, Option.some.injEq, Prod.mk.injEq] at h
      obtain ⟨rfl, rfl⟩ := h
      exact ⟨by norm_num, hc⟩
    · simp only [recursiveProbability, Option.some.injEq, Prod.mk.injEq] at h
      obtain ⟨rfl, rfl⟩ := h
      exact ⟨by norm_num, hc⟩
  | node id v t e iht ihe =>
    intro c hc P c' h
    simp only [recursiveProbability] at h
    cases hcid : c id with
    | some q0 =>
      simp only [hcid, Option.some.injEq, Prod.mk.injEq] at h
      obtain ⟨rfl, rfl⟩ := h
      exact ⟨hc id _ hcid, hc⟩
    | none =>
      simp only [hcid] at h
      cases hpv : p v with
      | none => simp [hpv] at h
      | some pv =>
        simp only [hpv] at h
        cases ht : recursiveProbability p t c with
        | none => simp [ht] at h
        | some r1 =>
          obtain ⟨pt, c1⟩ := r1
          simp only [ht] at h
          cases he : recursiveProbability p e c1 with
          | none => simp [he] at h
          | some r2 =>
            obtain ⟨pe, c2⟩ := r2
            simp only [he, Option.some.injEq, Prod.mk.injEq] at h
            obtain ⟨rfl, rfl⟩ := h
            obtain ⟨hpt, hc1⟩ := iht c hc pt c1 ht
            obtain ⟨hpe, hc2⟩ := ihe c1 hc1 pe c2 he
            have hval := convex_bounds 0 1 pv pt pe (hrange v pv hpv).1 (hrange v pv hpv).2
              hpt hpe
            exact ⟨hval, cacheInRange_update c2 0 1 hc2 id _ hval⟩

/-- With a covering map the memoised traversal returns a value from every cache. -/
theorem recursiveProbability_returns (p : ProbabilityMap) (b : Bdd)
    (hp : ∀ v ∈ b.vars, (p v).isSome = true) :
    ∀ c, ∃ P c', recursiveProbability p b c = some (P, c') := by
  induction b with
  | terminal id value =>
    intro c
    cases value
    · exact ⟨_, _, rfl⟩
    · exact ⟨_, _, rfl⟩
  | node id v t e iht ihe =>
    intro c
    have hpt : ∀ u ∈ t.vars, (p u).isSome = true := fun u hu => hp u (by simp [Bdd.vars, hu])
    have hpe : ∀ u ∈ e.vars, (p u).isSome = true := fun u hu => hp u (by simp [Bdd.vars, hu])
    obtain ⟨pv, hpv⟩ := Option.isSome_iff_exists.mp (hp v (by simp [Bdd.vars]))
    cases hcid : c id with
    | some q0 => exact ⟨q0, c, by simp [recursiveProbability, hcid]⟩
    | none =>
      obtain ⟨pt, c1, ht⟩ := iht hpt c
      obtain ⟨pe, c2, he⟩ := ihe hpe c1
      exact ⟨pv * pt + (1 - pv) * pe, Function.update c2 id (some (pv * pt + (1 - pv) * pe)),
        by simp only [recursiveProbability, hcid, hpv, ht, he]⟩

/-- C15: for every BDD and every probability map with values in [0,1], a value returned by
`recursiveProbability` started with an empty cache lies in [0,1]; when the map covers the
variables of the BDD the call returns such a value. -/
theorem recursiveProbability_in_unit_interval (b : Bdd) (p : ProbabilityMap)
    (hrange : ∀ v q, p v = some q → 0 ≤ q ∧ q ≤ 1) :
    (∀ P c, recursiveProbability p b emptyCache = some (P, c) → 0 ≤ P ∧ P ≤ 1) ∧
    ((∀ v ∈ b.vars, (p v).isSome = true) →
      ∃ P c, recursiveProbability p b emptyCache = some (P, c) ∧ 0 ≤ P ∧ P ≤ 1) := by
  have hempty : ∀ id q, emptyCache id = some q → (0 : ℚ) ≤ q ∧ q ≤ 1 := by
    intro id q h
    simp [emptyCache] at h
  refine ⟨fun P c h => (recursiveProbability_range p hrange b emptyCache hempty P c h).1, ?_⟩
  intro hp
  obtain ⟨P, c, h⟩ := recursiveProbability_returns p b hp emptyCache
  exact ⟨P, c, h, (recursiveProbability_range p hrange b emptyCache hempty P c h).1⟩

theorem exProbabilities_range : ∀ v q, exProbabilities v = some q → 0 ≤ q ∧ q ≤ 1 := by
  intro v q h
  unfold exProbabilities at h
  by_cases h0 : v = 0
  · simp only [h0, if_true, Option.some.injEq] at h
    subst h
    norm_num
  · by_cases h1 : v = 1
    · simp only [h1, if_true, Option.some.injEq] at h
      rw [if_neg (by decide)] at h
      cases h
      norm_num
    · simp [h0, h1] at h

theorem recursiveProbability_in_unit_interval_witness :
    ∃ P c, recursiveProbability exProbabilities exOr emptyCache = some (P, c) ∧
      0 ≤ P ∧ P ≤ 1 :=
  (recursiveProbability_in_unit_interval exOr exProbabilities exProbabilities_range).2
    (by decide)

/-- From caches with values in [0,1] and [-1,1] the memoised Birnbaum traversal returns a
value in [-1,1] and leaves such caches. -/
theorem recursiveBirnbaumFactor_range (k : Nat) (p : ProbabilityMap)
    (hrange : ∀ v q, p v = some q → 0 ≤ q ∧ q ≤ 1) (b : Bdd) :
    ∀ cp cb, (∀ id q, cp id = some q → (0 : ℚ) ≤ q ∧ q ≤ 1) →
      (∀ id q, cb id = some q → (-1 : ℚ) ≤ q ∧ q ≤ 1) →
      ∀ B cp' cb', recursiveBirnbaumFactor k p b cp cb = some (B, cp', cb') →
        (-1 ≤ B ∧ B ≤ 1) ∧ (∀ id q, cp' id = some q → (0 : ℚ) ≤ q ∧ q ≤ 1) ∧
        ∀ id q, cb' id = some q → (-1 : ℚ) ≤ q ∧ q ≤ 1 := by
  induction b with
  | terminal id value =>
    intro cp cb hcp hcb B cp' cb' h
    simp only [recursiveBirnbaumFactor, Option.some.injEq, Prod.mk.injEq] at h
    obtain ⟨rfl, rfl, rfl⟩ := h
    exact ⟨by norm_num, hcp, hcb⟩
  | node id v t e iht ihe =>
    intro cp cb hcp hcb B cp' cb' h
    simp only [recursiveBirnbaumFactor] at h
    cases hcid : cb id with
    | some q0 =>
      simp only [hcid, Option.some.injEq, Prod.mk.injEq] at h
      obtain ⟨rfl, rfl, rfl⟩ := h
      exact ⟨hcb id _ hcid, hcp, hcb⟩
    | none =>
      simp only [hcid] at h
      cases hpv : p v with
      | none => simp [hpv] at h
      | some pv =>
        simp only [hpv] at h
        by_cases hgt : v > k
        · simp only [hgt, if_true, Option.some.injEq, Prod.mk.injEq] at h
          obtain ⟨rfl, rfl, rfl⟩ := h
          exact ⟨by norm_num, hcp, hcb⟩
        · simp only [hgt, if_false] at h
          by_cases heq : v = k
          · simp only [heq, if_true] at h
            cases ht : recursiveProbability p t cp with
            | none => simp [ht] at h
            | some r1 =>
              obtain ⟨pt, c1⟩ := r1
              simp only [ht] at h
              cases he : recursiveProbability p e c1 with
              | none => simp [he] at h
              | some r2 =>
                obtain ⟨pe, c2⟩ := r2
                simp only [he, Option.some.injEq, Prod.mk.injEq] at h
                obtain ⟨rfl, rfl, rfl⟩ := h
                obtain ⟨hpt, hc1⟩ := recursiveProbability_range p hrange t cp hcp pt c1 ht
                obtain ⟨hpe, hc2⟩ := recursiveProbability_range p hrange e c1 hc1 pe c2 he
                have hval : (-1 : ℚ) ≤ pt - pe ∧ pt - pe ≤ 1 := by
                  constructor <;> linarith [hpt.1, hpt.2, hpe.1, hpe.2]
                exact ⟨hval, hc2, cacheInRange_update cb (-1) 1 hcb id _ hval⟩
          · simp only [heq, if_false] at h
            cases ht : recursiveBirnbaumFactor k p t cp cb with
            | none => simp [ht] at h
            | some r1 =>
              obtain ⟨bt, cp1, cb1⟩ := r1
              simp only [ht] at h
              cases he : recursiveBirnbaumFactor k p e cp1 cb1 with
              | none => simp [he] at h
              | some r2 =>
                obtain ⟨be, cp2, cb2⟩ := r2
                simp only [he, Option.some.injEq, Prod.mk.injEq] at h
                obtain ⟨rfl, rfl, rfl⟩ := h
                obtain ⟨hbt, hcp1, hcb1⟩ := iht cp cb hcp hcb bt cp1 cb1 ht
                obtain ⟨hbe, hcp2, hcb2⟩ := ihe cp1 cb1 hcp1 hcb1 be cp2 cb2 he
                have hval := convex_bounds (-1) 1 pv bt be (hrange v pv hpv).1
                  (hrange v pv hpv).2 hbt hbe
                exact ⟨hval, hcp2, cacheInRange_update cb2 (-1) 1 hcb2 id _ hval⟩

/-- With a covering map the memoised Birnbaum traversal returns a value from all caches. -/
theorem recursiveBirnbaumFactor_returns (k : Nat) (p : ProbabilityMap) (b : Bdd)
    (hp : ∀ v ∈ b.vars, (p v).isSome = true) :
    ∀ cp cb, ∃ B cp' cb', recursiveBirnbaumFactor k p b cp cb = some (B, cp', cb') := by
  induction b with
  | terminal id value => intro cp cb; exact ⟨_, _, _, rfl⟩
  | node id v t e iht ihe =>
    intro cp cb
    have hpt : ∀ u ∈ t.vars, (p u).isSome = true := fun u hu => hp u (by simp [Bdd.vars, hu])
    have hpe : ∀ u ∈ e.vars, (p u).isSome = true := fun u hu => hp u (by simp [Bdd.vars, hu])
    obtain ⟨pv, hpv⟩ := Option.isSome_iff_exists.mp (hp v (by simp [Bdd.vars]))
    cases hcid : cb id with
    | some q0 => exact ⟨q0, cp, cb, by simp [recursiveBirnbaumFactor, hcid]⟩
    | none =>
      by_cases hgt : v > k
      · exact ⟨0, cp, cb, by simp [recursiveBirnbaumFactor, hcid, hpv, hgt]⟩
      · by_cases heq : v = k
        · subst heq
          obtain ⟨pt, c1, ht⟩ := recursiveProbability_returns p t hpt cp
          obtain ⟨pe, c2, he⟩ := recursiveProbability_returns p e hpe c1
          exact ⟨pt - pe, c2, Function.update cb id (some (pt - pe)),
            by simp only [recursiveBirnbaumFactor, hcid, hpv, hgt, if_false, if_true,
              ht, he]⟩
        · obtain ⟨bt, cp1, cb1, ht⟩ := iht hpt cp cb
          obtain ⟨be, cp2, cb2, he⟩ := ihe hpe cp1 cb1
          exact ⟨pv * bt + (1 - pv) * be, cp2,
            Function.update cb2 id (some (pv * bt + (1 - pv) * be)),
            by simp only [recursiveBirnbaumFactor, hcid, hpv, hgt, heq, if_false, ht, he]⟩

/-- C16: for every BDD, every variable index `k` and every probability map with values in
[0,1], a value returned by `recursiveBirnbaumFactor` started with empty caches lies in
[-1,1]; when the map covers the variables of the BDD the call returns such a value. -/
theorem recursiveBirnbaumFactor_in_interval (k : Nat) (b : Bdd) (p : ProbabilityMap)
    (hrange : ∀ v q, p v = some q → 0 ≤ q ∧ q ≤ 1) :
    (∀ B cp cb, recursiveBirnbaumFactor k p b emptyCache emptyCache = some (B, cp, cb) →
      -1 ≤ B ∧ B ≤ 1) ∧
    ((∀ v ∈ b.vars, (p v).isSome = true) →
      ∃ B cp cb, recursiveBirnbaumFactor k p b emptyCache emptyCache = some (B, cp, cb) ∧
        -1 ≤ B ∧ B ≤ 1) := by
  have hempty0 : ∀ id q, emptyCache id = some q → (0 : ℚ) ≤ q ∧ q ≤ 1 := by
    intro id q h
    simp [emptyCache] at h
  have hempty1 : ∀ id q, emptyCache id = some q → (-1 : ℚ) ≤ q ∧ q ≤ 1 := by
    intro id q h
    simp [emptyCache] at h
  refine ⟨fun B cp cb h => (recursiveBirnbaumFactor_range k p hrange b emptyCache emptyCache
    hempty0 hempty1 B cp cb h).1, ?_⟩
  intro hp
  obtain ⟨B, cp, cb, h⟩ := recursiveBirnbaumFactor_returns k p b hp emptyCache emptyCache
  exact ⟨B, cp, cb, h, (recursiveBirnbaumFactor_range k p hrange b emptyCache emptyCache
    hempty0 hempty1 B cp cb h).1⟩

theorem recursiveBirnbaumFactor_in_interval_witness :
    ∃ B cp cb, recursiveBirnbaumFactor 0 exProbabilities exAnd emptyCache emptyCache
        = some (B, cp, cb) ∧ -1 ≤ B ∧ B ≤ 1 :=
  (recursiveBirnbaumFactor_in_interval 0 exAnd exProbabilities exProbabilities_range).2
    (by decide)

namespace SFTBDDChecker

/-- C20: for a fault tree with a single basic element whose BDD is one variable node
(then = one, else = zero) and whose probability `q` at the timebound is not 0, the computed
top probability is `q`, the Birnbaum factor of the element is 1, and `getRAWAtTimebound`
returns `1 + ((1 - q) * 1) / q`, which is `1 / q`. -/
theorem single_basic_element (checker : SFTBDDChecker) (be : BasicElement) (t : ℚ)
    (id i1 i0 : Nat) (hbe : checker.basicElements = [be])
    (hbdd : checker.topLevelGateBdd
      = .node id (checker.getIndex be.name) (.terminal i1 true) (.terminal i0 false))
    (hq : be.getUnreliability t ≠ 0) :
    checker.getProbabilityAtTimebound checker.topLevelGateBdd t
      = some (be.getUnreliability t) ∧
    checker.getBirnbaumFactorAtTimebound be.name t = some 1 ∧
    checker.getRAWAtTimebound be.name t
      = some (some (1 + ((1 - be.getUnreliability t) * 1) / be.getUnreliability t)) ∧
    1 + ((1 - be.getUnreliability t) * 1) / be.getUnreliability t
      = 1 / be.getUnreliability t := by
  have hmap : checker.indexToProbability t (checker.getIndex be.name)
      = some (be.getUnreliability t) := by
    simp [indexToProbability, hbe]
  refine ⟨?_, ?_, ?_, ?_⟩
  · simp [getProbabilityAtTimebound, hbdd, recursiveProbability, emptyCache, hmap]
  · simp [getBirnbaumFactorAtTimebound, hbdd, recursiveBirnbaumFactor, recursiveProbability,
      emptyCache, hmap]
  · simp [getRAWAtTimebound, probabilityAndBirnbaumFactor, beProbability, hbdd,
      recursiveBirnbaumFactor, recursiveProbability, emptyCache, hmap, divide, hq]
  · field_simp

theorem single_basic_element_witness :
    exSingle.getProbabilityAtTimebound exSingle.topLevelGateBdd (1 / 3) = some (1 / 3) ∧
    exSingle.getBirnbaumFactorAtTimebound "a" (1 / 3) = some 1 ∧
    exSingle.getRAWAtTimebound "a" (1 / 3)
      = some (some (1 + ((1 - 1 / 3) * 1) / (1 / 3))) ∧
    1 + ((1 - 1 / 3) * 1) / (1 / 3) = 1 / (1 / 3 : ℚ) :=
  single_basic_element exSingle
    { name := "a", beType := .OTHER, activeFailureRate := 1, getUnreliability := fun t => t }
    (1 / 3) 10 1 0 rfl rfl (by norm_num)

end SFTBDDChecker

theorem probabilityTotal_range (P : Nat → ℚ) (hP : ∀ v, 0 ≤ P v ∧ P v ≤ 1) (b : Bdd) :
    0 ≤ probabilityTotal P b ∧ probabilityTotal P b ≤ 1 := by
  induction b with
  | terminal id value => cases value <;> simp [probabilityTotal]
  | node id v t e iht ihe =>
    exact convex_bounds 0 1 (P v) _ _ (hP v).1 (hP v).2 iht ihe

/-- The top probability of an ordered BDD is affine in the probability of each variable. -/
theorem probabilityTotal_affine (P : Nat → ℚ) (k : Nat) (b : Bdd) (hord : b.Ordered) :
    probabilityTotal P b
      = P k * probabilityTotal (Function.update P k 1) b
        + (1 - P k) * probabilityTotal (Function.update P k 0) b := by
  induction b with
  | terminal id value => cases value <;> simp [probabilityTotal]
  | node id v t e iht ihe =>
    obtain ⟨hot, hoe, hordt, horde⟩ := hord
    by_cases heq : v = k
    · subst heq
      simp only [probabilityTotal, Function.update_same,
        probabilityTotal_update_of_lt _ v _ t hot, probabilityTotal_update_of_lt _ v _ e hoe]
      ring
    · simp only [probabilityTotal, Function.update_noteq heq]
      rw [iht hordt, ihe horde]
      ring

theorem birnbaumTotal_eq_diff (k : Nat) (P : Nat → ℚ) (b : Bdd) (hord : b.Ordered) :
    birnbaumTotal k P b
      = probabilityTotal (Function.update P k 1) b
        - probabilityTotal (Function.update P k 0) b := by
  induction b with
  | terminal id value => cases value <;> simp [birnbaumTotal, probabilityTotal]
  | node id v t e iht ihe =>
    obtain ⟨hot, hoe, hordt, horde⟩ := hord
    by_cases hgt : v > k
    · have hall : ∀ u ∈ (Bdd.node id v t e).vars, k < u := by
        intro u hu
        simp only [Bdd.vars, Finset.mem_insert, Finset.mem_union] at hu
        rcases hu with rfl | hu | hu
        · exact hgt
        · exact lt_trans hgt (hot u hu)
        · exact lt_trans hgt (hoe u hu)
      rw [probabilityTotal_update_of_lt _ k 1 _ hall, probabilityTotal_update_of_lt _ k 0 _ hall]
      simp [birnbaumTotal, hgt]
    · by_cases heq : v = k
      · subst heq
        simp only [birnbaumTotal, hgt, if_false, if_true, probabilityTotal,
          Function.update_same, probabilityTotal_update_of_lt _ v _ t hot,
          probabilityTotal_update_of_lt _ v _ e hoe]
        ring
      · simp only [birnbaumTotal, hgt, heq, if_false, probabilityTotal,
          Function.update_noteq heq, iht hordt, ihe horde]
        ring

theorem update_range (P : Nat → ℚ) (hP : ∀ v, 0 ≤ P v ∧ P v ≤ 1) (k : Nat) (x : ℚ)
    (hx : 0 ≤ x ∧ x ≤ 1) : ∀ v, 0 ≤ Function.update P k x v ∧ Function.update P k x v ≤ 1 := by
  intro v
  by_cases h : v = k
  · subst h; simpa using hx
  · rw [Function.update_noteq h]; exact hP v

/-- The values behind the importance measures of an ordered BDD: with `P1` and `P0` the top
probabilities when variable `k` is surely true and surely false, `P = q P1 + (1 - q) P0`
and `B = P1 - P0`. -/
theorem measures_decomposition (P : Nat → ℚ) (hP : ∀ v, 0 ≤ P v ∧ P v ≤ 1) (k : Nat)
    (b : Bdd) (hord : b.Ordered) :
    ∃ P1 P0 : ℚ, (0 ≤ P1 ∧ P1 ≤ 1) ∧ (0 ≤ P0 ∧ P0 ≤ 1) ∧
      probabilityTotal P b = P k * P1 + (1 - P k) * P0 ∧ birnbaumTotal k P b = P1 - P0 :=
  ⟨_, _, probabilityTotal_range _ (update_range P hP k 1 (by norm_num)) b,
    probabilityTotal_range _ (update_range P hP k 0 (by norm_num)) b,
    probabilityTotal_affine P k b hord, birnbaumTotal_eq_diff k P b hord⟩

theorem raw_bound (q P1 P0 : ℚ) (hq : 0 ≤ q ∧ q ≤ 1) (h1 : 0 ≤ P1 ∧ P1 ≤ 1)
    (h0 : 0 ≤ P0 ∧ P0 ≤ 1) (hB : 0 ≤ P1 - P0) :
    1 ≤ 1 + ((1 - q) * (P1 - P0)) / (q * P1 + (1 - q) * P0) := by
  have hnn : 0 ≤ q * P1 + (1 - q) * P0 :=
    add_nonneg (mul_nonneg hq.1 h1.1) (mul_nonneg (by linarith [hq.2]) h0.1)
  have := div_nonneg (mul_nonneg (by linarith [hq.2] : (0 : ℚ) ≤ 1 - q) hB) hnn
  linarith

namespace SFTBDDChecker

theorem foldl_update_some (getIndex : String → Nat) (u : BasicElement → ℚ)
    (l : List BasicElement) :
    ∀ (m : ProbabilityMap) (v : Nat) (q : ℚ),
      (l.foldl (fun m be => Function.update m (getIndex be.name) (some (u be))) m) v = some q →
      m v = some q ∨ ∃ be ∈ l, getIndex be.name = v ∧ q = u be := by
  induction l with
  | nil => intro m v q h; exact Or.inl h
  | cons a rest ih =>
    intro m v q h
    rw [List.foldl_cons] at h
    rcases ih _ v q h with h1 | ⟨be, hbe, hidx, hq⟩
    · by_cases hv : v = getIndex a.name
      · subst hv
        rw [Function.update_same] at h1
        cases h1
        exact Or.inr ⟨a, List.mem_cons_self _ _, rfl, rfl⟩
      · rw [Function.update_noteq hv] at h1
        exact Or.inl h1
    · exact Or.inr ⟨be, List.mem_cons_of_mem _ hbe, hidx, hq⟩

theorem foldl_update_isSome (getIndex : String → Nat) (u : BasicElement → ℚ)
    (l : List BasicElement) :
    ∀ (m : ProbabilityMap) (v : Nat),
      ((m v).isSome = true ∨ ∃ be ∈ l, getIndex be.name = v) →
      ((l.foldl (fun m be => Function.update m (getIndex be.name) (some (u be))) m) v).isSome
        = true := by
  induction l with
  | nil =>
    intro m v h
    rcases h with h | ⟨be, hbe, _⟩
    · exact h
    · simp at hbe
  | cons a rest ih =>
    intro m v h
    rw [List.foldl_cons]
    apply ih
    by_cases hv : v = getIndex a.name
    · subst hv
      left
      simp
    · rw [Function.update_noteq hv]
      rcases h with h | ⟨be, hbe, hidx⟩
      · exact Or.inl h
      · rcases List.mem_cons.mp hbe with rfl | hbe
        · exact absurd hidx.symm hv
        · exact Or.inr ⟨be, hbe, hidx⟩

theorem probabilityMapWith_covers (checker : SFTBDDChecker) (u : BasicElement → ℚ → ℚ)
    (t : ℚ) (bdd : Bdd) (hcov : checker.Covers bdd) :
    ∀ v ∈ bdd.vars, ((checker.probabilityMapWith u t) v).isSome = true := by
  intro v hv
  exact foldl_update_isSome checker.getIndex (fun be => u be t) checker.basicElements _ v
    (Or.inr (hcov v hv))

theorem probabilityMapWith_range (checker : SFTBDDChecker) (u : BasicElement → ℚ → ℚ)
    (t : ℚ) (hrange : ∀ be ∈ checker.basicElements, 0 ≤ u be t ∧ u be t ≤ 1) :
    ∀ v, 0 ≤ ((checker.probabilityMapWith u t) v).getD 0 ∧
      ((checker.probabilityMapWith u t) v).getD 0 ≤ 1 := by
  intro v
  cases h : (checker.probabilityMapWith u t) v with
  | none => simp
  | some q =>
    rcases foldl_update_some checker.getIndex (fun be => u be t) checker.basicElements _ v q h
      with h1 | ⟨be, hbe, _, hq⟩
    · simp at h1
    · simp only [Option.getD_some, hq]
      exact hrange be hbe

theorem indexToProbability_eq (checker : SFTBDDChecker) (t : ℚ) :
    checker.indexToProbability t
      = checker.probabilityMapWith (fun be => be.getUnreliability) t := rfl

/-- The kernel calls of the scalar functions on a hash-consed top-level BDD covered by the
basic elements return the values of the uncached recursions. -/
theorem scalar_kernels (checker : SFTBDDChecker) (beName : String) (t : ℚ)
    (hhc : checker.topLevelGateBdd.HashConsed) (hcov : checker.Covers checker.topLevelGateBdd) :
    checker.getProbabilityAtTimebound checker.topLevelGateBdd t
      = some (probabilityTotal (fun v => ((checker.indexToProbability t) v).getD 0)
          checker.topLevelGateBdd) ∧
    checker.getBirnbaumFactorAtTimebound beName t
      = some (birnbaumTotal (checker.getIndex beName)
          (fun v => ((checker.indexToProbability t) v).getD 0) checker.topLevelGateBdd) ∧
    checker.probabilityAndBirnbaumFactor beName t
      = some (probabilityTotal (fun v => ((checker.indexToProbability t) v).getD 0)
          checker.topLevelGateBdd,
        birnbaumTotal (checker.getIndex beName)
          (fun v => ((checker.indexToProbability t) v).getD 0) checker.topLevelGateBdd) := by
  have hp : ∀ v ∈ checker.topLevelGateBdd.vars,
      ((checker.indexToProbability t) v).isSome = true :=
    probabilityMapWith_covers checker _ t _ hcov
  obtain ⟨c, hc, hsound⟩ := (recursiveProbability_memo (checker.indexToProbability t)
    checker.topLevelGateBdd hhc _ (Bdd.self_mem_subnodes _) emptyCache
    (cacheSoundFor_empty _ _)).1 _ (probabilityOf_eq_total _ _ hp)
  obtain ⟨cp, cb, hB⟩ := recursiveBirnbaumFactor_empty_total (checker.getIndex beName)
    (checker.indexToProbability t) _ hhc hp
  obtain ⟨cp', cb', hB', _, _⟩ := (recursiveBirnbaumFactor_memo (checker.getIndex beName)
    (checker.indexToProbability t) checker.topLevelGateBdd hhc _ (Bdd.self_mem_subnodes _)
    c emptyCache hsound (cacheSoundFor_empty _ _)).1 _
    (birnbaumOf_eq_total _ _ _ hp)
  refine ⟨?_, ?_, ?_⟩
  · simp [getProbabilityAtTimebound, hc]
  · simp [getBirnbaumFactorAtTimebound, hB]
  · simp [probabilityAndBirnbaumFactor, hc, hB']

end SFTBDDChecker

namespace SFTBDDChecker

theorem exSingle_at_zero :
    exSingle.probabilityAndBirnbaumFactor "a" 0 = some (0, 1) ∧
    exSingle.beProbability "a" 0 = 0 := by
  constructor
  · simp [probabilityAndBirnbaumFactor, indexToProbability, exSingle, recursiveProbability,
      recursiveBirnbaumFactor, emptyCache]
  · simp [beProbability, indexToProbability, exSingle]

theorem exNot_at_half :
    exNot.probabilityAndBirnbaumFactor "a" (1 / 2) = some (1 / 2, -1) ∧
    exNot.beProbability "a" (1 / 2) = 1 / 2 := by
  constructor
  · simp [probabilityAndBirnbaumFactor, indexToProbability, exNot, recursiveProbability,
      recursiveBirnbaumFactor, emptyCache]
    norm_num
  · simp [beProbability, indexToProbability, exNot]

theorem exAndChecker_at_zero :
    exAndChecker.probabilityAndBirnbaumFactor "a" 0 = some (0, 0) ∧
    exAndChecker.beProbability "a" 0 = 0 := by
  constructor
  · simp [probabilityAndBirnbaumFactor, indexToProbability, exAndChecker, exAnd,
      recursiveProbability, recursiveBirnbaumFactor, emptyCache, Function.update]
  · simp [beProbability, indexToProbability, exAndChecker, Function.update]

end SFTBDDChecker

namespace SFTBDDChecker

/-- The values the scalar measure functions combine, for an ordered hash-consed top-level
BDD covered by basic elements with probabilities in [0,1]. -/
theorem measure_values (checker : SFTBDDChecker) (beName : String) (t : ℚ)
    (hhc : checker.topLevelGateBdd.HashConsed) (hord : checker.topLevelGateBdd.Ordered)
    (hcov : checker.Covers checker.topLevelGateBdd)
    (hrange : ∀ be ∈ checker.basicElements,
      0 ≤ be.getUnreliability t ∧ be.getUnreliability t ≤ 1) :
    ∃ q P1 P0 : ℚ, (0 ≤ q ∧ q ≤ 1) ∧ (0 ≤ P1 ∧ P1 ≤ 1) ∧ (0 ≤ P0 ∧ P0 ≤ 1) ∧
      checker.beProbability beName t = q ∧
      checker.getProbabilityAtTimebound checker.topLevelGateBdd t
        = some (q * P1 + (1 - q) * P0) ∧
      checker.getBirnbaumFactorAtTimebound beName t = some (P1 - P0) ∧
      checker.probabilityAndBirnbaumFactor beName t
        = some (q * P1 + (1 - q) * P0, P1 - P0) := by
  have hP := probabilityMapWith_range checker (fun be => be.getUnreliability) t hrange
  rw [← indexToProbability_eq] at hP
  obtain ⟨P1, P0, h1, h0, hdec, hB⟩ := measures_decomposition
    (fun v => ((checker.indexToProbability t) v).getD 0) hP (checker.getIndex beName)
    checker.topLevelGateBdd hord
  obtain ⟨k1, k2, k3⟩ := scalar_kernels checker beName t hhc hcov
  rw [hdec] at k1 k3
  rw [hB] at k2 k3
  exact ⟨_, P1, P0, hP (checker.getIndex beName), h1, h0, rfl, k1, k2, k3⟩

/-- C17 fails as stated: for the single basic element with probability 0 the top probability
is 0 and neither the CIF nor the DIF is a number (the quotient is by zero), and for the
BDD of the negated variable with probability 1/2 the CIF is -1. -/
theorem cif_dif_counterexample :
    exSingle.getCIFAtTimebound "a" 0 = some none ∧
    exSingle.getDIFAtTimebound "a" 0 = some none ∧
    exNot.getCIFAtTimebound "a" (1 / 2) = some (some (-1)) ∧
    ¬ (∃ cif, exSingle.getCIFAtTimebound "a" 0 = some (some cif) ∧ 0 ≤ cif ∧ cif ≤ 1) ∧
    ¬ (∃ dif, exSingle.getDIFAtTimebound "a" 0 = some (some dif) ∧ 0 ≤ dif ∧ dif ≤ 1) ∧
    ¬ (∃ cif, exNot.getCIFAtTimebound "a" (1 / 2) = some (some cif) ∧ 0 ≤ cif ∧ cif ≤ 1) := by
  have h1 : exSingle.getCIFAtTimebound "a" 0 = some none := by
    simp [getCIFAtTimebound, exSingle_at_zero.1, exSingle_at_zero.2, divide]
  have h2 : exSingle.getDIFAtTimebound "a" 0 = some none := by
    simp [getDIFAtTimebound, exSingle_at_zero.1, exSingle_at_zero.2, divide]
  have h3 : exNot.getCIFAtTimebound "a" (1 / 2) = some (some (-1)) := by
    unfold getCIFAtTimebound
    rw [exNot_at_half.1, exNot_at_half.2]
    norm_num [divide]
  refine ⟨h1, h2, h3, ?_, ?_, ?_⟩
  · rintro ⟨cif, h, _⟩
    rw [h1] at h
    cases h
  · rintro ⟨dif, h, _⟩
    rw [h2] at h
    cases h
  · rintro ⟨cif, h, h0, _⟩
    rw [h3] at h
    simp only [Option.some.injEq] at h
    subst h
    norm_num at h0

/-- C17 (amended): for an ordered hash-consed top-level BDD covered by basic elements whose
probabilities at the timebound lie in [0,1], when the top probability `P` is not 0, the DIF
returned by `getDIFAtTimebound` is at least `q_k`, and so at least 0, whenever the Birnbaum
factor `B_k` is not negative, and the CIF returned by `getCIFAtTimebound` is at least 0
whenever `B_k` is positive. Under these conditions every intermediate value of the two
expressions is a quotient, product or sum of values that are not negative, which rounding
to doubles preserves; the upper bound 1 of the exact values is not stated, since the
rounded results can exceed it. -/
theorem cif_dif_not_negative (checker : SFTBDDChecker) (beName : String) (t : ℚ)
    (hhc : checker.topLevelGateBdd.HashConsed) (hord : checker.topLevelGateBdd.Ordered)
    (hcov : checker.Covers checker.topLevelGateBdd)
    (hrange : ∀ be ∈ checker.basicElements,
      0 ≤ be.getUnreliability t ∧ be.getUnreliability t ≤ 1) :
    ∃ P B, checker.getProbabilityAtTimebound checker.topLevelGateBdd t = some P ∧
      checker.getBirnbaumFactorAtTimebound beName t = some B ∧
      (P ≠ 0 →
        (0 ≤ B → ∃ dif, checker.getDIFAtTimebound beName t = some (some dif) ∧
          0 ≤ checker.beProbability beName t ∧ checker.beProbability beName t ≤ dif) ∧
        (0 < B → ∃ cif, checker.getCIFAtTimebound beName t = some (some cif) ∧ 0 ≤ cif)) := by
  obtain ⟨q, P1, P0, hq, h1, h0, hbe, hP, hB, hPB⟩ :=
    measure_values checker beName t hhc hord hcov hrange
  refine ⟨_, _, hP, hB, ?_⟩
  intro hne
  have hPnn : 0 ≤ q * P1 + (1 - q) * P0 :=
    add_nonneg (mul_nonneg hq.1 h1.1) (mul_nonneg (by linarith [hq.2]) h0.1)
  have hPpos : 0 < q * P1 + (1 - q) * P0 := lt_of_le_of_ne hPnn (Ne.symm hne)
  constructor
  · intro hnn
    refine ⟨q + q * (1 - q) * (P1 - P0) / (q * P1 + (1 - q) * P0), ?_, ?_, ?_⟩
    · simp [getDIFAtTimebound, hPB, hbe, divide, hne]
    · rw [hbe]
      exact hq.1
    · rw [hbe]
      have hterm : 0 ≤ q * (1 - q) * (P1 - P0) / (q * P1 + (1 - q) * P0) :=
        div_nonneg (mul_nonneg (mul_nonneg hq.1 (by linarith [hq.2])) hnn) hPnn
      linarith
  · intro hpos
    refine ⟨q / (q * P1 + (1 - q) * P0) * (P1 - P0), ?_, ?_⟩
    · simp [getCIFAtTimebound, hPB, hbe, divide, hne]
    · exact mul_nonneg (div_nonneg hq.1 hPnn) (le_of_lt hpos)

theorem exAndChecker_covers : exAndChecker.Covers exAndChecker.topLevelGateBdd := by
  intro v hv
  have hv' : v = 0 ∨ v = 1 := by
    simpa [exAndChecker, exAnd, Bdd.vars] using hv
  rcases hv' with rfl | rfl
  · exact ⟨_, List.mem_cons_self _ _, by simp [exAndChecker]⟩
  · exact ⟨_, List.mem_cons_of_mem _ (List.mem_cons_self _ _), by simp [exAndChecker]⟩

theorem exAndChecker_range :
    ∀ be ∈ exAndChecker.basicElements,
      0 ≤ be.getUnreliability (1 / 2) ∧ be.getUnreliability (1 / 2) ≤ 1 := by
  intro be hbe
  simp only [exAndChecker, List.mem_cons, List.mem_singleton, List.not_mem_nil, or_false]
    at hbe
  rcases hbe with rfl | rfl <;> norm_num

theorem exAndChecker_at_half :
    exAndChecker.getProbabilityAtTimebound exAndChecker.topLevelGateBdd (1 / 2)
      = some (1 / 8) ∧
    exAndChecker.getBirnbaumFactorAtTimebound "a" (1 / 2) = some (1 / 4) := by
  constructor
  · simp [getProbabilityAtTimebound, indexToProbability, exAndChecker, exAnd,
      recursiveProbability, emptyCache, Function.update]
    norm_num
  · simp [getBirnbaumFactorAtTimebound, indexToProbability, exAndChecker, exAnd,
      recursiveProbability, recursiveBirnbaumFactor, emptyCache, Function.update]
    norm_num

theorem cif_dif_not_negative_witness :
    (∃ dif, exAndChecker.getDIFAtTimebound "a" (1 / 2) = some (some dif) ∧
      0 ≤ exAndChecker.beProbability "a" (1 / 2) ∧
      exAndChecker.beProbability "a" (1 / 2) ≤ dif) ∧
    (∃ cif, exAndChecker.getCIFAtTimebound "a" (1 / 2) = some (some cif) ∧ 0 ≤ cif) := by
  obtain ⟨P, B, hP, hB, h⟩ := cif_dif_not_negative exAndChecker "a" (1 / 2) (by decide)
    (by decide) exAndChecker_covers exAndChecker_range
  rw [exAndChecker_at_half.1] at hP
  rw [exAndChecker_at_half.2] at hB
  cases hP
  cases hB
  obtain ⟨hdif, hcif⟩ := h (by norm_num)
  exact ⟨hdif (by norm_num), hcif (by norm_num)⟩

/-- C18 fails as stated: for the AND of two basic elements with probability 0 the top
probability and the Birnbaum factor are 0 and the RAW is not a number (zero divided by
zero), and for the BDD of the negated variable with probability 1/2 the RAW is 0. -/
theorem raw_counterexample :
    exAndChecker.getRAWAtTimebound "a" 0 = some none ∧
    exNot.getRAWAtTimebound "a" (1 / 2) = some (some 0) ∧
    ¬ (∃ raw, exAndChecker.getRAWAtTimebound "a" 0 = some (some raw) ∧ 1 ≤ raw) ∧
    ¬ (∃ raw, exNot.getRAWAtTimebound "a" (1 / 2) = some (some raw) ∧ 1 ≤ raw) := by
  have h1 : exAndChecker.getRAWAtTimebound "a" 0 = some none := by
    simp [getRAWAtTimebound, exAndChecker_at_zero.1, exAndChecker_at_zero.2, divide]
  have h2 : exNot.getRAWAtTimebound "a" (1 / 2) = some (some 0) := by
    unfold getRAWAtTimebound
    rw [exNot_at_half.1, exNot_at_half.2]
    norm_num [divide]
  refine ⟨h1, h2, ?_, ?_⟩
  · rintro ⟨raw, h, _⟩
    rw [h1] at h
    cases h
  · rintro ⟨raw, h, h0⟩
    rw [h2] at h
    simp only [Option.some.injEq] at h
    subst h
    norm_num at h0

/-- C18 (amended): for an ordered hash-consed top-level BDD covered by basic elements whose
probabilities at the timebound lie in [0,1], when the top probability `P` is not 0 and the
Birnbaum factor `B_k` is not negative, the RAW returned by `getRAWAtTimebound` is at
least 1. -/
theorem raw_at_least_one (checker : SFTBDDChecker) (beName : String) (t : ℚ)
    (hhc : checker.topLevelGateBdd.HashConsed) (hord : checker.topLevelGateBdd.Ordered)
    (hcov : checker.Covers checker.topLevelGateBdd)
    (hrange : ∀ be ∈ checker.basicElements,
      0 ≤ be.getUnreliability t ∧ be.getUnreliability t ≤ 1) :
    ∃ P B, checker.getProbabilityAtTimebound checker.topLevelGateBdd t = some P ∧
      checker.getBirnbaumFactorAtTimebound beName t = some B ∧
      (P ≠ 0 → 0 ≤ B →
        ∃ raw, checker.getRAWAtTimebound beName t = some (some raw) ∧ 1 ≤ raw) := by
  obtain ⟨q, P1, P0, hq, h1, h0, hbe, hP, hB, hPB⟩ :=
    measure_values checker beName t hhc hord hcov hrange
  refine ⟨_, _, hP, hB, ?_⟩
  intro hne hnn
  refine ⟨_, ?_, raw_bound q P1 P0 hq h1 h0 hnn⟩
  simp [getRAWAtTimebound, hPB, hbe, divide, hne]

theorem raw_at_least_one_witness :
    ∃ raw, exAndChecker.getRAWAtTimebound "a" (1 / 2) = some (some raw) ∧ 1 ≤ raw := by
  obtain ⟨P, B, hP, hB, h⟩ := raw_at_least_one exAndChecker "a" (1 / 2) (by decide)
    (by decide) exAndChecker_covers exAndChecker_range
  rw [exAndChecker_at_half.1] at hP
  rw [exAndChecker_at_half.2] at hB
  cases hP
  cases hB
  exact h (by norm_num) (by norm_num)

/-- C19 fails as stated: for the single basic element with probability 0 the RRW is not a
number (zero divided by zero), and for the BDD of the negated variable with probability
1/2 the RRW is 1/2. -/
theorem rrw_counterexample :
    exSingle.getRRWAtTimebound "a" 0 = some none ∧
    exNot.getRRWAtTimebound "a" (1 / 2) = some (some (1 / 2)) ∧
    ¬ (∃ rrw, exSingle.getRRWAtTimebound "a" 0 = some (some rrw) ∧ 1 ≤ rrw) ∧
    ¬ (∃ rrw, exNot.getRRWAtTimebound "a" (1 / 2) = some (some rrw) ∧ 1 ≤ rrw) := by
  have h1 : exSingle.getRRWAtTimebound "a" 0 = some none := by
    simp [getRRWAtTimebound, exSingle_at_zero.1, exSingle_at_zero.2, divide]
  have h2 : exNot.getRRWAtTimebound "a" (1 / 2) = some (some (1 / 2)) := by
    unfold getRRWAtTimebound
    rw [exNot_at_half.1, exNot_at_half.2]
    norm_num [divide]
  refine ⟨h1, h2, ?_, ?_⟩
  · rintro ⟨rrw, h, _⟩
    rw [h1] at h
    cases h
  · rintro ⟨rrw, h, h0⟩
    rw [h2] at h
    simp only [Option.some.injEq] at h
    subst h
    norm_num at h0

/-- C19 (amended): for an ordered hash-consed top-level BDD covered by basic elements whose
probabilities at the timebound lie in [0,1], when the divisor `P - q_k * B_k` that
`getRRWAtTimebound` computes is positive and the Birnbaum factor `B_k` is not negative, the
RRW it returns is at least 1. The divisor is then at most `P`, which rounding to doubles
preserves; a divisor that is not 0 is not enough, since a divisor whose exact value is 0 can
be rounded to a negative number. -/
theorem rrw_at_least_one (checker : SFTBDDChecker) (beName : String) (t : ℚ)
    (hhc : checker.topLevelGateBdd.HashConsed) (hord : checker.topLevelGateBdd.Ordered)
    (hcov : checker.Covers checker.topLevelGateBdd)
    (hrange : ∀ be ∈ checker.basicElements,
      0 ≤ be.getUnreliability t ∧ be.getUnreliability t ≤ 1) :
    ∃ P B, checker.getProbabilityAtTimebound checker.topLevelGateBdd t = some P ∧
      checker.getBirnbaumFactorAtTimebound beName t = some B ∧
      (0 < P - checker.beProbability beName t * B → 0 ≤ B →
        ∃ rrw, checker.getRRWAtTimebound beName t = some (some rrw) ∧
          P - checker.beProbability beName t * B ≤ P ∧ 1 ≤ rrw) := by
  obtain ⟨q, P1, P0, hq, h1, h0, hbe, hP, hB, hPB⟩ :=
    measure_values checker beName t hhc hord hcov hrange
  refine ⟨_, _, hP, hB, ?_⟩
  rw [hbe]
  intro hpos hnn
  have hle : q * P1 + (1 - q) * P0 - q * (P1 - P0) ≤ q * P1 + (1 - q) * P0 := by
    have := mul_nonneg hq.1 hnn
    linarith
  refine ⟨(q * P1 + (1 - q) * P0) / (q * P1 + (1 - q) * P0 - q * (P1 - P0)), ?_, hle, ?_⟩
  · simp [getRRWAtTimebound, hPB, hbe, divide, ne_of_gt hpos]
  · rw [le_div_iff₀ hpos]
    linarith

theorem exOrChecker_covers : exOrChecker.Covers exOrChecker.topLevelGateBdd := by
  intro v hv
  have hv' : v = 0 ∨ v = 1 := by
    simpa [exOrChecker, exOr, Bdd.vars] using hv
  rcases hv' with rfl | rfl
  · exact ⟨_, List.mem_cons_self _ _, by simp [exOrChecker]⟩
  · exact ⟨_, List.mem_cons_of_mem _ (List.mem_cons_self _ _), by simp [exOrChecker]⟩

theorem exOrChecker_range :
    ∀ be ∈ exOrChecker.basicElements,
      0 ≤ be.getUnreliability (1 / 2) ∧ be.getUnreliability (1 / 2) ≤ 1 := by
  intro be hbe
  simp only [exOrChecker, List.mem_cons, List.mem_singleton, List.not_mem_nil, or_false]
    at hbe
  rcases hbe with rfl | rfl <;> norm_num

theorem exOrChecker_at_half :
    exOrChecker.getProbabilityAtTimebound exOrChecker.topLevelGateBdd (1 / 2)
      = some (5 / 8) ∧
    exOrChecker.getBirnbaumFactorAtTimebound "a" (1 / 2) = some (3 / 4) ∧
    exOrChecker.beProbability "a" (1 / 2) = 1 / 2 := by
  refine ⟨?_, ?_, ?_⟩
  · simp [getProbabilityAtTimebound, indexToProbability, exOrChecker, exOr,
      recursiveProbability, emptyCache, Function.update]
    norm_num
  · simp [getBirnbaumFactorAtTimebound, indexToProbability, exOrChecker, exOr,
      recursiveProbability, recursiveBirnbaumFactor, emptyCache, Function.update]
    norm_num
  · simp [beProbability, indexToProbability, exOrChecker, Function.update]

theorem rrw_at_least_one_witness :
    ∃ rrw, exOrChecker.getRRWAtTimebound "a" (1 / 2) = some (some rrw) ∧
      (5 / 8 : ℚ) - 1 / 2 * (3 / 4) ≤ 5 / 8 ∧ 1 ≤ rrw := by
  obtain ⟨P, B, hP, hB, h⟩ := rrw_at_least_one exOrChecker "a" (1 / 2) (by decide)
    (by decide) exOrChecker_covers exOrChecker_range
  rw [exOrChecker_at_half.1] at hP
  rw [exOrChecker_at_half.2.1] at hB
  rw [exOrChecker_at_half.2.2] at h
  cases hP
  cases hB
  exact h (by norm_num) (by norm_num)

end SFTBDDChecker

theorem Bdd.vars_subnode (root : Bdd) :
    ∀ b ∈ root.subnodes, ∀ v ∈ b.vars, v ∈ root.vars := by
  induction root with
  | terminal id value =>
    intro b hb v hv
    simp only [Bdd.subnodes, List.mem_singleton] at hb
    subst hb
    exact hv
  | node id x t e iht ihe =>
    intro b hb v hv
    simp only [Bdd.subnodes, List.mem_cons, List.mem_append] at hb
    rcases hb with hb | hb | hb
    · subst hb
      exact hv
    · have := iht b hb v hv
      simp [Bdd.vars, this]
    · have := ihe b hb v hv
      simp [Bdd.vars, this]


theorem touch_true (c : VectorCache) (k k' : Nat) (a : List ℚ) :
    (touch c k) k' = some (true, a) ↔ c k' = some (true, a) := by
  unfold touch
  cases hk : c k with
  | some x => simp
  | none =>
    by_cases h : k' = k
    · subst h
      simp [hk]
    · simp [Function.update_noteq h]

theorem slotValues_touch (c : VectorCache) (k k' : Nat) :
    slotValues (touch c k) k' = slotValues c k' := by
  unfold touch
  cases hk : c k with
  | some x => simp
  | none =>
    by_cases h : k' = k
    · subst h
      simp [slotValues, hk]
    · simp [slotValues, Function.update_noteq h]

theorem slotValues_of_eq {c : VectorCache} {k : Nat} {f : Bool} {a : List ℚ}
    (h : c k = some (f, a)) : slotValues c k = a := by
  simp [slotValues, h]

theorem vectorCacheSound_touch (g : Bdd → List ℚ) (root : Bdd) (c : VectorCache) (k : Nat)
    (hc : VectorCacheSound g root c) : VectorCacheSound g root (touch c k) := by
  intro n hn a h
  exact hc n hn a ((touch_true c k _ a).mp h)

theorem vectorCacheSound_invalidate (g : Bdd → List ℚ) (root : Bdd) (c : VectorCache) :
    VectorCacheSound g root (invalidate c) := by
  intro n _ a h
  unfold invalidate at h
  cases hc : c n.GetBDD with
  | none => simp [hc] at h
  | some x => simp [hc] at h

theorem vectorCacheSound_update (g : Bdd → List ℚ) (root : Bdd) (hhc : root.HashConsed)
    (c : VectorCache) (hc : VectorCacheSound g root c) (b : Bdd) (hb : b ∈ root.subnodes)
    (f : Bool) (a : List ℚ) (ha : f = true → a = g b) :
    VectorCacheSound g root (Function.update c b.GetBDD (some (f, a))) := by
  intro n hn a' h
  by_cases hid : n.GetBDD = b.GetBDD
  · have hnb : n = b := hhc n hn b hb hid
    rw [hid, Function.update_same] at h
    simp only [Option.some.injEq, Prod.mk.injEq] at h
    rw [hnb, ← h.2]
    exact ha h.1
  · rw [Function.update_noteq hid] at h
    exact hc n hn a' h

theorem iteArray_map (l : List ℚ) (f g h : ℚ → ℚ) :
    iteArray (l.map f) (l.map g) (l.map h)
      = l.map (fun t => f t * g t + (1 - f t) * h t) := by
  induction l with
  | nil => rfl
  | cons a rest ih =>
    simp only [iteArray, List.map_cons, List.zipWith_cons_cons] at ih ⊢
    rw [ih]

theorem zipWith_sub_map (l : List ℚ) (g h : ℚ → ℚ) :
    List.zipWith (fun s t => s - t) (l.map g) (l.map h) = l.map (fun t => g t - h t) := by
  induction l with
  | nil => rfl
  | cons a rest ih => simp only [List.map_cons, List.zipWith_cons_cons, ih]

theorem replicate_length_eq_map (l : List ℚ) (x : ℚ) :
    List.replicate l.length x = l.map (fun _ => x) := by
  induction l with
  | nil => rfl
  | cons a rest ih => simp only [List.length_cons, List.replicate_succ, List.map_cons, ih]

/-- The vector kernel fills the slot of the node with the array of the values of the uncached
recursion at the timepoints of the chunk, keeps the cache sound and keeps valid slots. -/
theorem recursiveProbabilities_memo (cts : List ℚ) (F : ℚ → Nat → ℚ) (itp : VectorMap)
    (root : Bdd) (hhc : root.HashConsed)
    (hitp : ∀ v ∈ root.vars, itp v = some (cts.map (fun t => F t v))) (b : Bdd) :
    b ∈ root.subnodes → ∀ c,
      VectorCacheSound (fun m => cts.map (fun t => probabilityTotal (F t) m)) root c →
      ∃ c', recursiveProbabilities cts.length itp b c = some (b.GetBDD, c') ∧
        VectorCacheSound (fun m => cts.map (fun t => probabilityTotal (F t) m)) root c' ∧
        c' b.GetBDD = some (true, cts.map (fun t => probabilityTotal (F t) b)) ∧
        (∀ n ∈ root.subnodes, ∀ a, c n.GetBDD = some (true, a) →
          c' n.GetBDD = some (true, a)) := by
  induction b with
  | terminal id value =>
    intro hb c hc
    by_cases hhit : ∃ a, c id = some (true, a)
    · obtain ⟨a, ha⟩ := hhit
      have haeq := hc _ hb a ha
      refine ⟨c, ?_, hc, ?_, fun _ _ _ h => h⟩
      · simp [recursiveProbabilities, ha, Bdd.GetBDD]
      · show c id = _
        rw [ha, haeq]
    · have hval : List.replicate cts.length (if value then (1 : ℚ) else 0)
          = cts.map (fun t => probabilityTotal (F t) (Bdd.terminal id value)) := by
        rw [replicate_length_eq_map]
        cases value <;> simp [probabilityTotal]
      have hres : recursiveProbabilities cts.length itp (Bdd.terminal id value) c
          = some (id, Function.update (touch c id) id
              (some (true, List.replicate cts.length (if value then 1 else 0)))) := by
        unfold recursiveProbabilities
        split
        · rename_i a h
          exact absurd ⟨a, h⟩ hhit
        · rfl
      refine ⟨_, hres, ?_, ?_, ?_⟩
      · exact vectorCacheSound_update _ root hhc _ (vectorCacheSound_touch _ root c id hc)
          (Bdd.terminal id value) hb true _ (fun _ => hval)
      · show Function.update (touch c id) id _ id = _
        rw [Function.update_same, hval]
      · intro n hn a h
        by_cases hid : n.GetBDD = id
        · exact absurd ⟨a, hid ▸ h⟩ hhit
        · rw [Function.update_noteq hid]
          exact (touch_true c id _ a).mpr h
  | node id v t e iht ihe =>
    intro hb c hc
    have ht := Bdd.then_mem_subnodes hb
    have he := Bdd.else_mem_subnodes hb
    by_cases hhit : ∃ a, c id = some (true, a)
    · obtain ⟨a, ha⟩ := hhit
      have haeq := hc _ hb a ha
      refine ⟨c, ?_, hc, ?_, fun _ _ _ h => h⟩
      · simp [recursiveProbabilities, ha, Bdd.GetBDD]
      · show c id = _
        rw [ha, haeq]
    · obtain ⟨c1, hr1, hc1, hs1, hf1⟩ := iht ht (touch c id)
        (vectorCacheSound_touch _ root c id hc)
      obtain ⟨c2, hr2, hc2, hs2, hf2⟩ := ihe he c1 hc1
      have hst : slotValues c2 t.GetBDD = cts.map (fun s => probabilityTotal (F s) t) :=
        slotValues_of_eq (hf2 t ht _ hs1)
      have hse : slotValues c2 e.GetBDD = cts.map (fun s => probabilityTotal (F s) e) :=
        slotValues_of_eq hs2
      have hv : itp v = some (cts.map (fun s => F s v)) :=
        hitp v (Bdd.vars_subnode root _ hb v (by simp [Bdd.vars]))
      have hval : iteArray (cts.map (fun s => F s v)) (slotValues c2 t.GetBDD)
          (slotValues c2 e.GetBDD)
          = cts.map (fun s => probabilityTotal (F s) (Bdd.node id v t e)) := by
        rw [hst, hse, iteArray_map]
        rfl
      have hres : recursiveProbabilities cts.length itp (Bdd.node id v t e) c
          = some (id, Function.update c2 id
              (some (true, iteArray (cts.map (fun s => F s v)) (slotValues c2 t.GetBDD)
                (slotValues c2 e.GetBDD)))) := by
        unfold recursiveProbabilities
        split
        · rename_i a h
          exact absurd ⟨a, h⟩ hhit
        · simp only [hr1, hr2, hv]
      refine ⟨_, hres, ?_, ?_, ?_⟩
      · exact vectorCacheSound_update _ root hhc c2 hc2 (Bdd.node id v t e) hb true _
          (fun _ => hval)
      · show Function.update c2 id _ id = _
        rw [Function.update_same, hval]
      · intro n hn a h
        by_cases hid : n.GetBDD = id
        · exact absurd ⟨a, hid ▸ h⟩ hhit
        · rw [Function.update_noteq hid]
          exact hf2 n hn a (hf1 n hn a ((touch_true c id _ a).mpr h))


theorem slotValues_update_same (c : VectorCache) (k : Nat) (f : Bool) (a : List ℚ) :
    slotValues (Function.update c k (some (f, a))) k = a := by
  simp [slotValues]

theorem slotValues_update_noteq (c : VectorCache) (k k' : Nat) (x : Option (Bool × List ℚ))
    (h : k' ≠ k) : slotValues (Function.update c k x) k' = slotValues c k' := by
  simp [slotValues, Function.update_noteq h]

/-- The vector Birnbaum kernel leaves in the slot of the node the array of the values of the
uncached recursion at the timepoints of the chunk; both caches stay sound, valid slots of
the probability cache stay, and slots of the Birnbaum cache with the right array keep it. -/
theorem recursiveBirnbaumFactors_memo (cts : List ℚ) (F : ℚ → Nat → ℚ) (itp : VectorMap)
    (k : Nat) (root : Bdd) (hhc : root.HashConsed)
    (hitp : ∀ v ∈ root.vars, itp v = some (cts.map (fun t => F t v))) (b : Bdd) :
    b ∈ root.subnodes → ∀ cP cB,
      VectorCacheSound (fun m => cts.map (fun t => probabilityTotal (F t) m)) root cP →
      VectorCacheSound (fun m => cts.map (fun t => birnbaumTotal k (F t) m)) root cB →
      ∃ cP' cB', recursiveBirnbaumFactors cts.length k itp b cP cB
          = some (b.GetBDD, cP', cB') ∧
        VectorCacheSound (fun m => cts.map (fun t => probabilityTotal (F t) m)) root cP' ∧
        VectorCacheSound (fun m => cts.map (fun t => birnbaumTotal k (F t) m)) root cB' ∧
        slotValues cB' b.GetBDD = cts.map (fun t => birnbaumTotal k (F t) b) ∧
        (∀ n ∈ root.subnodes, ∀ a, cP n.GetBDD = some (true, a) →
          cP' n.GetBDD = some (true, a)) ∧
        (∀ n ∈ root.subnodes,
          slotValues cB n.GetBDD = cts.map (fun t => birnbaumTotal k (F t) n) →
          slotValues cB' n.GetBDD = cts.map (fun t => birnbaumTotal k (F t) n)) := by
  induction b with
  | terminal id value =>
    intro hb cP cB hcP hcB
    by_cases hhit : ∃ a, cB id = some (true, a)
    · obtain ⟨a, ha⟩ := hhit
      have haeq := hcB _ hb a ha
      refine ⟨cP, cB, ?_, hcP, hcB, ?_, fun _ _ _ h => h, fun _ _ h => h⟩
      · simp [recursiveBirnbaumFactors, ha, Bdd.GetBDD]
      · show slotValues cB id = _
        rw [slotValues_of_eq ha, haeq]
    · have hval : List.replicate cts.length (0 : ℚ)
          = cts.map (fun t => birnbaumTotal k (F t) (Bdd.terminal id value)) := by
        rw [replicate_length_eq_map]
        rfl
      have hres : recursiveBirnbaumFactors cts.length k itp (Bdd.terminal id value) cP cB
          = some (id, cP, Function.update (touch cB id) id
              (some (false, List.replicate cts.length 0))) := by
        unfold recursiveBirnbaumFactors
        split
        · rename_i a h
          exact absurd ⟨a, h⟩ hhit
        · rfl
      refine ⟨_, _, hres, hcP, ?_, ?_, fun _ _ _ h => h, ?_⟩
      · exact vectorCacheSound_update _ root hhc _ (vectorCacheSound_touch _ root cB id hcB)
          (Bdd.terminal id value) hb false _ (fun h => by cases h)
      · show slotValues (Function.update (touch cB id) id _) id = _
        rw [slotValues_update_same, hval]
      · intro n hn h
        by_cases hid : n.GetBDD = id
        · have hnb : n = Bdd.terminal id value := hhc n hn _ hb hid
          rw [hid, slotValues_update_same, hval, hnb]
        · rw [slotValues_update_noteq _ _ _ _ hid, slotValues_touch]
          exact h
  | node id v t e iht ihe =>
    intro hb cP cB hcP hcB
    have ht := Bdd.then_mem_subnodes hb
    have he := Bdd.else_mem_subnodes hb
    by_cases hhit : ∃ a, cB id = some (true, a)
    · obtain ⟨a, ha⟩ := hhit
      have haeq := hcB _ hb a ha
      refine ⟨cP, cB, ?_, hcP, hcB, ?_, fun _ _ _ h => h, fun _ _ h => h⟩
      · simp [recursiveBirnbaumFactors, ha, Bdd.GetBDD]
      · show slotValues cB id = _
        rw [slotValues_of_eq ha, haeq]
    · have hv : itp v = some (cts.map (fun s => F s v)) :=
        hitp v (Bdd.vars_subnode root _ hb v (by simp [Bdd.vars]))
      by_cases hgt : v > k
      · have hval : List.replicate cts.length (0 : ℚ)
            = cts.map (fun s => birnbaumTotal k (F s) (Bdd.node id v t e)) := by
          rw [replicate_length_eq_map]
          simp [birnbaumTotal, hgt]
        have hres : recursiveBirnbaumFactors cts.length k itp (Bdd.node id v t e) cP cB
            = some (id, cP, Function.update (touch cB id) id
                (some (false, List.replicate cts.length 0))) := by
          unfold recursiveBirnbaumFactors
          split
          · rename_i a h
            exact absurd ⟨a, h⟩ hhit
          · rw [if_pos hgt]
        refine ⟨_, _, hres, hcP, ?_, ?_, fun _ _ _ h => h, ?_⟩
        · exact vectorCacheSound_update _ root hhc _
            (vectorCacheSound_touch _ root cB id hcB) (Bdd.node id v t e) hb false _
            (fun h => by cases h)
        · show slotValues (Function.update (touch cB id) id _) id = _
          rw [slotValues_update_same, hval]
        · intro n hn h
          by_cases hid : n.GetBDD = id
          · have hnb : n = Bdd.node id v t e := hhc n hn _ hb hid
            rw [hid, slotValues_update_same, hval, hnb]
          · rw [slotValues_update_noteq _ _ _ _ hid, slotValues_touch]
            exact h
      · by_cases heq : v = k
        · obtain ⟨c1, hr1, hc1, hs1, hf1⟩ := recursiveProbabilities_memo cts F itp root hhc
            hitp t ht cP hcP
          obtain ⟨c2, hr2, hc2, hs2, hf2⟩ := recursiveProbabilities_memo cts F itp root hhc
            hitp e he c1 hc1
          have hst : slotValues c2 t.GetBDD = cts.map (fun s => probabilityTotal (F s) t) :=
            slotValues_of_eq (hf2 t ht _ hs1)
          have hse : slotValues c2 e.GetBDD = cts.map (fun s => probabilityTotal (F s) e) :=
            slotValues_of_eq hs2
          have hval : List.zipWith (fun s t => s - t) (slotValues c2 t.GetBDD)
              (slotValues c2 e.GetBDD)
              = cts.map (fun s => birnbaumTotal k (F s) (Bdd.node id v t e)) := by
            rw [hst, hse, zipWith_sub_map]
            simp [birnbaumTotal, heq]
          have hres : recursiveBirnbaumFactors cts.length k itp (Bdd.node id v t e) cP cB
              = some (id, c2, Function.update (touch cB id) id
                  (some (true, List.zipWith (fun s t => s - t) (slotValues c2 t.GetBDD)
                    (slotValues c2 e.GetBDD)))) := by
            unfold recursiveBirnbaumFactors
            split
            · rename_i a h
              exact absurd ⟨a, h⟩ hhit
            · rw [if_neg hgt]
              simp only [hv, if_pos heq, hr1, hr2]
          refine ⟨_, _, hres, hc2, ?_, ?_, fun n hn a h => hf2 n hn a (hf1 n hn a h), ?_⟩
          · exact vectorCacheSound_update _ root hhc _
              (vectorCacheSound_touch _ root cB id hcB) (Bdd.node id v t e) hb true _
              (fun _ => hval)
          · show slotValues (Function.update (touch cB id) id _) id = _
            rw [slotValues_update_same, hval]
          · intro n hn h
            by_cases hid : n.GetBDD = id
            · have hnb : n = Bdd.node id v t e := hhc n hn _ hb hid
              rw [hid, slotValues_update_same, hval, hnb]
            · rw [slotValues_update_noteq _ _ _ _ hid, slotValues_touch]
              exact h
        · obtain ⟨cP1, cB1, hr1, hcP1, hcB1, hs1, hfP1, hfB1⟩ := iht ht cP (touch cB id) hcP
            (vectorCacheSound_touch _ root cB id hcB)
          obtain ⟨cP2, cB2, hr2, hcP2, hcB2, hs2, hfP2, hfB2⟩ := ihe he cP1 cB1 hcP1 hcB1
          have hst : slotValues cB2 t.GetBDD = cts.map (fun s => birnbaumTotal k (F s) t) :=
            hfB2 t ht hs1
          have hval : iteArray (cts.map (fun s => F s v)) (slotValues cB2 t.GetBDD)
              (slotValues cB2 e.GetBDD)
              = cts.map (fun s => birnbaumTotal k (F s) (Bdd.node id v t e)) := by
            rw [hst, hs2, iteArray_map]
            simp [birnbaumTotal, hgt, heq]
          have hres : recursiveBirnbaumFactors cts.length k itp (Bdd.node id v t e) cP cB
              = some (id, cP2, Function.update cB2 id
                  (some (true, iteArray (cts.map (fun s => F s v)) (slotValues cB2 t.GetBDD)
                    (slotValues cB2 e.GetBDD)))) := by
            unfold recursiveBirnbaumFactors
            split
            · rename_i a h
              exact absurd ⟨a, h⟩ hhit
            · rw [if_neg hgt]
              simp only [hv, if_neg heq, hr1, hr2]
          refine ⟨_, _, hres, hcP2, ?_, ?_,
            fun n hn a h => hfP2 n hn a (hfP1 n hn a h), ?_⟩
          · exact vectorCacheSound_update _ root hhc cB2 hcB2 (Bdd.node id v t e) hb true _
              (fun _ => hval)
          · show slotValues (Function.update cB2 id _) id = _
            rw [slotValues_update_same, hval]
          · intro n hn h
            by_cases hid : n.GetBDD = id
            · have hnb : n = Bdd.node id v t e := hhc n hn _ hb hid
              rw [hid, slotValues_update_same, hval, hnb]
            · rw [slotValues_update_noteq _ _ _ _ hid]
              exact hfB2 n hn (hfB1 n hn (by rw [slotValues_touch]; exact h))


theorem readArray_eq {α : Type} (fallback : α) (array : List α) (n : Nat)
    (h : array.length = n) : readArray fallback array n = array := by
  subst h
  unfold readArray
  apply List.ext_getElem
  · simp
  · intro i h1 h2
    simp [List.getElem?_eq_getElem h2]

theorem chunkProbabilities_eq (exp : ℚ → ℚ) (be : BasicElement) (cts : List ℚ) :
    chunkProbabilities exp be cts
      = cts.map (fun t => SFTBDDChecker.unreliabilityInChunk exp be t) := by
  unfold chunkProbabilities SFTBDDChecker.unreliabilityInChunk
  cases be.beType <;> rfl

namespace SFTBDDChecker

theorem foldl_vector_scalar (getIndex : String → Nat) (u : BasicElement → ℚ → ℚ)
    (cts : List ℚ) (l : List BasicElement) :
    ∀ (m : VectorMap) (mt : ℚ → ProbabilityMap) (v : Nat),
      ((∃ be ∈ l, getIndex be.name = v) ∨
        m v = some (cts.map (fun t => ((mt t) v).getD 0))) →
      (l.foldl (fun m be => Function.update m (getIndex be.name)
          (some (cts.map (fun t => u be t)))) m) v
        = some (cts.map (fun t =>
            ((l.foldl (fun m be => Function.update m (getIndex be.name) (some (u be t)))
              (mt t)) v).getD 0)) := by
  induction l with
  | nil =>
    intro m mt v h
    rcases h with ⟨be, hbe, _⟩ | h
    · simp at hbe
    · exact h
  | cons a rest ih =>
    intro m mt v h
    simp only [List.foldl_cons]
    apply ih _ (fun t => Function.update (mt t) (getIndex a.name) (some (u a t)))
    by_cases hv : v = getIndex a.name
    · subst hv
      right
      simp
    · rcases h with ⟨be, hbe, hidx⟩ | h
      · rcases List.mem_cons.mp hbe with rfl | hbe
        · exact absurd hidx.symm hv
        · exact Or.inl ⟨be, hbe, hidx⟩
      · right
        simp only [Function.update_noteq hv]
        exact h

/-- The map of arrays built for a chunk holds, for the index of every basic element, the
array of the entries of the scalar maps of the timepoints of the chunk. -/
theorem chunk_map_eq (checker : SFTBDDChecker) (exp : ℚ → ℚ) (cts : List ℚ)
    (itp0 : VectorMap) (v : Nat) (hv : ∃ be ∈ checker.basicElements, checker.getIndex be.name = v) :
    (checker.basicElements.foldl
        (fun m be => Function.update m (checker.getIndex be.name)
          (some (chunkProbabilities exp be cts))) itp0) v
      = some (cts.map (fun t =>
          ((checker.probabilityMapWith (unreliabilityInChunk exp) t) v).getD 0)) := by
  have h := foldl_vector_scalar checker.getIndex (unreliabilityInChunk exp) cts
    checker.basicElements itp0 (fun _ _ => none) v (Or.inl hv)
  simp only [chunkProbabilities_eq]
  exact h

variable {κ : Type}

/-- The loop of `chunkCalculationTemplate` ends within the iterations allowed and hands
every timepoint from `currentIndex` on to the callback once, in order. -/
theorem chunkLoop_output {β : Type} (checker : SFTBDDChecker) (exp : ℚ → ℚ)
    (func : Nat → List ℚ → VectorMap → κ → Option κ) (timepoints : List ℚ)
    (out : κ → List β) (g : ℚ → β)
    (hfunc : ∀ (cts : List ℚ) (itp0 : VectorMap) (st : κ),
      ∃ st1, func cts.length cts
          (checker.basicElements.foldl
            (fun m be => Function.update m (checker.getIndex be.name)
              (some (chunkProbabilities exp be cts))) itp0) st = some st1 ∧
        out st1 = out st ++ cts.map g) :
    ∀ (fuel currentIndex chunksize : Nat) (itp : VectorMap) (st : κ),
      0 < chunksize → timepoints.length - currentIndex ≤ fuel →
      ∃ st1, checker.chunkLoop exp func timepoints fuel currentIndex chunksize itp st
          = some st1 ∧
        out st1 = out st ++ (timepoints.drop currentIndex).map g := by
  intro fuel
  induction fuel with
  | zero =>
    intro ci chunk itp st _ hfuel
    have hci : ¬ ci < timepoints.length := by omega
    refine ⟨st, ?_, ?_⟩
    · simp [chunkLoop, hci]
    · rw [List.drop_eq_nil_of_le (by omega)]
      simp
  | succ fuel ih =>
    intro ci chunk itp st hchunk hfuel
    by_cases hci : ci < timepoints.length
    · have hlen : ((timepoints.drop ci).take
          (if timepoints.length - ci < chunk then timepoints.length - ci else chunk)).length
          = (if timepoints.length - ci < chunk then timepoints.length - ci else chunk) := by
        rw [List.length_take, List.length_drop]
        split <;> omega
      have hpos : 0 < (if timepoints.length - ci < chunk then timepoints.length - ci
          else chunk) := by
        split <;> omega
      obtain ⟨st1, hf, hout1⟩ := hfunc ((timepoints.drop ci).take
        (if timepoints.length - ci < chunk then timepoints.length - ci else chunk)) itp st
      rw [hlen] at hf
      obtain ⟨st2, hloop, hout2⟩ := ih
        (ci + (if timepoints.length - ci < chunk then timepoints.length - ci else chunk))
        (if timepoints.length - ci < chunk then timepoints.length - ci else chunk)
        (checker.basicElements.foldl
            (fun m be => Function.update m (checker.getIndex be.name)
              (some (chunkProbabilities exp be ((timepoints.drop ci).take
                (if timepoints.length - ci < chunk then timepoints.length - ci
                  else chunk))))) itp)
        st1 hpos (by omega)
      refine ⟨st2, ?_, ?_⟩
      · rw [chunkLoop, if_pos hci]
        simp only [hf]
        exact hloop
      · rw [hout2, hout1, List.append_assoc, ← List.map_append, ← List.drop_drop,
          List.take_append_drop]
    · refine ⟨st, ?_, ?_⟩
      · rw [chunkLoop, if_neg hci]
      · rw [List.drop_eq_nil_of_le (by omega)]
        simp

/-- The template calls the callback on every timepoint once, in order, for every chunk
size. -/
theorem chunkCalculationTemplate_output {β : Type} (checker : SFTBDDChecker) (exp : ℚ → ℚ)
    (func : Nat → List ℚ → VectorMap → κ → Option κ) (timepoints : List ℚ)
    (out : κ → List β) (g : ℚ → β)
    (hfunc : ∀ (cts : List ℚ) (itp0 : VectorMap) (st : κ),
      ∃ st1, func cts.length cts
          (checker.basicElements.foldl
            (fun m be => Function.update m (checker.getIndex be.name)
              (some (chunkProbabilities exp be cts))) itp0) st = some st1 ∧
        out st1 = out st ++ cts.map g)
    (chunksize : Nat) (st : κ) :
    ∃ st1, checker.chunkCalculationTemplate exp func timepoints chunksize st = some st1 ∧
      out st1 = out st ++ timepoints.map g := by
  unfold chunkCalculationTemplate
  cases htp : timepoints with
  | nil =>
    refine ⟨st, ?_, by simp⟩
    simp [chunkLoop]
  | cons a rest =>
    rw [← htp]
    have hpos : 0 < (if chunksize = 0 then timepoints.length else chunksize) := by
      split
      · rw [htp]; simp
      · omega
    obtain ⟨st1, h1, h2⟩ := chunkLoop_output checker exp func timepoints out g hfunc
      timepoints.length 0 _ (fun _ => none) st hpos (by omega)
    exact ⟨st1, h1, by simpa using h2⟩

theorem chunkCalculationTemplate_map {β : Type} (checker : SFTBDDChecker) (exp : ℚ → ℚ)
    (func : Nat → List ℚ → VectorMap → κ → Option κ) (timepoints : List ℚ)
    (out : κ → List β) (g : ℚ → β)
    (hfunc : ∀ (cts : List ℚ) (itp0 : VectorMap) (st : κ),
      ∃ st1, func cts.length cts
          (checker.basicElements.foldl
            (fun m be => Function.update m (checker.getIndex be.name)
              (some (chunkProbabilities exp be cts))) itp0) st = some st1 ∧
        out st1 = out st ++ cts.map g)
    (chunksize : Nat) (st : κ) :
    (checker.chunkCalculationTemplate exp func timepoints chunksize st).map out
      = some (out st ++ timepoints.map g) := by
  obtain ⟨st1, h1, h2⟩ := chunkCalculationTemplate_output checker exp func timepoints out g
    hfunc chunksize st
  rw [h1, Option.map_some', h2]

end SFTBDDChecker

namespace SFTBDDChecker

theorem foldl_update_congr (getIndex : String → Nat) (u w : BasicElement → ℚ)
    (l : List BasicElement) (h : ∀ be ∈ l, u be = w be) :
    ∀ m : ProbabilityMap,
      l.foldl (fun m be => Function.update m (getIndex be.name) (some (u be))) m
        = l.foldl (fun m be => Function.update m (getIndex be.name) (some (w be))) m := by
  induction l with
  | nil => intro m; rfl
  | cons a rest ih =>
    intro m
    simp only [List.foldl_cons]
    rw [h a (List.mem_cons_self _ _)]
    exact ih (fun be hbe => h be (List.mem_cons_of_mem _ hbe)) _

/-- With the unreliability of every exponential basic element given by the exponential
function, the scalar probability map of a timepoint is the one of the chunked evaluation. -/
theorem indexToProbability_chunk (checker : SFTBDDChecker) (exp : ℚ → ℚ) (t : ℚ)
    (hexp : ∀ b ∈ checker.basicElements, b.beType = .EXPONENTIAL →
      b.getUnreliability t = 1 - exp (-b.activeFailureRate * t)) :
    checker.indexToProbability t = checker.probabilityMapWith (unreliabilityInChunk exp) t := by
  unfold indexToProbability probabilityMapWith
  apply foldl_update_congr
  intro be hbe
  unfold unreliabilityInChunk
  cases hty : be.beType with
  | EXPONENTIAL => exact hexp be hbe hty
  | OTHER => rfl

theorem getProbabilityAtTimebound_eq (checker : SFTBDDChecker) (bdd : Bdd) (t : ℚ)
    (hhc : bdd.HashConsed) (hcov : checker.Covers bdd) :
    checker.getProbabilityAtTimebound bdd t
      = some (probabilityTotal (fun v => ((checker.indexToProbability t) v).getD 0) bdd) := by
  obtain ⟨c, hc⟩ := recursiveProbability_empty_total (checker.indexToProbability t) bdd hhc
    (probabilityMapWith_covers checker _ t _ hcov)
  simp [getProbabilityAtTimebound, hc]

/-- The vector of `getProbabilitiesAtTimepoints` holds, for every chunk size, the values of
the uncached recursion at the timepoints, in order. -/
theorem getProbabilitiesAtTimepoints_eq (checker : SFTBDDChecker) (exp : ℚ → ℚ) (bdd : Bdd)
    (hhc : bdd.HashConsed) (hcov : checker.Covers bdd) (ts : List ℚ) (c : Nat) :
    checker.getProbabilitiesAtTimepoints exp bdd ts c
      = some (ts.map (fun t => probabilityTotal
          (fun v => ((checker.probabilityMapWith (unreliabilityInChunk exp) t) v).getD 0)
          bdd)) := by
  unfold getProbabilitiesAtTimepoints
  refine (chunkCalculationTemplate_map checker exp _ ts (fun (st : VectorCache × List ℚ) => st.2)
    (fun t => probabilityTotal
      (fun v => ((checker.probabilityMapWith (unreliabilityInChunk exp) t) v).getD 0) bdd)
    ?_ c _).trans ?_
  swap
  · rfl
  intro cts itp0 st
  obtain ⟨c1, hr, _, hs, _⟩ := recursiveProbabilities_memo cts
    (fun t v => ((checker.probabilityMapWith (unreliabilityInChunk exp) t) v).getD 0)
    _ bdd hhc (fun v hv => chunk_map_eq checker exp cts itp0 v (hcov v hv)) bdd
    (Bdd.self_mem_subnodes bdd) (invalidate st.1) (vectorCacheSound_invalidate _ _ _)
  refine ⟨_, by simp only [hr]; rfl, ?_⟩
  simp only [slotValues_of_eq hs]
  rw [readArray_eq _ _ _ (by simp)]

/-- The vector of `getBirnbaumFactorsAtTimepoints` holds, for every chunk size, the values
of the uncached Birnbaum recursion at the timepoints, in order. -/
theorem getBirnbaumFactorsAtTimepoints_eq (checker : SFTBDDChecker) (exp : ℚ → ℚ)
    (beName : String) (hhc : checker.topLevelGateBdd.HashConsed)
    (hcov : checker.Covers checker.topLevelGateBdd) (ts : List ℚ) (c : Nat) :
    checker.getBirnbaumFactorsAtTimepoints exp beName ts c
      = some (ts.map (fun t => birnbaumTotal (checker.getIndex beName)
          (fun v => ((checker.probabilityMapWith (unreliabilityInChunk exp) t) v).getD 0)
          checker.topLevelGateBdd)) := by
  unfold getBirnbaumFactorsAtTimepoints
  refine (chunkCalculationTemplate_map checker exp _ ts (fun (st : VectorCache × VectorCache × List ℚ) => st.2.2)
    (fun t => birnbaumTotal (checker.getIndex beName)
      (fun v => ((checker.probabilityMapWith (unreliabilityInChunk exp) t) v).getD 0)
      checker.topLevelGateBdd)
    ?_ c _).trans ?_
  swap
  · rfl
  intro cts itp0 st
  obtain ⟨cP, cB, hr, _, _, hs, _, _⟩ := recursiveBirnbaumFactors_memo cts
    (fun t v => ((checker.probabilityMapWith (unreliabilityInChunk exp) t) v).getD 0)
    _ (checker.getIndex beName) checker.topLevelGateBdd hhc
    (fun v hv => chunk_map_eq checker exp cts itp0 v (hcov v hv))
    checker.topLevelGateBdd (Bdd.self_mem_subnodes _) (invalidate st.1)
    (invalidate st.2.1) (vectorCacheSound_invalidate _ _ _)
    (vectorCacheSound_invalidate _ _ _)
  refine ⟨_, by simp only [hr]; rfl, ?_⟩
  simp only [hs]
  rw [readArray_eq _ _ _ (by simp)]

/-- The vector of a CIF, DIF, RAW or RRW function holds, for every chunk size, the scalar
expression of the measure at the BE probability, the top probability and the Birnbaum
factor of every timepoint, in order. -/
theorem measuresAtTimepoints_eq (checker : SFTBDDChecker) (exp : ℚ → ℚ)
    (measure : List ℚ → List ℚ → List ℚ → List (Option ℚ)) (m : ℚ → ℚ → ℚ → Option ℚ)
    (hm : ∀ (l : List ℚ) (q P B : ℚ → ℚ),
      measure (l.map q) (l.map P) (l.map B) = l.map (fun t => m (q t) (P t) (B t)))
    (beName : String) (hhc : checker.topLevelGateBdd.HashConsed)
    (hcov : checker.Covers checker.topLevelGateBdd)
    (hbe : ∃ be ∈ checker.basicElements, checker.getIndex be.name = checker.getIndex beName)
    (ts : List ℚ) (c : Nat) :
    checker.measuresAtTimepoints exp measure beName ts c
      = some (ts.map (fun t =>
          m (((checker.probabilityMapWith (unreliabilityInChunk exp) t)
              (checker.getIndex beName)).getD 0)
            (probabilityTotal
              (fun v => ((checker.probabilityMapWith (unreliabilityInChunk exp) t) v).getD 0)
              checker.topLevelGateBdd)
            (birnbaumTotal (checker.getIndex beName)
              (fun v => ((checker.probabilityMapWith (unreliabilityInChunk exp) t) v).getD 0)
              checker.topLevelGateBdd))) := by
  unfold measuresAtTimepoints
  refine (chunkCalculationTemplate_map checker exp _ ts (fun (st : VectorCache × VectorCache × List (Option ℚ)) => st.2.2)
    (fun t =>
      m (((checker.probabilityMapWith (unreliabilityInChunk exp) t)
          (checker.getIndex beName)).getD 0)
        (probabilityTotal
          (fun v => ((checker.probabilityMapWith (unreliabilityInChunk exp) t) v).getD 0)
          checker.topLevelGateBdd)
        (birnbaumTotal (checker.getIndex beName)
          (fun v => ((checker.probabilityMapWith (unreliabilityInChunk exp) t) v).getD 0)
          checker.topLevelGateBdd))
    ?_ c _).trans ?_
  swap
  · rfl
  intro cts itp0 st
  have hitp := fun v hv => chunk_map_eq checker exp cts itp0 v (hcov v hv)
  obtain ⟨c1, hr1, hc1, hs1, _⟩ := recursiveProbabilities_memo cts
    (fun t v => ((checker.probabilityMapWith (unreliabilityInChunk exp) t) v).getD 0)
    _ checker.topLevelGateBdd hhc hitp checker.topLevelGateBdd
    (Bdd.self_mem_subnodes _) (invalidate st.1) (vectorCacheSound_invalidate _ _ _)
  obtain ⟨cP, cB, hr2, _, _, hs2, hfP, _⟩ := recursiveBirnbaumFactors_memo cts
    (fun t v => ((checker.probabilityMapWith (unreliabilityInChunk exp) t) v).getD 0)
    _ (checker.getIndex beName) checker.topLevelGateBdd hhc hitp
    checker.topLevelGateBdd (Bdd.self_mem_subnodes _) c1
    (invalidate st.2.1) hc1 (vectorCacheSound_invalidate _ _ _)
  have hsP := slotValues_of_eq (hfP _ (Bdd.self_mem_subnodes _) _ hs1)
  have hq := chunk_map_eq checker exp cts itp0 (checker.getIndex beName) hbe
  refine ⟨_, by simp only [hr1, hr2, hq]; rfl, ?_⟩
  simp only [hsP, hs2]
  rw [hm, readArray_eq _ _ _ (by simp)]

theorem CIFArray_map (l : List ℚ) (q P B : ℚ → ℚ) :
    CIFArray (l.map q) (l.map P) (l.map B)
      = l.map (fun t => (divide (q t) (P t)).map (fun x => x * B t)) := by
  induction l with
  | nil => rfl
  | cons a rest ih =>
    simp only [CIFArray, List.map_cons, List.zipWith_cons_cons] at ih ⊢
    rw [ih]

theorem DIFArray_map (l : List ℚ) (q P B : ℚ → ℚ) :
    DIFArray (l.map q) (l.map P) (l.map B)
      = l.map (fun t => (divide (q t * (1 - q t) * B t) (P t)).map (fun x => q t + x)) := by
  induction l with
  | nil => rfl
  | cons a rest ih =>
    simp only [DIFArray, List.map_cons, List.zipWith_cons_cons] at ih ⊢
    rw [ih]

theorem RAWArray_map (l : List ℚ) (q P B : ℚ → ℚ) :
    RAWArray (l.map q) (l.map P) (l.map B)
      = l.map (fun t => (divide ((1 - q t) * B t) (P t)).map (fun x => 1 + x)) := by
  induction l with
  | nil => rfl
  | cons a rest ih =>
    simp only [RAWArray, List.map_cons, List.zipWith_cons_cons] at ih ⊢
    rw [ih]

theorem RRWArray_map (l : List ℚ) (q P B : ℚ → ℚ) :
    RRWArray (l.map q) (l.map P) (l.map B)
      = l.map (fun t => divide (P t) (P t - q t * B t)) := by
  induction l with
  | nil => rfl
  | cons a rest ih =>
    simp only [RRWArray, List.map_cons, List.zipWith_cons_cons] at ih ⊢
    rw [ih]

end SFTBDDChecker

namespace SFTBDDChecker

theorem exExponential_covers : exExponential.Covers exAnd := by
  intro v hv
  have hv' : v = 0 ∨ v = 1 := by
    simpa [exAnd, Bdd.vars] using hv
  rcases hv' with rfl | rfl
  · exact ⟨_, List.mem_cons_self _ _, by simp [exExponential]⟩
  · exact ⟨_, List.mem_cons_of_mem _ (List.mem_cons_self _ _), by simp [exExponential]⟩

theorem exExponential_exp (t : ℚ) :
    ∀ b ∈ exExponential.basicElements, b.beType = .EXPONENTIAL →
      b.getUnreliability t = 1 - exExp (-b.activeFailureRate * t) := by
  intro b hb hty
  simp only [exExponential, List.mem_cons, List.mem_singleton, List.not_mem_nil, or_false]
    at hb
  rcases hb with rfl | rfl
  · rfl
  · cases hty

/-- C13: for a hash-consed BDD whose variables are indices of basic elements, every
timepoint list `ts` and every chunk size `c` (0, larger than the length, or not dividing it),
the chunk loop of `getProbabilitiesAtTimepoints` ends within the iterations allowed and the
function returns a vector of exactly `ts.length` entries, the same vector as with chunk size
0; its entry `i` is the top-event probability at `ts[i]` (the value of the recursion
`P = p_v * P(then) + (1 - p_v) * P(else)` under the BE probabilities of that timepoint), which
is what `getProbabilityAtTimebound` returns at `ts[i]` when the unreliability of every
exponential basic element is `1 - exp(-rate * t)`. -/
theorem getProbabilitiesAtTimepoints_chunk_independent (checker : SFTBDDChecker)
    (exp : ℚ → ℚ) (bdd : Bdd) (ts : List ℚ) (c : Nat)
    (hhc : bdd.HashConsed) (hcov : checker.Covers bdd) :
    ∃ r, checker.getProbabilitiesAtTimepoints exp bdd ts c = some r ∧
      r.length = ts.length ∧
      checker.getProbabilitiesAtTimepoints exp bdd ts 0 = some r ∧
      r = ts.map (fun t => probabilityTotal
        (fun v => ((checker.probabilityMapWith (unreliabilityInChunk exp) t) v).getD 0)
        bdd) ∧
      ((∀ t ∈ ts, ∀ b ∈ checker.basicElements, b.beType = .EXPONENTIAL →
          b.getUnreliability t = 1 - exp (-b.activeFailureRate * t)) →
        ∀ (i : Nat) (h : i < ts.length),
          r[i]? = checker.getProbabilityAtTimebound bdd (ts.get ⟨i, h⟩)) := by
  refine ⟨_, getProbabilitiesAtTimepoints_eq checker exp bdd hhc hcov ts c, by simp,
    getProbabilitiesAtTimepoints_eq checker exp bdd hhc hcov ts 0, rfl, ?_⟩
  intro hexp i h
  rw [getProbabilityAtTimebound_eq checker bdd _ hhc hcov,
    indexToProbability_chunk checker exp _ (hexp _ (List.get_mem ts i h))]
  simp [List.getElem?_eq_getElem h]

theorem getProbabilitiesAtTimepoints_chunk_independent_witness :
    ∃ r, exExponential.getProbabilitiesAtTimepoints exExp exAnd [1 / 2, 1, 2] 2 = some r ∧
      r.length = 3 ∧
      exExponential.getProbabilitiesAtTimepoints exExp exAnd [1 / 2, 1, 2] 0 = some r ∧
      r[2]? = exExponential.getProbabilityAtTimebound exAnd 2 := by
  obtain ⟨r, h1, h2, h3, _, h5⟩ := getProbabilitiesAtTimepoints_chunk_independent
    exExponential exExp exAnd [1 / 2, 1, 2] 2 (by decide) exExponential_covers
  exact ⟨r, h1, h2, h3, h5 (fun t _ => exExponential_exp t) 2 (by decide)⟩

/-- C12: for a hash-consed top-level BDD whose variables are indices of basic elements, every
basic element, every timepoint `t` and every chunk size, each of the six vector functions
(probability, Birnbaum factor, CIF, DIF, RAW, RRW) called on the one-element list `[t]`
returns a one-element vector whose entry is the value the scalar function returns at
timebound `t`, in exact arithmetic (a quotient by zero being no number on both sides) and
with the unreliability of every exponential basic element at `t` equal to
`1 - exp(-rate * t)`. -/
theorem vector_scalar_agreement (checker : SFTBDDChecker) (exp : ℚ → ℚ)
    (be : BasicElement) (t : ℚ) (c : Nat)
    (hhc : checker.topLevelGateBdd.HashConsed)
    (hcov : checker.Covers checker.topLevelGateBdd)
    (hbe : be ∈ checker.basicElements)
    (hexp : ∀ b ∈ checker.basicElements, b.beType = .EXPONENTIAL →
      b.getUnreliability t = 1 - exp (-b.activeFailureRate * t)) :
    (∃ P, checker.getProbabilityAtTimebound checker.topLevelGateBdd t = some P ∧
      checker.getProbabilitiesAtTimepoints exp checker.topLevelGateBdd [t] c = some [P]) ∧
    (∃ B, checker.getBirnbaumFactorAtTimebound be.name t = some B ∧
      checker.getBirnbaumFactorsAtTimepoints exp be.name [t] c = some [B]) ∧
    (∃ cif, checker.getCIFAtTimebound be.name t = some cif ∧
      checker.getCIFsAtTimepoints exp be.name [t] c = some [cif]) ∧
    (∃ dif, checker.getDIFAtTimebound be.name t = some dif ∧
      checker.getDIFsAtTimepoints exp be.name [t] c = some [dif]) ∧
    (∃ raw, checker.getRAWAtTimebound be.name t = some raw ∧
      checker.getRAWsAtTimepoints exp be.name [t] c = some [raw]) ∧
    (∃ rrw, checker.getRRWAtTimebound be.name t = some rrw ∧
      checker.getRRWsAtTimepoints exp be.name [t] c = some [rrw]) := by
  have hmap := indexToProbability_chunk checker exp t hexp
  obtain ⟨k1, k2, k3⟩ := scalar_kernels checker be.name t hhc hcov
  have hin : ∃ b ∈ checker.basicElements, checker.getIndex b.name = checker.getIndex be.name :=
    ⟨be, hbe, rfl⟩
  have v1 := getProbabilitiesAtTimepoints_eq checker exp _ hhc hcov [t] c
  have v2 := getBirnbaumFactorsAtTimepoints_eq checker exp be.name hhc hcov [t] c
  have v3 := measuresAtTimepoints_eq checker exp CIFArray
    (fun q P B => (divide q P).map (fun x => x * B))
    CIFArray_map be.name hhc hcov hin [t] c
  have v4 := measuresAtTimepoints_eq checker exp DIFArray
    (fun q P B => (divide (q * (1 - q) * B) P).map (fun x => q + x))
    DIFArray_map be.name hhc hcov hin [t] c
  have v5 := measuresAtTimepoints_eq checker exp RAWArray
    (fun q P B => (divide ((1 - q) * B) P).map (fun x => 1 + x))
    RAWArray_map be.name hhc hcov hin [t] c
  have v6 := measuresAtTimepoints_eq checker exp RRWArray
    (fun q P B => divide P (P - q * B))
    RRWArray_map be.name hhc hcov hin [t] c
  simp only [List.map_cons, List.map_nil, ← hmap] at v1 v2 v3 v4 v5 v6
  refine ⟨⟨_, k1, v1⟩, ⟨_, k2, v2⟩, ⟨_, ?_, v3⟩, ⟨_, ?_, v4⟩, ⟨_, ?_, v5⟩, ⟨_, ?_, v6⟩⟩
  · simp only [getCIFAtTimebound, k3, beProbability]
  · simp only [getDIFAtTimebound, k3, beProbability]
  · simp only [getRAWAtTimebound, k3, beProbability]
  · simp only [getRRWAtTimebound, k3, beProbability]

theorem vector_scalar_agreement_witness :
    (∃ P, exExponential.getProbabilityAtTimebound exAnd (1 / 2) = some P ∧
      exExponential.getProbabilitiesAtTimepoints exExp exAnd [1 / 2] 3 = some [P]) ∧
    (∃ B, exExponential.getBirnbaumFactorAtTimebound "a" (1 / 2) = some B ∧
      exExponential.getBirnbaumFactorsAtTimepoints exExp "a" [1 / 2] 3 = some [B]) ∧
    (∃ cif, exExponential.getCIFAtTimebound "a" (1 / 2) = some cif ∧
      exExponential.getCIFsAtTimepoints exExp "a" [1 / 2] 3 = some [cif]) ∧
    (∃ dif, exExponential.getDIFAtTimebound "a" (1 / 2) = some dif ∧
      exExponential.getDIFsAtTimepoints exExp "a" [1 / 2] 3 = some [dif]) ∧
    (∃ raw, exExponential.getRAWAtTimebound "a" (1 / 2) = some raw ∧
      exExponential.getRAWsAtTimepoints exExp "a" [1 / 2] 3 = some [raw]) ∧
    (∃ rrw, exExponential.getRRWAtTimebound "a" (1 / 2) = some rrw ∧
      exExponential.getRRWsAtTimepoints exExp "a" [1 / 2] 3 = some [rrw]) :=
  vector_scalar_agreement exExponential exExp
    { name := "a", beType := .EXPONENTIAL, activeFailureRate := 2,
      getUnreliability := fun t => 1 - exExp (-2 * t) }
    (1 / 2) 3 (by decide) exExponential_covers (List.mem_cons_self _ _)
    (exExponential_exp (1 / 2))

end SFTBDDChecker

namespace SFTBDDChecker

theorem getMinimalCutSetsLoop_eq (getName : Nat → String) (mcs : List (List Nat)) :
    ∀ rval : List (List String),
      getMinimalCutSetsLoop getName mcs rval
        = rval ++ mcs.reverse.map (fun cutSet => cutSet.map getName) := by
  induction mcs using List.reverseRecOn with
  | nil =>
    intro rval
    rw [getMinimalCutSetsLoop]
    simp
  | append_singleton init back ih =>
    intro rval
    cases hl : init ++ [back] with
    | nil => simp at hl
    | cons first rest =>
      rw [getMinimalCutSetsLoop]
      simp only [← hl, List.dropLast_concat, List.getLast_append_singleton, ih,
        List.reverse_append, List.reverse_singleton, List.singleton_append, List.map_cons,
        List.append_assoc]

theorem getMinimalCutSets_eq (checker : SFTBDDChecker) (Minsol : Bdd → Bdd) :
    checker.getMinimalCutSets Minsol
      = (getMinimalCutSetsAsIndices Minsol checker.topLevelGateBdd).reverse.map
          (fun cutSet => cutSet.map checker.getName) := by
  simp [getMinimalCutSets, getMinimalCutSetsLoop_eq]

/-- C22 fails as stated: for the BDD of OR(a, b), whose cut sets as indices are `[0]` and
`[1]`, the first list of names is `["b"]`, the names of the second list of ids, and not
`["a"]`. -/
theorem getMinimalCutSets_counterexample :
    getMinimalCutSetsAsIndices (fun b => b) exOrChecker.topLevelGateBdd = [[0], [1]] ∧
    exOrChecker.getMinimalCutSets (fun b => b) = [["b"], ["a"]] ∧
    ¬ (∀ i : Nat, (exOrChecker.getMinimalCutSets (fun b => b))[i]?
        = ((getMinimalCutSetsAsIndices (fun b => b) exOrChecker.topLevelGateBdd)[i]?).map
            (fun cutSet => cutSet.map exOrChecker.getName)) := by
  have h1 : getMinimalCutSetsAsIndices (fun b => b) exOrChecker.topLevelGateBdd
      = [[0], [1]] := by
    simp [getMinimalCutSetsAsIndices, exOrChecker, exOr, recursiveMCS]
  have h2 : exOrChecker.getMinimalCutSets (fun b => b) = [["b"], ["a"]] := by
    rw [getMinimalCutSets_eq, h1]
    simp [exOrChecker]
  refine ⟨h1, h2, fun h => ?_⟩
  have h0 := h 0
  rw [h1, h2] at h0
  simp [exOrChecker] at h0

/-- C22 (amended): `getMinimalCutSets` has as many lists as `getMinimalCutSetsAsIndices`,
and its list at position `i` is the list of ids at position `n - 1 - i` (the lists come in
reverse order) with every id resolved through `getName`, the ids kept in the same order. -/
theorem getMinimalCutSets_reversed (checker : SFTBDDChecker) (Minsol : Bdd → Bdd) :
    (checker.getMinimalCutSets Minsol).length
      = (getMinimalCutSetsAsIndices Minsol checker.topLevelGateBdd).length ∧
    (∀ (i : Nat) (h : i < (getMinimalCutSetsAsIndices Minsol checker.topLevelGateBdd).length),
      (checker.getMinimalCutSets Minsol)[i]?
        = some (((getMinimalCutSetsAsIndices Minsol checker.topLevelGateBdd).get
            ⟨(getMinimalCutSetsAsIndices Minsol checker.topLevelGateBdd).length - 1 - i,
              by omega⟩).map checker.getName)) ∧
    (∀ names ∈ checker.getMinimalCutSets Minsol, ∀ j : Nat,
      ∃ ids ∈ getMinimalCutSetsAsIndices Minsol checker.topLevelGateBdd,
        names.length = ids.length ∧ names[j]? = (ids[j]?).map checker.getName) := by
  rw [getMinimalCutSets_eq]
  refine ⟨by simp, ?_, ?_⟩
  · intro i h
    rw [List.getElem?_map, List.getElem?_reverse h]
    simp [List.getElem?_eq_getElem (show
      (getMinimalCutSetsAsIndices Minsol checker.topLevelGateBdd).length - 1 - i
        < (getMinimalCutSetsAsIndices Minsol checker.topLevelGateBdd).length by omega)]
  · intro names hn j
    simp only [List.mem_map, List.mem_reverse] at hn
    obtain ⟨ids, hids, rfl⟩ := hn
    exact ⟨ids, hids, by simp, by simp⟩

end SFTBDDChecker

theorem touch_not_true (c : VectorCache) (k : Nat)
    (h : ¬ ∃ a, c k = some (true, a)) :
    ∃ a, (touch c k) k = some (false, a) := by
  unfold touch
  cases hk : c k with
  | none => exact ⟨[], by simp⟩
  | some x =>
    obtain ⟨f, a⟩ := x
    cases f with
    | true => exact absurd ⟨a, hk⟩ h
    | false => exact ⟨a, by simp [hk]⟩

/-- C23 fails as stated: on a terminal, and on a node whose top variable 1 is greater than
the queried variable 0, `recursiveBirnbaumFactors` started with empty caches returns the
slot of the node filled with zeros, and the valid flag of that slot is false. -/
theorem recursiveBirnbaumFactors_flag_counterexample :
    (∃ cP cB, recursiveBirnbaumFactors 1 0 (fun _ => some [1 / 2]) (.terminal 0 false)
        emptyVectorCache emptyVectorCache = some (0, cP, cB) ∧
      cB 0 = some (false, [0])) ∧
    (∃ cP cB, recursiveBirnbaumFactors 1 0 (fun _ => some [1 / 2])
        (.node 11 1 (.terminal 1 true) (.terminal 0 false))
        emptyVectorCache emptyVectorCache = some (11, cP, cB) ∧
      cB 11 = some (false, [0])) ∧
    ¬ (∀ (chunksize k : Nat) (itp : VectorMap) (b : Bdd) (cP cB : VectorCache) (key : Nat)
        (cP1 cB1 : VectorCache),
        recursiveBirnbaumFactors chunksize k itp b cP cB = some (key, cP1, cB1) →
        ∃ a, cB1 key = some (true, a)) := by
  have h1 : recursiveBirnbaumFactors 1 0 (fun _ => some [1 / 2]) (.terminal 0 false)
      emptyVectorCache emptyVectorCache
      = some (0, emptyVectorCache, Function.update (touch emptyVectorCache 0) 0
          (some (false, [0]))) := by
    simp [recursiveBirnbaumFactors, emptyVectorCache]
  have h2 : recursiveBirnbaumFactors 1 0 (fun _ => some [1 / 2])
      (.node 11 1 (.terminal 1 true) (.terminal 0 false)) emptyVectorCache emptyVectorCache
      = some (11, emptyVectorCache, Function.update (touch emptyVectorCache 11) 11
          (some (false, [0]))) := by
    simp [recursiveBirnbaumFactors, emptyVectorCache]
  refine ⟨⟨_, _, h1, by simp⟩, ⟨_, _, h2, by simp⟩, ?_⟩
  · intro h
    obtain ⟨a, ha⟩ := h 1 0 (fun _ => some [1 / 2]) (.terminal 0 false) emptyVectorCache
      emptyVectorCache 0 _ _ h1
    simp at ha

/-- C23 (amended): whenever `recursiveProbabilities` returns, the slot it returns (the one
of the node, terminals included) has its valid flag true. Whenever
`recursiveBirnbaumFactors` returns, the slot it returns is the one of the node; its valid
flag is true for every inner node whose top variable is not greater than the queried
variable, and otherwise the flag is true (a valid slot was found) or the flag is false and
the slot holds the `chunksize` zeros written by this call, which happens only for terminals
and nodes whose top variable is greater than the queried variable. -/
theorem vector_kernel_flags (chunksize : Nat) (itp : VectorMap) (b : Bdd) :
    (∀ (c : VectorCache) (key : Nat) (c1 : VectorCache),
      recursiveProbabilities chunksize itp b c = some (key, c1) →
      key = b.GetBDD ∧ ∃ a, c1 key = some (true, a)) ∧
    (∀ (k : Nat) (cP cB : VectorCache) (key : Nat) (cP1 cB1 : VectorCache),
      recursiveBirnbaumFactors chunksize k itp b cP cB = some (key, cP1, cB1) →
      key = b.GetBDD ∧
      ((∃ a, cB1 key = some (true, a)) ∨
        (cB1 key = some (false, List.replicate chunksize 0) ∧
          (b.isTerminal = true ∨ ∃ id v t e, b = .node id v t e ∧ v > k))) ∧
      (∀ id v t e, b = .node id v t e → v ≤ k → ∃ a, cB1 key = some (true, a))) := by
  refine ⟨?_, ?_⟩
  · intro c key c1 h
    cases b with
    | terminal id value =>
      by_cases hhit : ∃ a, c id = some (true, a)
      · obtain ⟨a, ha⟩ := hhit
        simp only [recursiveProbabilities, ha, Option.some.injEq, Prod.mk.injEq] at h
        obtain ⟨rfl, rfl⟩ := h
        exact ⟨rfl, a, ha⟩
      · unfold recursiveProbabilities at h
        split at h
        · rename_i a ha
          exact absurd ⟨a, ha⟩ hhit
        · simp only [Option.some.injEq, Prod.mk.injEq] at h
          obtain ⟨rfl, rfl⟩ := h
          exact ⟨rfl, _, Function.update_same _ _ _⟩
    | node id v t e =>
      by_cases hhit : ∃ a, c id = some (true, a)
      · obtain ⟨a, ha⟩ := hhit
        simp only [recursiveProbabilities, ha, Option.some.injEq, Prod.mk.injEq] at h
        obtain ⟨rfl, rfl⟩ := h
        exact ⟨rfl, a, ha⟩
      · unfold recursiveProbabilities at h
        split at h
        · rename_i a ha
          exact absurd ⟨a, ha⟩ hhit
        · split at h
          · cases h
          · split at h
            · cases h
            · split at h
              · cases h
              · simp only [Option.some.injEq, Prod.mk.injEq] at h
                obtain ⟨rfl, rfl⟩ := h
                exact ⟨rfl, _, Function.update_same _ _ _⟩
  · intro k cP cB key cP1 cB1 h
    cases b with
    | terminal id value =>
      by_cases hhit : ∃ a, cB id = some (true, a)
      · obtain ⟨a, ha⟩ := hhit
        simp only [recursiveBirnbaumFactors, ha, Option.some.injEq, Prod.mk.injEq] at h
        obtain ⟨rfl, _, rfl⟩ := h
        exact ⟨rfl, Or.inl ⟨a, ha⟩, fun _ _ _ _ hb => by cases hb⟩
      · unfold recursiveBirnbaumFactors at h
        split at h
        · rename_i a ha
          exact absurd ⟨a, ha⟩ hhit
        · simp only [Option.some.injEq, Prod.mk.injEq] at h
          obtain ⟨rfl, _, rfl⟩ := h
          exact ⟨rfl, Or.inr ⟨Function.update_same _ _ _, Or.inl rfl⟩,
            fun _ _ _ _ hb => by cases hb⟩
    | node id v t e =>
      by_cases hhit : ∃ a, cB id = some (true, a)
      · obtain ⟨a, ha⟩ := hhit
        simp only [recursiveBirnbaumFactors, ha, Option.some.injEq, Prod.mk.injEq] at h
        obtain ⟨rfl, _, rfl⟩ := h
        exact ⟨rfl, Or.inl ⟨a, ha⟩, fun _ _ _ _ _ _ => ⟨a, ha⟩⟩
      · unfold recursiveBirnbaumFactors at h
        split at h
        · rename_i a ha
          exact absurd ⟨a, ha⟩ hhit
        · by_cases hgt : v > k
          · rw [if_pos hgt] at h
            simp only [Option.some.injEq, Prod.mk.injEq] at h
            obtain ⟨rfl, _, rfl⟩ := h
            refine ⟨rfl, Or.inr ⟨Function.update_same _ _ _, Or.inr ⟨id, v, t, e, rfl, hgt⟩⟩,
              ?_⟩
            intro id1 v1 t1 e1 hb hle
            injection hb with _ hv _ _
            omega
          · rw [if_neg hgt] at h
            have hflag : ∃ a, cB1 key = some (true, a) ∧ key = id := by
              split at h
              · cases h
              · split at h
                · split at h
                  · cases h
                  · split at h
                    · cases h
                    · simp only [Option.some.injEq, Prod.mk.injEq] at h
                      obtain ⟨rfl, _, rfl⟩ := h
                      exact ⟨_, Function.update_same _ _ _, rfl⟩
                · split at h
                  · cases h
                  · split at h
                    · cases h
                    · simp only [Option.some.injEq, Prod.mk.injEq] at h
                      obtain ⟨rfl, _, rfl⟩ := h
                      exact ⟨_, Function.update_same _ _ _, rfl⟩
            obtain ⟨a, ha, hkey⟩ := hflag
            exact ⟨hkey, Or.inl ⟨a, ha⟩, fun _ _ _ _ _ _ => ⟨a, ha⟩⟩

theorem vector_kernel_flags_witness :
    (∃ key c1, recursiveProbabilities 2 (fun _ => some [1 / 2, 1 / 3]) exAnd emptyVectorCache
        = some (key, c1) ∧ key = exAnd.GetBDD ∧ ∃ a, c1 key = some (true, a)) ∧
    (∃ key cP1 cB1, recursiveBirnbaumFactors 2 0 (fun _ => some [1 / 2, 1 / 3]) exAnd
        emptyVectorCache emptyVectorCache = some (key, cP1, cB1) ∧
      ∃ a, cB1 key = some (true, a)) := by
  have hitp : ∀ v ∈ exAnd.vars, (fun _ => some [1 / 2, 1 / 3] : VectorMap) v
      = some (([1 / 2, 1 / 3] : List ℚ).map (fun t => (fun (s : ℚ) (_ : Nat) => s) t v)) := by
    intro v _
    rfl
  have hempty : ∀ g, VectorCacheSound g exAnd emptyVectorCache := by
    intro g n _ a h
    simp [emptyVectorCache] at h
  obtain ⟨c1, hr1, _⟩ := recursiveProbabilities_memo [1 / 2, 1 / 3] (fun s _ => s) _ exAnd
    (by decide) hitp exAnd (Bdd.self_mem_subnodes _) emptyVectorCache (hempty _)
  obtain ⟨cP1, cB1, hr2, _⟩ := recursiveBirnbaumFactors_memo [1 / 2, 1 / 3] (fun s _ => s) _
    0 exAnd (by decide) hitp exAnd (Bdd.self_mem_subnodes _) emptyVectorCache
    emptyVectorCache (hempty _) (hempty _)
  have h := vector_kernel_flags 2 (fun _ => some [1 / 2, 1 / 3]) exAnd
  exact ⟨⟨_, _, hr1, h.1 _ _ _ hr1⟩,
    ⟨_, _, _, hr2, (h.2 0 _ _ _ _ _ hr2).2.2 10 0 _ _ rfl (le_refl 0)⟩⟩

theorem Bdd.mem_vars_iff (b : Bdd) (v : Nat) :
    v ∈ b.vars ↔ ∃ id t e, Bdd.node id v t e ∈ b.subnodes := by
  induction b with
  | terminal id value => simp [Bdd.vars, Bdd.subnodes]
  | node id x t e iht ihe =>
    simp only [Bdd.vars, Bdd.subnodes, Finset.mem_insert, Finset.mem_union, List.mem_cons,
      List.mem_append, iht, ihe]
    constructor
    · rintro (rfl | ⟨i, a, b, h⟩ | ⟨i, a, b, h⟩)
      · exact ⟨id, t, e, Or.inl rfl⟩
      · exact ⟨i, a, b, Or.inr (Or.inl h)⟩
      · exact ⟨i, a, b, Or.inr (Or.inr h)⟩
    · rintro ⟨i, a, b, h | h | h⟩
      · left
        injection h with _ h2 _ _
      · exact Or.inr (Or.inl ⟨i, a, b, h⟩)
      · exact Or.inr (Or.inr ⟨i, a, b, h⟩)

theorem probabilityOf_none_iff (p : ProbabilityMap) (b : Bdd) :
    probabilityOf p b = none ↔ ∃ v ∈ b.vars, p v = none := by
  induction b with
  | terminal id value => cases value <;> simp [probabilityOf, Bdd.vars]
  | node id v t e iht ihe =>
    cases hpv : p v with
    | none =>
      simp only [probabilityOf, hpv, true_iff]
      exact ⟨v, by simp [Bdd.vars], hpv⟩
    | some pv =>
      cases hpt : probabilityOf p t with
      | none =>
        obtain ⟨u, hu, hpu⟩ := iht.mp hpt
        simp only [probabilityOf, hpv, hpt, true_iff]
        exact ⟨u, by simp [Bdd.vars, hu], hpu⟩
      | some pt =>
        cases hpe : probabilityOf p e with
        | none =>
          obtain ⟨u, hu, hpu⟩ := ihe.mp hpe
          simp only [probabilityOf, hpv, hpt, hpe, true_iff]
          exact ⟨u, by simp [Bdd.vars, hu], hpu⟩
        | some pe =>
          simp only [probabilityOf, hpv, hpt, hpe]
          refine ⟨fun h => (by cases h), ?_⟩
          rintro ⟨u, hu, hpu⟩
          exfalso
          simp only [Bdd.vars, Finset.mem_insert, Finset.mem_union] at hu
          rcases hu with rfl | hu | hu
          · rw [hpv] at hpu
            cases hpu
          · have := iht.mpr ⟨u, hu, hpu⟩
            rw [hpt] at this
            cases this
          · have := ihe.mpr ⟨u, hu, hpu⟩
            rw [hpe] at this
            cases this

/-- C24: for a hash-consed BDD, `recursiveProbability` started with an empty cache fails
(the lookup `indexToProbability.at` raises) if and only if some inner node reachable from
the BDD has a top variable absent from `indexToProbability`; when the map contains every
variable of the BDD the call returns a value. -/
theorem recursiveProbability_fails_iff (p : ProbabilityMap) (b : Bdd) (hhc : b.HashConsed) :
    (recursiveProbability p b emptyCache = none ↔
      ∃ id v t e, Bdd.node id v t e ∈ b.subnodes ∧ p v = none) ∧
    ((∀ v ∈ b.vars, (p v).isSome = true) →
      ∃ q c, recursiveProbability p b emptyCache = some (q, c)) := by
  have hmemo := recursiveProbability_memo p b hhc b (Bdd.self_mem_subnodes b) emptyCache
    (cacheSound_empty p b)
  have hiff : recursiveProbability p b emptyCache = none ↔ probabilityOf p b = none := by
    constructor
    · intro h
      cases hq : probabilityOf p b with
      | none => rfl
      | some q =>
        obtain ⟨c, hc, _⟩ := hmemo.1 q hq
        rw [hc] at h
        cases h
    · exact hmemo.2
  refine ⟨?_, ?_⟩
  · rw [hiff, probabilityOf_none_iff]
    constructor
    · rintro ⟨v, hv, hpv⟩
      obtain ⟨id, t, e, h⟩ := (Bdd.mem_vars_iff b v).mp hv
      exact ⟨id, v, t, e, h, hpv⟩
    · rintro ⟨id, v, t, e, h, hpv⟩
      exact ⟨v, (Bdd.mem_vars_iff b v).mpr ⟨id, t, e, h⟩, hpv⟩
  · intro hp
    obtain ⟨c, hc⟩ := recursiveProbability_empty_total p b hhc hp
    exact ⟨_, c, hc⟩

theorem recursiveProbability_fails_iff_witness :
    recursiveProbability exProbabilities exTop emptyCache = none ∧
    ∃ q c, recursiveProbability exProbabilities exOr emptyCache = some (q, c) :=
  ⟨(recursiveProbability_fails_iff exProbabilities exTop (by decide)).1.mpr
      ⟨12, 2, .terminal 1 true, .terminal 0 false, by simp [exTop, Bdd.subnodes], rfl⟩,
    (recursiveProbability_fails_iff exProbabilities exOr (by decide)).2 (by decide)⟩

namespace DftNextStateGenerator

variable {σ ρ : Type}

/-- C25: with merging enabled, `createMergeFailedState` calls the callback exactly once, on
the fresh state `DFTState(mDft, info, 0)` (the registry it leaves is the one after that
single call, and a callback that counts its invocations ends one higher), records the
returned id as `mergeFailedStateId`, which is the id `expand` binds merged successors to,
and returns an expanded behaviour with exactly one choice whose only transition is
`(that id, 1)`. -/
theorem createMergeFailedState_registers_once (gen : DftNextStateGenerator σ)
    (cb : σ → ρ → Nat × ρ) (r : ρ) (hmerge : gen.mergeFailedStates = true) :
    (∃ behavior gen1,
      createMergeFailedState gen cb r
        = .ok (behavior, gen1, (cb (gen.mDft.makeState 0) r).2) ∧
      gen1 = { gen with mergeFailedStateId := (cb (gen.mDft.makeState 0) r).1 } ∧
      behavior.expanded = true ∧
      behavior.choices
        = [((Choice.new 0 true).addProbability (cb (gen.mDft.makeState 0) r).1 1)] ∧
      behavior.choices.map (fun c => c.distribution)
        = [[((cb (gen.mDft.makeState 0) r).1, 1)]] ∧
      (∀ (cb2 : σ → ρ → Nat × ρ) (succ : Successor σ) (r2 : ρ), succ.merged = true →
        newStateId gen1 cb2 succ r2 = ((cb (gen.mDft.makeState 0) r).1, r2))) ∧
    (∀ (ident : σ → Nat) (count : Nat), ∃ behavior gen1,
      createMergeFailedState gen (fun s k => (ident s, k + 1)) count
        = .ok (behavior, gen1, count + 1)) := by
  refine ⟨⟨(StateBehavior.new.addChoice
    ((Choice.new 0 true).addProbability (cb (gen.mDft.makeState 0) r).1 1)).setExpanded,
    _, ?_, rfl, ?_, ?_, ?_, ?_⟩, ?_⟩
  · simp only [createMergeFailedState, hmerge]
    rfl
  · rfl
  · rfl
  · rfl
  · intro cb2 succ r2 hs
    simp [newStateId, hs]
  · intro ident count
    refine ⟨(StateBehavior.new.addChoice
      ((Choice.new 0 true).addProbability (ident (gen.mDft.makeState 0)) 1)).setExpanded,
      { gen with mergeFailedStateId := ident (gen.mDft.makeState 0) }, ?_⟩
    simp only [createMergeFailedState, hmerge]
    rfl

theorem createMergeFailedState_registers_once_witness :
    (∃ behavior gen1,
      createMergeFailedState exMergingGenerator exRegister [exInitial, exTriggered]
        = .ok (behavior, gen1, [exInitial, exTriggered]) ∧
      gen1 = { exMergingGenerator with mergeFailedStateId := 0 } ∧
      behavior.expanded = true ∧
      behavior.choices = [((Choice.new 0 true).addProbability 0 1)] ∧
      behavior.choices.map (fun c => c.distribution) = [[(0, 1)]] ∧
      (∀ (cb2 : ExState → List ExState → Nat × List ExState) (succ : Successor ExState)
          (r2 : List ExState), succ.merged = true →
        newStateId gen1 cb2 succ r2 = (0, r2))) ∧
    (∀ (ident : ExState → Nat) (count : Nat), ∃ behavior gen1,
      createMergeFailedState exMergingGenerator (fun s k => (ident s, k + 1)) count
        = .ok (behavior, gen1, count + 1)) :=
  createMergeFailedState_registers_once exMergingGenerator exRegister
    [exInitial, exTriggered] rfl

end DftNextStateGenerator

namespace Vector

/-- C29: for every value type other than the rational-function type (the overload selected
for it) and every input vector, the empty one included, `toIntegralVector` throws
`NotImplementedException` and produces no result. -/
theorem toIntegralVector_not_implemented {ValueType TargetValueType : Type}
    [Inhabited ValueType] (vec : List ValueType) :
    (toIntegralVector vec : Except StormException (List TargetValueType × ValueType))
      = .error .NotImplementedException ∧
    (∀ result : List TargetValueType × ValueType,
      (toIntegralVector vec : Except StormException (List TargetValueType × ValueType))
        ≠ .ok result) ∧
    (toIntegralVector ([] : List ValueType) :
        Except StormException (List TargetValueType × ValueType))
      = .error .NotImplementedException := by
  refine ⟨rfl, fun result h => ?_, rfl⟩
  cases h

theorem sorted_map_of_sorted_indices {T : Type} [LinearOrder T] [Inhabited T] (v : List T)
    (l : List Nat)
    (h : l.Pairwise (fun a b =>
      decide (v.getD b default > v.getD a default) = false)) :
    (l.map (fun i => v.getD i default)).Pairwise (fun x y => y ≤ x) := by
  rw [List.pairwise_map]
  exact h.imp (fun hab => by simpa using hab)

theorem isUniqueLoop_eq {T : Type} [LinearOrder T] [Inhabited T] (v : List T) :
    ∀ (l : List Nat) (previous : T),
      ((previous :: l.map (fun i => v.getD i default)).Pairwise (fun x y => y ≤ x)) →
      (isUniqueLoop v previous l = true ↔
        (previous :: l.map (fun i => v.getD i default)).Nodup) := by
  intro l
  induction l with
  | nil => intro previous _; simp [isUniqueLoop]
  | cons index rest ih =>
    intro previous hs
    have hs' := List.pairwise_cons.mp hs
    have ih' := ih (v.getD index default) hs'.2
    simp only [List.map_cons] at hs' ih' ⊢
    by_cases heq : v.getD index default = previous
    · constructor
      · intro h
        have hf : isUniqueLoop v previous (index :: rest) = false := by
          simp only [isUniqueLoop, heq, ↓reduceIte]
        rw [hf] at h
        cases h
      · intro hnd
        exfalso
        apply (List.nodup_cons.mp hnd).1
        rw [← heq]
        exact List.mem_cons_self _ _
    · simp only [isUniqueLoop, heq, if_false, ih']
      rw [List.nodup_cons (a := previous)]
      constructor
      · intro hnd
        refine ⟨?_, hnd⟩
        intro hmem
        rcases List.mem_cons.mp hmem with h | h
        · exact heq h.symm
        · have h1 : v.getD index default ≤ previous := hs'.1 _ (List.mem_cons_self _ _)
          have h2 : previous ≤ v.getD index default :=
            (List.pairwise_cons.mp hs'.2).1 _ h
          exact heq (le_antisymm h1 h2)
      · exact fun h => h.2

theorem map_getD_range {T : Type} [Inhabited T] (v : List T) :
    (List.range' 0 v.length).map (fun i => v.getD i default) = v := by
  apply List.ext_getElem
  · simp
  · intro i h1 h2
    simp [List.getElem?_eq_getElem h2]

/-- C30: for every vector `v` over a totally ordered element type and every sorting
algorithm that returns a permutation of the indices ordered by the comparator
`v[index1] > v[index2]`, `isUnique(v)` returns true if and only if there are no indices
`i != j` with `v[i] == v[j]`; vectors of length 0 and 1 are unique. -/
theorem isUnique_iff {T : Type} [LinearOrder T] [Inhabited T]
    (sort : (Nat → Nat → Bool) → List Nat → List Nat) (v : List T)
    (hperm : ∀ l, (sort
      (fun index1 index2 => decide (v.getD index1 default > v.getD index2 default)) l).Perm l)
    (hsorted : ∀ l, (sort
      (fun index1 index2 => decide (v.getD index1 default > v.getD index2 default))
      l).Pairwise (fun a b => decide (v.getD b default > v.getD a default) = false)) :
    (∃ unique, isUnique sort v = .ok unique ∧
      (unique = true ↔
        ∀ (i j : Nat) (hi : i < v.length) (hj : j < v.length),
          i ≠ j → v.get ⟨i, hi⟩ ≠ v.get ⟨j, hj⟩)) ∧
    (v.length < 2 → isUnique sort v = .ok true) := by
  have hnd : v.Nodup ↔ ∀ (i j : Nat) (hi : i < v.length) (hj : j < v.length),
      i ≠ j → v.get ⟨i, hi⟩ ≠ v.get ⟨j, hj⟩ := by
    rw [List.nodup_iff_injective_get]
    constructor
    · intro hinj i j hi hj hij heq
      exact hij (Fin.mk.inj (hinj heq))
    · intro h a b hab
      by_contra hne
      exact h a.1 b.1 a.2 b.2 (fun hval => hne (Fin.ext hval)) hab
  have hsmall : v.length < 2 → isUnique sort v = .ok true := by
    intro h
    simp [isUnique, h]
  refine ⟨?_, hsmall⟩
  by_cases hlen : v.length < 2
  · refine ⟨true, hsmall hlen, ?_⟩
    rw [← hnd]
    simp only [true_iff]
    match v, hlen with
    | [], _ => exact List.nodup_nil
    | [a], _ => exact List.nodup_singleton a
  · have hpos : 0 < v.length := by omega
    have hp := hperm (List.range' 0 v.length)
    have hs := sorted_map_of_sorted_indices v _ (hsorted (List.range' 0 v.length))
    have hmap := (hp.map (fun i => v.getD i default))
    rw [map_getD_range] at hmap
    cases hres : sort
        (fun index1 index2 => decide (v.getD index1 default > v.getD index2 default))
        (List.range' 0 v.length) with
    | nil =>
      rw [hres] at hp
      have := hp.length_eq
      simp at this
      omega
    | cons index rest =>
      rw [hres] at hs hmap
      refine ⟨isUniqueLoop v (v.getD index default) rest, ?_, ?_⟩
      · unfold isUnique getSortedIndices buildVectorForRange
        rw [if_neg hlen, if_pos hpos]
        simp only [Nat.sub_zero, hres]
      · rw [isUniqueLoop_eq v rest _ hs, ← hnd]
        exact hmap.nodup_iff

theorem insertionSort_perm (comp : Nat → Nat → Bool) (l : List Nat) :
    (insertionSort comp l).Perm l :=
  List.perm_insertionSort _ l

theorem insertionSort_sorted {T : Type} [LinearOrder T] [Inhabited T] (v : List T)
    (l : List Nat) :
    (insertionSort
      (fun index1 index2 => decide (v.getD index1 default > v.getD index2 default))
      l).Pairwise (fun a b => decide (v.getD b default > v.getD a default) = false) := by
  have htotal : IsTotal Nat (fun a b => decide (v.getD b default > v.getD a default) = false) :=
    ⟨fun a b => by
      simp only [decide_eq_false_iff_not, not_lt]
      exact le_total _ _⟩
  have htrans : IsTrans Nat (fun a b => decide (v.getD b default > v.getD a default) = false) :=
    ⟨fun a b c hab hbc => by
      simp only [decide_eq_false_iff_not, not_lt] at hab hbc ⊢
      exact le_trans hbc hab⟩
  exact List.sorted_insertionSort _ l

theorem isUnique_iff_witness :
    (∃ unique, isUnique insertionSort [3, 8, 4, 8] = .ok unique ∧
      (unique = true ↔
        ∀ (i j : Nat) (hi : i < [3, 8, 4, 8].length) (hj : j < [3, 8, 4, 8].length),
          i ≠ j → [3, 8, 4, 8].get ⟨i, hi⟩ ≠ [3, 8, 4, 8].get ⟨j, hj⟩)) ∧
    ([3, 8, 4, 8].length < 2 → isUnique insertionSort [3, 8, 4, 8] = .ok true) :=
  isUnique_iff insertionSort ([3, 8, 4, 8] : List Nat)
    (fun l => insertionSort_perm _ l) (fun l => insertionSort_sorted _ l)

end Vector

namespace SFTBDDChecker

theorem pushRow_length {α : Type} (rows : List (List α)) (j : Nat) (vals : List α) :
    (pushRow rows j vals).length = rows.length := by
  simp [pushRow]

theorem pushRow_getD_same {α : Type} (rows : List (List α)) (j : Nat) (vals : List α)
    (h : j < rows.length) :
    (pushRow rows j vals).getD j [] = rows.getD j [] ++ vals := by
  simp [pushRow, List.getD_eq_getElem?_getD, List.getElem?_set, h]

theorem pushRow_getD_noteq {α : Type} (rows : List (List α)) (j i : Nat) (vals : List α)
    (h : i ≠ j) :
    (pushRow rows j vals).getD i [] = rows.getD i [] := by
  simp [pushRow, List.getD_eq_getElem?_getD, List.getElem?_set, Ne.symm h]

theorem getElem?_of_getD {α : Type} (rows : List (List α)) (i : Nat) (row : List α)
    (hlen : i < rows.length) (h : rows.getD i [] = row) : rows[i]? = some row := by
  rw [List.getD_eq_getElem?_getD, List.getElem?_eq_getElem hlen] at h
  rw [List.getElem?_eq_getElem hlen]
  simpa using h

variable {κ : Type}

/-- The loop of `chunkCalculationTemplate` ends within the iterations allowed and carries
a relation between the timepoints handed to the callback so far and the state of the
callback from `currentIndex` to the end of the timepoints. -/
theorem chunkLoop_relation (checker : SFTBDDChecker) (exp : ℚ → ℚ)
    (func : Nat → List ℚ → VectorMap → κ → Option κ) (timepoints : List ℚ)
    (R : List ℚ → κ → Prop)
    (hfunc : ∀ (done cts : List ℚ) (itp0 : VectorMap) (st : κ), R done st →
      ∃ st1, func cts.length cts
          (checker.basicElements.foldl
            (fun m be => Function.update m (checker.getIndex be.name)
              (some (chunkProbabilities exp be cts))) itp0) st = some st1 ∧
        R (done ++ cts) st1) :
    ∀ (fuel currentIndex chunksize : Nat) (itp : VectorMap) (st : κ),
      0 < chunksize → timepoints.length - currentIndex ≤ fuel →
      R (timepoints.take currentIndex) st →
      ∃ st1, checker.chunkLoop exp func timepoints fuel currentIndex chunksize itp st
          = some st1 ∧ R timepoints st1 := by
  intro fuel
  induction fuel with
  | zero =>
    intro ci chunk itp st _ hfuel hst
    have hci : ¬ ci < timepoints.length := by omega
    rw [List.take_of_length_le (by omega)] at hst
    exact ⟨st, by simp [chunkLoop, hci], hst⟩
  | succ fuel ih =>
    intro ci chunk itp st hchunk hfuel hst
    by_cases hci : ci < timepoints.length
    · have hlen : ((timepoints.drop ci).take
          (if timepoints.length - ci < chunk then timepoints.length - ci else chunk)).length
          = (if timepoints.length - ci < chunk then timepoints.length - ci else chunk) := by
        rw [List.length_take, List.length_drop]
        split <;> omega
      have hpos : 0 < (if timepoints.length - ci < chunk then timepoints.length - ci
          else chunk) := by
        split <;> omega
      obtain ⟨st1, hf, hrel1⟩ := hfunc (timepoints.take ci) ((timepoints.drop ci).take
        (if timepoints.length - ci < chunk then timepoints.length - ci else chunk)) itp st hst
      rw [hlen] at hf
      rw [← List.take_add] at hrel1
      obtain ⟨st2, hloop, hrel2⟩ := ih
        (ci + (if timepoints.length - ci < chunk then timepoints.length - ci else chunk))
        (if timepoints.length - ci < chunk then timepoints.length - ci else chunk)
        (checker.basicElements.foldl
            (fun m be => Function.update m (checker.getIndex be.name)
              (some (chunkProbabilities exp be ((timepoints.drop ci).take
                (if timepoints.length - ci < chunk then timepoints.length - ci
                  else chunk))))) itp)
        st1 hpos (by omega) hrel1
      refine ⟨st2, ?_, hrel2⟩
      rw [chunkLoop, if_pos hci]
      simp only [hf]
      exact hloop
    · rw [List.take_of_length_le (by omega)] at hst
      exact ⟨st, by rw [chunkLoop, if_neg hci], hst⟩

theorem chunkCalculationTemplate_relation (checker : SFTBDDChecker)
    (exp : ℚ → ℚ) (func : Nat → List ℚ → VectorMap → κ → Option κ) (timepoints : List ℚ)
    (R : List ℚ → κ → Prop)
    (hfunc : ∀ (done cts : List ℚ) (itp0 : VectorMap) (st : κ), R done st →
      ∃ st1, func cts.length cts
          (checker.basicElements.foldl
            (fun m be => Function.update m (checker.getIndex be.name)
              (some (chunkProbabilities exp be cts))) itp0) st = some st1 ∧
        R (done ++ cts) st1)
    (chunksize : Nat) (st : κ) (hst : R [] st) :
    ∃ st1, checker.chunkCalculationTemplate exp func timepoints chunksize st = some st1 ∧
      R timepoints st1 := by
  unfold chunkCalculationTemplate
  cases htp : timepoints with
  | nil => exact ⟨st, by simp [chunkLoop], hst⟩
  | cons a rest =>
    rw [← htp]
    have hpos : 0 < (if chunksize = 0 then timepoints.length else chunksize) := by
      split
      · rw [htp]; simp
      · omega
    exact chunkLoop_relation checker exp func timepoints R hfunc
      timepoints.length 0 _ (fun _ => none) st hpos (by omega) (by simpa using hst)

end SFTBDDChecker

namespace SFTBDDChecker

theorem allBirnbaumFactorsLoop_eq (checker : SFTBDDChecker) (p : ProbabilityMap)
    (hhc : checker.topLevelGateBdd.HashConsed)
    (hp : ∀ v ∈ checker.topLevelGateBdd.vars, (p v).isSome = true) :
    ∀ (rest : List BasicElement) (cP : ScalarCache) (out : List ℚ),
      CacheSound p checker.topLevelGateBdd cP →
      allBirnbaumFactorsLoop checker p rest cP out
        = some (out ++ rest.map (fun be => birnbaumTotal (checker.getIndex be.name)
            (fun v => (p v).getD 0) checker.topLevelGateBdd)) := by
  intro rest
  induction rest with
  | nil => intro cP out _; simp [allBirnbaumFactorsLoop]
  | cons be rest ih =>
    intro cP out hc
    obtain ⟨cP1, cB1, hr, hc1, _⟩ := (recursiveBirnbaumFactor_memo (checker.getIndex be.name)
      p checker.topLevelGateBdd hhc _ (Bdd.self_mem_subnodes _) cP emptyCache hc
      (cacheSoundFor_empty _ _)).1 _ (birnbaumOf_eq_total _ _ _ hp)
    simp only [allBirnbaumFactorsLoop, hr, ih cP1 _ hc1, List.map_cons, List.append_assoc,
      List.singleton_append]

theorem allMeasuresLoop_eq (checker : SFTBDDChecker) (p : ProbabilityMap)
    (measure : ℚ → ℚ → ℚ → Option ℚ) (probability : ℚ)
    (hhc : checker.topLevelGateBdd.HashConsed)
    (hp : ∀ v ∈ checker.topLevelGateBdd.vars, (p v).isSome = true) :
    ∀ (rest : List BasicElement) (cP : ScalarCache) (out : List (Option ℚ)),
      CacheSound p checker.topLevelGateBdd cP →
      allMeasuresLoop checker p measure probability rest cP out
        = some (out ++ rest.map (fun be =>
            measure ((p (checker.getIndex be.name)).getD 0) probability
              (birnbaumTotal (checker.getIndex be.name)
                (fun v => (p v).getD 0) checker.topLevelGateBdd))) := by
  intro rest
  induction rest with
  | nil => intro cP out _; simp [allMeasuresLoop]
  | cons be rest ih =>
    intro cP out hc
    obtain ⟨cP1, cB1, hr, hc1, _⟩ := (recursiveBirnbaumFactor_memo (checker.getIndex be.name)
      p checker.topLevelGateBdd hhc _ (Bdd.self_mem_subnodes _) cP emptyCache hc
      (cacheSoundFor_empty _ _)).1 _ (birnbaumOf_eq_total _ _ _ hp)
    simp only [allMeasuresLoop, hr, ih cP1 _ hc1, List.map_cons, List.append_assoc,
      List.singleton_append]

/-- The all-elements scalar Birnbaum function returns the list of the Birnbaum values of
the basic elements, in their order. -/
theorem getAllBirnbaumFactorsAtTimebound_eq (checker : SFTBDDChecker) (t : ℚ)
    (hhc : checker.topLevelGateBdd.HashConsed)
    (hcov : checker.Covers checker.topLevelGateBdd) :
    checker.getAllBirnbaumFactorsAtTimebound t
      = some (checker.basicElements.map (fun be => birnbaumTotal (checker.getIndex be.name)
          (fun v => ((checker.indexToProbability t) v).getD 0) checker.topLevelGateBdd)) := by
  have hp := probabilityMapWith_covers checker (fun be => be.getUnreliability) t _ hcov
  rw [← indexToProbability_eq] at hp
  unfold getAllBirnbaumFactorsAtTimebound
  rw [allBirnbaumFactorsLoop_eq checker _ hhc hp _ _ _ (cacheSound_empty _ _)]
  simp

/-- The all-elements scalar functions for CIF, DIF, RAW and RRW return the list of the
values of the measure for the basic elements, in their order. -/
theorem allMeasuresAtTimebound_eq (checker : SFTBDDChecker)
    (measure : ℚ → ℚ → ℚ → Option ℚ) (t : ℚ)
    (hhc : checker.topLevelGateBdd.HashConsed)
    (hcov : checker.Covers checker.topLevelGateBdd) :
    checker.allMeasuresAtTimebound measure t
      = some (checker.basicElements.map (fun be =>
          measure (((checker.indexToProbability t) (checker.getIndex be.name)).getD 0)
            (probabilityTotal (fun v => ((checker.indexToProbability t) v).getD 0)
              checker.topLevelGateBdd)
            (birnbaumTotal (checker.getIndex be.name)
              (fun v => ((checker.indexToProbability t) v).getD 0)
              checker.topLevelGateBdd))) := by
  have hp := probabilityMapWith_covers checker (fun be => be.getUnreliability) t _ hcov
  rw [← indexToProbability_eq] at hp
  obtain ⟨c, hc, hsound⟩ := (recursiveProbability_memo (checker.indexToProbability t)
    checker.topLevelGateBdd hhc _ (Bdd.self_mem_subnodes _) emptyCache
    (cacheSoundFor_empty _ _)).1 _ (probabilityOf_eq_total _ _ hp)
  unfold allMeasuresAtTimebound
  simp only [hc]
  rw [allMeasuresLoop_eq checker _ measure _ hhc hp _ _ _ hsound]
  simp

theorem indexedByElements_map {α : Type} (checker : SFTBDDChecker)
    (all : Option (List α)) (single : String → Option α) (f : BasicElement → α)
    (hall : all = some (checker.basicElements.map f))
    (hsingle : ∀ be ∈ checker.basicElements, single be.name = some (f be)) :
    checker.IndexedByElements all single := by
  refine ⟨_, hall, by simp, ?_⟩
  intro i h
  rw [hsingle _ (List.get_mem _ i h)]
  simp [List.getElem?_eq_getElem h]

end SFTBDDChecker

namespace SFTBDDChecker

/-- The loop over the basic elements of a chunk of `getAllBirnbaumFactorsAtTimepoints`
appends to row `j + i` the Birnbaum values of the `i`-th remaining element at the timepoints
of the chunk and leaves the rows before `j` as they are. -/
theorem allBirnbaumFactorsChunk_rows (checker : SFTBDDChecker) (cts : List ℚ)
    (F : ℚ → Nat → ℚ) (itp : VectorMap) (hhc : checker.topLevelGateBdd.HashConsed)
    (hitp : ∀ v ∈ checker.topLevelGateBdd.vars, itp v = some (cts.map (fun t => F t v))) :
    ∀ (rest : List BasicElement) (j : Nat) (cP cB : VectorCache) (rows : List (List ℚ)),
      VectorCacheSound (fun m => cts.map (fun t => probabilityTotal (F t) m))
        checker.topLevelGateBdd cP →
      j + rest.length ≤ rows.length →
      ∃ cP1 cB1 rows1,
        allBirnbaumFactorsChunk checker cts.length itp rest j cP cB rows
          = some (cP1, cB1, rows1) ∧
        rows1.length = rows.length ∧
        (∀ i, i < j → rows1.getD i [] = rows.getD i []) ∧
        (∀ i be, rest[i]? = some be →
          rows1.getD (j + i) [] = rows.getD (j + i) [] ++
            cts.map (fun t => birnbaumTotal (checker.getIndex be.name) (F t)
              checker.topLevelGateBdd)) := by
  intro rest
  induction rest with
  | nil =>
    intro j cP cB rows _ _
    exact ⟨cP, cB, rows, rfl, rfl, fun _ _ => rfl, fun i be h => by simp at h⟩
  | cons be rest ih =>
    intro j cP cB rows hcP hlen
    simp only [List.length_cons] at hlen
    obtain ⟨cP1, cB1, hr, hcP1, _, hs, _, _⟩ := recursiveBirnbaumFactors_memo cts F itp
      (checker.getIndex be.name) checker.topLevelGateBdd hhc hitp checker.topLevelGateBdd
      (Bdd.self_mem_subnodes _) cP (invalidate cB) hcP (vectorCacheSound_invalidate _ _ _)
    obtain ⟨cP2, cB2, rows2, hloop, hlen2, hbefore, hrows⟩ := ih (j + 1) cP1 cB1
      (pushRow rows j (readArray 0 (slotValues cB1 checker.topLevelGateBdd.GetBDD)
        cts.length)) hcP1 (by rw [pushRow_length]; omega)
    refine ⟨cP2, cB2, rows2, ?_, ?_, ?_, ?_⟩
    · simp only [allBirnbaumFactorsChunk, hr]
      exact hloop
    · rw [hlen2, pushRow_length]
    · intro i hi
      rw [hbefore i (by omega), pushRow_getD_noteq _ _ _ _ (by omega)]
    · intro i b hb
      cases i with
      | zero =>
        simp only [List.getElem?_cons_zero, Option.some.injEq] at hb
        subst hb
        rw [Nat.add_zero, hbefore j (by omega), pushRow_getD_same _ _ _ (by omega), hs,
          readArray_eq _ _ _ (by simp)]
      | succ i =>
        simp only [List.getElem?_cons_succ] at hb
        have := hrows i b hb
        rw [show j + (i + 1) = j + 1 + i by omega, this,
          pushRow_getD_noteq _ _ _ _ (by omega)]

/-- The loop over the basic elements of a chunk of the all-elements functions for CIF, DIF,
RAW and RRW appends to row `j + i` the values of the measure for the `i`-th remaining
element at the timepoints of the chunk. -/
theorem allMeasuresChunk_rows (checker : SFTBDDChecker) (cts : List ℚ)
    (F : ℚ → Nat → ℚ) (itp : VectorMap)
    (measure : List ℚ → List ℚ → List ℚ → List (Option ℚ)) (m : ℚ → ℚ → ℚ → Option ℚ)
    (hm : ∀ (l : List ℚ) (q P B : ℚ → ℚ),
      measure (l.map q) (l.map P) (l.map B) = l.map (fun t => m (q t) (P t) (B t)))
    (hhc : checker.topLevelGateBdd.HashConsed)
    (hitp : ∀ v ∈ checker.topLevelGateBdd.vars, itp v = some (cts.map (fun t => F t v))) :
    ∀ (rest : List BasicElement) (j : Nat) (cP cB : VectorCache)
      (rows : List (List (Option ℚ))),
      VectorCacheSound (fun m => cts.map (fun t => probabilityTotal (F t) m))
        checker.topLevelGateBdd cP →
      cP checker.topLevelGateBdd.GetBDD
        = some (true, cts.map (fun t => probabilityTotal (F t) checker.topLevelGateBdd)) →
      (∀ be ∈ rest, itp (checker.getIndex be.name)
        = some (cts.map (fun t => F t (checker.getIndex be.name)))) →
      j + rest.length ≤ rows.length →
      ∃ cP1 cB1 rows1,
        allMeasuresChunk checker cts.length itp measure checker.topLevelGateBdd.GetBDD
          rest j cP cB rows = some (cP1, cB1, rows1) ∧
        rows1.length = rows.length ∧
        (∀ i, i < j → rows1.getD i [] = rows.getD i []) ∧
        (∀ i be, rest[i]? = some be →
          rows1.getD (j + i) [] = rows.getD (j + i) [] ++
            cts.map (fun t => m (F t (checker.getIndex be.name))
              (probabilityTotal (F t) checker.topLevelGateBdd)
              (birnbaumTotal (checker.getIndex be.name) (F t)
                checker.topLevelGateBdd))) := by
  intro rest
  induction rest with
  | nil =>
    intro j cP cB rows _ _ _ _
    exact ⟨cP, cB, rows, rfl, rfl, fun _ _ => rfl, fun i be h => by simp at h⟩
  | cons be rest ih =>
    intro j cP cB rows hcP htop hq hlen
    simp only [List.length_cons] at hlen
    obtain ⟨cP1, cB1, hr, hcP1, _, hs, hfP, _⟩ := recursiveBirnbaumFactors_memo cts F itp
      (checker.getIndex be.name) checker.topLevelGateBdd hhc hitp checker.topLevelGateBdd
      (Bdd.self_mem_subnodes _) cP (invalidate cB) hcP (vectorCacheSound_invalidate _ _ _)
    have htop1 := hfP _ (Bdd.self_mem_subnodes _) _ htop
    have hqbe := hq be (List.mem_cons_self _ _)
    obtain ⟨cP2, cB2, rows2, hloop, hlen2, hbefore, hrows⟩ := ih (j + 1) cP1 cB1
      (pushRow rows j (readArray none
        (measure (cts.map (fun t => F t (checker.getIndex be.name)))
          (slotValues cP1 checker.topLevelGateBdd.GetBDD)
          (slotValues cB1 checker.topLevelGateBdd.GetBDD)) cts.length))
      hcP1 htop1 (fun b hb => hq b (List.mem_cons_of_mem _ hb))
      (by rw [pushRow_length]; omega)
    refine ⟨cP2, cB2, rows2, ?_, ?_, ?_, ?_⟩
    · simp only [allMeasuresChunk, hr, hqbe]
      exact hloop
    · rw [hlen2, pushRow_length]
    · intro i hi
      rw [hbefore i (by omega), pushRow_getD_noteq _ _ _ _ (by omega)]
    · intro i b hb
      cases i with
      | zero =>
        simp only [List.getElem?_cons_zero, Option.some.injEq] at hb
        subst hb
        rw [Nat.add_zero, hbefore j (by omega), pushRow_getD_same _ _ _ (by omega), hs,
          slotValues_of_eq htop1, hm, readArray_eq _ _ _ (by simp)]
      | succ i =>
        simp only [List.getElem?_cons_succ] at hb
        have := hrows i b hb
        rw [show j + (i + 1) = j + 1 + i by omega, this,
          pushRow_getD_noteq _ _ _ _ (by omega)]

end SFTBDDChecker

namespace SFTBDDChecker

variable {κ : Type}

theorem chunkCalculationTemplate_select {β : Type} (checker : SFTBDDChecker)
    (exp : ℚ → ℚ) (func : Nat → List ℚ → VectorMap → κ → Option κ) (timepoints : List ℚ)
    (R : List ℚ → κ → Prop)
    (hfunc : ∀ (done cts : List ℚ) (itp0 : VectorMap) (st : κ), R done st →
      ∃ st1, func cts.length cts
          (checker.basicElements.foldl
            (fun m be => Function.update m (checker.getIndex be.name)
              (some (chunkProbabilities exp be cts))) itp0) st = some st1 ∧
        R (done ++ cts) st1)
    (chunksize : Nat) (st : κ) (hst : R [] st) (select : κ → β) (Q : β → Prop)
    (hQ : ∀ st1, R timepoints st1 → Q (select st1)) :
    ∃ result, (checker.chunkCalculationTemplate exp func timepoints chunksize st).map select
        = some result ∧ Q result := by
  obtain ⟨st1, h1, h2⟩ := chunkCalculationTemplate_relation checker exp func timepoints R
    hfunc chunksize st hst
  exact ⟨select st1, by rw [h1]; rfl, hQ st1 h2⟩

/-- The rows of `getAllBirnbaumFactorsAtTimepoints` are, in the order of the basic elements
and for every chunk size, the Birnbaum values of the element at the timepoints. -/
theorem getAllBirnbaumFactorsAtTimepoints_rows (checker : SFTBDDChecker) (exp : ℚ → ℚ)
    (hhc : checker.topLevelGateBdd.HashConsed)
    (hcov : checker.Covers checker.topLevelGateBdd) (ts : List ℚ) (c : Nat) :
    ∃ rows, checker.getAllBirnbaumFactorsAtTimepoints exp ts c = some rows ∧
      (rows.length = checker.basicElements.length ∧
        ∀ i be, checker.basicElements[i]? = some be →
          rows.getD i [] = ts.map (fun t => birnbaumTotal (checker.getIndex be.name)
            (fun v => ((checker.probabilityMapWith (unreliabilityInChunk exp) t) v).getD 0)
            checker.topLevelGateBdd)) := by
  unfold getAllBirnbaumFactorsAtTimepoints
  refine chunkCalculationTemplate_select checker exp _ ts
    (fun done (st : VectorCache × VectorCache × List (List ℚ)) =>
      st.2.2.length = checker.basicElements.length ∧
        ∀ i be, checker.basicElements[i]? = some be →
          st.2.2.getD i [] = done.map (fun t => birnbaumTotal (checker.getIndex be.name)
            (fun v => ((checker.probabilityMapWith (unreliabilityInChunk exp) t) v).getD 0)
            checker.topLevelGateBdd))
    ?_ c _ ?_ _ _ (fun st1 h => h)
  · intro done cts itp0 st hst
    obtain ⟨hlen, hrows⟩ := hst
    obtain ⟨cP1, cB1, rows1, hloop, hlen1, _, hrows1⟩ := allBirnbaumFactorsChunk_rows checker
      cts (fun t v => ((checker.probabilityMapWith (unreliabilityInChunk exp) t) v).getD 0)
      _ hhc (fun v hv => chunk_map_eq checker exp cts itp0 v (hcov v hv))
      checker.basicElements 0 (invalidate st.1) st.2.1 st.2.2
      (vectorCacheSound_invalidate _ _ _) (by omega)
    refine ⟨_, hloop, by rw [hlen1, hlen], ?_⟩
    intro i be hbe
    have := hrows1 i be hbe
    rw [Nat.zero_add] at this
    rw [this, hrows i be hbe, List.map_append]
  · refine ⟨by simp, ?_⟩
    intro i be hbe
    have hi : i < checker.basicElements.length := by
      rcases Nat.lt_or_ge i checker.basicElements.length with h | h
      · exact h
      · rw [List.getElem?_eq_none h] at hbe
        cases hbe
    simp [List.getD_eq_getElem?_getD, List.getElem?_replicate, hi]

/-- The rows of the all-elements functions for CIF, DIF, RAW and RRW at timepoints are, in
the order of the basic elements and for every chunk size, the values of the measure for the
element at the timepoints. -/
theorem allMeasuresAtTimepoints_rows (checker : SFTBDDChecker) (exp : ℚ → ℚ)
    (measure : List ℚ → List ℚ → List ℚ → List (Option ℚ)) (m : ℚ → ℚ → ℚ → Option ℚ)
    (hm : ∀ (l : List ℚ) (q P B : ℚ → ℚ),
      measure (l.map q) (l.map P) (l.map B) = l.map (fun t => m (q t) (P t) (B t)))
    (hhc : checker.topLevelGateBdd.HashConsed)
    (hcov : checker.Covers checker.topLevelGateBdd) (ts : List ℚ) (c : Nat) :
    ∃ rows, checker.allMeasuresAtTimepoints exp measure ts c = some rows ∧
      (rows.length = checker.basicElements.length ∧
        ∀ i be, checker.basicElements[i]? = some be →
          rows.getD i [] = ts.map (fun t =>
            m (((checker.probabilityMapWith (unreliabilityInChunk exp) t)
                (checker.getIndex be.name)).getD 0)
              (probabilityTotal
                (fun v =>
                  ((checker.probabilityMapWith (unreliabilityInChunk exp) t) v).getD 0)
                checker.topLevelGateBdd)
              (birnbaumTotal (checker.getIndex be.name)
                (fun v =>
                  ((checker.probabilityMapWith (unreliabilityInChunk exp) t) v).getD 0)
                checker.topLevelGateBdd))) := by
  unfold allMeasuresAtTimepoints
  refine chunkCalculationTemplate_select checker exp _ ts
    (fun done (st : VectorCache × VectorCache × List (List (Option ℚ))) =>
      st.2.2.length = checker.basicElements.length ∧
        ∀ i be, checker.basicElements[i]? = some be →
          st.2.2.getD i [] = done.map (fun t =>
            m (((checker.probabilityMapWith (unreliabilityInChunk exp) t)
                (checker.getIndex be.name)).getD 0)
              (probabilityTotal
                (fun v =>
                  ((checker.probabilityMapWith (unreliabilityInChunk exp) t) v).getD 0)
                checker.topLevelGateBdd)
              (birnbaumTotal (checker.getIndex be.name)
                (fun v =>
                  ((checker.probabilityMapWith (unreliabilityInChunk exp) t) v).getD 0)
                checker.topLevelGateBdd)))
    ?_ c _ ?_ _ _ (fun st1 h => h)
  · intro done cts itp0 st hst
    obtain ⟨hlen, hrows⟩ := hst
    have hitp := fun v hv => chunk_map_eq checker exp cts itp0 v (hcov v hv)
    obtain ⟨c1, hr1, hc1, hs1, _⟩ := recursiveProbabilities_memo cts
      (fun t v => ((checker.probabilityMapWith (unreliabilityInChunk exp) t) v).getD 0)
      _ checker.topLevelGateBdd hhc hitp checker.topLevelGateBdd
      (Bdd.self_mem_subnodes _) (invalidate st.1) (vectorCacheSound_invalidate _ _ _)
    obtain ⟨cP1, cB1, rows1, hloop, hlen1, _, hrows1⟩ := allMeasuresChunk_rows checker
      cts (fun t v => ((checker.probabilityMapWith (unreliabilityInChunk exp) t) v).getD 0)
      _ measure m hm hhc hitp checker.basicElements 0 c1 st.2.1 st.2.2 hc1 hs1
      (fun be hbe => chunk_map_eq checker exp cts itp0 _ ⟨be, hbe, rfl⟩) (by omega)
    refine ⟨_, by simp only [hr1]; exact hloop, by rw [hlen1, hlen], ?_⟩
    intro i be hbe
    have := hrows1 i be hbe
    rw [Nat.zero_add] at this
    rw [this, hrows i be hbe, List.map_append]
  · refine ⟨by simp, ?_⟩
    intro i be hbe
    have hi : i < checker.basicElements.length := by
      rcases Nat.lt_or_ge i checker.basicElements.length with h | h
      · exact h
      · rw [List.getElem?_eq_none h] at hbe
        cases hbe
    simp [List.getD_eq_getElem?_getD, List.getElem?_replicate, hi]

theorem indexedByElements_rows {α : Type} (checker : SFTBDDChecker)
    (all : Option (List (List α))) (single : String → Option (List α))
    (f : BasicElement → List α)
    (hall : ∃ rows, all = some rows ∧ (rows.length = checker.basicElements.length ∧
      ∀ i be, checker.basicElements[i]? = some be → rows.getD i [] = f be))
    (hsingle : ∀ be ∈ checker.basicElements, single be.name = some (f be)) :
    checker.IndexedByElements all single := by
  obtain ⟨rows, hrows, hlen, hget⟩ := hall
  refine ⟨rows, hrows, hlen, ?_⟩
  intro i h
  rw [hsingle _ (List.get_mem _ i h)]
  exact getElem?_of_getD rows i _ (by omega)
    (hget i _ (by simp [List.getElem?_eq_getElem h]))

end SFTBDDChecker

namespace SFTBDDChecker

/-- C21: for a hash-consed top-level BDD whose variables are indices of basic elements and
for each of the measures Birnbaum, CIF, DIF, RAW and RRW, the all-elements variants are
indexed by the order of the basic elements: entry `i` of the function at a timebound is the
value of the single-element function for the name of the `i`-th basic element, and row `i`
of the function at timepoints (for every chunk size) is the vector of the single-element
function for that name, although the all-elements variants share one probability cache and
reuse one Birnbaum cache that is invalidated for every element. -/
theorem all_variants_indexed (checker : SFTBDDChecker) (exp : ℚ → ℚ) (t : ℚ)
    (ts : List ℚ) (c : Nat) (hhc : checker.topLevelGateBdd.HashConsed)
    (hcov : checker.Covers checker.topLevelGateBdd) :
    checker.IndexedByElements (checker.getAllBirnbaumFactorsAtTimebound t)
      (fun name => checker.getBirnbaumFactorAtTimebound name t) ∧
    checker.IndexedByElements (checker.getAllCIFsAtTimebound t)
      (fun name => checker.getCIFAtTimebound name t) ∧
    checker.IndexedByElements (checker.getAllDIFsAtTimebound t)
      (fun name => checker.getDIFAtTimebound name t) ∧
    checker.IndexedByElements (checker.getAllRAWsAtTimebound t)
      (fun name => checker.getRAWAtTimebound name t) ∧
    checker.IndexedByElements (checker.getAllRRWsAtTimebound t)
      (fun name => checker.getRRWAtTimebound name t) ∧
    checker.IndexedByElements (checker.getAllBirnbaumFactorsAtTimepoints exp ts c)
      (fun name => checker.getBirnbaumFactorsAtTimepoints exp name ts c) ∧
    checker.IndexedByElements (checker.getAllCIFsAtTimepoints exp ts c)
      (fun name => checker.getCIFsAtTimepoints exp name ts c) ∧
    checker.IndexedByElements (checker.getAllDIFsAtTimepoints exp ts c)
      (fun name => checker.getDIFsAtTimepoints exp name ts c) ∧
    checker.IndexedByElements (checker.getAllRAWsAtTimepoints exp ts c)
      (fun name => checker.getRAWsAtTimepoints exp name ts c) ∧
    checker.IndexedByElements (checker.getAllRRWsAtTimepoints exp ts c)
      (fun name => checker.getRRWsAtTimepoints exp name ts c) := by
  have hin : ∀ be ∈ checker.basicElements,
      ∃ b ∈ checker.basicElements, checker.getIndex b.name = checker.getIndex be.name :=
    fun be hbe => ⟨be, hbe, rfl⟩
  refine ⟨?_, ?_, ?_, ?_, ?_, ?_, ?_, ?_, ?_, ?_⟩
  · exact indexedByElements_map checker _ _ _
      (getAllBirnbaumFactorsAtTimebound_eq checker t hhc hcov)
      (fun be _ => (scalar_kernels checker be.name t hhc hcov).2.1)
  · refine indexedByElements_map checker _ _ _
      (allMeasuresAtTimebound_eq checker _ t hhc hcov) (fun be _ => ?_)
    simp only [getCIFAtTimebound, (scalar_kernels checker be.name t hhc hcov).2.2,
      beProbability]
  · refine indexedByElements_map checker _ _ _
      (allMeasuresAtTimebound_eq checker _ t hhc hcov) (fun be _ => ?_)
    simp only [getDIFAtTimebound, (scalar_kernels checker be.name t hhc hcov).2.2,
      beProbability]
  · refine indexedByElements_map checker _ _ _
      (allMeasuresAtTimebound_eq checker _ t hhc hcov) (fun be _ => ?_)
    simp only [getRAWAtTimebound, (scalar_kernels checker be.name t hhc hcov).2.2,
      beProbability]
  · refine indexedByElements_map checker _ _ _
      (allMeasuresAtTimebound_eq checker _ t hhc hcov) (fun be _ => ?_)
    simp only [getRRWAtTimebound, (scalar_kernels checker be.name t hhc hcov).2.2,
      beProbability]
  · exact indexedByElements_rows checker _ _ _
      (getAllBirnbaumFactorsAtTimepoints_rows checker exp hhc hcov ts c)
      (fun be _ => getBirnbaumFactorsAtTimepoints_eq checker exp be.name hhc hcov ts c)
  · exact indexedByElements_rows checker _ _ _
      (allMeasuresAtTimepoints_rows checker exp CIFArray
        (fun q P B => (divide q P).map (fun x => x * B)) CIFArray_map hhc hcov ts c)
      (fun be hbe => measuresAtTimepoints_eq checker exp CIFArray
        (fun q P B => (divide q P).map (fun x => x * B)) CIFArray_map
        be.name hhc hcov (hin be hbe) ts c)
  · exact indexedByElements_rows checker _ _ _
      (allMeasuresAtTimepoints_rows checker exp DIFArray
        (fun q P B => (divide (q * (1 - q) * B) P).map (fun x => q + x)) DIFArray_map
        hhc hcov ts c)
      (fun be hbe => measuresAtTimepoints_eq checker exp DIFArray
        (fun q P B => (divide (q * (1 - q) * B) P).map (fun x => q + x)) DIFArray_map
        be.name hhc hcov (hin be hbe) ts c)
  · exact indexedByElements_rows checker _ _ _
      (allMeasuresAtTimepoints_rows checker exp RAWArray
        (fun q P B => (divide ((1 - q) * B) P).map (fun x => 1 + x)) RAWArray_map
        hhc hcov ts c)
      (fun be hbe => measuresAtTimepoints_eq checker exp RAWArray
        (fun q P B => (divide ((1 - q) * B) P).map (fun x => 1 + x)) RAWArray_map
        be.name hhc hcov (hin be hbe) ts c)
  · exact indexedByElements_rows checker _ _ _
      (allMeasuresAtTimepoints_rows checker exp RRWArray
        (fun q P B => divide P (P - q * B)) RRWArray_map hhc hcov ts c)
      (fun be hbe => measuresAtTimepoints_eq checker exp RRWArray
        (fun q P B => divide P (P - q * B)) RRWArray_map
        be.name hhc hcov (hin be hbe) ts c)

theorem all_variants_indexed_witness :
    exExponential.IndexedByElements (exExponential.getAllBirnbaumFactorsAtTimebound (1 / 2))
      (fun name => exExponential.getBirnbaumFactorAtTimebound name (1 / 2)) ∧
    exExponential.IndexedByElements
      (exExponential.getAllRAWsAtTimepoints exExp [1 / 2, 1, 2] 2)
      (fun name => exExponential.getRAWsAtTimepoints exExp name [1 / 2, 1, 2] 2) := by
  have h := all_variants_indexed exExponential exExp (1 / 2) [1 / 2, 1, 2] 2 (by decide)
    exExponential_covers
  exact ⟨h.1, h.2.2.2.2.2.2.2.2.1⟩

end SFTBDDChecker

namespace DftNextStateGenerator

theorem exPropagating_successor :
    successorState exPropagatingGenerator 10 exInitial false 2
      = .ok (some (Successor.mk (exBE 5) (ExState.mk 0 [5] [] false) false)) := by
  rfl

end DftNextStateGenerator

namespace DftNextStateGenerator

variable {σ ρ : Type}

theorem drainFailurePropagation_monotone (dft : Dft σ) (failedBEs : σ → Nat)
    (hmono : dft.FailureMonotone failedBEs) :
    ∀ (fuel : Nat) (s : σ) (q : Queues) (s1 : σ) (q1 : Queues),
      drainFailurePropagation dft fuel s q = some (s1, q1) → failedBEs s ≤ failedBEs s1 := by
  intro fuel
  induction fuel with
  | zero =>
    intro s q s1 q1 h
    simp only [drainFailurePropagation] at h
    split at h
    · simp only [Option.some.injEq, Prod.mk.injEq] at h
      rw [h.1]
    · cases h
  | succ fuel ih =>
    intro s q s1 q1 h
    simp only [drainFailurePropagation] at h
    split at h
    · simp only [Option.some.injEq, Prod.mk.injEq] at h
      rw [h.1]
    · exact le_trans (le_trans (hmono.checkFails _ _ _)
        (hmono.updateFailableDependencies _ _)) (ih _ _ _ _ h)

theorem drainRestrictionChecks_monotone (dft : Dft σ) (failedBEs : σ → Nat)
    (hmono : dft.FailureMonotone failedBEs) :
    ∀ (fuel : Nat) (s : σ) (q : Queues) (s1 : σ) (q1 : Queues),
      drainRestrictionChecks dft fuel s q = some (s1, q1) → failedBEs s ≤ failedBEs s1 := by
  intro fuel
  induction fuel with
  | zero =>
    intro s q s1 q1 h
    simp only [drainRestrictionChecks] at h
    split at h
    · simp only [Option.some.injEq, Prod.mk.injEq] at h
      rw [h.1]
    · cases h
  | succ fuel ih =>
    intro s q s1 q1 h
    simp only [drainRestrictionChecks] at h
    split at h
    · simp only [Option.some.injEq, Prod.mk.injEq] at h
      rw [h.1]
    · exact le_trans (le_trans (hmono.checkFails _ _ _)
        (hmono.updateFailableDependencies _ _)) (ih _ _ _ _ h)

theorem drainFailsafePropagation_monotone (dft : Dft σ) (failedBEs : σ → Nat)
    (hmono : dft.FailureMonotone failedBEs) :
    ∀ (fuel : Nat) (s : σ) (q : Queues) (s1 : σ) (q1 : Queues),
      drainFailsafePropagation dft fuel s q = some (s1, q1) → failedBEs s ≤ failedBEs s1 := by
  intro fuel
  induction fuel with
  | zero =>
    intro s q s1 q1 h
    simp only [drainFailsafePropagation] at h
    split at h
    · simp only [Option.some.injEq, Prod.mk.injEq] at h
      rw [h.1]
    · cases h
  | succ fuel ih =>
    intro s q s1 q1 h
    simp only [drainFailsafePropagation] at h
    split at h
    · simp only [Option.some.injEq, Prod.mk.injEq] at h
      rw [h.1]
    · exact le_trans (hmono.checkFailsafe _ _ _) (ih _ _ _ _ h)

theorem drainDontCarePropagation_monotone (dft : Dft σ) (enableDC : Bool)
    (failedBEs : σ → Nat) (hmono : dft.FailureMonotone failedBEs) :
    ∀ (fuel : Nat) (s : σ) (q : Queues) (s1 : σ) (q1 : Queues),
      drainDontCarePropagation dft enableDC fuel s q = some (s1, q1) →
      failedBEs s ≤ failedBEs s1 := by
  intro fuel
  induction fuel with
  | zero =>
    intro s q s1 q1 h
    simp only [drainDontCarePropagation] at h
    split at h
    · cases h
    · simp only [Option.some.injEq, Prod.mk.injEq] at h
      rw [h.1]
  | succ fuel ih =>
    intro s q s1 q1 h
    simp only [drainDontCarePropagation] at h
    split at h
    · split at h
      · simp only [Option.some.injEq, Prod.mk.injEq] at h
        rw [h.1]
      · exact le_trans (hmono.checkDontCareAnymore _ _ _) (ih _ _ _ _ h)
    · simp only [Option.some.injEq, Prod.mk.injEq] at h
      rw [h.1]

theorem failNextBE_monotone (gen : DftNextStateGenerator σ) (failedBEs : σ → Nat)
    (hmono : gen.mDft.FailureMonotone failedBEs) (fuel : Nat) (s : σ) (hd : Bool) (i : Nat)
    (s1 : σ) (q1 : Queues) (be : DFTBE)
    (h : failNextBE gen fuel s hd i = .ok (s1, q1, be)) : failedBEs s ≤ failedBEs s1 := by
  unfold failNextBE at h
  split at h
  · cases h
  · split at h
    · cases h
    · rename_i ns nextBE flag hlet
      split at h
      · cases h
      · dsimp only at h
        split at h
        · cases h
        · rename_i ns1 qs1 hd1
          split at h
          · cases h
          · rename_i ns2 qs2 hd2
            simp only [Except.ok.injEq, Prod.mk.injEq] at h
            rw [← h.1]
            have h0 := hmono.letNextBEFail s i
            rw [hlet] at h0
            exact le_trans h0 (le_trans
              (drainFailurePropagation_monotone _ _ hmono _ _ _ _ _ hd1)
              (drainRestrictionChecks_monotone _ _ hmono _ _ _ _ _ hd2))

/-- The successor computed for a candidate has at least as many failed basic elements as
the state the candidate is taken from. -/
theorem successorState_monotone (gen : DftNextStateGenerator σ) (failedBEs : σ → Nat)
    (hmono : gen.mDft.FailureMonotone failedBEs) (fuel : Nat) (s : σ) (hd : Bool) (i : Nat)
    (succ : Successor σ) (h : successorState gen fuel s hd i = .ok (some succ)) :
    failedBEs s ≤ failedBEs succ.newState := by
  unfold successorState at h
  split at h
  · cases h
  · rename_i ns q be hfail
    have h0 := failNextBE_monotone gen failedBEs hmono fuel s hd i ns q be hfail
    split at h
    · cases h
    · split at h
      · simp only [Except.ok.injEq, Option.some.injEq] at h
        rw [← h]
        exact h0
      · split at h
        · cases h
        · rename_i ns1 qs1 hd1
          split at h
          · cases h
          · rename_i ns2 qs2 hd2
            simp only [Except.ok.injEq, Option.some.injEq] at h
            rw [← h]
            exact le_trans h0 (le_trans
              (drainFailsafePropagation_monotone _ _ hmono _ _ _ _ _ hd1)
              (le_trans (drainDontCarePropagation_monotone _ _ _ hmono _ _ _ _ _ hd2)
                (le_trans (hmono.updateFailableDependencies _ _)
                  (hmono.updateDontCareDependencies _ _))))

end DftNextStateGenerator

namespace DftNextStateGenerator

variable {σ ρ : Type}

theorem mem_addToDistribution (d : List (Nat × ℚ)) (s : Nat) (v : ℚ) (t : Nat × ℚ)
    (h : t ∈ addToDistribution d s v) : t.1 = s ∨ ∃ u ∈ d, u.1 = t.1 := by
  induction d with
  | nil =>
    simp only [addToDistribution, List.mem_singleton] at h
    left
    rw [h]
  | cons a rest ih =>
    obtain ⟨a1, a2⟩ := a
    simp only [addToDistribution] at h
    split at h
    · rename_i heq
      rcases List.mem_cons.mp h with h | h
      · left
        rw [h]
        exact heq
      · exact Or.inr ⟨t, List.mem_cons_of_mem _ h, rfl⟩
    · rcases List.mem_cons.mp h with h | h
      · exact Or.inr ⟨(a1, a2), List.mem_cons_self _ _, by rw [h]⟩
      · rcases ih h with h1 | ⟨u, hu, hu1⟩
        · exact Or.inl h1
        · exact Or.inr ⟨u, List.mem_cons_of_mem _ hu, hu1⟩

theorem identifiesFailed_append (gen : DftNextStateGenerator σ) (failedBEs : σ → Nat)
    (bound : Nat) (log L : List (σ × Nat)) (id : Nat)
    (h : IdentifiesFailed gen failedBEs bound log id) :
    IdentifiesFailed gen failedBEs bound (log ++ L) id := by
  rcases h with h | ⟨s, hs, hb⟩
  · exact Or.inl h
  · exact Or.inr ⟨s, List.mem_append_left _ hs, hb⟩

theorem successorState_merged_flag (gen : DftNextStateGenerator σ) (fuel : Nat) (s : σ)
    (hd : Bool) (i : Nat) (succ : Successor σ)
    (h : successorState gen fuel s hd i = .ok (some succ)) (hm : succ.merged = true) :
    gen.mergeFailedStates = true := by
  unfold successorState at h
  split at h
  · cases h
  · split at h
    · cases h
    · split at h
      · rename_i hcond
        simp only [Bool.and_eq_true] at hcond
        exact hcond.2
      · split at h
        · cases h
        · split at h
          · cases h
          · simp only [Except.ok.injEq, Option.some.injEq] at h
            rw [← h] at hm
            cases hm

/-- The id bound to a successor with a recording callback is the merged failed id, or it is
recorded with the successor state. -/
theorem newStateId_recording (gen : DftNextStateGenerator σ) (failedBEs : σ → Nat)
    (hmono : gen.mDft.FailureMonotone failedBEs) (fuel : Nat) (S : σ) (hd : Bool) (i : Nat)
    (succ : Successor σ) (h : successorState gen fuel S hd i = .ok (some succ))
    (cb : σ → ρ → Nat × ρ) (r : ρ) (log : List (σ × Nat)) :
    ∃ L, (newStateId gen (recording cb) succ (r, log)).2.2 = log ++ L ∧
      IdentifiesFailed gen failedBEs (failedBEs S) (log ++ L)
        (newStateId gen (recording cb) succ (r, log)).1 := by
  by_cases hm : succ.merged = true
  · refine ⟨[], by simp [newStateId, hm], Or.inl ⟨?_, by simp [newStateId, hm]⟩⟩
    exact successorState_merged_flag gen fuel S hd i succ h hm
  · refine ⟨[(succ.newState, (cb succ.newState r).1)], by simp [newStateId, hm, recording],
      Or.inr ⟨succ.newState, ?_, successorState_monotone gen failedBEs hmono fuel S hd i succ h⟩⟩
    simp [newStateId, hm, recording]

/-- What the accumulated choice and behaviour hold: every successor id is the merged failed
id or is recorded with a state of at least `bound` failed basic elements. -/
theorem expandStep_recording (gen : DftNextStateGenerator σ) (failedBEs : σ → Nat)
    (hmono : gen.mDft.FailureMonotone failedBEs) (fuel : Nat) (cb : σ → ρ → Nat × ρ)
    (S : σ) (hd : Bool) (i : Nat) (c c1 : Choice) (b b1 : StateBehavior) (r r1 : ρ)
    (log log1 : List (σ × Nat))
    (h : expandStep gen fuel (recording cb) S hd i (c, b, (r, log)) = .ok (c1, b1, (r1, log1)))
    (hc : ∀ t ∈ c.distribution, IdentifiesFailed gen failedBEs (failedBEs S) log t.1)
    (hb : ∀ ch ∈ b.choices, ∀ t ∈ ch.distribution,
      IdentifiesFailed gen failedBEs (failedBEs S) log t.1) :
    (∀ t ∈ c1.distribution, IdentifiesFailed gen failedBEs (failedBEs S) log1 t.1) ∧
    (∀ ch ∈ b1.choices, ∀ t ∈ ch.distribution,
      IdentifiesFailed gen failedBEs (failedBEs S) log1 t.1) := by
  cases hs : successorState gen fuel S hd i with
  | error e => simp [expandStep, hs] at h
  | ok o =>
    cases o with
    | none =>
      simp only [expandStep, hs, Except.ok.injEq, Prod.mk.injEq] at h
      obtain ⟨rfl, rfl, _, rfl⟩ := h
      exact ⟨hc, hb⟩
    | some succ =>
      obtain ⟨L, hL, hid⟩ := newStateId_recording gen failedBEs hmono fuel S hd i succ hs
        cb r log
      have hc' : ∀ t ∈ c.distribution,
          IdentifiesFailed gen failedBEs (failedBEs S) (log ++ L) t.1 :=
        fun t ht => identifiesFailed_append _ _ _ _ _ _ (hc t ht)
      have hb' : ∀ ch ∈ b.choices, ∀ t ∈ ch.distribution,
          IdentifiesFailed gen failedBEs (failedBEs S) (log ++ L) t.1 :=
        fun ch hch t ht => identifiesFailed_append _ _ _ _ _ _ (hb ch hch t ht)
      have hadd : ∀ (w : ℚ), ∀ t ∈ (c.addProbability
          (newStateId gen (recording cb) succ (r, log)).1 w).distribution,
          IdentifiesFailed gen failedBEs (failedBEs S) (log ++ L) t.1 := by
        intro w t ht
        rcases mem_addToDistribution _ _ _ t ht with h1 | ⟨u, hu, hu1⟩
        · rw [h1]
          exact hid
        · rw [← hu1]
          exact hc' u hu
      cases hd with
      | true =>
        by_cases hp : gen.mDft.dependencyProbability (gen.mDft.getDependencyId S i) = 1
        · simp only [expandStep, hs, if_true, hp, ne_eq, not_true_eq_false, if_false,
            Except.ok.injEq, Prod.mk.injEq] at h
          obtain ⟨hc1, hb1, hreg⟩ := h
          have hlog1 : log1 = log ++ L := by
            rw [← hL]
            exact (congrArg Prod.snd hreg).symm
          subst hc1 hb1 hlog1
          refine ⟨fun t ht => by simp [Choice.movedFrom] at ht, ?_⟩
          intro ch hch t ht
          simp only [StateBehavior.addChoice, List.mem_append, List.mem_singleton] at hch
          rcases hch with hch | rfl
          · exact hb' ch hch t ht
          · exact hadd _ t ht
        · simp only [expandStep, hs, if_true, hp, ne_eq, not_false_eq_true,
            Except.ok.injEq, Prod.mk.injEq] at h
          obtain ⟨hc1, hb1, hreg⟩ := h
          have hlog1 : log1 = log ++ L ++ [(gen.mDft.letDependencyBeUnsuccessful S i,
              (cb (gen.mDft.letDependencyBeUnsuccessful S i)
                (newStateId gen (recording cb) succ (r, log)).2.1).1)] := by
            rw [← hL]
            exact (congrArg Prod.snd hreg).symm
          subst hc1 hb1 hlog1
          refine ⟨fun t ht => by simp [Choice.movedFrom] at ht, ?_⟩
          intro ch hch t ht
          simp only [StateBehavior.addChoice, List.mem_append, List.mem_singleton] at hch
          rcases hch with hch | rfl
          · exact identifiesFailed_append _ _ _ _ _ _ (hb' ch hch t ht)
          · rcases mem_addToDistribution _ _ _ t ht with h1 | ⟨u, hu, hu1⟩
            · rw [h1]
              exact Or.inr ⟨gen.mDft.letDependencyBeUnsuccessful S i, by simp [recording],
                hmono.letDependencyBeUnsuccessful S i⟩
            · rw [← hu1]
              exact identifiesFailed_append _ _ _ _ _ _ (hadd _ u hu)
      | false =>
        by_cases hrate : selectedRate gen S succ.nextBE = 0
        · simp only [expandStep, hs, rate_eq_selectedRate, hrate, if_true] at h
          cases h
        · rw [expandStep_modeB gen fuel (recording cb) S i _ succ hs hrate] at h
          simp only [Except.ok.injEq, Prod.mk.injEq] at h
          obtain ⟨hc1, hb1, hreg⟩ := h
          have hlog1 : log1 = log ++ L := by
            rw [← hL]
            exact (congrArg Prod.snd hreg).symm
          subst hc1 hb1 hlog1
          exact ⟨hadd _, hb'⟩

end DftNextStateGenerator

namespace DftNextStateGenerator

variable {σ ρ : Type}

theorem newStateId_recording_erase (gen : DftNextStateGenerator σ) (cb : σ → ρ → Nat × ρ)
    (succ : Successor σ) (r : ρ) (log : List (σ × Nat)) :
    (newStateId gen (recording cb) succ (r, log)).1 = (newStateId gen cb succ r).1 ∧
    (newStateId gen (recording cb) succ (r, log)).2.1 = (newStateId gen cb succ r).2 := by
  unfold newStateId
  split <;> simp [recording]

/-- An iteration with the recording callback yields the choice, the behaviour and the
registry of the iteration with the callback itself. -/
theorem expandStep_recording_erase (gen : DftNextStateGenerator σ) (fuel : Nat)
    (cb : σ → ρ → Nat × ρ) (S : σ) (hd : Bool) (i : Nat) (c : Choice) (b : StateBehavior)
    (r : ρ) (log : List (σ × Nat)) :
    (match expandStep gen fuel (recording cb) S hd i (c, b, (r, log)) with
      | .error e => .error e
      | .ok x => .ok (x.1, x.2.1, x.2.2.1))
      = expandStep gen fuel cb S hd i (c, b, r) := by
  cases hs : successorState gen fuel S hd i with
  | error e => simp [expandStep, hs]
  | ok o =>
    cases o with
    | none => simp [expandStep, hs]
    | some succ =>
      obtain ⟨h1, h2⟩ := newStateId_recording_erase gen cb succ r log
      cases hd with
      | true =>
        by_cases hp : gen.mDft.dependencyProbability (gen.mDft.getDependencyId S i) = 1
        · simp only [expandStep, hs, if_true, hp, ne_eq, not_true_eq_false, if_false, h1, h2]
        · simp only [expandStep, hs, if_true, hp, ne_eq, not_false_eq_true, h1]
          simp only [recording, h2]
      | false =>
        by_cases hrate : selectedRate gen S succ.nextBE = 0
        · simp only [expandStep, hs, rate_eq_selectedRate, hrate, if_true]
          rfl
        · rw [expandStep_modeB gen fuel (recording cb) S i _ succ hs hrate,
            expandStep_modeB gen fuel cb S i _ succ hs hrate]
          simp only [h1, h2]

theorem expandLoop_recording_erase (gen : DftNextStateGenerator σ) (fuel : Nat)
    (cb : σ → ρ → Nat × ρ) (S : σ) (hd : Bool) :
    ∀ (n k : Nat) (c : Choice) (b : StateBehavior) (r : ρ) (log : List (σ × Nat)),
      (match expandLoop gen fuel (recording cb) S hd n k (c, b, (r, log)) with
        | .error e => .error e
        | .ok x => .ok (x.1, x.2.1, x.2.2.1))
        = expandLoop gen fuel cb S hd n k (c, b, r) := by
  intro n
  induction n with
  | zero => intro k c b r log; rfl
  | succ n ih =>
    intro k c b r log
    have hstep := expandStep_recording_erase gen fuel cb S hd k c b r log
    simp only [expandLoop]
    cases h1 : expandStep gen fuel (recording cb) S hd k (c, b, (r, log)) with
    | error e =>
      rw [h1] at hstep
      simp only [← hstep]
    | ok x =>
      obtain ⟨c1, b1, r1, log1⟩ := x
      rw [h1] at hstep
      simp only [← hstep]
      exact ih (k + 1) c1 b1 r1 log1

/-- The behaviour and the registry `expand` returns with a recording callback are those it
returns with the callback itself. -/
theorem expand_recording_erase (gen : DftNextStateGenerator σ) (fuel : Nat)
    (cb : σ → ρ → Nat × ρ) (r : ρ) (log : List (σ × Nat)) :
    (match expand gen fuel (recording cb) (r, log) with
      | .error e => .error e
      | .ok x => .ok (x.1, x.2.1))
      = expand gen fuel cb r := by
  unfold expand
  cases gen.state with
  | none => rfl
  | some S =>
    simp only []
    by_cases habs : (gen.mDft.hasFailed S || gen.mDft.isFailsafe S
        || gen.mDft.nrFailableBEs S == 0) = true
    · simp only [habs, if_true]
    · simp only [habs, Bool.false_eq_true, if_false]
      have hloop := expandLoop_recording_erase gen fuel cb S
        (decide (gen.mDft.nrFailableDependencies S > 0))
        (if decide (gen.mDft.nrFailableDependencies S > 0) = true then
          gen.mDft.nrFailableDependencies S else gen.mDft.nrFailableBEs S)
        0 (Choice.new 0 (!decide (gen.mDft.nrFailableDependencies S > 0)))
        StateBehavior.new r log
      cases h1 : expandLoop gen fuel (recording cb) S
          (decide (gen.mDft.nrFailableDependencies S > 0))
          (if decide (gen.mDft.nrFailableDependencies S > 0) = true then
            gen.mDft.nrFailableDependencies S else gen.mDft.nrFailableBEs S)
          0 (Choice.new 0 (!decide (gen.mDft.nrFailableDependencies S > 0)),
            StateBehavior.new, (r, log)) with
      | error e =>
        rw [h1] at hloop
        simp only [← hloop]
      | ok x =>
        obtain ⟨c1, b1, r1, log1⟩ := x
        rw [h1] at hloop
        simp only [← hloop]
        cases decide (gen.mDft.nrFailableDependencies S > 0) <;> rfl

theorem expandLoop_recording (gen : DftNextStateGenerator σ) (failedBEs : σ → Nat)
    (hmono : gen.mDft.FailureMonotone failedBEs) (fuel : Nat) (cb : σ → ρ → Nat × ρ)
    (S : σ) (hd : Bool) :
    ∀ (n k : Nat) (c c1 : Choice) (b b1 : StateBehavior) (r r1 : ρ)
      (log log1 : List (σ × Nat)),
      expandLoop gen fuel (recording cb) S hd n k (c, b, (r, log))
        = .ok (c1, b1, (r1, log1)) →
      (∀ t ∈ c.distribution, IdentifiesFailed gen failedBEs (failedBEs S) log t.1) →
      (∀ ch ∈ b.choices, ∀ t ∈ ch.distribution,
        IdentifiesFailed gen failedBEs (failedBEs S) log t.1) →
      (∀ t ∈ c1.distribution, IdentifiesFailed gen failedBEs (failedBEs S) log1 t.1) ∧
      (∀ ch ∈ b1.choices, ∀ t ∈ ch.distribution,
        IdentifiesFailed gen failedBEs (failedBEs S) log1 t.1) := by
  intro n
  induction n with
  | zero =>
    intro k c c1 b b1 r r1 log log1 h hc hb
    simp only [expandLoop, Except.ok.injEq, Prod.mk.injEq] at h
    obtain ⟨rfl, rfl, _, rfl⟩ := h
    exact ⟨hc, hb⟩
  | succ n ih =>
    intro k c c1 b b1 r r1 log log1 h hc hb
    simp only [expandLoop] at h
    cases hstep : expandStep gen fuel (recording cb) S hd k (c, b, (r, log)) with
    | error e =>
      rw [hstep] at h
      cases h
    | ok x =>
      obtain ⟨c2, b2, r2, log2⟩ := x
      rw [hstep] at h
      obtain ⟨hc2, hb2⟩ := expandStep_recording gen failedBEs hmono fuel cb S hd k c c2 b b2
        r r2 log log2 hstep hc hb
      exact ih (k + 1) c2 c1 b2 b1 r2 r1 log2 log1 h hc2 hb2

end DftNextStateGenerator

namespace DftNextStateGenerator

variable {σ ρ : Type}

theorem exMerging_expand_ready :
    expand (load exMergedGenerator exReady) 10
        (recording exRegister) ([exDft.makeState 0], [(exDft.makeState 0, 0)])
      = .ok ((StateBehavior.new.addChoice
            (((Choice.new 0 false).addProbability 0 (7 / 10)).addProbability 1
              (1 - 7 / 10))).setExpanded,
          ([exDft.makeState 0, exDft.letDependencyBeUnsuccessful exReady 0],
            [(exDft.makeState 0, 0), (exDft.letDependencyBeUnsuccessful exReady 0, 1)])) := by
  have hs : successorState exMergedGenerator 10 exReady
      true 0 = .ok (some (Successor.mk (exBE 1) (ExState.mk 2 [2, 1, 0, 5] [] false) true)) :=
    rfl
  have hp : exMergedGenerator.mDft.dependencyProbability
      (exMergedGenerator.mDft.getDependencyId exReady 0) ≠ 1 := by
    show (7 / 10 : ℚ) ≠ 1
    norm_num
  have hstep := expandStep_modeD_explicit exMergedGenerator
    10 (recording exRegister) exReady 0 StateBehavior.new
    ([exDft.makeState 0], [(exDft.makeState 0, 0)]) _ hs 0
    ([exDft.makeState 0], [(exDft.makeState 0, 0)]) rfl
  rw [if_neg hp, if_neg hp] at hstep
  rw [expand_load_loop _ 10 _ exReady _ (by decide) (by decide) (by decide)]
  have hd : decide (exMergedGenerator.mDft.nrFailableDependencies exReady > 0) = true := by
    decide
  simp only [hd, if_true]
  rw [show List.range (exMergedGenerator.mDft.nrFailableDependencies exReady) = [0] from rfl]
  simp only [expandOver, Bool.not_true, hstep]
  rfl

/-- C27 fails as stated: with state merging, the dependency of the state in which the basic
elements 0 and 5 have failed leads with probability 7/10 to a successor in which the top
level has failed; the transition goes to the id of the merged failed state, and the state
registered under that id (the fresh state of `createMergeFailedState`) has no failed basic
element, while the loaded state has two. -/
theorem merged_successor_counterexample :
    createMergeFailedState exMergingGenerator (recording exRegister) ([], [])
      = .ok ((StateBehavior.new.addChoice ((Choice.new 0 true).addProbability 0 1)).setExpanded,
          exMergedGenerator,
          ([exDft.makeState 0], [(exDft.makeState 0, 0)])) ∧
    expand (load exMergedGenerator exReady) 10
        (recording exRegister) ([exDft.makeState 0], [(exDft.makeState 0, 0)])
      = .ok ((StateBehavior.new.addChoice
            (((Choice.new 0 false).addProbability 0 (7 / 10)).addProbability 1
              (1 - 7 / 10))).setExpanded,
          ([exDft.makeState 0, exDft.letDependencyBeUnsuccessful exReady 0],
            [(exDft.makeState 0, 0), (exDft.letDependencyBeUnsuccessful exReady 0, 1)])) ∧
    exFailedBEs (exDft.makeState 0) = 0 ∧ exFailedBEs exReady = 2 ∧
    ¬ (∀ s, (s, 0) ∈ [(exDft.makeState 0, 0), (exDft.letDependencyBeUnsuccessful exReady 0, 1)] →
        exFailedBEs exReady ≤ exFailedBEs s) := by
  refine ⟨rfl, exMerging_expand_ready, rfl, rfl, ?_⟩
  intro h
  have := h (exDft.makeState 0) (by simp)
  revert this
  decide

end DftNextStateGenerator

namespace DftNextStateGenerator

variable {σ ρ : Type}

/-- C27 (amended): when no collaborator lowers the number of failed basic elements of a
state, for every loaded state `S`, every callback (recorded with the states it is called
with) and every transition emitted by `expand` on `S`, the successor id is the id of `S`
itself (the self-loop of an absorbing state), or it was answered by the callback for a state
with at least as many failed basic elements as `S`, or state merging is enabled and it is
the id of the merged failed state. The recording changes neither the behaviour nor the
registry. -/
theorem successors_keep_failures (gen : DftNextStateGenerator σ) (failedBEs : σ → Nat)
    (fuel : Nat) (cb : σ → ρ → Nat × ρ) (S : σ) (r : ρ)
    (hmono : gen.mDft.FailureMonotone failedBEs) (hload : gen.state = some S) :
    ∀ (behavior : StateBehavior) (r1 : ρ) (log : List (σ × Nat)),
      expand gen fuel (recording cb) (r, []) = .ok (behavior, (r1, log)) →
      expand gen fuel cb r = .ok (behavior, r1) ∧
      ∀ choice ∈ behavior.choices, ∀ t ∈ choice.distribution,
        t.1 = gen.mDft.getId S ∨
        (gen.mergeFailedStates = true ∧ t.1 = gen.mergeFailedStateId) ∨
        ∃ s, (s, t.1) ∈ log ∧ failedBEs S ≤ failedBEs s := by
  intro behavior r1 log h
  refine ⟨?_, ?_⟩
  · have he := expand_recording_erase gen fuel cb r []
    rw [h] at he
    exact he.symm
  · unfold expand at h
    rw [hload] at h
    simp only [] at h
    by_cases habs : (gen.mDft.hasFailed S || gen.mDft.isFailsafe S
        || gen.mDft.nrFailableBEs S == 0) = true
    · simp only [habs, if_true, Except.ok.injEq, Prod.mk.injEq] at h
      obtain ⟨hb, _⟩ := h
      subst hb
      intro choice hch t ht
      simp only [StateBehavior.setExpanded, StateBehavior.addChoice, StateBehavior.new,
        List.nil_append, List.mem_singleton] at hch
      subst hch
      simp only [Choice.addProbability, Choice.new, addToDistribution,
        List.mem_singleton] at ht
      left
      rw [ht]
    · simp only [habs, Bool.false_eq_true, if_false] at h
      cases hloop : expandLoop gen fuel (recording cb) S
          (decide (gen.mDft.nrFailableDependencies S > 0))
          (if decide (gen.mDft.nrFailableDependencies S > 0) = true then
            gen.mDft.nrFailableDependencies S else gen.mDft.nrFailableBEs S)
          0 (Choice.new 0 (!decide (gen.mDft.nrFailableDependencies S > 0)),
            StateBehavior.new, ((r, []) : ρ × List (σ × Nat))) with
      | error e =>
        simp only [hloop] at h
        cases h
      | ok x =>
        obtain ⟨c1, b1, r2, log2⟩ := x
        simp only [hloop] at h
        obtain ⟨hc1, hb1⟩ := expandLoop_recording gen failedBEs hmono fuel cb S _ _ _ _ c1 _
          b1 r r2 [] log2 hloop (fun t ht => by simp [Choice.new] at ht)
          (fun ch hch => by simp [StateBehavior.new] at hch)
        intro choice hch t ht
        right
        cases hdd : decide (gen.mDft.nrFailableDependencies S > 0) with
        | false =>
          simp only [hdd, Bool.not_false, if_true, Except.ok.injEq, Prod.mk.injEq] at h
          obtain ⟨hb, _, hl⟩ := h
          subst hb hl
          simp only [StateBehavior.setExpanded, StateBehavior.addChoice, List.mem_append,
            List.mem_singleton] at hch
          rcases hch with hch | rfl
          · exact hb1 choice hch t ht
          · exact hc1 t ht
        | true =>
          simp only [hdd, Bool.not_true, Bool.false_eq_true, if_false, Except.ok.injEq,
            Prod.mk.injEq] at h
          obtain ⟨hb, _, hl⟩ := h
          subst hb hl
          exact hb1 choice hch t ht

end DftNextStateGenerator

namespace DftNextStateGenerator

theorem exFailedBEs_mono (s s1 : ExState) (h : ∀ b, b ∈ s.failed → b ∈ s1.failed) :
    exFailedBEs s ≤ exFailedBEs s1 := by
  unfold exFailedBEs
  apply List.Sublist.length_le
  apply List.monotone_filter_right
  intro b hb
  simp only [decide_eq_true_eq] at hb ⊢
  exact h b hb

theorem exDft_failureMonotone : exDft.FailureMonotone exFailedBEs where
  letNextBEFail := by
    intro s i
    apply exFailedBEs_mono
    intro b hb
    simp only [exDft]
    split
    · split
      · exact hb
      · exact List.mem_cons_of_mem _ hb
    · exact List.mem_cons_of_mem _ hb
  letDependencyBeUnsuccessful := fun s i => exFailedBEs_mono _ _ (fun b hb => hb)
  updateFailableDependencies := by
    intro s e
    apply exFailedBEs_mono
    intro b hb
    simp only [exDft]
    split
    · exact hb
    · exact hb
  updateDontCareDependencies := fun s e => le_refl _
  checkFails := by
    intro e s q
    apply exFailedBEs_mono
    intro b hb
    simp only [exDft]
    split
    · split
      · exact List.mem_cons_of_mem _ hb
      · exact hb
    · split
      · split
        · exact hb
        · exact hb
      · exact hb
  checkFailsafe := fun e s q => le_refl _
  checkDontCareAnymore := fun e s q => le_refl _

theorem successors_keep_failures_witness :
    expand (exGenerator.load exInitial) 10 exRegister []
      = .ok ((StateBehavior.new.addChoice
            (((Choice.new 0 true).addProbability 0 3).addProbability 1 4)).setExpanded,
          [ExState.mk 0 [0] [4] false, ExState.mk 0 [5] [] false]) ∧
    ∀ choice ∈ [((Choice.new 0 true).addProbability 0 3).addProbability 1 4],
      ∀ t ∈ choice.distribution,
        t.1 = exDft.getId exInitial ∨
        (exGenerator.mergeFailedStates = true ∧ t.1 = exGenerator.mergeFailedStateId) ∨
        ∃ s, (s, t.1) ∈ [(ExState.mk 0 [0] [4] false, 0), (ExState.mk 0 [5] [] false, 1)] ∧
          exFailedBEs exInitial ≤ exFailedBEs s :=
  successors_keep_failures (exGenerator.load exInitial) exFailedBEs 10 exRegister exInitial []
    exDft_failureMonotone rfl
    ((StateBehavior.new.addChoice
      (((Choice.new 0 true).addProbability 0 3).addProbability 1 4)).setExpanded)
    [ExState.mk 0 [0] [4] false, ExState.mk 0 [5] [] false]
    [(ExState.mk 0 [0] [4] false, 0), (ExState.mk 0 [5] [] false, 1)] rfl

end DftNextStateGenerator

namespace DftNextStateGenerator

variable {σ ρ : Type}

theorem registryExtends_refl (Known : ρ → σ → Nat → Prop) (r : ρ) :
    RegistryExtends Known r r := fun _ _ h => h

theorem registryExtends_trans (Known : ρ → σ → Nat → Prop) (r r1 r2 : ρ)
    (h1 : RegistryExtends Known r r1) (h2 : RegistryExtends Known r1 r2) :
    RegistryExtends Known r r2 := fun s i h => h2 s i (h1 s i h)

theorem newStateId_extends (gen : DftNextStateGenerator σ) (cb : σ → ρ → Nat × ρ)
    (Known : ρ → σ → Nat → Prop) (laws : RegistryLaws cb Known) (succ : Successor σ) (r : ρ) :
    RegistryExtends Known r (newStateId gen cb succ r).2 := by
  unfold newStateId
  split
  · exact registryExtends_refl Known r
  · exact fun s i h => laws.keeps s i r _ h

/-- The id bound to a successor is the same from every registry that knows what the registry
reached later in the first run knows. -/
theorem newStateId_replay (gen : DftNextStateGenerator σ) (cb : σ → ρ → Nat × ρ)
    (Known : ρ → σ → Nat → Prop) (laws : RegistryLaws cb Known) (succ : Successor σ)
    (r R r1 : ρ) (hR : RegistryExtends Known (newStateId gen cb succ r).2 R)
    (h1 : RegistryExtends Known R r1) :
    (newStateId gen cb succ r1).1 = (newStateId gen cb succ r).1 ∧
    RegistryExtends Known R (newStateId gen cb succ r1).2 := by
  unfold newStateId at hR ⊢
  split
  · exact ⟨rfl, h1⟩
  · rename_i hm
    simp only [hm, Bool.false_eq_true, if_false] at hR
    refine ⟨?_, fun s i h => laws.keeps s i r1 _ (h1 s i h)⟩
    exact laws.answers _ _ _ (h1 _ _ (hR _ _ (laws.registers succ.newState r)))

/-- An iteration only adds to what the registry knows. -/
theorem expandStep_extends (gen : DftNextStateGenerator σ) (fuel : Nat)
    (cb : σ → ρ → Nat × ρ) (Known : ρ → σ → Nat → Prop) (laws : RegistryLaws cb Known)
    (S : σ) (hd : Bool) (i : Nat) (c c1 : Choice) (b b1 : StateBehavior) (r r1 : ρ)
    (h : expandStep gen fuel cb S hd i (c, b, r) = .ok (c1, b1, r1)) :
    RegistryExtends Known r r1 := by
  cases hs : successorState gen fuel S hd i with
  | error e => simp [expandStep, hs] at h
  | ok o =>
    cases o with
    | none =>
      simp only [expandStep, hs, Except.ok.injEq, Prod.mk.injEq] at h
      obtain ⟨_, _, rfl⟩ := h
      exact registryExtends_refl Known r
    | some succ =>
      have hid := newStateId_extends gen cb Known laws succ r
      cases hd with
      | true =>
        by_cases hp : gen.mDft.dependencyProbability (gen.mDft.getDependencyId S i) = 1
        · simp only [expandStep, hs, if_true, hp, ne_eq, not_true_eq_false, if_false,
            Except.ok.injEq, Prod.mk.injEq] at h
          obtain ⟨_, _, rfl⟩ := h
          exact hid
        · simp only [expandStep, hs, if_true, hp, ne_eq, not_false_eq_true,
            Except.ok.injEq, Prod.mk.injEq] at h
          obtain ⟨_, _, rfl⟩ := h
          exact registryExtends_trans Known _ _ _ hid
            (fun s i h => laws.keeps s i _ _ h)
      | false =>
        by_cases hrate : selectedRate gen S succ.nextBE = 0
        · simp only [expandStep, hs, rate_eq_selectedRate, hrate, if_true] at h
          cases h
        · rw [expandStep_modeB gen fuel cb S i _ succ hs hrate] at h
          simp only [Except.ok.injEq, Prod.mk.injEq] at h
          obtain ⟨_, _, rfl⟩ := h
          exact hid

/-- Replay of an iteration: from a registry that knows what the first run knew in the end,
the iteration yields the same choice and the same behaviour. -/
theorem expandStep_replay (gen : DftNextStateGenerator σ) (fuel : Nat)
    (cb : σ → ρ → Nat × ρ) (Known : ρ → σ → Nat → Prop) (laws : RegistryLaws cb Known)
    (S : σ) (hd : Bool) (i : Nat) (c c1 : Choice) (b b1 : StateBehavior) (r r1 R r2 : ρ)
    (h : expandStep gen fuel cb S hd i (c, b, r) = .ok (c1, b1, r1))
    (hR : RegistryExtends Known r1 R) (h2 : RegistryExtends Known R r2) :
    ∃ r3, expandStep gen fuel cb S hd i (c, b, r2) = .ok (c1, b1, r3) ∧
      RegistryExtends Known R r3 := by
  cases hs : successorState gen fuel S hd i with
  | error e => simp [expandStep, hs] at h
  | ok o =>
    cases o with
    | none =>
      simp only [expandStep, hs, Except.ok.injEq, Prod.mk.injEq] at h
      obtain ⟨rfl, rfl, _⟩ := h
      exact ⟨r2, by simp [expandStep, hs], h2⟩
    | some succ =>
      cases hd with
      | true =>
        by_cases hp : gen.mDft.dependencyProbability (gen.mDft.getDependencyId S i) = 1
        · simp only [expandStep, hs, if_true, hp, ne_eq, not_true_eq_false, if_false,
            Except.ok.injEq, Prod.mk.injEq] at h
          obtain ⟨rfl, rfl, rfl⟩ := h
          obtain ⟨hid, hext⟩ := newStateId_replay gen cb Known laws succ r R r2 hR h2
          refine ⟨(newStateId gen cb succ r2).2, ?_, hext⟩
          simp only [expandStep, hs, if_true, hp, ne_eq, not_true_eq_false, if_false, hid]
        · simp only [expandStep, hs, if_true, hp, ne_eq, not_false_eq_true,
            Except.ok.injEq, Prod.mk.injEq] at h
          obtain ⟨rfl, rfl, rfl⟩ := h
          have hmid : RegistryExtends Known (newStateId gen cb succ r).2 R :=
            registryExtends_trans Known _ _ _ (fun s i h => laws.keeps s i _ _ h) hR
          obtain ⟨hid, hext⟩ := newStateId_replay gen cb Known laws succ r R r2 hmid h2
          have hun : (cb (gen.mDft.letDependencyBeUnsuccessful S i)
              (newStateId gen cb succ r2).2).1
              = (cb (gen.mDft.letDependencyBeUnsuccessful S i)
                  (newStateId gen cb succ r).2).1 :=
            laws.answers _ _ _ (hext _ _ (hR _ _ (laws.registers _ _)))
          refine ⟨(cb (gen.mDft.letDependencyBeUnsuccessful S i)
            (newStateId gen cb succ r2).2).2, ?_,
            fun s i h => laws.keeps s i _ _ (hext s i h)⟩
          simp only [expandStep, hs, if_true, hp, ne_eq, not_false_eq_true, hid, hun]
      | false =>
        by_cases hrate : selectedRate gen S succ.nextBE = 0
        · simp only [expandStep, hs, rate_eq_selectedRate, hrate, if_true] at h
          cases h
        · rw [expandStep_modeB gen fuel cb S i _ succ hs hrate] at h
          simp only [Except.ok.injEq, Prod.mk.injEq] at h
          obtain ⟨rfl, rfl, rfl⟩ := h
          obtain ⟨hid, hext⟩ := newStateId_replay gen cb Known laws succ r R r2 hR h2
          refine ⟨(newStateId gen cb succ r2).2, ?_, hext⟩
          rw [expandStep_modeB gen fuel cb S i _ succ hs hrate]
          simp only [hid]

end DftNextStateGenerator

namespace DftNextStateGenerator

variable {σ ρ : Type}

theorem expandLoop_extends (gen : DftNextStateGenerator σ) (fuel : Nat)
    (cb : σ → ρ → Nat × ρ) (Known : ρ → σ → Nat → Prop) (laws : RegistryLaws cb Known)
    (S : σ) (hd : Bool) :
    ∀ (n k : Nat) (c c1 : Choice) (b b1 : StateBehavior) (r r1 : ρ),
      expandLoop gen fuel cb S hd n k (c, b, r) = .ok (c1, b1, r1) →
      RegistryExtends Known r r1 := by
  intro n
  induction n with
  | zero =>
    intro k c c1 b b1 r r1 h
    simp only [expandLoop, Except.ok.injEq, Prod.mk.injEq] at h
    obtain ⟨_, _, rfl⟩ := h
    exact registryExtends_refl Known r
  | succ n ih =>
    intro k c c1 b b1 r r1 h
    cases hstep : expandStep gen fuel cb S hd k (c, b, r) with
    | error e => simp [expandLoop, hstep] at h
    | ok acc =>
      obtain ⟨c2, b2, r2⟩ := acc
      simp only [expandLoop, hstep] at h
      exact registryExtends_trans Known _ _ _
        (expandStep_extends gen fuel cb Known laws S hd k c c2 b b2 r r2 hstep)
        (ih (k + 1) c2 c1 b2 b1 r2 r1 h)

theorem expandLoop_replay (gen : DftNextStateGenerator σ) (fuel : Nat)
    (cb : σ → ρ → Nat × ρ) (Known : ρ → σ → Nat → Prop) (laws : RegistryLaws cb Known)
    (S : σ) (hd : Bool) :
    ∀ (n k : Nat) (c c1 : Choice) (b b1 : StateBehavior) (r r1 R r2 : ρ),
      expandLoop gen fuel cb S hd n k (c, b, r) = .ok (c1, b1, r1) →
      RegistryExtends Known r1 R → RegistryExtends Known R r2 →
      ∃ r3, expandLoop gen fuel cb S hd n k (c, b, r2) = .ok (c1, b1, r3) ∧
        RegistryExtends Known R r3 := by
  intro n
  induction n with
  | zero =>
    intro k c c1 b b1 r r1 R r2 h _ h2
    simp only [expandLoop, Except.ok.injEq, Prod.mk.injEq] at h
    obtain ⟨rfl, rfl, _⟩ := h
    exact ⟨r2, rfl, h2⟩
  | succ n ih =>
    intro k c c1 b b1 r r1 R r2 h hR h2
    cases hstep : expandStep gen fuel cb S hd k (c, b, r) with
    | error e => simp [expandLoop, hstep] at h
    | ok acc =>
      obtain ⟨c2, b2, r2a⟩ := acc
      simp only [expandLoop, hstep] at h
      have hmid : RegistryExtends Known r2a R :=
        registryExtends_trans Known _ _ _
          (expandLoop_extends gen fuel cb Known laws S hd n (k + 1) c2 c1 b2 b1 r2a r1 h) hR
      obtain ⟨r3, hstep2, hext⟩ :=
        expandStep_replay gen fuel cb Known laws S hd k c c2 b b2 r r2a R r2 hstep hmid h2
      obtain ⟨r4, hloop2, hext2⟩ := ih (k + 1) c2 c1 b2 b1 r2a r1 R r3 h hR hext
      exact ⟨r4, by simp only [expandLoop, hstep2, hloop2], hext2⟩

/-- A run of `expand` only adds to what the registry knows. -/
theorem expand_extends (gen : DftNextStateGenerator σ) (fuel : Nat)
    (cb : σ → ρ → Nat × ρ) (Known : ρ → σ → Nat → Prop) (laws : RegistryLaws cb Known)
    (r r1 : ρ) (behavior : StateBehavior)
    (h : expand gen fuel cb r = .ok (behavior, r1)) : RegistryExtends Known r r1 := by
  unfold expand at h
  cases hst : gen.state with
  | none => simp [hst] at h
  | some S =>
    simp only [hst] at h
    by_cases habs : (gen.mDft.hasFailed S || gen.mDft.isFailsafe S
        || gen.mDft.nrFailableBEs S == 0) = true
    · simp only [habs, if_true, Except.ok.injEq, Prod.mk.injEq] at h
      obtain ⟨_, rfl⟩ := h
      exact registryExtends_refl Known r
    · simp only [habs, Bool.false_eq_true, if_false] at h
      cases h1 : expandLoop gen fuel cb S
          (decide (gen.mDft.nrFailableDependencies S > 0))
          (if decide (gen.mDft.nrFailableDependencies S > 0) = true then
            gen.mDft.nrFailableDependencies S else gen.mDft.nrFailableBEs S)
          0 (Choice.new 0 (!decide (gen.mDft.nrFailableDependencies S > 0)),
            StateBehavior.new, r) with
      | error e =>
        rw [h1] at h
        cases h
      | ok x =>
        obtain ⟨c1, b1, r1a⟩ := x
        rw [h1] at h
        have hext := expandLoop_extends gen fuel cb Known laws S _ _ _ _ _ _ _ _ _ h1
        have hr : r1a = r1 := by
          revert h
          cases decide (gen.mDft.nrFailableDependencies S > 0) <;>
            simp only [Bool.not_true, Bool.not_false, Bool.false_eq_true, if_false, if_true,
              Except.ok.injEq, Prod.mk.injEq] <;>
            exact fun h => h.2
        exact hr ▸ hext

/-- C28: `expand` is a function of the loaded state and the fault tree, under replay. For a
register callback that keeps its ids (`RegistryLaws`), when `expand` on a generator (its fault
tree, loaded state and settings) returns a behaviour and leaves the registry `registry1`,
every further invocation on the same generator with the same callback, from `registry1` or
from any registry that knows at least what `registry1` knows, returns the same behaviour: the
same choices with the same successor ids, weights and order, and the same expanded flag. -/
theorem expand_replay (gen : DftNextStateGenerator σ) (fuel : Nat)
    (stateToIdCallback : σ → ρ → Nat × ρ) (Known : ρ → σ → Nat → Prop)
    (laws : RegistryLaws stateToIdCallback Known)
    (registry registry1 : ρ) (behavior : StateBehavior)
    (h : expand gen fuel stateToIdCallback registry = .ok (behavior, registry1)) :
    (∃ registry2, expand gen fuel stateToIdCallback registry1 = .ok (behavior, registry2)) ∧
    ∀ later, RegistryExtends Known registry1 later →
      ∃ registry2, expand gen fuel stateToIdCallback later = .ok (behavior, registry2) ∧
        RegistryExtends Known registry1 registry2 := by
  have key : ∀ later, RegistryExtends Known registry1 later →
      ∃ registry2, expand gen fuel stateToIdCallback later = .ok (behavior, registry2) ∧
        RegistryExtends Known registry1 registry2 := by
    intro later hlater
    unfold expand at h ⊢
    cases hst : gen.state with
    | none => simp [hst] at h
    | some S =>
      simp only [hst] at h ⊢
      by_cases habs : (gen.mDft.hasFailed S || gen.mDft.isFailsafe S
          || gen.mDft.nrFailableBEs S == 0) = true
      · simp only [habs, if_true, Except.ok.injEq, Prod.mk.injEq] at h ⊢
        exact ⟨later, ⟨h.1, rfl⟩, hlater⟩
      · simp only [habs, Bool.false_eq_true, if_false] at h ⊢
        cases h1 : expandLoop gen fuel stateToIdCallback S
            (decide (gen.mDft.nrFailableDependencies S > 0))
            (if decide (gen.mDft.nrFailableDependencies S > 0) = true then
              gen.mDft.nrFailableDependencies S else gen.mDft.nrFailableBEs S)
            0 (Choice.new 0 (!decide (gen.mDft.nrFailableDependencies S > 0)),
              StateBehavior.new, registry) with
        | error e =>
          rw [h1] at h
          cases h
        | ok x =>
          obtain ⟨c1, b1, r1a⟩ := x
          rw [h1] at h
          have hr : r1a = registry1 := by
            revert h
            cases decide (gen.mDft.nrFailableDependencies S > 0) <;>
              simp only [Bool.not_true, Bool.not_false, Bool.false_eq_true, if_false,
                if_true, Except.ok.injEq, Prod.mk.injEq] <;>
              exact fun h => h.2
          subst hr
          obtain ⟨r3, hloop2, hext⟩ := expandLoop_replay gen fuel stateToIdCallback Known
            laws S _ _ _ _ _ _ _ _ _ r1a later h1 (registryExtends_refl Known r1a) hlater
          rw [hloop2]
          refine ⟨r3, ?_, hext⟩
          revert h
          cases decide (gen.mDft.nrFailableDependencies S > 0) <;>
            simp only [Bool.not_true, Bool.not_false, Bool.false_eq_true, if_false,
              if_true, Except.ok.injEq, Prod.mk.injEq, and_true] <;>
            exact fun h => h
  refine ⟨?_, key⟩
  obtain ⟨r2, h2, _⟩ := key registry1 (registryExtends_refl Known registry1)
  exact ⟨r2, h2⟩

end DftNextStateGenerator

namespace DftNextStateGenerator

/-- The list registry keeps its ids: positions of registered states never change. -/
theorem exRegister_laws : RegistryLaws exRegister exKnown where
  registers := by
    intro s r
    by_cases hs : s ∈ r
    · simp only [exRegister, hs, if_true]
      exact ⟨hs, rfl⟩
    · simp only [exRegister, hs, if_false]
      exact ⟨List.mem_append_right r (List.mem_singleton_self s), by
        rw [List.indexOf_append_of_not_mem hs]
        simp⟩
  keeps := by
    intro s i r s1 h
    obtain ⟨hmem, hidx⟩ := h
    by_cases hs : s1 ∈ r
    · simp only [exRegister, hs, if_true]
      exact ⟨hmem, hidx⟩
    · simp only [exRegister, hs, if_false]
      exact ⟨List.mem_append_left _ hmem, by rw [List.indexOf_append_of_mem hmem]; exact hidx⟩
  answers := by
    intro s i r h
    obtain ⟨hmem, hidx⟩ := h
    simp only [exRegister, hmem, if_true]
    exact hidx

theorem expand_replay_witness :
    expand (exGenerator.load exInitial) 10 exRegister []
      = .ok ((StateBehavior.new.addChoice
            (((Choice.new 0 true).addProbability 0 3).addProbability 1 4)).setExpanded,
          [ExState.mk 0 [0] [4] false, ExState.mk 0 [5] [] false]) ∧
    (∃ registry2, expand (exGenerator.load exInitial) 10 exRegister
        [ExState.mk 0 [0] [4] false, ExState.mk 0 [5] [] false]
      = .ok ((StateBehavior.new.addChoice
            (((Choice.new 0 true).addProbability 0 3).addProbability 1 4)).setExpanded,
          registry2)) ∧
    ∀ later, RegistryExtends exKnown
        [ExState.mk 0 [0] [4] false, ExState.mk 0 [5] [] false] later →
      ∃ registry2, expand (exGenerator.load exInitial) 10 exRegister later
        = .ok ((StateBehavior.new.addChoice
            (((Choice.new 0 true).addProbability 0 3).addProbability 1 4)).setExpanded,
          registry2) ∧
        RegistryExtends exKnown
          [ExState.mk 0 [0] [4] false, ExState.mk 0 [5] [] false] registry2 :=
  ⟨rfl, expand_replay (exGenerator.load exInitial) 10 exRegister exKnown exRegister_laws []
    [ExState.mk 0 [0] [4] false, ExState.mk 0 [5] [] false]
    ((StateBehavior.new.addChoice
      (((Choice.new 0 true).addProbability 0 3).addProbability 1 4)).setExpanded) rfl⟩

end DftNextStateGenerator

namespace Vector

end Vector

namespace Vector

end Vector

namespace Vector

theorem reduceGroupLoop_eq {T : Type} (source : List T) (filter : T → T → Bool)
    (sourceIte : Nat) (hend : sourceIte ≤ source.length) :
    ∀ (fuel i lc : Nat) (t : T) (c : Nat), i ≤ sourceIte → sourceIte - i ≤ fuel →
      reduceGroupLoop source filter sourceIte fuel i lc t c
        = some (sourceIte, selectFrom filter ((source.drop i).take (sourceIte - i)) lc t c) := by
  intro fuel
  induction fuel with
  | zero =>
    intro i lc t c hi hfuel
    have hie : i = sourceIte := by omega
    subst hie
    simp [reduceGroupLoop, selectFrom]
  | succ fuel ih =>
    intro i lc t c hi hfuel
    by_cases hie : i = sourceIte
    · subst hie
      simp [reduceGroupLoop, selectFrom]
    · have hlt : i < source.length := by omega
      have hdrop : (source.drop i).take (sourceIte - i)
          = source[i] :: (source.drop (i + 1)).take (sourceIte - (i + 1)) := by
        rw [List.drop_eq_getElem_cons hlt,
          show sourceIte - i = (sourceIte - (i + 1)) + 1 by omega, List.take_succ_cons]
      rw [hdrop]
      simp only [reduceGroupLoop, hie, if_false, List.getElem?_eq_getElem hlt, selectFrom]
      split
      · exact ih (i + 1) (lc + 1) _ lc (by omega) (by omega)
      · exact ih (i + 1) (lc + 1) t c (by omega) (by omega)

/-- The scan keeps the selection: started from a selection of the elements read so far, it
ends with a selection of all of them. -/
theorem selectFrom_selected {T : Type} (filter : T → T → Bool)
    (hirr : ∀ a, filter a a = false)
    (htrans : ∀ a b c, filter a b = true → filter b c = true → filter a c = true)
    (htri : ∀ a b, filter a b = true ∨ a = b ∨ filter b a = true) :
    ∀ (rest pre : List T) (t : T) (c : Nat), IsSelected filter pre t c →
      IsSelected filter (pre ++ rest) (selectFrom filter rest pre.length t c).1
        (selectFrom filter rest pre.length t c).2 := by
  intro rest
  induction rest with
  | nil =>
    intro pre t c h
    simpa [selectFrom] using h
  | cons x xs ih =>
    intro pre t c h
    obtain ⟨hc, hbest, hfirst⟩ := h
    have hclt : c < pre.length := by
      by_contra hge
      rw [List.getElem?_eq_none (by omega)] at hc
      cases hc
    have happ : pre ++ x :: xs = (pre ++ [x]) ++ xs := by simp
    have hlen : (pre ++ [x]).length = pre.length + 1 := by simp
    rw [happ]
    by_cases hf : filter x t = true
    · simp only [selectFrom, hf, if_true]
      rw [← hlen]
      refine ih (pre ++ [x]) x pre.length ⟨?_, ?_, ?_⟩
      · simp
      · intro y hy
        rcases List.mem_append.mp hy with hy | hy
        · cases hyx : filter y x with
          | false => rfl
          | true =>
            have := htrans y x t hyx hf
            rw [hbest y hy] at this
            cases this
        · rw [List.mem_singleton] at hy
          subst hy
          exact hirr y
      · intro j hj y hy
        rw [List.getElem?_append_left hj] at hy
        have hmem : y ∈ pre := List.getElem?_mem hy
        rcases htri t y with h1 | h1 | h1
        · exact htrans x t y hf h1
        · subst h1
          exact hf
        · rw [hbest y hmem] at h1
          cases h1
    · have hf0 : filter x t = false := by
        cases hx : filter x t with
        | false => rfl
        | true => exact absurd hx hf
      simp only [selectFrom, hf0, Bool.false_eq_true, if_false]
      rw [← hlen]
      refine ih (pre ++ [x]) t c ⟨?_, ?_, ?_⟩
      · rw [List.getElem?_append_left hclt]
        exact hc
      · intro y hy
        rcases List.mem_append.mp hy with hy | hy
        · exact hbest y hy
        · rw [List.mem_singleton] at hy
          subst hy
          exact hf0
      · intro j hj y hy
        rw [List.getElem?_append_left (by omega)] at hy
        exact hfirst j hj y hy

/-- The selection of a non-empty group scanned from its first element. -/
theorem selectFrom_group {T : Type} (filter : T → T → Bool)
    (hirr : ∀ a, filter a a = false)
    (htrans : ∀ a b c, filter a b = true → filter b c = true → filter a c = true)
    (htri : ∀ a b, filter a b = true ∨ a = b ∨ filter b a = true)
    (first : T) (rest : List T) :
    IsSelected filter (first :: rest) (selectFrom filter rest 1 first 0).1
      (selectFrom filter rest 1 first 0).2 := by
  have h := selectFrom_selected filter hirr htrans htri rest [first] first 0
    ⟨rfl, fun x hx => by
      rw [List.mem_singleton] at hx
      subst hx
      exact hirr x, fun j hj => absurd hj (Nat.not_lt_zero j)⟩
  simpa using h

end Vector

namespace Vector

theorem rowGroups_mono (sourceLength : Nat) (rowGrouping : List Nat) (n : Nat)
    (hrg : RowGroups sourceLength rowGrouping n) :
    ∀ k g, g + k ≤ n → rowGrouping.getD g 0 ≤ rowGrouping.getD (g + k) 0 := by
  intro k
  induction k with
  | zero => intro g _; exact le_refl _
  | succ k ih =>
    intro g hg
    exact le_trans (ih g (by omega)) (le_of_lt (hrg.2.2.1 (g + k) (by omega)))

theorem rowGroups_bound (sourceLength : Nat) (rowGrouping : List Nat) (n : Nat)
    (hrg : RowGroups sourceLength rowGrouping n) (g : Nat) (hg : g ≤ n) :
    rowGrouping.getD g 0 ≤ sourceLength := by
  have h := rowGroups_mono sourceLength rowGrouping n hrg (n - g) g (by omega)
  rw [show g + (n - g) = n by omega] at h
  exact le_trans h hrg.2.2.2

theorem rowGroup_cons {T : Type} (source : List T) (rowGrouping : List Nat) (n : Nat)
    (hrg : RowGroups source.length rowGrouping n) (g : Nat) (hg : g < n) :
    ∃ first, source[rowGrouping.getD g 0]? = some first ∧
      rowGroup source rowGrouping g = first ::
        (source.drop (rowGrouping.getD g 0 + 1)).take
          (rowGrouping.getD (g + 1) 0 - (rowGrouping.getD g 0 + 1)) := by
  have hlt := hrg.2.2.1 g hg
  have hb := rowGroups_bound source.length rowGrouping n hrg (g + 1) (by omega)
  have ha : rowGrouping.getD g 0 < source.length := by omega
  refine ⟨source[rowGrouping.getD g 0], List.getElem?_eq_getElem ha, ?_⟩
  unfold rowGroup
  rw [List.drop_eq_getElem_cons ha,
    show rowGrouping.getD (g + 1) 0 - rowGrouping.getD g 0
      = (rowGrouping.getD (g + 1) 0 - (rowGrouping.getD g 0 + 1)) + 1 by omega,
    List.take_succ_cons]

theorem reduceVectorLoop_selected {T : Type} (source : List T) (rowGrouping : List Nat)
    (filter : T → T → Bool)
    (hirr : ∀ a, filter a a = false)
    (htrans : ∀ a b c, filter a b = true → filter b c = true → filter a c = true)
    (htri : ∀ a b, filter a b = true ∨ a = b ∨ filter b a = true)
    (n : Nat) (hrg : RowGroups source.length rowGrouping n) :
    ∀ (remaining row : Nat) (target : List T) (choices : Option (List Nat)),
      row + remaining = n → target.length = n →
      (∀ cs, choices = some cs → n ≤ cs.length) →
      ∃ target1 choices1,
        reduceVectorLoop source rowGrouping filter remaining row (rowGrouping.getD row 0)
          target choices = some (target1, choices1) ∧
        target1.length = n ∧
        choices1.map List.length = choices.map List.length ∧
        (∀ g, g < row → target1[g]? = target[g]? ∧
          ∀ cs cs1, choices = some cs → choices1 = some cs1 → cs1[g]? = cs[g]?) ∧
        (∀ g, row ≤ g → g < n → ∃ t c, target1[g]? = some t ∧
          IsSelected filter (rowGroup source rowGrouping g) t c ∧
          ∀ cs1, choices1 = some cs1 → cs1[g]? = some c) := by
  intro remaining
  induction remaining with
  | zero =>
    intro row target choices hrow hlen _
    refine ⟨target, choices, rfl, hlen, rfl, ?_, ?_⟩
    · intro g _
      refine ⟨rfl, fun cs cs1 h h1 => ?_⟩
      rw [h] at h1
      cases h1
      rfl
    · intro g h1 h2
      omega
  | succ remaining ih =>
    intro row target choices hrow hlen hchoices
    have hrowlt : row < n := by omega
    obtain ⟨first, hfirst, hgroup⟩ := rowGroup_cons source rowGrouping n hrg row hrowlt
    have hlt := hrg.2.2.1 row hrowlt
    have hb := rowGroups_bound source.length rowGrouping n hrg (row + 1) (by omega)
    have hnext : rowGrouping[row + 1]? = some (rowGrouping.getD (row + 1) 0) := by
      have h1 : row + 1 < rowGrouping.length := by rw [hrg.1]; omega
      rw [List.getElem?_eq_getElem h1, List.getD_eq_getElem rowGrouping 0 h1]
    have hfit : choiceInRange choices row = true := by
      cases choices with
      | none => rfl
      | some cs =>
        have := hchoices cs rfl
        simp only [choiceInRange, decide_eq_true_eq]
        omega
    have hinner := reduceGroupLoop_eq source filter (rowGrouping.getD (row + 1) 0) hb
      (source.length + 1) (rowGrouping.getD row 0 + 1) 1 first 0 (by omega) (by omega)
    have hsel := selectFrom_group filter hirr htrans htri first
      ((source.drop (rowGrouping.getD row 0 + 1)).take
        (rowGrouping.getD (row + 1) 0 - (rowGrouping.getD row 0 + 1)))
    rw [← hgroup] at hsel
    obtain ⟨target1, choices1, hrun, hlen1, hclen, hbefore, hafter⟩ :=
      ih (row + 1)
        (target.set row (selectFrom filter
          ((source.drop (rowGrouping.getD row 0 + 1)).take
            (rowGrouping.getD (row + 1) 0 - (rowGrouping.getD row 0 + 1))) 1 first 0).1)
        (choices.map (fun cs => cs.set row (selectFrom filter
          ((source.drop (rowGrouping.getD row 0 + 1)).take
            (rowGrouping.getD (row + 1) 0 - (rowGrouping.getD row 0 + 1))) 1 first 0).2))
        (by omega) (by simp [hlen])
        (by
          intro cs hcs
          cases choices with
          | none => cases hcs
          | some cs0 =>
            simp only [Option.map_some', Option.some.injEq] at hcs
            subst hcs
            simpa using hchoices cs0 rfl)
    refine ⟨target1, choices1, ?_, hlen1, ?_, ?_, ?_⟩
    · simp only [reduceVectorLoop, hfirst, hnext, hfit, if_true, hinner]
      exact hrun
    · rw [hclen]
      cases choices <;> simp
    · intro g hg
      obtain ⟨ht, hc⟩ := hbefore g (by omega)
      refine ⟨?_, ?_⟩
      · rw [ht, List.getElem?_set_ne (by omega)]
      · intro cs cs1 hcs hcs1
        subst hcs
        rw [hc _ cs1 rfl hcs1, List.getElem?_set_ne (by omega)]
    · intro g hg1 hg2
      by_cases hgrow : g = row
      · subst hgrow
        obtain ⟨ht, hc⟩ := hbefore g (by omega)
        refine ⟨_, _, ?_, hsel, ?_⟩
        · rw [ht, List.getElem?_set_self (by omega)]
        · intro cs1 hcs1
          cases choices with
          | none =>
            simp only [Option.map_none'] at hclen
            rw [hcs1] at hclen
            cases hclen
          | some cs =>
            rw [hc _ cs1 rfl hcs1, List.getElem?_set_self]
            have := hchoices cs rfl
            omega
      · exact hafter g (by omega) hg2

end Vector

namespace Vector

theorem less_laws {T : Type} [LinearOrder T] :
    (∀ a : T, decide (a < a) = false) ∧
    (∀ a b c : T, decide (a < b) = true → decide (b < c) = true → decide (a < c) = true) ∧
    (∀ a b : T, decide (a < b) = true ∨ a = b ∨ decide (b < a) = true) := by
  refine ⟨fun a => by simp, fun a b c hab hbc => ?_, fun a b => ?_⟩
  · simp only [decide_eq_true_eq] at hab hbc ⊢
    exact lt_trans hab hbc
  · simp only [decide_eq_true_eq]
    exact lt_trichotomy a b

theorem greater_laws {T : Type} [LinearOrder T] :
    (∀ a : T, decide (a > a) = false) ∧
    (∀ a b c : T, decide (a > b) = true → decide (b > c) = true → decide (a > c) = true) ∧
    (∀ a b : T, decide (a > b) = true ∨ a = b ∨ decide (b > a) = true) := by
  refine ⟨fun a => by simp, fun a b c hab hbc => ?_, fun a b => ?_⟩
  · simp only [gt_iff_lt, decide_eq_true_eq] at hab hbc ⊢
    exact lt_trans hbc hab
  · simp only [gt_iff_lt, decide_eq_true_eq]
    rcases lt_trichotomy a b with h | h | h
    · exact Or.inr (Or.inr h)
    · exact Or.inr (Or.inl h)
    · exact Or.inl h

/-- The branch of `reduceVector` compiled without `STORM_HAVE_INTELTBB`: for every source
vector that `rowGrouping` divides into non-empty consecutive row groups starting at offset 0,
one for each entry of `target` (and a vector of choices, when one is supplied, with an entry
for each group), `reduceVectorMin` writes to `target[g]` the smallest element of group `g`
and `reduceVectorMax` the largest, and `choices[g]` becomes the offset inside group `g` of
the first element attaining that value. -/
theorem reduceVector_sequential_min_max {T : Type} [LinearOrder T] (source target : List T)
    (rowGrouping : List Nat) (choices : Option (List Nat))
    (hrg : RowGroups source.length rowGrouping target.length)
    (hchoices : ∀ cs, choices = some cs → target.length ≤ cs.length) :
    (∃ target1 choices1,
      reduceVectorMin source target rowGrouping choices = some (target1, choices1) ∧
      target1.length = target.length ∧
      choices1.map List.length = choices.map List.length ∧
      ∀ g, g < target.length → ∃ t, target1[g]? = some t ∧
        t ∈ rowGroup source rowGrouping g ∧
        (∀ x ∈ rowGroup source rowGrouping g, t ≤ x) ∧
        ∀ cs1, choices1 = some cs1 → ∃ c, cs1[g]? = some c ∧
          (rowGroup source rowGrouping g)[c]? = some t ∧
          ∀ j, j < c → ∀ y, (rowGroup source rowGrouping g)[j]? = some y → y ≠ t) ∧
    (∃ target1 choices1,
      reduceVectorMax source target rowGrouping choices = some (target1, choices1) ∧
      target1.length = target.length ∧
      choices1.map List.length = choices.map List.length ∧
      ∀ g, g < target.length → ∃ t, target1[g]? = some t ∧
        t ∈ rowGroup source rowGrouping g ∧
        (∀ x ∈ rowGroup source rowGrouping g, x ≤ t) ∧
        ∀ cs1, choices1 = some cs1 → ∃ c, cs1[g]? = some c ∧
          (rowGroup source rowGrouping g)[c]? = some t ∧
          ∀ j, j < c → ∀ y, (rowGroup source rowGrouping g)[j]? = some y → y ≠ t) := by
  have h0 : rowGrouping.getD 0 0 = 0 := hrg.2.1
  refine ⟨?_, ?_⟩
  · obtain ⟨target1, choices1, hrun, hlen, hclen, _, hsel⟩ :=
      reduceVectorLoop_selected source rowGrouping (fun v1 v2 => decide (v1 < v2))
        less_laws.1 less_laws.2.1 less_laws.2.2 target.length hrg target.length 0 target
        choices (by omega) rfl hchoices
    rw [h0] at hrun
    refine ⟨target1, choices1, hrun, hlen, hclen, fun g hg => ?_⟩
    obtain ⟨t, c, ht, ⟨hc, hbest, hfirst⟩, hcs⟩ := hsel g (Nat.zero_le g) hg
    refine ⟨t, ht, List.getElem?_mem hc, fun x hx => ?_, fun cs1 h1 => ⟨c, hcs cs1 h1, hc, ?_⟩⟩
    · have := hbest x hx
      simp only [decide_eq_false_iff_not, not_lt] at this
      exact this
    · intro j hj y hy
      have := hfirst j hj y hy
      simp only [decide_eq_true_eq] at this
      exact ne_of_gt this
  · obtain ⟨target1, choices1, hrun, hlen, hclen, _, hsel⟩ :=
      reduceVectorLoop_selected source rowGrouping (fun v1 v2 => decide (v1 > v2))
        greater_laws.1 greater_laws.2.1 greater_laws.2.2 target.length hrg target.length 0
        target choices (by omega) rfl hchoices
    rw [h0] at hrun
    refine ⟨target1, choices1, hrun, hlen, hclen, fun g hg => ?_⟩
    obtain ⟨t, c, ht, ⟨hc, hbest, hfirst⟩, hcs⟩ := hsel g (Nat.zero_le g) hg
    refine ⟨t, ht, List.getElem?_mem hc, fun x hx => ?_, fun cs1 h1 => ⟨c, hcs cs1 h1, hc, ?_⟩⟩
    · have := hbest x hx
      simp only [gt_iff_lt, decide_eq_false_iff_not, not_lt] at this
      exact this
    · intro j hj y hy
      have := hfirst j hj y hy
      simp only [gt_iff_lt, decide_eq_true_eq] at this
      exact ne_of_lt this

theorem reduceVector_sequential_min_max_example :
    reduceVectorMin ([3, 1, 1, 5, 4, 5] : List Nat) [0, 0] [0, 3, 6] (some [9, 9])
      = some ([1, 4], some [1, 1]) ∧
    reduceVectorMax ([3, 1, 1, 5, 4, 5] : List Nat) [0, 0] [0, 3, 6] (some [9, 9])
      = some ([3, 5], some [0, 0]) ∧
    reduceVectorMin ([3, 1, 1, 5, 4, 5] : List Nat) [0, 0] [0, 3, 6] none
      = some ([1, 4], none) ∧
    ((∃ target1 choices1,
      reduceVectorMin ([3, 1, 1, 5, 4, 5] : List Nat) [0, 0] [0, 3, 6] (some [9, 9])
        = some (target1, choices1) ∧
      target1.length = [0, 0].length ∧
      choices1.map List.length = (some [9, 9]).map List.length ∧
      ∀ g, g < [0, 0].length → ∃ t, target1[g]? = some t ∧
        t ∈ rowGroup ([3, 1, 1, 5, 4, 5] : List Nat) [0, 3, 6] g ∧
        (∀ x ∈ rowGroup ([3, 1, 1, 5, 4, 5] : List Nat) [0, 3, 6] g, t ≤ x) ∧
        ∀ cs1, choices1 = some cs1 → ∃ c, cs1[g]? = some c ∧
          (rowGroup ([3, 1, 1, 5, 4, 5] : List Nat) [0, 3, 6] g)[c]? = some t ∧
          ∀ j, j < c → ∀ y,
            (rowGroup ([3, 1, 1, 5, 4, 5] : List Nat) [0, 3, 6] g)[j]? = some y → y ≠ t) ∧
    (∃ target1 choices1,
      reduceVectorMax ([3, 1, 1, 5, 4, 5] : List Nat) [0, 0] [0, 3, 6] (some [9, 9])
        = some (target1, choices1) ∧
      target1.length = [0, 0].length ∧
      choices1.map List.length = (some [9, 9]).map List.length ∧
      ∀ g, g < [0, 0].length → ∃ t, target1[g]? = some t ∧
        t ∈ rowGroup ([3, 1, 1, 5, 4, 5] : List Nat) [0, 3, 6] g ∧
        (∀ x ∈ rowGroup ([3, 1, 1, 5, 4, 5] : List Nat) [0, 3, 6] g, x ≤ t) ∧
        ∀ cs1, choices1 = some cs1 → ∃ c, cs1[g]? = some c ∧
          (rowGroup ([3, 1, 1, 5, 4, 5] : List Nat) [0, 3, 6] g)[c]? = some t ∧
          ∀ j, j < c → ∀ y,
            (rowGroup ([3, 1, 1, 5, 4, 5] : List Nat) [0, 3, 6] g)[j]? = some y → y ≠ t)) :=
  ⟨rfl, rfl, rfl, reduceVector_sequential_min_max ([3, 1, 1, 5, 4, 5] : List Nat) [0, 0] [0, 3, 6]
    (some [9, 9])
    ⟨rfl, rfl, fun g hg => by
      have hg2 : g < 2 := hg
      interval_cases g <;> decide, by decide⟩
    (fun cs h => by cases h; decide)⟩

end Vector

namespace Vector

theorem takeWhile_length_spec (p : Bool → Bool) :
    ∀ l : List Bool,
      (l.takeWhile p).length ≤ l.length ∧
      (∀ i, i < (l.takeWhile p).length → ∃ x, l[i]? = some x ∧ p x = true) ∧
      ((l.takeWhile p).length < l.length →
        ∃ x, l[(l.takeWhile p).length]? = some x ∧ p x = false) := by
  intro l
  induction l with
  | nil => simp
  | cons b bs ih =>
    by_cases hb : p b = true
    · simp only [List.takeWhile_cons, hb, if_true, List.length_cons]
      refine ⟨by omega, ?_, ?_⟩
      · intro i hi
        cases i with
        | zero => exact ⟨b, by simp, hb⟩
        | succ i => simpa using ih.2.1 i (by omega)
      · intro hlt
        simpa using ih.2.2 (by omega)
    · have hb0 : p b = false := by
        cases h : p b with
        | false => rfl
        | true => exact absurd h hb
      simp only [List.takeWhile_cons, hb0, Bool.false_eq_true, if_false, List.length_nil,
        List.length_cons]
      refine ⟨by omega, fun i hi => absurd hi (Nat.not_lt_zero i), fun _ => ⟨b, by simp, hb0⟩⟩

theorem getNextSetIndex_spec (filter : BitVector) (s : Nat) (hs : s ≤ filter.size) :
    s ≤ filter.getNextSetIndex s ∧ filter.getNextSetIndex s ≤ filter.size ∧
    (∀ i, s ≤ i → i < filter.getNextSetIndex s → filter.bits[i]? = some false) ∧
    (filter.getNextSetIndex s < filter.size →
      filter.bits[filter.getNextSetIndex s]? = some true) := by
  unfold BitVector.size at hs ⊢
  by_cases hend : filter.bits.length ≤ s
  · have : filter.getNextSetIndex s = filter.bits.length := by
      simp [BitVector.getNextSetIndex, hend]
    rw [this]
    refine ⟨hs, le_refl _, fun i h1 h2 => by omega, fun h => absurd h (lt_irrefl _)⟩
  · have hj : filter.getNextSetIndex s
        = s + ((filter.bits.drop s).takeWhile (fun b => !b)).length := by
      simp [BitVector.getNextSetIndex, hend]
    obtain ⟨h1, h2, h3⟩ := takeWhile_length_spec (fun b => !b) (filter.bits.drop s)
    rw [List.length_drop] at h1 h3
    rw [hj]
    refine ⟨by omega, by omega, ?_, ?_⟩
    · intro i hi1 hi2
      obtain ⟨x, hx, hp⟩ := h2 (i - s) (by omega)
      rw [List.getElem?_drop, show s + (i - s) = i by omega] at hx
      rw [hx]
      cases x
      · rfl
      · cases hp
    · intro hlt
      obtain ⟨x, hx, hp⟩ := h3 (by omega)
      rw [List.getElem?_drop] at hx
      rw [hx]
      cases x
      · cases hp
      · rfl

theorem getNextUnsetIndex_spec (filter : BitVector) :
    filter.getNextUnsetIndex 0 ≤ filter.size ∧
    (∀ i, i < filter.getNextUnsetIndex 0 → filter.bits[i]? = some true) ∧
    (filter.getNextUnsetIndex 0 < filter.size →
      filter.bits[filter.getNextUnsetIndex 0]? = some false) := by
  unfold BitVector.size
  by_cases hend : filter.bits.length ≤ 0
  · have : filter.getNextUnsetIndex 0 = filter.bits.length := by
      simp [BitVector.getNextUnsetIndex, hend]
    rw [this]
    refine ⟨le_refl _, fun i h => by omega, fun h => absurd h (lt_irrefl _)⟩
  · have hj : filter.getNextUnsetIndex 0
        = ((filter.bits.drop 0).takeWhile (fun b => b)).length := by
      simp [BitVector.getNextUnsetIndex, hend]
    obtain ⟨h1, h2, h3⟩ := takeWhile_length_spec (fun b => b) (filter.bits.drop 0)
    rw [List.drop_zero] at h1 h2 h3 hj
    rw [hj]
    refine ⟨h1, ?_, ?_⟩
    · intro i hi
      obtain ⟨x, hx, hp⟩ := h2 i hi
      rw [hx, hp]
    · intro hlt
      obtain ⟨x, hx, hp⟩ := h3 hlt
      rw [hx, hp]

theorem selected_append {Type1 : Type} (v1 v2 : List Type1) (b1 b2 : List Bool)
    (h : v1.length = b1.length) :
    selected (v1 ++ v2) (b1 ++ b2) = selected v1 b1 ++ selected v2 b2 := by
  unfold selected
  rw [List.zip_append h, List.filter_append, List.map_append]

theorem selected_take_succ {Type1 : Type} (v : List Type1) (bits : List Bool)
    (i : Nat) (x : Type1) (b : Bool) (hx : v[i]? = some x) (hb : bits[i]? = some b) :
    selected (v.take (i + 1)) (bits.take (i + 1))
      = selected (v.take i) (bits.take i) ++ (if b then [x] else []) := by
  have hiv : i < v.length := by
    by_contra h
    rw [List.getElem?_eq_none (by omega)] at hx
    cases hx
  have hib : i < bits.length := by
    by_contra h
    rw [List.getElem?_eq_none (by omega)] at hb
    cases hb
  have hv : v.take (i + 1) = v.take i ++ [x] := by
    rw [List.take_succ, hx]
    rfl
  have hbits : bits.take (i + 1) = bits.take i ++ [b] := by
    rw [List.take_succ, hb]
    rfl
  rw [hv, hbits, selected_append _ _ _ _ (by simp [List.length_take]; omega)]
  cases b <;> simp [selected]

theorem selected_take_skip {Type1 : Type} (v : List Type1) (bits : List Bool)
    (hlen : v.length = bits.length) (a : Nat) :
    ∀ k, a + k ≤ v.length → (∀ i, a ≤ i → i < a + k → bits[i]? = some false) →
      selected (v.take (a + k)) (bits.take (a + k)) = selected (v.take a) (bits.take a) := by
  intro k
  induction k with
  | zero => intro _ _; rfl
  | succ k ih =>
    intro hk hfalse
    have hlt : a + k < v.length := by omega
    rw [show a + (k + 1) = (a + k) + 1 by omega,
      selected_take_succ v bits (a + k) v[a + k] false (List.getElem?_eq_getElem hlt)
        (hfalse (a + k) (by omega) (by omega))]
    simp only [Bool.false_eq_true, if_false, List.append_nil]
    exact ih (by omega) (fun i h1 h2 => hfalse i h1 (by omega))

theorem selected_take_all {Type1 : Type} (v : List Type1) (bits : List Bool)
    (hlen : v.length = bits.length) :
    ∀ k, k ≤ v.length → (∀ i, i < k → bits[i]? = some true) →
      selected (v.take k) (bits.take k) = v.take k := by
  intro k
  induction k with
  | zero => intro _ _; simp [selected]
  | succ k ih =>
    intro hk htrue
    have hlt : k < v.length := by omega
    rw [selected_take_succ v bits k v[k] true (List.getElem?_eq_getElem hlt)
        (htrue k (by omega)), ih (by omega) (fun i h => htrue i (by omega))]
    simp only [if_true]
    rw [List.take_succ, List.getElem?_eq_getElem hlt]
    rfl

theorem selected_length {Type1 : Type} :
    ∀ (v : List Type1) (bits : List Bool), v.length = bits.length →
      (selected v bits).length = bits.count true := by
  intro v
  induction v with
  | nil =>
    intro bits h
    cases bits with
    | nil => rfl
    | cons b bs => cases h
  | cons x xs ih =>
    intro bits h
    cases bits with
    | nil => cases h
    | cons b bs =>
      have h1 : xs.length = bs.length := by simpa using h
      have := ih bs h1
      cases b
      · simpa [selected] using this
      · simpa [selected] using this

theorem filterVectorLoop_eq {Type1 : Type} :
    ∀ (bits : List Bool) (xs pre acc : List Type1), xs.length = bits.length →
      filterVectorLoop (pre ++ xs) (BitVector.setIndicesFrom pre.length bits) acc
        = some (acc ++ selected xs bits) := by
  intro bits
  induction bits with
  | nil =>
    intro xs pre acc h
    cases xs with
    | nil => simp [BitVector.setIndicesFrom, filterVectorLoop, selected]
    | cons x xs => cases h
  | cons b bs ih =>
    intro xs pre acc h
    cases xs with
    | nil => cases h
    | cons x xs =>
      have h1 : xs.length = bs.length := by simpa using h
      have happ : pre ++ x :: xs = (pre ++ [x]) ++ xs := by simp
      have hlen : (pre ++ [x]).length = pre.length + 1 := by simp
      cases b with
      | false =>
        simp only [BitVector.setIndicesFrom]
        rw [happ, ← hlen, ih xs (pre ++ [x]) acc h1]
        simp [selected]
      | true =>
        simp only [BitVector.setIndicesFrom, filterVectorLoop]
        have hget : (pre ++ x :: xs)[pre.length]? = some x := by
          rw [List.getElem?_append_right (le_refl _)]
          simp
        rw [hget]
        simp only []
        rw [happ, ← hlen, ih xs (pre ++ [x]) (acc ++ [x]) h1]
        simp [selected]

end Vector

namespace Vector

theorem take_set_succ {Type1 : Type} (w : List Type1) (vIt : Nat) (x : Type1)
    (h : vIt < w.length) : (w.set vIt x).take (vIt + 1) = w.take vIt ++ [x] := by
  rw [List.take_succ, List.getElem?_set_self h, List.set_take,
    List.set_eq_of_length_le (by simp [List.length_take])]
  rfl

/-- The loop of `filterVectorInPlace` ends, and the part of the vector before `vIt` then
holds the elements at the set positions. -/
theorem filterVectorInPlaceLoop_eq {Type1 : Type} (v : List Type1) (filter : BitVector)
    (hlen : v.length = filter.size) :
    ∀ (fuel index vIt : Nat) (w : List Type1),
      w.length = v.length → vIt ≤ index → index ≤ v.length → v.length - index ≤ fuel →
      w.take vIt = selected (v.take index) (filter.bits.take index) →
      (∀ i, index ≤ i → w[i]? = v[i]?) →
      (index < v.length → filter.bits[index]? = some true) →
      ∃ vIt1 w1, filterVectorInPlaceLoop filter v.length fuel index vIt w = some (vIt1, w1) ∧
        w1.take vIt1 = selected v filter.bits := by
  have hblen : v.length = filter.bits.length := hlen
  have hfull : ∀ (w : List Type1) (vIt : Nat),
      w.take vIt = selected (v.take v.length) (filter.bits.take v.length) →
      w.take vIt = selected v filter.bits := by
    intro w vIt h
    rw [h, List.take_length, hblen, List.take_length]
  intro fuel
  induction fuel with
  | zero =>
    intro index vIt w _ _ hindex hfuel htake _ _
    have hie : index = v.length := by omega
    subst hie
    exact ⟨vIt, w, by simp [filterVectorInPlaceLoop], hfull w vIt htake⟩
  | succ fuel ih =>
    intro index vIt w hw hvIt hindex hfuel htake hrest hset
    by_cases hie : index = v.length
    · subst hie
      exact ⟨vIt, w, by simp [filterVectorInPlaceLoop], hfull w vIt htake⟩
    · have hlt : index < v.length := by omega
      have hread : w[index]? = some v[index] := by
        rw [hrest index (le_refl _), List.getElem?_eq_getElem hlt]
      obtain ⟨h1, h2, h3, h4⟩ := getNextSetIndex_spec filter (index + 1)
        (by rw [← hlen]; omega)
      rw [← hlen] at h2 h4
      have hstep : selected (v.take (filter.getNextSetIndex (index + 1)))
          (filter.bits.take (filter.getNextSetIndex (index + 1)))
          = selected (v.take index) (filter.bits.take index) ++ [v[index]] := by
        have hskip := selected_take_skip v filter.bits hblen (index + 1)
          (filter.getNextSetIndex (index + 1) - (index + 1)) (by omega)
          (fun i hi1 hi2 => h3 i hi1 (by omega))
        rw [show index + 1 + (filter.getNextSetIndex (index + 1) - (index + 1))
          = filter.getNextSetIndex (index + 1) by omega] at hskip
        rw [hskip, selected_take_succ v filter.bits index v[index] true
          (List.getElem?_eq_getElem hlt) (hset hlt)]
        rfl
      obtain ⟨vIt1, w1, hrun, hres⟩ := ih (filter.getNextSetIndex (index + 1)) (vIt + 1)
        (w.set vIt v[index]) (by simp [hw]) (by omega) h2 (by omega)
        (by rw [take_set_succ w vIt v[index] (by omega), htake, hstep])
        (fun i hi => by rw [List.getElem?_set_ne (by omega), hrest i (by omega)])
        h4
      refine ⟨vIt1, w1, ?_, hres⟩
      simp only [filterVectorInPlaceLoop, hie, if_false, hread]
      exact hrun

end Vector

namespace Vector

theorem filterVector_eq_selected {Type1 : Type} (v : List Type1) (filter : BitVector)
    (hlen : v.length = filter.size) : filterVector v filter = some (selected v filter.bits) := by
  have h := filterVectorLoop_eq filter.bits v [] [] hlen
  simp only [List.nil_append, List.length_nil] at h
  simp only [filterVector, BitVector.setIndices, h, BitVector.getNumberOfSetBits,
    selected_length v filter.bits hlen, if_true]

theorem filterVectorInPlace_eq_selected {Type1 : Type} (v : List Type1) (filter : BitVector)
    (hlen : v.length = filter.size) :
    filterVectorInPlace v filter = some (selected v filter.bits) := by
  have hblen : v.length = filter.bits.length := hlen
  obtain ⟨hk1, hk2, hk3⟩ := getNextUnsetIndex_spec filter
  rw [← hlen] at hk1 hk3
  have hcount := selected_length v filter.bits hblen
  unfold filterVectorInPlace
  rw [if_neg (not_not.mpr hlen)]
  simp only []
  by_cases hk : filter.getNextUnsetIndex 0 < v.length
  · obtain ⟨h1, h2, h3, h4⟩ := getNextSetIndex_spec filter (filter.getNextUnsetIndex 0 + 1)
      (by rw [← hlen]; omega)
    rw [← hlen] at h2 h4
    have hinit : v.take (filter.getNextUnsetIndex 0)
        = selected (v.take (filter.getNextSetIndex (filter.getNextUnsetIndex 0 + 1)))
            (filter.bits.take (filter.getNextSetIndex (filter.getNextUnsetIndex 0 + 1))) := by
      have hskip := selected_take_skip v filter.bits hblen (filter.getNextUnsetIndex 0 + 1)
        (filter.getNextSetIndex (filter.getNextUnsetIndex 0 + 1)
          - (filter.getNextUnsetIndex 0 + 1)) (by omega)
        (fun i hi1 hi2 => h3 i hi1 (by omega))
      rw [show filter.getNextUnsetIndex 0 + 1
          + (filter.getNextSetIndex (filter.getNextUnsetIndex 0 + 1)
            - (filter.getNextUnsetIndex 0 + 1))
          = filter.getNextSetIndex (filter.getNextUnsetIndex 0 + 1) by omega] at hskip
      rw [hskip, selected_take_succ v filter.bits (filter.getNextUnsetIndex 0)
        v[filter.getNextUnsetIndex 0] false (List.getElem?_eq_getElem hk) (hk3 hk),
        selected_take_all v filter.bits hblen _ (by omega) hk2]
      simp
    obtain ⟨vIt1, w1, hrun, hres⟩ := filterVectorInPlaceLoop_eq v filter hlen v.length
      (filter.getNextSetIndex (filter.getNextUnsetIndex 0 + 1)) (filter.getNextUnsetIndex 0) v
      rfl (by omega) h2 (by omega) hinit (fun _ _ => rfl) h4
    simp only [hk, if_true, hrun, hres, BitVector.getNumberOfSetBits, hcount]
  · have hkn : filter.getNextUnsetIndex 0 = v.length := by omega
    have hall := selected_take_all v filter.bits hblen v.length (le_refl _)
      (fun i hi => hk2 i (by omega))
    rw [List.take_length] at hall
    nth_rewrite 1 [hblen] at hall
    rw [List.take_length] at hall
    simp only [hk, if_false, BitVector.getNumberOfSetBits]
    rw [hall] at hcount
    rw [if_pos hcount, hall]

theorem selected_all_set {Type1 : Type} :
    ∀ (v : List Type1) (bits : List Bool), v.length = bits.length →
      (∀ b ∈ bits, b = true) → selected v bits = v := by
  intro v
  induction v with
  | nil => intro bits _ _; simp [selected]
  | cons x xs ih =>
    intro bits h hall
    cases bits with
    | nil => cases h
    | cons b bs =>
      have hb : b = true := hall b (List.mem_cons_self b bs)
      subst hb
      have := ih bs (by simpa using h) (fun b hb => hall b (List.mem_cons_of_mem _ hb))
      simpa [selected] using this

theorem selected_none_set {Type1 : Type} :
    ∀ (v : List Type1) (bits : List Bool), (∀ b ∈ bits, b = false) → selected v bits = [] := by
  intro v
  induction v with
  | nil => intro bits _; simp [selected]
  | cons x xs ih =>
    intro bits hall
    cases bits with
    | nil => simp [selected]
    | cons b bs =>
      have hb : b = false := hall b (List.mem_cons_self b bs)
      subst hb
      have := ih bs (fun b hb => hall b (List.mem_cons_of_mem _ hb))
      simpa [selected] using this

/-- C40: for every vector `v` and every filter of the same length,
`filterVectorInPlace(v, filter)` leaves `v` equal to `filterVector(v, filter)`: the elements
of the original `v` at the set positions of the filter, in ascending position order, as many
as there are set bits; with all bits set that is `v` itself, with none set (or `v` empty) the
empty vector. -/
theorem filterVectorInPlace_eq_filterVector {Type1 : Type} (v : List Type1)
    (filter : BitVector) (hlen : v.length = filter.size) :
    filterVectorInPlace v filter = filterVector v filter ∧
    filterVector v filter = some (selected v filter.bits) ∧
    (selected v filter.bits).length = filter.getNumberOfSetBits ∧
    ((∀ b ∈ filter.bits, b = true) → filterVectorInPlace v filter = some v) ∧
    ((∀ b ∈ filter.bits, b = false) → filterVectorInPlace v filter = some []) := by
  have h1 := filterVectorInPlace_eq_selected v filter hlen
  have h2 := filterVector_eq_selected v filter hlen
  refine ⟨by rw [h1, h2], h2, selected_length v filter.bits hlen, ?_, ?_⟩
  · intro hall
    rw [h1, selected_all_set v filter.bits hlen hall]
  · intro hnone
    rw [h1, selected_none_set v filter.bits hnone]

theorem filterVectorInPlace_eq_filterVector_witness :
    filterVectorInPlace ([10, 11, 12, 13, 14] : List Nat)
      (BitVector.mk [true, false, true, true, false]) = some [10, 12, 13] ∧
    filterVectorInPlace ([] : List Nat) (BitVector.mk []) = some [] ∧
    (filterVectorInPlace ([10, 11, 12, 13, 14] : List Nat)
        (BitVector.mk [true, false, true, true, false])
      = filterVector ([10, 11, 12, 13, 14] : List Nat)
        (BitVector.mk [true, false, true, true, false]) ∧
    filterVector ([10, 11, 12, 13, 14] : List Nat)
        (BitVector.mk [true, false, true, true, false])
      = some (selected ([10, 11, 12, 13, 14] : List Nat) [true, false, true, true, false]) ∧
    (selected ([10, 11, 12, 13, 14] : List Nat) [true, false, true, true, false]).length
      = (BitVector.mk [true, false, true, true, false]).getNumberOfSetBits ∧
    ((∀ b ∈ [true, false, true, true, false], b = true) →
      filterVectorInPlace ([10, 11, 12, 13, 14] : List Nat)
        (BitVector.mk [true, false, true, true, false]) = some [10, 11, 12, 13, 14]) ∧
    ((∀ b ∈ [true, false, true, true, false], b = false) →
      filterVectorInPlace ([10, 11, 12, 13, 14] : List Nat)
        (BitVector.mk [true, false, true, true, false]) = some [])) :=
  ⟨by decide, by decide, filterVectorInPlace_eq_filterVector ([10, 11, 12, 13, 14] : List Nat)
    (BitVector.mk [true, false, true, true, false]) rfl⟩

end Vector

namespace Vector

/-- C39 does not hold on the code. For the vector `[1/2]` the factor is `1 / (1/2) = 2`, the
number pushed is `(1/2) / 2 = 1/4`, and the assertion that it is integral fails. For the
vector `[2]`, where the assertion passes, the result is `[0, 4]` with the factor `1/2`: it
has two entries for one input, and its first entry times the factor is not `2`. For `[0]`
the result is `[0, 0]`. -/
theorem toIntegralVector_rational_evaluation (lcm gcd : ℚ → ℚ → ℚ) :
    toIntegralVectorRationalFunction lcm gcd (fun q => q) isInteger [1 / 2]
      = .error .assertionFailed ∧
    toIntegralVectorRationalFunction lcm gcd (fun q => q) isInteger [2]
      = .ok ([0, 4], 1 / 2) ∧
    toIntegralVectorRationalFunction lcm gcd (fun q => q) isInteger [0]
      = .ok ([0, 0], 1) := by
  have h4 : isInteger 4 = true := by simp [isInteger]
  have h0 : isInteger 0 = true := by simp [isInteger]
  have hq : isInteger (1 / 4) = false := by
    have : ((1 : ℚ) / 4).den = 4 := by norm_num
    simp [isInteger, this]
  refine ⟨?_, ?_, ?_⟩
  · have hset : ([1 / 2] : List ℚ).foldl
        (fun set v => if v = 0 then set else setInsert set v) [] = [1 / 2] := by
      simp [setInsert]
    have hv : (1 / 2 : ℚ) / (1 / (1 / 2)) = 1 / 4 := by norm_num
    simp only [toIntegralVectorRationalFunction, hset, integralFactor, integralLoop, hv, hq,
      Bool.false_eq_true, if_false]
  · have hset : ([2] : List ℚ).foldl
        (fun set v => if v = 0 then set else setInsert set v) [] = [2] := by
      simp [setInsert]
    have hv : (2 : ℚ) / (1 / 2) = 4 := by norm_num
    simp only [toIntegralVectorRationalFunction, hset, integralFactor, integralLoop, hv, h4,
      if_true, List.length_singleton, List.replicate]
    rfl
  · have hset : ([0] : List ℚ).foldl
        (fun set v => if v = 0 then set else setInsert set v) [] = [] := by
      simp
    have hv : (0 : ℚ) / 1 = 0 := by norm_num
    simp only [toIntegralVectorRationalFunction, hset, integralFactor, integralLoop, hv, h0,
      if_true, List.length_singleton, List.replicate]
    rfl

end Vector

theorem probabilityKernel_eq (p : ProbabilityMap) (root : Bdd) (hhc : root.HashConsed)
    (b : Bdd) (hb : b ∈ root.subnodes) : probabilityKernel p b = probabilityOf p b := by
  have h := recursiveProbability_memo p root hhc b hb emptyCache (cacheSoundFor_empty _ root)
  unfold probabilityKernel
  cases hq : probabilityOf p b with
  | none => rw [h.2 hq]; rfl
  | some q =>
    obtain ⟨c, hc, _⟩ := h.1 q hq
    rw [hc]
    rfl

theorem birnbaumKernel_eq (k : Nat) (p : ProbabilityMap) (root : Bdd) (hhc : root.HashConsed)
    (b : Bdd) (hb : b ∈ root.subnodes) : birnbaumKernel k p b = birnbaumOf k p b := by
  have h := recursiveBirnbaumFactor_memo k p root hhc b hb emptyCache emptyCache
    (cacheSoundFor_empty _ root) (cacheSoundFor_empty _ root)
  unfold birnbaumKernel
  cases hq : birnbaumOf k p b with
  | none => rw [h.2 hq]; rfl
  | some q =>
    obtain ⟨cp, cb, hc, _⟩ := h.1 q hq
    rw [hc]
    rfl

theorem cacheSoundFor_congr (f g : Bdd → Option ℚ) (root : Bdd)
    (hfg : ∀ n ∈ root.subnodes, f n = g n) (c : ScalarCache) :
    CacheSoundFor f root c ↔ CacheSoundFor g root c := by
  constructor
  · intro h n hn q hq
    rw [← hfg n hn]
    exact h n hn q hq
  · intro h n hn q hq
    rw [hfg n hn]
    exact h n hn q hq

/-- The two kernels on sound caches: the value of the empty caches, and sound caches
afterwards. -/
theorem kernels_on_sound_caches (p : ProbabilityMap) (k : Nat) (root : Bdd)
    (hhc : root.HashConsed) (b : Bdd) (hb : b ∈ root.subnodes) :
    (∀ c, CacheSoundFor (probabilityKernel p) root c →
      (recursiveProbability p b c).map Prod.fst = probabilityKernel p b ∧
      ∀ q c1, recursiveProbability p b c = some (q, c1) →
        CacheSoundFor (probabilityKernel p) root c1) ∧
    (∀ cp cb, CacheSoundFor (probabilityKernel p) root cp →
      CacheSoundFor (birnbaumKernel k p) root cb →
      (recursiveBirnbaumFactor k p b cp cb).map Prod.fst = birnbaumKernel k p b ∧
      ∀ q cp1 cb1, recursiveBirnbaumFactor k p b cp cb = some (q, cp1, cb1) →
        CacheSoundFor (probabilityKernel p) root cp1 ∧
        CacheSoundFor (birnbaumKernel k p) root cb1) := by
  have hP := cacheSoundFor_congr (probabilityKernel p) (probabilityOf p) root
    (fun n hn => probabilityKernel_eq p root hhc n hn)
  have hB := cacheSoundFor_congr (birnbaumKernel k p) (birnbaumOf k p) root
    (fun n hn => birnbaumKernel_eq k p root hhc n hn)
  refine ⟨?_, ?_⟩
  · intro c hc
    have hmemo := recursiveProbability_memo p root hhc b hb c ((hP c).mp hc)
    rw [probabilityKernel_eq p root hhc b hb]
    cases hq : probabilityOf p b with
    | none =>
      rw [hmemo.2 hq]
      exact ⟨rfl, fun q c1 h => by cases h⟩
    | some q =>
      obtain ⟨c', hrun, hsound⟩ := hmemo.1 q hq
      rw [hrun]
      refine ⟨rfl, fun q1 c1 h => ?_⟩
      simp only [Option.some.injEq, Prod.mk.injEq] at h
      rw [← h.2]
      exact (hP c').mpr hsound
  · intro cp cb hcp hcb
    have hmemo := recursiveBirnbaumFactor_memo k p root hhc b hb cp cb ((hP cp).mp hcp)
      ((hB cb).mp hcb)
    rw [birnbaumKernel_eq k p root hhc b hb]
    cases hq : birnbaumOf k p b with
    | none =>
      rw [hmemo.2 hq]
      exact ⟨rfl, fun q cp1 cb1 h => by cases h⟩
    | some q =>
      obtain ⟨cp', cb', hrun, hsp, hsb⟩ := hmemo.1 q hq
      rw [hrun]
      refine ⟨rfl, fun q1 cp1 cb1 h => ?_⟩
      simp only [Option.some.injEq, Prod.mk.injEq] at h
      rw [← h.2.1, ← h.2.2]
      exact ⟨(hP cp').mpr hsp, (hB cb').mpr hsb⟩

namespace SFTBDDChecker

/-- The two calls that share one probability cache return what the calls on empty caches
return. -/
theorem probabilityAndBirnbaumFactor_eq_uncached (checker : SFTBDDChecker) (beName : String)
    (t : ℚ) (hhc : checker.topLevelGateBdd.HashConsed) :
    checker.probabilityAndBirnbaumFactor beName t = checker.uncachedPair beName t := by
  have hroot := Bdd.self_mem_subnodes checker.topLevelGateBdd
  obtain ⟨hP, hB⟩ := kernels_on_sound_caches (checker.indexToProbability t)
    (checker.getIndex beName) checker.topLevelGateBdd hhc checker.topLevelGateBdd hroot
  have hempty : ∀ f, CacheSoundFor f checker.topLevelGateBdd emptyCache :=
    fun f => cacheSoundFor_empty f _
  unfold probabilityAndBirnbaumFactor uncachedPair getProbabilityAtTimebound
    getBirnbaumFactorAtTimebound
  cases h1 : recursiveProbability (checker.indexToProbability t) checker.topLevelGateBdd
      emptyCache with
  | none => rfl
  | some r =>
    obtain ⟨P, c⟩ := r
    have hsound := (hP emptyCache (hempty _)).2 P c h1
    have hshared := (hB c emptyCache hsound (hempty _)).1
    unfold birnbaumKernel at hshared
    simp only []
    cases h2 : recursiveBirnbaumFactor (checker.getIndex beName)
        (checker.indexToProbability t) checker.topLevelGateBdd emptyCache emptyCache with
    | none =>
      rw [h2] at hshared
      cases h3 : recursiveBirnbaumFactor (checker.getIndex beName)
          (checker.indexToProbability t) checker.topLevelGateBdd c emptyCache with
      | none => rfl
      | some r3 =>
        rw [h3] at hshared
        cases hshared
    | some r2 =>
      obtain ⟨B, cp2, cb2⟩ := r2
      rw [h2] at hshared
      cases h3 : recursiveBirnbaumFactor (checker.getIndex beName)
          (checker.indexToProbability t) checker.topLevelGateBdd c emptyCache with
      | none =>
        rw [h3] at hshared
        cases hshared
      | some r3 =>
        obtain ⟨B3, cp3, cb3⟩ := r3
        rw [h3] at hshared
        simp only [Option.map_some', Option.some.injEq] at hshared
        rw [hshared]

end SFTBDDChecker

namespace SFTBDDChecker

/-- C34: on a hash-consed BDD, when every entry of the cache passed to `recursiveProbability`
maps the id of a node to the value `recursiveProbability` computes for that node under the
same probability map, the call returns the value it returns with an empty cache and the cache
has that property afterwards; the same holds for `recursiveBirnbaumFactor` with a fixed
variable index and its two caches. Hence the two calls in `getCIFAtTimebound`,
`getDIFAtTimebound`, `getRAWAtTimebound` and `getRRWAtTimebound`, which share one probability
cache, yield the values of `getProbabilityAtTimebound` and `getBirnbaumFactorAtTimebound`. -/
theorem scalar_caches_transparent (checker : SFTBDDChecker) (p : ProbabilityMap) (k : Nat)
    (b : Bdd) (beName : String) (t : ℚ) (hhc : checker.topLevelGateBdd.HashConsed)
    (hb : b ∈ checker.topLevelGateBdd.subnodes) :
    (∀ c, CacheSoundFor (probabilityKernel p) checker.topLevelGateBdd c →
      (recursiveProbability p b c).map Prod.fst = probabilityKernel p b ∧
      ∀ q c1, recursiveProbability p b c = some (q, c1) →
        CacheSoundFor (probabilityKernel p) checker.topLevelGateBdd c1) ∧
    (∀ cp cb, CacheSoundFor (probabilityKernel p) checker.topLevelGateBdd cp →
      CacheSoundFor (birnbaumKernel k p) checker.topLevelGateBdd cb →
      (recursiveBirnbaumFactor k p b cp cb).map Prod.fst = birnbaumKernel k p b ∧
      ∀ q cp1 cb1, recursiveBirnbaumFactor k p b cp cb = some (q, cp1, cb1) →
        CacheSoundFor (probabilityKernel p) checker.topLevelGateBdd cp1 ∧
        CacheSoundFor (birnbaumKernel k p) checker.topLevelGateBdd cb1) ∧
    checker.probabilityAndBirnbaumFactor beName t = checker.uncachedPair beName t ∧
    checker.getCIFAtTimebound beName t = (checker.uncachedPair beName t).map
      (fun r => (divide (checker.beProbability beName t) r.1).map (fun x => x * r.2)) ∧
    checker.getDIFAtTimebound beName t = (checker.uncachedPair beName t).map
      (fun r => (divide (checker.beProbability beName t
          * (1 - checker.beProbability beName t) * r.2) r.1).map
        (fun x => checker.beProbability beName t + x)) ∧
    checker.getRAWAtTimebound beName t = (checker.uncachedPair beName t).map
      (fun r => (divide ((1 - checker.beProbability beName t) * r.2) r.1).map
        (fun x => 1 + x)) ∧
    checker.getRRWAtTimebound beName t = (checker.uncachedPair beName t).map
      (fun r => divide r.1 (r.1 - checker.beProbability beName t * r.2)) := by
  obtain ⟨h1, h2⟩ := kernels_on_sound_caches p k checker.topLevelGateBdd hhc b hb
  have hpair := probabilityAndBirnbaumFactor_eq_uncached checker beName t hhc
  refine ⟨h1, h2, hpair, ?_, ?_, ?_, ?_⟩
  · unfold getCIFAtTimebound
    rw [hpair]
    cases checker.uncachedPair beName t <;> rfl
  · unfold getDIFAtTimebound
    rw [hpair]
    cases checker.uncachedPair beName t <;> rfl
  · unfold getRAWAtTimebound
    rw [hpair]
    cases checker.uncachedPair beName t <;> rfl
  · unfold getRRWAtTimebound
    rw [hpair]
    cases checker.uncachedPair beName t <;> rfl

theorem scalar_caches_transparent_witness :
    (∀ c, CacheSoundFor (probabilityKernel exProbabilities) exAndChecker.topLevelGateBdd c →
      (recursiveProbability exProbabilities exAnd c).map Prod.fst
        = probabilityKernel exProbabilities exAnd ∧
      ∀ q c1, recursiveProbability exProbabilities exAnd c = some (q, c1) →
        CacheSoundFor (probabilityKernel exProbabilities) exAndChecker.topLevelGateBdd c1) ∧
    (∀ cp cb, CacheSoundFor (probabilityKernel exProbabilities)
        exAndChecker.topLevelGateBdd cp →
      CacheSoundFor (birnbaumKernel 1 exProbabilities) exAndChecker.topLevelGateBdd cb →
      (recursiveBirnbaumFactor 1 exProbabilities exAnd cp cb).map Prod.fst
        = birnbaumKernel 1 exProbabilities exAnd ∧
      ∀ q cp1 cb1, recursiveBirnbaumFactor 1 exProbabilities exAnd cp cb
          = some (q, cp1, cb1) →
        CacheSoundFor (probabilityKernel exProbabilities) exAndChecker.topLevelGateBdd cp1 ∧
        CacheSoundFor (birnbaumKernel 1 exProbabilities) exAndChecker.topLevelGateBdd cb1) ∧
    exAndChecker.probabilityAndBirnbaumFactor "a" (1 / 2)
      = exAndChecker.uncachedPair "a" (1 / 2) ∧
    exAndChecker.getCIFAtTimebound "a" (1 / 2) = (exAndChecker.uncachedPair "a" (1 / 2)).map
      (fun r => (divide (exAndChecker.beProbability "a" (1 / 2)) r.1).map
        (fun x => x * r.2)) ∧
    exAndChecker.getDIFAtTimebound "a" (1 / 2) = (exAndChecker.uncachedPair "a" (1 / 2)).map
      (fun r => (divide (exAndChecker.beProbability "a" (1 / 2)
          * (1 - exAndChecker.beProbability "a" (1 / 2)) * r.2) r.1).map
        (fun x => exAndChecker.beProbability "a" (1 / 2) + x)) ∧
    exAndChecker.getRAWAtTimebound "a" (1 / 2) = (exAndChecker.uncachedPair "a" (1 / 2)).map
      (fun r => (divide ((1 - exAndChecker.beProbability "a" (1 / 2)) * r.2) r.1).map
        (fun x => 1 + x)) ∧
    exAndChecker.getRRWAtTimebound "a" (1 / 2) = (exAndChecker.uncachedPair "a" (1 / 2)).map
      (fun r => divide r.1 (r.1 - exAndChecker.beProbability "a" (1 / 2) * r.2)) :=
  scalar_caches_transparent exAndChecker exProbabilities 1 exAnd "a" (1 / 2) (by decide)
    (Bdd.self_mem_subnodes exAnd)

end SFTBDDChecker

theorem touch_of_ne (c : VectorCache) (id key : Nat) (h : key ≠ id) :
    touch c id key = c key := by
  unfold touch
  cases c id with
  | none => simp [Function.update, h]
  | some _ => rfl

theorem touch_same_invalid (c : VectorCache) (id : Nat) (h : ∀ a, c id ≠ some (true, a)) :
    ∀ a, touch c id id ≠ some (true, a) := by
  intro a
  unfold touch
  cases hc : c id with
  | none => simp [Function.update]
  | some e =>
    simp only []
    rw [hc]
    exact hc ▸ h a

theorem touch_same_of_eq (c c1 : VectorCache) (id : Nat) (h : c id = c1 id) :
    touch c id id = touch c1 id id := by
  unfold touch
  cases hc : c id with
  | none =>
    rw [hc] at h
    rw [← h]
    simp [Function.update]
  | some e =>
    rw [hc] at h
    rw [← h]
    simp only []
    rw [hc, ← h]

theorem agreeOnValid_of_allInvalid (c : VectorCache) (h : AllInvalid c) :
    AgreeOnValid c emptyVectorCache :=
  fun key => Or.inr ⟨h key, fun a hc => by cases hc⟩

theorem agreeOnValid_touch (c c1 : VectorCache) (id : Nat) (h : AgreeOnValid c c1) :
    AgreeOnValid (touch c id) (touch c1 id) := by
  intro key
  by_cases hk : key = id
  · subst hk
    rcases h key with heq | ⟨h1, h2⟩
    · exact Or.inl (touch_same_of_eq c c1 key heq)
    · exact Or.inr ⟨touch_same_invalid c key h1, touch_same_invalid c1 key h2⟩
  · rw [touch_of_ne c id key hk, touch_of_ne c1 id key hk]
    exact h key

theorem agreeOnValid_of_sameWrites (c c1 d d1 : VectorCache) (h : AgreeOnValid c c1)
    (hw : SameWrites c c1 d d1) : AgreeOnValid d d1 := by
  intro key
  rcases hw key with heq | ⟨h1, h2⟩
  · exact Or.inl heq
  · rw [h1, h2]
    exact h key

theorem sameWrites_refl (c c1 : VectorCache) : SameWrites c c1 c c1 :=
  fun _ => Or.inr ⟨rfl, rfl⟩

theorem sameWrites_trans (c c1 d d1 e e1 : VectorCache) (h1 : SameWrites c c1 d d1)
    (h2 : SameWrites d d1 e e1) : SameWrites c c1 e e1 := by
  intro key
  rcases h2 key with heq | ⟨ha, hb⟩
  · exact Or.inl heq
  · rw [ha, hb]
    exact h1 key

theorem sameWrites_touch_update (c c1 d d1 : VectorCache) (id : Nat)
    (x : Option (Bool × List ℚ)) (h : SameWrites (touch c id) (touch c1 id) d d1) :
    SameWrites c c1 (Function.update d id x) (Function.update d1 id x) := by
  intro key
  by_cases hk : key = id
  · subst hk
    exact Or.inl (by simp)
  · rw [Function.update_noteq hk, Function.update_noteq hk]
    rcases h key with heq | ⟨ha, hb⟩
    · exact Or.inl heq
    · rw [touch_of_ne c id key hk] at ha
      rw [touch_of_ne c1 id key hk] at hb
      exact Or.inr ⟨ha, hb⟩

theorem sameWrites_slot (c c1 d d1 : VectorCache) (key : Nat) (h : SameWrites c c1 d d1)
    (heq : c key = c1 key) : d key = d1 key := by
  rcases h key with h1 | ⟨ha, hb⟩
  · exact h1
  · rw [ha, hb, heq]

theorem slotValues_congr (c c1 : VectorCache) (key : Nat) (h : c key = c1 key) :
    slotValues c key = slotValues c1 key := by
  unfold slotValues
  rw [h]

theorem recursiveProbabilities_hit (n : Nat) (itp : VectorMap) (b : Bdd) (c : VectorCache)
    (a : List ℚ) (h : c b.GetBDD = some (true, a)) :
    recursiveProbabilities n itp b c = some (b.GetBDD, c) := by
  cases b with
  | terminal id value =>
    simp only [Bdd.GetBDD] at h
    simp [recursiveProbabilities, h, Bdd.GetBDD]
  | node id v t e =>
    simp only [Bdd.GetBDD] at h
    simp [recursiveProbabilities, h, Bdd.GetBDD]

theorem recursiveProbabilities_miss_terminal (n : Nat) (itp : VectorMap) (id : Nat)
    (value : Bool) (c : VectorCache) (h : ∀ a, c id ≠ some (true, a)) :
    recursiveProbabilities n itp (.terminal id value) c
      = some (id, Function.update (touch c id) id
          (some (true, List.replicate n (if value then 1 else 0)))) := by
  unfold recursiveProbabilities
  split
  · rename_i a ha
    exact absurd ha (h a)
  · rfl

theorem recursiveProbabilities_miss_node (n : Nat) (itp : VectorMap) (id v : Nat)
    (t e : Bdd) (c : VectorCache) (h : ∀ a, c id ≠ some (true, a)) :
    recursiveProbabilities n itp (.node id v t e) c
      = match recursiveProbabilities n itp t (touch c id) with
        | none => none
        | some (thenProbabilities, cache1) =>
          match recursiveProbabilities n itp e cache1 with
          | none => none
          | some (elseProbabilities, cache2) =>
            match itp v with
            | none => none
            | some currentProbabilities =>
              some (id, Function.update cache2 id
                (some (true, iteArray currentProbabilities
                  (slotValues cache2 thenProbabilities)
                  (slotValues cache2 elseProbabilities)))) := by
  conv => lhs; unfold recursiveProbabilities
  split
  · rename_i a ha
    exact absurd ha (h a)
  · rfl

theorem agree_invalid_right (c c1 : VectorCache) (key : Nat) (h : AgreeOnValid c c1)
    (hinv : ∀ a, c key ≠ some (true, a)) : ∀ a, c1 key ≠ some (true, a) := by
  intro a ha
  rcases h key with heq | ⟨_, h2⟩
  · exact hinv a (heq.trans ha)
  · exact h2 a ha

/-- Two runs of `recursiveProbabilities` from caches that agree on their valid entries fail
together or return the same slot with the same contents, having written the same entries. -/
theorem recursiveProbabilities_simulation (n : Nat) (itp : VectorMap) (b : Bdd) :
    ∀ c c1, AgreeOnValid c c1 →
      (recursiveProbabilities n itp b c = none ∧ recursiveProbabilities n itp b c1 = none) ∨
      ∃ d d1, recursiveProbabilities n itp b c = some (b.GetBDD, d) ∧
        recursiveProbabilities n itp b c1 = some (b.GetBDD, d1) ∧
        d b.GetBDD = d1 b.GetBDD ∧ SameWrites c c1 d d1 := by
  induction b with
  | terminal id value =>
    intro c c1 hag
    right
    by_cases hhit : ∃ a, c id = some (true, a)
    · obtain ⟨a, ha⟩ := hhit
      have heq : c id = c1 id := by
        rcases hag id with h | ⟨h1, _⟩
        · exact h
        · exact absurd ha (h1 a)
      refine ⟨c, c1, recursiveProbabilities_hit n itp _ c a ha,
        recursiveProbabilities_hit n itp _ c1 a (heq ▸ ha), heq, sameWrites_refl c c1⟩
    · have hinv : ∀ a, c id ≠ some (true, a) := fun a ha => hhit ⟨a, ha⟩
      have hinv1 := agree_invalid_right c c1 id hag hinv
      refine ⟨_, _, recursiveProbabilities_miss_terminal n itp id value c hinv,
        recursiveProbabilities_miss_terminal n itp id value c1 hinv1, by simp [Bdd.GetBDD],
        sameWrites_touch_update c c1 _ _ id _ (sameWrites_refl _ _)⟩
  | node id v t e iht ihe =>
    intro c c1 hag
    by_cases hhit : ∃ a, c id = some (true, a)
    · obtain ⟨a, ha⟩ := hhit
      have heq : c id = c1 id := by
        rcases hag id with h | ⟨h1, _⟩
        · exact h
        · exact absurd ha (h1 a)
      exact Or.inr ⟨c, c1, recursiveProbabilities_hit n itp _ c a ha,
        recursiveProbabilities_hit n itp _ c1 a (heq ▸ ha), heq, sameWrites_refl c c1⟩
    · have hinv : ∀ a, c id ≠ some (true, a) := fun a ha => hhit ⟨a, ha⟩
      have hinv1 := agree_invalid_right c c1 id hag hinv
      rw [recursiveProbabilities_miss_node n itp id v t e c hinv,
        recursiveProbabilities_miss_node n itp id v t e c1 hinv1]
      rcases iht (touch c id) (touch c1 id) (agreeOnValid_touch c c1 id hag) with
        ⟨h1, h2⟩ | ⟨d, d1, h1, h2, hslot, hw⟩
      · left
        rw [h1, h2]
        exact ⟨rfl, rfl⟩
      · rw [h1, h2]
        simp only []
        have hag1 := agreeOnValid_of_sameWrites _ _ d d1 (agreeOnValid_touch c c1 id hag) hw
        rcases ihe d d1 hag1 with ⟨h3, h4⟩ | ⟨f, f1, h3, h4, hslot2, hw2⟩
        · left
          rw [h3, h4]
          exact ⟨rfl, rfl⟩
        · rw [h3, h4]
          simp only []
          cases hv : itp v with
          | none => exact Or.inl ⟨rfl, rfl⟩
          | some cur =>
            right
            have hthen : slotValues f t.GetBDD = slotValues f1 t.GetBDD :=
              slotValues_congr f f1 _ (sameWrites_slot d d1 f f1 _ hw2 hslot)
            have helse : slotValues f e.GetBDD = slotValues f1 e.GetBDD :=
              slotValues_congr f f1 _ hslot2
            refine ⟨Function.update f id (some (true, iteArray cur
                (slotValues f t.GetBDD) (slotValues f e.GetBDD))),
              Function.update f1 id (some (true, iteArray cur
                (slotValues f t.GetBDD) (slotValues f e.GetBDD))), rfl, ?_, ?_, ?_⟩
            · rw [hthen, helse]
              rfl
            · simp [Bdd.GetBDD]
            · exact sameWrites_touch_update c c1 f f1 id _
                (sameWrites_trans _ _ d d1 f f1 hw hw2)

theorem recursiveBirnbaumFactors_hit (n k : Nat) (itp : VectorMap) (b : Bdd)
    (cP cB : VectorCache) (a : List ℚ) (h : cB b.GetBDD = some (true, a)) :
    recursiveBirnbaumFactors n k itp b cP cB = some (b.GetBDD, cP, cB) := by
  cases b with
  | terminal id value =>
    simp only [Bdd.GetBDD] at h
    simp [recursiveBirnbaumFactors, h, Bdd.GetBDD]
  | node id v t e =>
    simp only [Bdd.GetBDD] at h
    simp [recursiveBirnbaumFactors, h, Bdd.GetBDD]

theorem recursiveBirnbaumFactors_miss_terminal (n k : Nat) (itp : VectorMap) (id : Nat)
    (value : Bool) (cP cB : VectorCache) (h : ∀ a, cB id ≠ some (true, a)) :
    recursiveBirnbaumFactors n k itp (.terminal id value) cP cB
      = some (id, cP, Function.update (touch cB id) id
          (some (false, List.replicate n 0))) := by
  unfold recursiveBirnbaumFactors
  split
  · rename_i a ha
    exact absurd ha (h a)
  · rfl

theorem recursiveBirnbaumFactors_miss_node (n k : Nat) (itp : VectorMap) (id v : Nat)
    (t e : Bdd) (cP cB : VectorCache) (h : ∀ a, cB id ≠ some (true, a)) :
    recursiveBirnbaumFactors n k itp (.node id v t e) cP cB
      = if v > k then
          some (id, cP, Function.update (touch cB id) id (some (false, List.replicate n 0)))
        else
          match itp v with
          | none => none
          | some currentProbabilities =>
            if v = k then
              match recursiveProbabilities n itp t cP with
              | none => none
              | some (thenProbabilities, cacheP1) =>
                match recursiveProbabilities n itp e cacheP1 with
                | none => none
                | some (elseProbabilities, cacheP2) =>
                  some (id, cacheP2,
                    Function.update (touch cB id) id
                      (some (true, List.zipWith (fun s t => s - t)
                        (slotValues cacheP2 thenProbabilities)
                        (slotValues cacheP2 elseProbabilities))))
            else
              match recursiveBirnbaumFactors n k itp t cP (touch cB id) with
              | none => none
              | some (thenBirnbaumFactors, cacheP1, cacheB1) =>
                match recursiveBirnbaumFactors n k itp e cacheP1 cacheB1 with
                | none => none
                | some (elseBirnbaumFactors, cacheP2, cacheB2) =>
                  some (id, cacheP2, Function.update cacheB2 id
                    (some (true, iteArray currentProbabilities
                      (slotValues cacheB2 thenBirnbaumFactors)
                      (slotValues cacheB2 elseBirnbaumFactors)))) := by
  conv => lhs; unfold recursiveBirnbaumFactors
  split
  · rename_i a ha
    exact absurd ha (h a)
  · rfl

/-- Two runs of `recursiveBirnbaumFactors` from caches that agree on their valid entries fail
together or return the same slot with the same contents, having written the same entries. -/
theorem recursiveBirnbaumFactors_simulation (n k : Nat) (itp : VectorMap) (b : Bdd) :
    ∀ cP cP1 cB cB1, AgreeOnValid cP cP1 → AgreeOnValid cB cB1 →
      (recursiveBirnbaumFactors n k itp b cP cB = none ∧
        recursiveBirnbaumFactors n k itp b cP1 cB1 = none) ∨
      ∃ dP dP1 dB dB1,
        recursiveBirnbaumFactors n k itp b cP cB = some (b.GetBDD, dP, dB) ∧
        recursiveBirnbaumFactors n k itp b cP1 cB1 = some (b.GetBDD, dP1, dB1) ∧
        dB b.GetBDD = dB1 b.GetBDD ∧ SameWrites cP cP1 dP dP1 ∧ SameWrites cB cB1 dB dB1 := by
  induction b with
  | terminal id value =>
    intro cP cP1 cB cB1 hagP hagB
    right
    by_cases hhit : ∃ a, cB id = some (true, a)
    · obtain ⟨a, ha⟩ := hhit
      have heq : cB id = cB1 id := by
        rcases hagB id with h | ⟨h1, _⟩
        · exact h
        · exact absurd ha (h1 a)
      exact ⟨cP, cP1, cB, cB1, recursiveBirnbaumFactors_hit n k itp _ cP cB a ha,
        recursiveBirnbaumFactors_hit n k itp _ cP1 cB1 a (heq ▸ ha), heq,
        sameWrites_refl cP cP1, sameWrites_refl cB cB1⟩
    · have hinv : ∀ a, cB id ≠ some (true, a) := fun a ha => hhit ⟨a, ha⟩
      have hinv1 := agree_invalid_right cB cB1 id hagB hinv
      exact ⟨cP, cP1, _, _, recursiveBirnbaumFactors_miss_terminal n k itp id value cP cB hinv,
        recursiveBirnbaumFactors_miss_terminal n k itp id value cP1 cB1 hinv1,
        by simp [Bdd.GetBDD], sameWrites_refl cP cP1,
        sameWrites_touch_update cB cB1 _ _ id _ (sameWrites_refl _ _)⟩
  | node id v t e iht ihe =>
    intro cP cP1 cB cB1 hagP hagB
    by_cases hhit : ∃ a, cB id = some (true, a)
    · obtain ⟨a, ha⟩ := hhit
      have heq : cB id = cB1 id := by
        rcases hagB id with h | ⟨h1, _⟩
        · exact h
        · exact absurd ha (h1 a)
      exact Or.inr ⟨cP, cP1, cB, cB1, recursiveBirnbaumFactors_hit n k itp _ cP cB a ha,
        recursiveBirnbaumFactors_hit n k itp _ cP1 cB1 a (heq ▸ ha), heq,
        sameWrites_refl cP cP1, sameWrites_refl cB cB1⟩
    · have hinv : ∀ a, cB id ≠ some (true, a) := fun a ha => hhit ⟨a, ha⟩
      have hinv1 := agree_invalid_right cB cB1 id hagB hinv
      rw [recursiveBirnbaumFactors_miss_node n k itp id v t e cP cB hinv,
        recursiveBirnbaumFactors_miss_node n k itp id v t e cP1 cB1 hinv1]
      by_cases hgt : v > k
      · rw [if_pos hgt, if_pos hgt]
        exact Or.inr ⟨cP, cP1, _, _, rfl, rfl, by simp [Bdd.GetBDD], sameWrites_refl cP cP1,
          sameWrites_touch_update cB cB1 _ _ id _ (sameWrites_refl _ _)⟩
      · rw [if_neg hgt, if_neg hgt]
        cases hv : itp v with
        | none => exact Or.inl ⟨rfl, rfl⟩
        | some cur =>
          simp only []
          by_cases heqk : v = k
          · rw [if_pos heqk, if_pos heqk]
            rcases recursiveProbabilities_simulation n itp t cP cP1 hagP with
              ⟨h1, h2⟩ | ⟨d, d1, h1, h2, hslot, hw⟩
            · left
              rw [h1, h2]
              exact ⟨rfl, rfl⟩
            · rw [h1, h2]
              simp only []
              have hag1 := agreeOnValid_of_sameWrites _ _ d d1 hagP hw
              rcases recursiveProbabilities_simulation n itp e d d1 hag1 with
                ⟨h3, h4⟩ | ⟨f, f1, h3, h4, hslot2, hw2⟩
              · left
                rw [h3, h4]
                exact ⟨rfl, rfl⟩
              · rw [h3, h4]
                simp only []
                right
                have hthen : slotValues f t.GetBDD = slotValues f1 t.GetBDD :=
                  slotValues_congr f f1 _ (sameWrites_slot d d1 f f1 _ hw2 hslot)
                have helse : slotValues f e.GetBDD = slotValues f1 e.GetBDD :=
                  slotValues_congr f f1 _ hslot2
                refine ⟨f, f1,
                  Function.update (touch cB id) id (some (true,
                    List.zipWith (fun s t => s - t) (slotValues f t.GetBDD)
                      (slotValues f e.GetBDD))),
                  Function.update (touch cB1 id) id (some (true,
                    List.zipWith (fun s t => s - t) (slotValues f t.GetBDD)
                      (slotValues f e.GetBDD))), rfl, ?_, ?_,
                  sameWrites_trans _ _ d d1 f f1 hw hw2,
                  sameWrites_touch_update cB cB1 _ _ id _ (sameWrites_refl _ _)⟩
                · rw [hthen, helse]
                  rfl
                · simp [Bdd.GetBDD]
          · rw [if_neg heqk, if_neg heqk]
            rcases iht cP cP1 (touch cB id) (touch cB1 id) hagP
                (agreeOnValid_touch cB cB1 id hagB) with
              ⟨h1, h2⟩ | ⟨dP, dP1, dB, dB1, h1, h2, hslot, hwP, hwB⟩
            · left
              rw [h1, h2]
              exact ⟨rfl, rfl⟩
            · rw [h1, h2]
              simp only []
              have hagP1 := agreeOnValid_of_sameWrites _ _ dP dP1 hagP hwP
              have hagB1 := agreeOnValid_of_sameWrites _ _ dB dB1
                (agreeOnValid_touch cB cB1 id hagB) hwB
              rcases ihe dP dP1 dB dB1 hagP1 hagB1 with
                ⟨h3, h4⟩ | ⟨fP, fP1, fB, fB1, h3, h4, hslot2, hwP2, hwB2⟩
              · left
                rw [h3, h4]
                exact ⟨rfl, rfl⟩
              · rw [h3, h4]
                simp only []
                right
                have hthen : slotValues fB t.GetBDD = slotValues fB1 t.GetBDD :=
                  slotValues_congr fB fB1 _ (sameWrites_slot dB dB1 fB fB1 _ hwB2 hslot)
                have helse : slotValues fB e.GetBDD = slotValues fB1 e.GetBDD :=
                  slotValues_congr fB fB1 _ hslot2
                refine ⟨fP, fP1,
                  Function.update fB id (some (true, iteArray cur
                    (slotValues fB t.GetBDD) (slotValues fB e.GetBDD))),
                  Function.update fB1 id (some (true, iteArray cur
                    (slotValues fB t.GetBDD) (slotValues fB e.GetBDD))), rfl, ?_, ?_,
                  sameWrites_trans _ _ dP dP1 fP fP1 hwP hwP2,
                  sameWrites_touch_update cB cB1 fB fB1 id _
                    (sameWrites_trans _ _ dB dB1 fB fB1 hwB hwB2)⟩
                · rw [hthen, helse]
                  rfl
                · simp [Bdd.GetBDD]

theorem iteArray_length (x a b : List ℚ) (n : Nat) (hx : x.length = n) (ha : a.length = n)
    (hb : b.length = n) : (iteArray x a b).length = n := by
  simp [iteArray, List.length_zipWith, hx, ha, hb]

theorem validLength_touch (n : Nat) (c : VectorCache) (id : Nat) (h : ValidLength n c) :
    ValidLength n (touch c id) := by
  intro key a ha
  by_cases hk : key = id
  · subst hk
    by_cases hv : ∃ a0, c key = some (true, a0)
    · obtain ⟨a0, ha0⟩ := hv
      have : touch c key = c := by
        simp only [touch, ha0]
      rw [this] at ha
      exact h key a ha
    · exact absurd ha (touch_same_invalid c key (fun a0 h0 => hv ⟨a0, h0⟩) a)
  · rw [touch_of_ne c id key hk] at ha
    exact h key a ha

theorem validLength_of_written (n : Nat) (c d : VectorCache) (h : ValidLength n c)
    (hw : ∀ s, d s = c s ∨ ∃ e, d s = some e ∧ e.2.length = n) : ValidLength n d := by
  intro key a ha
  rcases hw key with h1 | ⟨e, he, hlen⟩
  · rw [h1] at ha
    exact h key a ha
  · rw [he] at ha
    simp only [Option.some.injEq] at ha
    rw [ha] at hlen
    exact hlen

theorem slotValues_length_of_entry (n : Nat) (d : VectorCache) (key : Nat)
    (h : ∃ e, d key = some e ∧ e.2.length = n) : (slotValues d key).length = n := by
  obtain ⟨e, he, hlen⟩ := h
  unfold slotValues
  rw [he]
  exact hlen

theorem entry_after_written (n : Nat) (c d : VectorCache) (key : Nat)
    (h : ∃ e, c key = some e ∧ e.2.length = n)
    (hw : ∀ s, d s = c s ∨ ∃ e, d s = some e ∧ e.2.length = n) :
    ∃ e, d key = some e ∧ e.2.length = n := by
  rcases hw key with h1 | h1
  · rw [h1]
    exact h
  · exact h1

theorem written_touch_update (n : Nat) (c d : VectorCache) (id : Nat) (e0 : Bool × List ℚ)
    (hlen : e0.2.length = n)
    (hw : ∀ s, d s = touch c id s ∨ ∃ e, d s = some e ∧ e.2.length = n) :
    ∀ s, Function.update d id (some e0) s = c s ∨
      ∃ e, Function.update d id (some e0) s = some e ∧ e.2.length = n := by
  intro s
  by_cases hs : s = id
  · subst hs
    exact Or.inr ⟨e0, by simp, hlen⟩
  · rw [Function.update_noteq hs]
    rcases hw s with h1 | h1
    · rw [touch_of_ne c id s hs] at h1
      exact Or.inl h1
    · exact Or.inr h1

theorem written_trans (n : Nat) (c d f : VectorCache)
    (h1 : ∀ s, d s = c s ∨ ∃ e, d s = some e ∧ e.2.length = n)
    (h2 : ∀ s, f s = d s ∨ ∃ e, f s = some e ∧ e.2.length = n) :
    ∀ s, f s = c s ∨ ∃ e, f s = some e ∧ e.2.length = n := by
  intro s
  rcases h2 s with h | h
  · rw [h]
    exact h1 s
  · exact Or.inr h

theorem entry_update_same (n : Nat) (d : VectorCache) (id : Nat) (e0 : Bool × List ℚ)
    (hlen : e0.2.length = n) :
    ∃ e, Function.update d id (some e0) id = some e ∧ e.2.length = n :=
  ⟨e0, by simp, hlen⟩

/-- The arrays `recursiveProbabilities` writes and returns have the length `chunksize`. -/
theorem recursiveProbabilities_length (n : Nat) (itp : VectorMap)
    (hitp : ∀ v a, itp v = some a → a.length = n) (b : Bdd) :
    ∀ c key d, ValidLength n c → recursiveProbabilities n itp b c = some (key, d) →
      key = b.GetBDD ∧ (∃ e, d key = some e ∧ e.2.length = n) ∧
      ∀ s, d s = c s ∨ ∃ e, d s = some e ∧ e.2.length = n := by
  induction b with
  | terminal id value =>
    intro c key d hc h
    by_cases hhit : ∃ a, c id = some (true, a)
    · obtain ⟨a, ha⟩ := hhit
      rw [recursiveProbabilities_hit n itp (.terminal id value) c a ha] at h
      simp only [Option.some.injEq, Prod.mk.injEq] at h
      obtain ⟨rfl, rfl⟩ := h
      exact ⟨rfl, ⟨(true, a), ha, hc _ a ha⟩, fun s => Or.inl rfl⟩
    · rw [recursiveProbabilities_miss_terminal n itp id value c
        (fun a ha => hhit ⟨a, ha⟩)] at h
      simp only [Option.some.injEq, Prod.mk.injEq] at h
      obtain ⟨rfl, rfl⟩ := h
      exact ⟨rfl, entry_update_same n _ _ _ (by simp),
        written_touch_update n c (touch c id) id _ (by simp) (fun s => Or.inl rfl)⟩
  | node id v t e iht ihe =>
    intro c key d hc h
    by_cases hhit : ∃ a, c id = some (true, a)
    · obtain ⟨a, ha⟩ := hhit
      rw [recursiveProbabilities_hit n itp (.node id v t e) c a ha] at h
      simp only [Option.some.injEq, Prod.mk.injEq] at h
      obtain ⟨rfl, rfl⟩ := h
      exact ⟨rfl, ⟨(true, a), ha, hc _ a ha⟩, fun s => Or.inl rfl⟩
    · rw [recursiveProbabilities_miss_node n itp id v t e c (fun a ha => hhit ⟨a, ha⟩)] at h
      cases h1 : recursiveProbabilities n itp t (touch c id) with
      | none => simp [h1] at h
      | some r1 =>
        obtain ⟨tk, d1⟩ := r1
        obtain ⟨htk, hent1, hw1⟩ := iht (touch c id) tk d1 (validLength_touch n c id hc) h1
        have hv1 := validLength_of_written n _ d1 (validLength_touch n c id hc) hw1
        cases h2 : recursiveProbabilities n itp e d1 with
        | none => simp [h1, h2] at h
        | some r2 =>
          obtain ⟨ek, d2⟩ := r2
          obtain ⟨hek, hent2, hw2⟩ := ihe d1 ek d2 hv1 h2
          cases hv : itp v with
          | none => simp [h1, h2, hv] at h
          | some cur =>
            simp only [h1, h2, hv, Option.some.injEq, Prod.mk.injEq] at h
            obtain ⟨rfl, rfl⟩ := h
            have hlen : (iteArray cur (slotValues d2 tk) (slotValues d2 ek)).length = n :=
              iteArray_length _ _ _ n (hitp v cur hv)
                (slotValues_length_of_entry n d2 tk (entry_after_written n d1 d2 tk hent1 hw2))
                (slotValues_length_of_entry n d2 ek hent2)
            exact ⟨rfl, entry_update_same n _ _ _ hlen,
              written_touch_update n c d2 _ _ hlen (written_trans n _ d1 d2 hw1 hw2)⟩

/-- The arrays `recursiveBirnbaumFactors` writes and returns have the length `chunksize`. -/
theorem recursiveBirnbaumFactors_length (n k : Nat) (itp : VectorMap)
    (hitp : ∀ v a, itp v = some a → a.length = n) (b : Bdd) :
    ∀ cP cB key dP dB, ValidLength n cP → ValidLength n cB →
      recursiveBirnbaumFactors n k itp b cP cB = some (key, dP, dB) →
      key = b.GetBDD ∧ (∃ e, dB key = some e ∧ e.2.length = n) ∧
      (∀ s, dP s = cP s ∨ ∃ e, dP s = some e ∧ e.2.length = n) ∧
      (∀ s, dB s = cB s ∨ ∃ e, dB s = some e ∧ e.2.length = n) := by
  induction b with
  | terminal id value =>
    intro cP cB key dP dB hcP hcB h
    by_cases hhit : ∃ a, cB id = some (true, a)
    · obtain ⟨a, ha⟩ := hhit
      rw [recursiveBirnbaumFactors_hit n k itp (.terminal id value) cP cB a ha] at h
      simp only [Option.some.injEq, Prod.mk.injEq] at h
      obtain ⟨rfl, rfl, rfl⟩ := h
      exact ⟨rfl, ⟨(true, a), ha, hcB _ a ha⟩, fun s => Or.inl rfl, fun s => Or.inl rfl⟩
    · rw [recursiveBirnbaumFactors_miss_terminal n k itp id value cP cB
        (fun a ha => hhit ⟨a, ha⟩)] at h
      simp only [Option.some.injEq, Prod.mk.injEq] at h
      obtain ⟨rfl, rfl, rfl⟩ := h
      exact ⟨rfl, entry_update_same n _ _ _ (by simp), fun s => Or.inl rfl,
        written_touch_update n cB (touch cB id) id _ (by simp) (fun s => Or.inl rfl)⟩
  | node id v t e iht ihe =>
    intro cP cB key dP dB hcP hcB h
    by_cases hhit : ∃ a, cB id = some (true, a)
    · obtain ⟨a, ha⟩ := hhit
      rw [recursiveBirnbaumFactors_hit n k itp (.node id v t e) cP cB a ha] at h
      simp only [Option.some.injEq, Prod.mk.injEq] at h
      obtain ⟨rfl, rfl, rfl⟩ := h
      exact ⟨rfl, ⟨(true, a), ha, hcB _ a ha⟩, fun s => Or.inl rfl, fun s => Or.inl rfl⟩
    · rw [recursiveBirnbaumFactors_miss_node n k itp id v t e cP cB
        (fun a ha => hhit ⟨a, ha⟩)] at h
      by_cases hgt : v > k
      · rw [if_pos hgt] at h
        simp only [Option.some.injEq, Prod.mk.injEq] at h
        obtain ⟨rfl, rfl, rfl⟩ := h
        exact ⟨rfl, entry_update_same n _ _ _ (by simp), fun s => Or.inl rfl,
          written_touch_update n cB (touch cB id) id _ (by simp) (fun s => Or.inl rfl)⟩
      · rw [if_neg hgt] at h
        cases hv : itp v with
        | none => simp [hv] at h
        | some cur =>
          simp only [hv] at h
          by_cases heqk : v = k
          · rw [if_pos heqk] at h
            cases h1 : recursiveProbabilities n itp t cP with
            | none => simp [h1] at h
            | some r1 =>
              obtain ⟨tk, d1⟩ := r1
              obtain ⟨_, hent1, hw1⟩ := recursiveProbabilities_length n itp hitp t cP tk d1
                hcP h1
              have hv1 := validLength_of_written n cP d1 hcP hw1
              cases h2 : recursiveProbabilities n itp e d1 with
              | none => simp [h1, h2] at h
              | some r2 =>
                obtain ⟨ek, d2⟩ := r2
                obtain ⟨_, hent2, hw2⟩ := recursiveProbabilities_length n itp hitp e d1 ek d2
                  hv1 h2
                simp only [h1, h2, Option.some.injEq, Prod.mk.injEq] at h
                obtain ⟨rfl, rfl, rfl⟩ := h
                have hlen : (List.zipWith (fun s t => s - t) (slotValues d2 tk)
                    (slotValues d2 ek)).length = n := by
                  rw [List.length_zipWith,
                    slotValues_length_of_entry n d2 tk
                      (entry_after_written n d1 d2 tk hent1 hw2),
                    slotValues_length_of_entry n d2 ek hent2]
                  simp
                exact ⟨rfl, entry_update_same n _ _ _ hlen, written_trans n cP d1 d2 hw1 hw2,
                  written_touch_update n cB (touch cB id) id _ hlen (fun s => Or.inl rfl)⟩
          · rw [if_neg heqk] at h
            cases h1 : recursiveBirnbaumFactors n k itp t cP (touch cB id) with
            | none => simp [h1] at h
            | some r1 =>
              obtain ⟨tk, dP1, dB1⟩ := r1
              obtain ⟨_, hent1, hwP1, hwB1⟩ := iht cP (touch cB id) tk dP1 dB1 hcP
                (validLength_touch n cB id hcB) h1
              have hvP1 := validLength_of_written n cP dP1 hcP hwP1
              have hvB1 := validLength_of_written n _ dB1 (validLength_touch n cB id hcB) hwB1
              cases h2 : recursiveBirnbaumFactors n k itp e dP1 dB1 with
              | none => simp [h1, h2] at h
              | some r2 =>
                obtain ⟨ek, dP2, dB2⟩ := r2
                obtain ⟨_, hent2, hwP2, hwB2⟩ := ihe dP1 dB1 ek dP2 dB2 hvP1 hvB1 h2
                simp only [h1, h2, Option.some.injEq, Prod.mk.injEq] at h
                obtain ⟨rfl, rfl, rfl⟩ := h
                have hlen : (iteArray cur (slotValues dB2 tk) (slotValues dB2 ek)).length
                    = n :=
                  iteArray_length _ _ _ n (hitp v cur hv)
                    (slotValues_length_of_entry n dB2 tk
                      (entry_after_written n dB1 dB2 tk hent1 hwB2))
                    (slotValues_length_of_entry n dB2 ek hent2)
                exact ⟨rfl, entry_update_same n _ _ _ hlen, written_trans n cP dP1 dP2 hwP1 hwP2,
                  written_touch_update n cB dB2 _ _ hlen
                    (written_trans n _ dB1 dB2 hwB1 hwB2)⟩

theorem validLength_of_allInvalid (n : Nat) (c : VectorCache) (h : AllInvalid c) :
    ValidLength n c := fun key a ha => absurd ha (h key a)

theorem allInvalid_invalidate (c : VectorCache) : AllInvalid (invalidate c) := by
  intro key a h
  unfold invalidate at h
  cases hc : c key with
  | none => simp [hc] at h
  | some e => simp [hc] at h

/-- C35: for every cache in which no entry is flagged valid, whatever stale arrays of
whatever length its entries hold, `recursiveProbabilities` and `recursiveBirnbaumFactors`
fail exactly when they fail on an empty cache and otherwise return the same array as when
started with an empty cache; when the arrays of the probability map have the current chunk
size, so has the array returned. The loops that clear the flags at
a chunk boundary leave such a cache. -/
theorem stale_entries_never_read (chunksize k : Nat) (itp : VectorMap) (b : Bdd)
    (cP cB : VectorCache) (hP : AllInvalid cP) (hB : AllInvalid cB) :
    ((recursiveProbabilities chunksize itp b cP = none ∧
        recursiveProbabilities chunksize itp b emptyVectorCache = none) ∨
      ∃ d d0, recursiveProbabilities chunksize itp b cP = some (b.GetBDD, d) ∧
        recursiveProbabilities chunksize itp b emptyVectorCache = some (b.GetBDD, d0) ∧
        slotValues d b.GetBDD = slotValues d0 b.GetBDD) ∧
    ((recursiveBirnbaumFactors chunksize k itp b cP cB = none ∧
        recursiveBirnbaumFactors chunksize k itp b emptyVectorCache emptyVectorCache = none) ∨
      ∃ dP dB dP0 dB0,
        recursiveBirnbaumFactors chunksize k itp b cP cB = some (b.GetBDD, dP, dB) ∧
        recursiveBirnbaumFactors chunksize k itp b emptyVectorCache emptyVectorCache
          = some (b.GetBDD, dP0, dB0) ∧
        slotValues dB b.GetBDD = slotValues dB0 b.GetBDD) ∧
    ((∀ v a, itp v = some a → a.length = chunksize) →
      (∀ key d, recursiveProbabilities chunksize itp b cP = some (key, d) →
        (slotValues d key).length = chunksize) ∧
      (∀ key dP dB, recursiveBirnbaumFactors chunksize k itp b cP cB = some (key, dP, dB) →
        (slotValues dB key).length = chunksize)) ∧
    (∀ c, AllInvalid (invalidate c)) := by
  have hagP := agreeOnValid_of_allInvalid cP hP
  have hagB := agreeOnValid_of_allInvalid cB hB
  refine ⟨?_, ?_, ?_, allInvalid_invalidate⟩
  · rcases recursiveProbabilities_simulation chunksize itp b cP emptyVectorCache hagP with
      h | ⟨d, d0, h1, h2, hslot, _⟩
    · exact Or.inl h
    · exact Or.inr ⟨d, d0, h1, h2, slotValues_congr d d0 _ hslot⟩
  · rcases recursiveBirnbaumFactors_simulation chunksize k itp b cP emptyVectorCache cB
        emptyVectorCache hagP hagB with h | ⟨dP, dP0, dB, dB0, h1, h2, hslot, _, _⟩
    · exact Or.inl h
    · exact Or.inr ⟨dP, dB, dP0, dB0, h1, h2, slotValues_congr dB dB0 _ hslot⟩
  · intro hitp
    refine ⟨fun key d h => ?_, fun key dP dB h => ?_⟩
    · exact slotValues_length_of_entry chunksize d key
        (recursiveProbabilities_length chunksize itp hitp b cP key d
          (validLength_of_allInvalid chunksize cP hP) h).2.1
    · exact slotValues_length_of_entry chunksize dB key
        (recursiveBirnbaumFactors_length chunksize k itp hitp b cP cB key dP dB
          (validLength_of_allInvalid chunksize cP hP)
          (validLength_of_allInvalid chunksize cB hB) h).2.1

theorem exStaleCache_allInvalid : AllInvalid exStaleCache := by
  intro key a h
  unfold exStaleCache at h
  split at h
  · cases h
  · split at h
    · cases h
    · cases h

theorem stale_entries_never_read_witness :
    (∃ d, recursiveProbabilities 2 exVectorMap exAnd exStaleCache = some (10, d) ∧
      slotValues d 10 = [1 / 6, 1 / 2]) ∧
    (∃ dP dB, recursiveBirnbaumFactors 2 1 exVectorMap exAnd exStaleCache exStaleCache
        = some (10, dP, dB) ∧ slotValues dB 10 = [1 / 2, 1]) ∧
    ((recursiveProbabilities 2 exVectorMap exAnd exStaleCache = none ∧
        recursiveProbabilities 2 exVectorMap exAnd emptyVectorCache = none) ∨
      ∃ d d0, recursiveProbabilities 2 exVectorMap exAnd exStaleCache
          = some (exAnd.GetBDD, d) ∧
        recursiveProbabilities 2 exVectorMap exAnd emptyVectorCache
          = some (exAnd.GetBDD, d0) ∧
        slotValues d exAnd.GetBDD = slotValues d0 exAnd.GetBDD) ∧
    ((recursiveBirnbaumFactors 2 1 exVectorMap exAnd exStaleCache exStaleCache = none ∧
        recursiveBirnbaumFactors 2 1 exVectorMap exAnd emptyVectorCache emptyVectorCache
          = none) ∨
      ∃ dP dB dP0 dB0,
        recursiveBirnbaumFactors 2 1 exVectorMap exAnd exStaleCache exStaleCache
          = some (exAnd.GetBDD, dP, dB) ∧
        recursiveBirnbaumFactors 2 1 exVectorMap exAnd emptyVectorCache emptyVectorCache
          = some (exAnd.GetBDD, dP0, dB0) ∧
        slotValues dB exAnd.GetBDD = slotValues dB0 exAnd.GetBDD) ∧
    ((∀ v a, exVectorMap v = some a → a.length = 2) →
      (∀ key d, recursiveProbabilities 2 exVectorMap exAnd exStaleCache = some (key, d) →
        (slotValues d key).length = 2) ∧
      (∀ key dP dB, recursiveBirnbaumFactors 2 1 exVectorMap exAnd exStaleCache exStaleCache
          = some (key, dP, dB) →
        (slotValues dB key).length = 2)) ∧
    (∀ c, AllInvalid (invalidate c)) :=
  ⟨⟨_, rfl, by
      simp [slotValues, Function.update, iteArray, exVectorMap, touch, exStaleCache]
      norm_num⟩,
    ⟨_, _, rfl, by
      simp [slotValues, Function.update, iteArray, exVectorMap, touch, exStaleCache]⟩,
    stale_entries_never_read 2 1 exVectorMap exAnd exStaleCache exStaleCache
      exStaleCache_allInvalid exStaleCache_allInvalid⟩


namespace DftNextStateGenerator

variable {σ ρ : Type}

theorem markovian_addProbability (c : Choice) (state : Nat) (value : ℚ) :
    (c.addProbability state value).markovian = c.markovian := rfl

theorem markovian_movedFrom (c : Choice) : c.movedFrom.markovian = c.markovian := rfl

/-- An iteration keeps the flag of the choice variable and adds only choices with that
flag. -/
theorem expandStep_markovian (gen : DftNextStateGenerator σ) (fuel : Nat)
    (cb : σ → ρ → Nat × ρ) (S : σ) (hd : Bool) (i : Nat) (c c1 : Choice)
    (b b1 : StateBehavior) (r r1 : ρ)
    (h : expandStep gen fuel cb S hd i (c, b, r) = .ok (c1, b1, r1)) :
    c1.markovian = c.markovian ∧
    ∀ x ∈ b1.choices, x ∈ b.choices ∨ x.markovian = c.markovian := by
  cases hs : successorState gen fuel S hd i with
  | error e => simp [expandStep, hs] at h
  | ok o =>
    cases o with
    | none =>
      simp only [expandStep, hs, Except.ok.injEq, Prod.mk.injEq] at h
      obtain ⟨rfl, rfl, _⟩ := h
      exact ⟨rfl, fun x hx => Or.inl hx⟩
    | some succ =>
      cases hd with
      | true =>
        by_cases hp : gen.mDft.dependencyProbability (gen.mDft.getDependencyId S i) = 1
        · simp only [expandStep, hs, if_true, hp, ne_eq, not_true_eq_false, if_false,
            Except.ok.injEq, Prod.mk.injEq] at h
          obtain ⟨rfl, rfl, _⟩ := h
          refine ⟨rfl, fun x hx => ?_⟩
          simp only [StateBehavior.addChoice, List.mem_append, List.mem_singleton] at hx
          rcases hx with hx | hx
          · exact Or.inl hx
          · exact Or.inr (by rw [hx]; rfl)
        · simp only [expandStep, hs, if_true, hp, ne_eq, not_false_eq_true,
            Except.ok.injEq, Prod.mk.injEq] at h
          obtain ⟨rfl, rfl, _⟩ := h
          refine ⟨rfl, fun x hx => ?_⟩
          simp only [StateBehavior.addChoice, List.mem_append, List.mem_singleton] at hx
          rcases hx with hx | hx
          · exact Or.inl hx
          · exact Or.inr (by rw [hx]; rfl)
      | false =>
        by_cases hrate : selectedRate gen S succ.nextBE = 0
        · simp only [expandStep, hs, rate_eq_selectedRate, hrate, if_true] at h
          cases h
        · rw [expandStep_modeB gen fuel cb S i _ succ hs hrate] at h
          simp only [Except.ok.injEq, Prod.mk.injEq] at h
          obtain ⟨rfl, rfl, _⟩ := h
          exact ⟨rfl, fun x hx => Or.inl hx⟩

theorem expandLoop_markovian (gen : DftNextStateGenerator σ) (fuel : Nat)
    (cb : σ → ρ → Nat × ρ) (S : σ) (hd : Bool) :
    ∀ (n k : Nat) (c c1 : Choice) (b b1 : StateBehavior) (r r1 : ρ),
      expandLoop gen fuel cb S hd n k (c, b, r) = .ok (c1, b1, r1) →
      c1.markovian = c.markovian ∧
      ∀ x ∈ b1.choices, x ∈ b.choices ∨ x.markovian = c.markovian := by
  intro n
  induction n with
  | zero =>
    intro k c c1 b b1 r r1 h
    simp only [expandLoop, Except.ok.injEq, Prod.mk.injEq] at h
    obtain ⟨rfl, rfl, _⟩ := h
    exact ⟨rfl, fun x hx => Or.inl hx⟩
  | succ n ih =>
    intro k c c1 b b1 r r1 h
    cases hstep : expandStep gen fuel cb S hd k (c, b, r) with
    | error e => simp [expandLoop, hstep] at h
    | ok acc =>
      obtain ⟨c2, b2, r2⟩ := acc
      simp only [expandLoop, hstep] at h
      obtain ⟨hm2, hb2⟩ := expandStep_markovian gen fuel cb S hd k c c2 b b2 r r2 hstep
      obtain ⟨hm1, hb1⟩ := ih (k + 1) c2 c1 b2 b1 r2 r1 h
      refine ⟨hm1.trans hm2, fun x hx => ?_⟩
      rcases hb1 x hx with hx2 | hx2
      · exact hb2 x hx2
      · exact Or.inr (hx2.trans hm2)

/-- C36: every choice `expand` emits carries the flag of the mode of the loaded state: the
choice of mode B (weights are rates) is markovian, the choices of mode D (weights are
probabilities) are not, and the self-loop of an absorbing state is markovian if and only if
the loaded state has no failable dependency. -/
theorem expand_markovian (gen : DftNextStateGenerator σ) (fuel : Nat)
    (stateToIdCallback : σ → ρ → Nat × ρ) (currentState : σ) (registry registry1 : ρ)
    (behavior : StateBehavior) (hstate : gen.state = some currentState)
    (h : expand gen fuel stateToIdCallback registry = .ok (behavior, registry1)) :
    (∀ choice ∈ behavior.choices,
      choice.markovian = !decide (gen.mDft.nrFailableDependencies currentState > 0)) ∧
    (gen.mDft.nrFailableDependencies currentState = 0 →
      ∀ choice ∈ behavior.choices, choice.markovian = true) ∧
    (gen.mDft.nrFailableDependencies currentState > 0 →
      ∀ choice ∈ behavior.choices, choice.markovian = false) := by
  have key : ∀ choice ∈ behavior.choices,
      choice.markovian = !decide (gen.mDft.nrFailableDependencies currentState > 0) := by
    unfold expand at h
    simp only [hstate] at h
    by_cases habs : (gen.mDft.hasFailed currentState || gen.mDft.isFailsafe currentState
        || gen.mDft.nrFailableBEs currentState == 0) = true
    · simp only [habs, if_true, Except.ok.injEq, Prod.mk.injEq] at h
      obtain ⟨rfl, _⟩ := h
      intro choice hc
      simp only [StateBehavior.setExpanded, StateBehavior.addChoice, StateBehavior.new,
        List.nil_append, List.mem_singleton] at hc
      rw [hc]
      rfl
    · simp only [habs, Bool.false_eq_true, if_false] at h
      cases h1 : expandLoop gen fuel stateToIdCallback currentState
          (decide (gen.mDft.nrFailableDependencies currentState > 0))
          (if decide (gen.mDft.nrFailableDependencies currentState > 0) = true then
            gen.mDft.nrFailableDependencies currentState
            else gen.mDft.nrFailableBEs currentState)
          0 (Choice.new 0 (!decide (gen.mDft.nrFailableDependencies currentState > 0)),
            StateBehavior.new, registry) with
      | error e =>
        rw [h1] at h
        cases h
      | ok x =>
        obtain ⟨c1, b1, r1a⟩ := x
        rw [h1] at h
        obtain ⟨hm, hb⟩ := expandLoop_markovian gen fuel stateToIdCallback currentState _ _ _
          _ _ _ _ _ _ h1
        have hflag : c1.markovian
            = !decide (gen.mDft.nrFailableDependencies currentState > 0) := hm
        have hchoices : ∀ x ∈ b1.choices,
            x.markovian = !decide (gen.mDft.nrFailableDependencies currentState > 0) := by
          intro x hx
          rcases hb x hx with hx0 | hx0
          · simp [StateBehavior.new] at hx0
          · exact hx0
        intro choice hc
        by_cases hdep : decide (gen.mDft.nrFailableDependencies currentState > 0) = true
        · simp only [hdep, Bool.not_true, Bool.false_eq_true, if_false, Except.ok.injEq,
            Prod.mk.injEq] at h
          obtain ⟨rfl, _⟩ := h
          rw [hdep] at hchoices
          rw [hdep]
          exact hchoices choice hc
        · have hdep0 : decide (gen.mDft.nrFailableDependencies currentState > 0) = false := by
            cases hx : decide (gen.mDft.nrFailableDependencies currentState > 0) with
            | false => rfl
            | true => exact absurd hx hdep
          simp only [hdep0, Bool.not_false, if_true, Except.ok.injEq, Prod.mk.injEq] at h
          obtain ⟨rfl, _⟩ := h
          simp only [StateBehavior.setExpanded, StateBehavior.addChoice, List.mem_append,
            List.mem_singleton] at hc
          rw [hdep0] at hchoices hflag
          rw [hdep0]
          rcases hc with hc | hc
          · exact hchoices choice hc
          · rw [hc]
            exact hflag
  refine ⟨key, fun h0 choice hc => ?_, fun hpos choice hc => ?_⟩
  · rw [key choice hc, h0]
    rfl
  · rw [key choice hc]
    simp [hpos]

theorem expand_markovian_witness :
    expand (exGenerator.load exInitial) 10 exRegister []
      = .ok ((StateBehavior.new.addChoice
            (((Choice.new 0 true).addProbability 0 3).addProbability 1 4)).setExpanded,
          [ExState.mk 0 [0] [4] false, ExState.mk 0 [5] [] false]) ∧
    ((∀ choice ∈ ((StateBehavior.new.addChoice
          (((Choice.new 0 true).addProbability 0 3).addProbability 1 4)).setExpanded).choices,
      choice.markovian = !decide (exDft.nrFailableDependencies exInitial > 0)) ∧
    (exDft.nrFailableDependencies exInitial = 0 →
      ∀ choice ∈ ((StateBehavior.new.addChoice
          (((Choice.new 0 true).addProbability 0 3).addProbability 1 4)).setExpanded).choices,
        choice.markovian = true) ∧
    (exDft.nrFailableDependencies exInitial > 0 →
      ∀ choice ∈ ((StateBehavior.new.addChoice
          (((Choice.new 0 true).addProbability 0 3).addProbability 1 4)).setExpanded).choices,
        choice.markovian = false)) :=
  ⟨rfl, expand_markovian (exGenerator.load exInitial) 10 exRegister exInitial []
    [ExState.mk 0 [0] [4] false, ExState.mk 0 [5] [] false]
    ((StateBehavior.new.addChoice
      (((Choice.new 0 true).addProbability 0 3).addProbability 1 4)).setExpanded) rfl rfl⟩

end DftNextStateGenerator

namespace DftNextStateGenerator

variable {σ ρ : Type}

/-- C38: `createMergeFailedState` passes to the register callback the state
`getInitialStates` passes to it, the fresh state `DFTState(mDft, mStateGenerationInfo, 0)`:
the two runs record the same state; for a callback that keeps its ids (deduplicates by
equality of states) the merged-failed id is the id of the initial state; and in a fault tree
whose fresh state has no failed element the top-level element has not failed in the merged
failed state. -/
theorem merged_state_is_initial_state (gen : DftNextStateGenerator σ)
    (stateToIdCallback : σ → ρ → Nat × ρ) (Known : ρ → σ → Nat → Prop)
    (laws : RegistryLaws stateToIdCallback Known) (registry : ρ)
    (hmerge : gen.mergeFailedStates = true)
    (hfresh : ∀ element, gen.mDft.stateHasFailed (gen.mDft.makeState 0) element = false) :
    ∃ state id registry1,
      getInitialStates gen (recording stateToIdCallback) (registry, [])
        = ([id], gen.mDft.setId state id, (registry1, [(state, id)])) ∧
      ∀ later, RegistryExtends Known registry1 later →
        ∃ behavior gen1 registry2,
          createMergeFailedState gen (recording stateToIdCallback) (later, [])
            = .ok (behavior, gen1, (registry2, [(state, id)])) ∧
          gen1.mergeFailedStateId = id ∧
          gen.mDft.stateHasFailed state gen.mDft.getTopLevelIndex = false ∧
          behavior.choices.map (fun c => c.distribution) = [[(id, 1)]] := by
  refine ⟨gen.mDft.makeState 0, (stateToIdCallback (gen.mDft.makeState 0) registry).1,
    (stateToIdCallback (gen.mDft.makeState 0) registry).2, rfl, ?_⟩
  intro later hlater
  have hknown := hlater _ _ (laws.registers (gen.mDft.makeState 0) registry)
  have hid : (stateToIdCallback (gen.mDft.makeState 0) later).1
      = (stateToIdCallback (gen.mDft.makeState 0) registry).1 := laws.answers _ _ _ hknown
  refine ⟨(StateBehavior.new.addChoice ((Choice.new 0 true).addProbability
      (stateToIdCallback (gen.mDft.makeState 0) registry).1 1)).setExpanded,
    { gen with mergeFailedStateId := (stateToIdCallback (gen.mDft.makeState 0) registry).1 },
    (stateToIdCallback (gen.mDft.makeState 0) later).2, ?_, rfl,
    hfresh gen.mDft.getTopLevelIndex, rfl⟩
  simp only [createMergeFailedState, hmerge, Bool.not_true, Bool.false_eq_true, if_false,
    recording, hid, List.nil_append]

theorem merged_state_is_initial_state_witness :
    ∃ state id registry1,
      getInitialStates exMergingGenerator (recording exRegister) ([], [])
        = ([id], exDft.setId state id, (registry1, [(state, id)])) ∧
      ∀ later, RegistryExtends exKnown registry1 later →
        ∃ behavior gen1 registry2,
          createMergeFailedState exMergingGenerator (recording exRegister) (later, [])
            = .ok (behavior, gen1, (registry2, [(state, id)])) ∧
          gen1.mergeFailedStateId = id ∧
          exDft.stateHasFailed state exDft.getTopLevelIndex = false ∧
          behavior.choices.map (fun c => c.distribution) = [[(id, 1)]] :=
  merged_state_is_initial_state exMergingGenerator exRegister exKnown exRegister_laws []
    rfl (fun _ => rfl)

end DftNextStateGenerator

namespace StateHeap

variable {σ : Type}

theorem cells_assign_same (heap : StateHeap σ) (p : Nat) (v : σ) :
    (heap.assign p v).cells p = v := by
  simp [assign]

theorem cells_assign_ne (heap : StateHeap σ) (p a : Nat) (v : σ) (h : a ≠ p) :
    (heap.assign p v).cells a = heap.cells a := by
  simp [assign, Function.update_noteq h]

theorem next_assign (heap : StateHeap σ) (p : Nat) (v : σ) :
    (heap.assign p v).next = heap.next := rfl

theorem assign_assign (heap : StateHeap σ) (p : Nat) (v w : σ) :
    (heap.assign p v).assign p w = heap.assign p w := by
  simp [assign]

theorem assign_self (heap : StateHeap σ) (p : Nat) : heap.assign p (heap.cells p) = heap := by
  cases heap
  simp [assign]

theorem frame_refl (heap : StateHeap σ) : Frame heap heap :=
  ⟨le_refl _, fun _ _ => rfl⟩

theorem frame_trans (h1 h2 h3 : StateHeap σ) (h12 : Frame h1 h2) (h23 : Frame h2 h3) :
    Frame h1 h3 :=
  ⟨le_trans h12.1 h23.1, fun a ha => by
    rw [h23.2 a (lt_of_lt_of_le ha h12.1), h12.2 a ha]⟩

/-- Allocating a copy and changing the copy leaves every object of the heap as it was. -/
theorem frame_makeShared_assign (heap : StateHeap σ) (v w : σ) :
    Frame heap ((heap.makeShared v).2.assign heap.next w) := by
  refine ⟨by simp [makeShared, assign], fun a ha => ?_⟩
  have hne : a ≠ heap.next := by omega
  simp [makeShared, assign, Function.update_noteq hne]

theorem frame_makeShared (heap : StateHeap σ) (v : σ) : Frame heap (heap.makeShared v).2 := by
  refine ⟨by simp [makeShared], fun a ha => ?_⟩
  have hne : a ≠ heap.next := by omega
  simp [makeShared, Function.update_noteq hne]

theorem makeShared_assign (heap : StateHeap σ) (v w : σ) :
    ((heap.makeShared v).2.assign heap.next w).cells heap.next = w := by
  simp [makeShared, assign]

end StateHeap

namespace DftNextStateGenerator

variable {σ ρ : Type}

theorem drainFailurePropagationOnHeap_eq (dft : Dft σ) (p : Nat) :
    ∀ (fuel : Nat) (heap : StateHeap σ) (q : Queues),
      drainFailurePropagationOnHeap dft p fuel heap q
        = (drainFailurePropagation dft fuel (heap.cells p) q).map
            (fun x => (heap.assign p x.1, x.2)) := by
  intro fuel
  induction fuel with
  | zero =>
    intro heap q
    by_cases hq : q.failurePropagationDone = true
    · simp [drainFailurePropagationOnHeap, drainFailurePropagation, hq,
        StateHeap.assign_self]
    · simp [drainFailurePropagationOnHeap, drainFailurePropagation, hq]
  | succ fuel ih =>
    intro heap q
    cases hn : q.nextFailurePropagation with
    | none =>
      simp [drainFailurePropagationOnHeap, drainFailurePropagation, hn,
        StateHeap.assign_self]
    | some r =>
      obtain ⟨next, q1⟩ := r
      simp only [drainFailurePropagationOnHeap, drainFailurePropagation, hn]
      rw [ih]
      simp only [StateHeap.cells_assign_same, StateHeap.assign_assign]

theorem drainRestrictionChecksOnHeap_eq (dft : Dft σ) (p : Nat) :
    ∀ (fuel : Nat) (heap : StateHeap σ) (q : Queues),
      drainRestrictionChecksOnHeap dft p fuel heap q
        = (drainRestrictionChecks dft fuel (heap.cells p) q).map
            (fun x => (heap.assign p x.1, x.2)) := by
  intro fuel
  induction fuel with
  | zero =>
    intro heap q
    by_cases hq : q.restrictionChecksDone = true
    · simp [drainRestrictionChecksOnHeap, drainRestrictionChecks, hq,
        StateHeap.assign_self]
    · simp [drainRestrictionChecksOnHeap, drainRestrictionChecks, hq]
  | succ fuel ih =>
    intro heap q
    cases hn : q.nextRestrictionCheck with
    | none =>
      simp [drainRestrictionChecksOnHeap, drainRestrictionChecks, hn,
        StateHeap.assign_self]
    | some r =>
      obtain ⟨next, q1⟩ := r
      simp only [drainRestrictionChecksOnHeap, drainRestrictionChecks, hn]
      rw [ih]
      simp only [StateHeap.cells_assign_same, StateHeap.assign_assign]

theorem drainFailsafePropagationOnHeap_eq (dft : Dft σ) (p : Nat) :
    ∀ (fuel : Nat) (heap : StateHeap σ) (q : Queues),
      drainFailsafePropagationOnHeap dft p fuel heap q
        = (drainFailsafePropagation dft fuel (heap.cells p) q).map
            (fun x => (heap.assign p x.1, x.2)) := by
  intro fuel
  induction fuel with
  | zero =>
    intro heap q
    by_cases hq : q.failsafePropagationDone = true
    · simp [drainFailsafePropagationOnHeap, drainFailsafePropagation, hq,
        StateHeap.assign_self]
    · simp [drainFailsafePropagationOnHeap, drainFailsafePropagation, hq]
  | succ fuel ih =>
    intro heap q
    cases hn : q.nextFailsafePropagation with
    | none =>
      simp [drainFailsafePropagationOnHeap, drainFailsafePropagation, hn,
        StateHeap.assign_self]
    | some r =>
      obtain ⟨next, q1⟩ := r
      simp only [drainFailsafePropagationOnHeap, drainFailsafePropagation, hn]
      rw [ih]
      simp only [StateHeap.cells_assign_same, StateHeap.assign_assign]

theorem drainDontCarePropagationOnHeap_eq (dft : Dft σ) (enableDC : Bool) (p : Nat) :
    ∀ (fuel : Nat) (heap : StateHeap σ) (q : Queues),
      drainDontCarePropagationOnHeap dft enableDC p fuel heap q
        = (drainDontCarePropagation dft enableDC fuel (heap.cells p) q).map
            (fun x => (heap.assign p x.1, x.2)) := by
  intro fuel
  induction fuel with
  | zero =>
    intro heap q
    by_cases hq : (enableDC && !q.dontCarePropagationDone) = true
    · simp [drainDontCarePropagationOnHeap, drainDontCarePropagation, hq]
    · simp [drainDontCarePropagationOnHeap, drainDontCarePropagation, hq,
        StateHeap.assign_self]
  | succ fuel ih =>
    intro heap q
    cases enableDC with
    | false =>
      simp [drainDontCarePropagationOnHeap, drainDontCarePropagation, StateHeap.assign_self]
    | true =>
      cases hn : q.nextDontCarePropagation with
      | none =>
        simp [drainDontCarePropagationOnHeap, drainDontCarePropagation, hn,
          StateHeap.assign_self]
      | some r =>
        obtain ⟨next, q1⟩ := r
        simp only [drainDontCarePropagationOnHeap, drainDontCarePropagation, hn, if_true]
        rw [ih]
        simp only [StateHeap.cells_assign_same, StateHeap.assign_assign]

end DftNextStateGenerator

namespace DftNextStateGenerator

variable {σ ρ : Type}

theorem makeShared_cells_next (heap : StateHeap σ) (v : σ) :
    (heap.makeShared v).2.cells (heap.makeShared v).1 = v := by
  simp [StateHeap.makeShared]

theorem makeShared_fst (heap : StateHeap σ) (v : σ) : (heap.makeShared v).1 = heap.next := rfl

theorem makeShared_cells_at_next (heap : StateHeap σ) (v : σ) :
    (heap.makeShared v).2.cells heap.next = v := by
  simp [StateHeap.makeShared]

/-- The propagation on the heap computes, in the fresh object, the state the propagation on
values computes; the other objects are not touched. -/
theorem failNextBEOnHeap_eq (gen : DftNextStateGenerator σ) (fuel : Nat) (cur : Nat)
    (heap : StateHeap σ) (hd : Bool) (i : Nat) :
    failNextBEOnHeap gen fuel cur heap hd i
      = match failNextBE gen fuel (heap.cells cur) hd i with
        | .error e => .error e
        | .ok x => .ok (heap.next,
            (heap.makeShared (heap.cells cur)).2.assign heap.next x.1, x.2.1, x.2.2) := by
  unfold failNextBEOnHeap failNextBE
  by_cases hf : gen.mDft.hasFailed (heap.cells cur) = true
  · simp [hf]
  · simp only [hf, Bool.false_eq_true, if_false, makeShared_fst, makeShared_cells_at_next]
    rcases hlet : gen.mDft.letNextBEFail (heap.cells cur) i with ⟨ns, obe, flag⟩
    cases obe with
    | none => rfl
    | some nextBE =>
      simp only []
      by_cases hflag : (flag != hd) = true
      · simp [hflag]
      · simp only [hflag, Bool.false_eq_true, if_false, StateHeap.cells_assign_same]
        rw [drainFailurePropagationOnHeap_eq]
        simp only [StateHeap.cells_assign_same]
        cases drainFailurePropagation gen.mDft fuel ns
            (nextBE.parents.foldl
              (fun q parent =>
                if gen.mDft.isOperational ns parent then q.propagateFailure parent else q)
              Queues.empty) with
        | none => rfl
        | some r1 =>
          simp only [Option.map_some']
          rw [drainRestrictionChecksOnHeap_eq]
          simp only [StateHeap.cells_assign_same, StateHeap.assign_assign]
          cases drainRestrictionChecks gen.mDft fuel r1.1
              (nextBE.restrictions.foldl (fun q restr => q.checkRestrictionLater restr)
                r1.2) with
          | none => rfl
          | some r2 => rfl

/-- The successor on the heap: the same outcome as on values, the new state in the fresh
object, every other object untouched. -/
theorem successorStateOnHeap_spec (gen : DftNextStateGenerator σ) (fuel : Nat) (cur : Nat)
    (heap : StateHeap σ) (hd : Bool) (i : Nat) :
    (∀ e, successorState gen fuel (heap.cells cur) hd i = .error e →
      successorStateOnHeap gen fuel cur heap hd i = .error e) ∧
    (successorState gen fuel (heap.cells cur) hd i = .ok none →
      ∃ heap1, successorStateOnHeap gen fuel cur heap hd i = .ok (heap1, none) ∧
        StateHeap.Frame heap heap1) ∧
    (∀ succ, successorState gen fuel (heap.cells cur) hd i = .ok (some succ) →
      ∃ heap1, successorStateOnHeap gen fuel cur heap hd i
          = .ok (heap1, some (SuccessorOnHeap.mk succ.nextBE heap.next succ.merged)) ∧
        heap1.cells heap.next = succ.newState ∧ StateHeap.Frame heap heap1) := by
  unfold successorStateOnHeap successorState
  rw [failNextBEOnHeap_eq]
  cases hfail : failNextBE gen fuel (heap.cells cur) hd i with
  | error e =>
    refine ⟨fun e1 h => ?_, fun h => ?_, fun succ h => ?_⟩
    · simp only [Except.error.injEq] at h
      simp [h]
    · cases h
    · cases h
  | ok x =>
    obtain ⟨ns, q, be⟩ := x
    simp only [StateHeap.cells_assign_same]
    by_cases hinv : gen.mDft.isInvalid ns = true
    · simp only [hinv, if_true]
      refine ⟨fun e h => (by cases h), fun _ => ⟨_, rfl,
        StateHeap.frame_makeShared_assign heap _ _⟩, fun succ h => (by cases h)⟩
    · simp only [hinv, Bool.false_eq_true, if_false]
      by_cases hm : (gen.mDft.stateHasFailed ns gen.mDft.getTopLevelIndex
          && gen.mergeFailedStates) = true
      · simp only [hm, if_true]
        refine ⟨fun e h => (by cases h), fun h => (by cases h), fun succ h => ?_⟩
        simp only [Except.ok.injEq, Option.some.injEq] at h
        subst h
        exact ⟨_, rfl, StateHeap.cells_assign_same _ _ _,
          StateHeap.frame_makeShared_assign heap _ _⟩
      · simp only [hm, Bool.false_eq_true, if_false]
        rw [drainFailsafePropagationOnHeap_eq]
        simp only [StateHeap.cells_assign_same]
        cases drainFailsafePropagation gen.mDft fuel ns q with
        | none =>
          refine ⟨fun e h => ?_, fun h => (by cases h), fun succ h => (by cases h)⟩
          simp only [Except.error.injEq] at h
          simp [h]
        | some r1 =>
          simp only [Option.map_some']
          rw [drainDontCarePropagationOnHeap_eq]
          simp only [StateHeap.cells_assign_same, StateHeap.assign_assign]
          cases drainDontCarePropagation gen.mDft gen.enableDC fuel r1.1 r1.2 with
          | none =>
            refine ⟨fun e h => ?_, fun h => (by cases h), fun succ h => (by cases h)⟩
            simp only [Except.error.injEq] at h
            simp [h]
          | some r2 =>
            simp only [Option.map_some', StateHeap.cells_assign_same,
              StateHeap.assign_assign]
            refine ⟨fun e h => (by cases h), fun h => (by cases h), fun succ h => ?_⟩
            simp only [Except.ok.injEq, Option.some.injEq] at h
            subst h
            exact ⟨_, rfl, StateHeap.cells_assign_same _ _ _,
              StateHeap.frame_makeShared_assign heap _ _⟩

end DftNextStateGenerator

namespace DftNextStateGenerator

variable {σ ρ : Type}

/-- An iteration on the heap yields what the iteration on the value of the loaded object
yields, and leaves every object that existed before as it was. -/
theorem expandStepOnHeap_spec (gen : DftNextStateGenerator σ) (fuel : Nat)
    (cb : σ → ρ → Nat × ρ) (cur : Nat) (heap : StateHeap σ) (hcurlt : cur < heap.next)
    (hd : Bool) (i : Nat) (c : Choice) (b : StateBehavior) (r : ρ) :
    (∀ e, expandStep gen fuel cb (heap.cells cur) hd i (c, b, r) = .error e →
      expandStepOnHeap gen fuel cb cur hd i (c, b, heap, r) = .error e) ∧
    (∀ c1 b1 r1, expandStep gen fuel cb (heap.cells cur) hd i (c, b, r) = .ok (c1, b1, r1) →
      ∃ heap1, expandStepOnHeap gen fuel cb cur hd i (c, b, heap, r)
          = .ok (c1, b1, heap1, r1) ∧ StateHeap.Frame heap heap1) := by
  have hspec := successorStateOnHeap_spec gen fuel cur heap hd i
  cases hs : successorState gen fuel (heap.cells cur) hd i with
  | error e =>
    have hon := hspec.1 e hs
    refine ⟨fun e1 h => ?_, fun c1 b1 r1 h => ?_⟩
    · simp only [expandStep, hs, Except.error.injEq] at h
      subst h
      simp only [expandStepOnHeap, hon]
    · simp [expandStep, hs] at h
  | ok o =>
    cases o with
    | none =>
      obtain ⟨heap1, hon, hframe⟩ := hspec.2.1 hs
      refine ⟨fun e h => ?_, fun c1 b1 r1 h => ?_⟩
      · simp [expandStep, hs] at h
      · simp only [expandStep, hs, Except.ok.injEq, Prod.mk.injEq] at h
        obtain ⟨rfl, rfl, rfl⟩ := h
        exact ⟨heap1, by simp only [expandStepOnHeap, hon], hframe⟩
    | some succ =>
      obtain ⟨heap1, hon, hcell, hframe⟩ := hspec.2.2 succ hs
      have hcur : heap1.cells cur = heap.cells cur := hframe.2 cur hcurlt
      have hid : (if succ.merged = true then (gen.mergeFailedStateId, r)
          else cb (heap1.cells heap.next) r) = newStateId gen cb succ r := by
        rw [hcell]
        rfl
      cases hd with
      | true =>
        by_cases hp : gen.mDft.dependencyProbability
            (gen.mDft.getDependencyId (heap.cells cur) i) = 1
        · refine ⟨fun e h => ?_, fun c1 b1 r1 h => ?_⟩
          · simp [expandStep, hs, hp] at h
          · simp only [expandStep, hs, if_true, hp, ne_eq, not_true_eq_false, if_false,
              Except.ok.injEq, Prod.mk.injEq] at h
            obtain ⟨rfl, rfl, rfl⟩ := h
            refine ⟨heap1, ?_, hframe⟩
            simp only [expandStepOnHeap, hon, hcur, hid, if_true, hp, ne_eq,
              not_true_eq_false, if_false]
        · refine ⟨fun e h => ?_, fun c1 b1 r1 h => ?_⟩
          · simp [expandStep, hs, hp] at h
          · simp only [expandStep, hs, if_true, hp, ne_eq, not_false_eq_true,
              Except.ok.injEq, Prod.mk.injEq] at h
            obtain ⟨rfl, rfl, rfl⟩ := h
            refine ⟨(heap1.makeShared (heap.cells cur)).2.assign heap1.next
                (gen.mDft.letDependencyBeUnsuccessful (heap.cells cur) i), ?_,
              StateHeap.frame_trans heap heap1 _ hframe
                (StateHeap.frame_makeShared_assign heap1 _ _)⟩
            simp only [expandStepOnHeap, hon, hcur, hid, if_true, hp, ne_eq,
              not_false_eq_true, makeShared_fst, makeShared_cells_at_next,
              StateHeap.cells_assign_same]
      | false =>
        by_cases hrate : selectedRate gen (heap.cells cur) succ.nextBE = 0
        · refine ⟨fun e h => ?_, fun c1 b1 r1 h => ?_⟩
          · simp only [expandStep, hs, rate_eq_selectedRate, hrate, if_true,
              Bool.false_eq_true, if_false, Except.error.injEq] at h
            subst h
            simp only [expandStepOnHeap, hon, hcur, hid, Bool.false_eq_true, if_false,
              rate_eq_selectedRate, hrate, if_true]
          · simp only [expandStep, hs, rate_eq_selectedRate, hrate, if_true,
              Bool.false_eq_true, if_false] at h
            cases h
        · refine ⟨fun e h => ?_, fun c1 b1 r1 h => ?_⟩
          · rw [expandStep_modeB gen fuel cb (heap.cells cur) i _ succ hs hrate] at h
            cases h
          · rw [expandStep_modeB gen fuel cb (heap.cells cur) i _ succ hs hrate] at h
            simp only [Except.ok.injEq, Prod.mk.injEq] at h
            obtain ⟨rfl, rfl, rfl⟩ := h
            refine ⟨heap1, ?_, hframe⟩
            simp only [expandStepOnHeap, hon, hcur, hid, Bool.false_eq_true, if_false,
              rate_eq_selectedRate, hrate]

end DftNextStateGenerator

namespace DftNextStateGenerator

variable {σ ρ : Type}

theorem expandLoopOnHeap_spec (gen : DftNextStateGenerator σ) (fuel : Nat)
    (cb : σ → ρ → Nat × ρ) (cur : Nat) (S : σ) (hd : Bool) :
    ∀ (n k : Nat) (c : Choice) (b : StateBehavior) (heap : StateHeap σ) (r : ρ),
      cur < heap.next → heap.cells cur = S →
      (∀ e, expandLoop gen fuel cb S hd n k (c, b, r) = .error e →
        expandLoopOnHeap gen fuel cb cur hd n k (c, b, heap, r) = .error e) ∧
      (∀ c1 b1 r1, expandLoop gen fuel cb S hd n k (c, b, r) = .ok (c1, b1, r1) →
        ∃ heap1, expandLoopOnHeap gen fuel cb cur hd n k (c, b, heap, r)
            = .ok (c1, b1, heap1, r1) ∧ StateHeap.Frame heap heap1) := by
  intro n
  induction n with
  | zero =>
    intro k c b heap r _ _
    refine ⟨fun e h => ?_, fun c1 b1 r1 h => ?_⟩
    · simp [expandLoop] at h
    · simp only [expandLoop, Except.ok.injEq, Prod.mk.injEq] at h
      obtain ⟨rfl, rfl, rfl⟩ := h
      exact ⟨heap, rfl, StateHeap.frame_refl heap⟩
  | succ n ih =>
    intro k c b heap r hlt hS
    obtain ⟨hse, hso⟩ := expandStepOnHeap_spec gen fuel cb cur heap hlt hd k c b r
    rw [hS] at hse hso
    cases hstep : expandStep gen fuel cb S hd k (c, b, r) with
    | error e0 =>
      have hon := hse e0 hstep
      refine ⟨fun e h => ?_, fun c1 b1 r1 h => ?_⟩
      · simp only [expandLoop, hstep, Except.error.injEq] at h
        subst h
        simp only [expandLoopOnHeap, hon]
      · simp [expandLoop, hstep] at h
    | ok acc =>
      obtain ⟨c2, b2, r2⟩ := acc
      obtain ⟨heap2, hon, hframe⟩ := hso c2 b2 r2 hstep
      have hlt2 : cur < heap2.next := lt_of_lt_of_le hlt hframe.1
      have hS2 : heap2.cells cur = S := by rw [hframe.2 cur hlt, hS]
      obtain ⟨hle, hlo⟩ := ih (k + 1) c2 b2 heap2 r2 hlt2 hS2
      refine ⟨fun e h => ?_, fun c1 b1 r1 h => ?_⟩
      · simp only [expandLoop, hstep] at h
        simp only [expandLoopOnHeap, hon]
        exact hle e h
      · simp only [expandLoop, hstep] at h
        obtain ⟨heap1, hon1, hframe1⟩ := hlo c1 b1 r1 h
        refine ⟨heap1, ?_, StateHeap.frame_trans heap heap2 heap1 hframe hframe1⟩
        simp only [expandLoopOnHeap, hon]
        exact hon1

/-- The run of `expand` on the heap yields what `expand` yields for the value of the loaded
object, and leaves every object that existed before as it was. -/
theorem expandOnHeap_spec (gen : DftNextStateGenerator σ) (fuel : Nat)
    (cb : σ → ρ → Nat × ρ) (cur : Nat) (heap : StateHeap σ) (r : ρ)
    (hlt : cur < heap.next) :
    (∀ e, expand (gen.load (heap.cells cur)) fuel cb r = .error e →
      expandOnHeap gen fuel cb cur heap r = .error e) ∧
    (∀ b r1, expand (gen.load (heap.cells cur)) fuel cb r = .ok (b, r1) →
      ∃ heap1, expandOnHeap gen fuel cb cur heap r = .ok (b, heap1, r1) ∧
        StateHeap.Frame heap heap1) := by
  unfold expand expandOnHeap
  simp only [load]
  by_cases habs : (gen.mDft.hasFailed (heap.cells cur) || gen.mDft.isFailsafe (heap.cells cur)
      || gen.mDft.nrFailableBEs (heap.cells cur) == 0) = true
  · simp only [habs, if_true]
    refine ⟨fun e h => (by cases h), fun b r1 h => ?_⟩
    simp only [Except.ok.injEq, Prod.mk.injEq] at h
    obtain ⟨rfl, rfl⟩ := h
    exact ⟨heap, rfl, StateHeap.frame_refl heap⟩
  · simp only [habs, Bool.false_eq_true, if_false]
    have hloop := expandLoop_load gen (heap.cells cur) fuel cb (heap.cells cur)
      (decide (gen.mDft.nrFailableDependencies (heap.cells cur) > 0))
      (if decide (gen.mDft.nrFailableDependencies (heap.cells cur) > 0) = true then
        gen.mDft.nrFailableDependencies (heap.cells cur)
        else gen.mDft.nrFailableBEs (heap.cells cur)) 0
      (Choice.new 0 (!decide (gen.mDft.nrFailableDependencies (heap.cells cur) > 0)),
        StateBehavior.new, r)
    simp only [load] at hloop
    rw [hloop]
    obtain ⟨hle, hlo⟩ := expandLoopOnHeap_spec gen fuel cb cur (heap.cells cur)
      (decide (gen.mDft.nrFailableDependencies (heap.cells cur) > 0))
      (if decide (gen.mDft.nrFailableDependencies (heap.cells cur) > 0) = true then
        gen.mDft.nrFailableDependencies (heap.cells cur)
        else gen.mDft.nrFailableBEs (heap.cells cur)) 0
      (Choice.new 0 (!decide (gen.mDft.nrFailableDependencies (heap.cells cur) > 0)))
      StateBehavior.new heap r hlt rfl
    cases h1 : expandLoop gen fuel cb (heap.cells cur)
        (decide (gen.mDft.nrFailableDependencies (heap.cells cur) > 0))
        (if decide (gen.mDft.nrFailableDependencies (heap.cells cur) > 0) = true then
          gen.mDft.nrFailableDependencies (heap.cells cur)
          else gen.mDft.nrFailableBEs (heap.cells cur)) 0
        (Choice.new 0 (!decide (gen.mDft.nrFailableDependencies (heap.cells cur) > 0)),
          StateBehavior.new, r) with
    | error e0 =>
      have hon := hle e0 h1
      rw [hon]
      refine ⟨fun e h => ?_, fun b r1 h => (by cases h)⟩
      simp only [Except.error.injEq] at h
      subst h
      rfl
    | ok x =>
      obtain ⟨c1, b1, r1a⟩ := x
      obtain ⟨heap1, hon, hframe⟩ := hlo c1 b1 r1a h1
      rw [hon]
      simp only []
      by_cases hdep : decide (gen.mDft.nrFailableDependencies (heap.cells cur) > 0) = true
      · simp only [hdep, Bool.not_true, Bool.false_eq_true, if_false]
        refine ⟨fun e h => (by cases h), fun b r1 h => ?_⟩
        simp only [Except.ok.injEq, Prod.mk.injEq] at h
        obtain ⟨rfl, rfl⟩ := h
        exact ⟨heap1, rfl, hframe⟩
      · have hdep0 : decide (gen.mDft.nrFailableDependencies (heap.cells cur) > 0)
            = false := by
          cases hx : decide (gen.mDft.nrFailableDependencies (heap.cells cur) > 0) with
          | false => rfl
          | true => exact absurd hx hdep
        simp only [hdep0, Bool.not_false, if_true]
        refine ⟨fun e h => (by cases h), fun b r1 h => ?_⟩
        simp only [Except.ok.injEq, Prod.mk.injEq] at h
        obtain ⟨rfl, rfl⟩ := h
        exact ⟨heap1, rfl, hframe⟩

end DftNextStateGenerator

namespace DftNextStateGenerator

variable {σ ρ : Type}

/-- C37: `expand` never modifies the loaded state. With the `DFTState` objects on a heap,
where every `make_shared<DFTState>(*currentState)` allocates a copy and every member call
changes the object it is called on, a run of `expand` leaves the loaded object (and every
other object that existed before) equal to what it was, and returns the behaviour computed
from the value of the loaded object; every single iteration leaves the loaded object as it
was and computes its successor from the value of the loaded object, not from an earlier
candidate's successor. -/
theorem expand_preserves_loaded_state (gen : DftNextStateGenerator σ) (fuel : Nat)
    (stateToIdCallback : σ → ρ → Nat × ρ) (currentState : Nat) (heap : StateHeap σ)
    (registry : ρ) (hloaded : currentState < heap.next) :
    (∀ behavior heap1 registry1,
      expandOnHeap gen fuel stateToIdCallback currentState heap registry
        = .ok (behavior, heap1, registry1) →
      heap1.cells currentState = heap.cells currentState ∧
      (∀ a, a < heap.next → heap1.cells a = heap.cells a) ∧
      expand (gen.load (heap.cells currentState)) fuel stateToIdCallback registry
        = .ok (behavior, registry1)) ∧
    (∀ behavior registry1,
      expand (gen.load (heap.cells currentState)) fuel stateToIdCallback registry
        = .ok (behavior, registry1) →
      ∃ heap1, expandOnHeap gen fuel stateToIdCallback currentState heap registry
        = .ok (behavior, heap1, registry1)) ∧
    (∀ (hasDependencies : Bool) (currentFailable : Nat) (choice choice1 : Choice)
        (result result1 : StateBehavior) (heap1 : StateHeap σ) (registry1 : ρ),
      expandStepOnHeap gen fuel stateToIdCallback currentState hasDependencies
          currentFailable (choice, result, heap, registry)
        = .ok (choice1, result1, heap1, registry1) →
      heap1.cells currentState = heap.cells currentState ∧
      expandStep gen fuel stateToIdCallback (heap.cells currentState) hasDependencies
          currentFailable (choice, result, registry)
        = .ok (choice1, result1, registry1)) := by
  obtain ⟨herr, hok⟩ := expandOnHeap_spec gen fuel stateToIdCallback currentState heap
    registry hloaded
  refine ⟨?_, ?_, ?_⟩
  · intro behavior heap1 registry1 h
    cases hfun : expand (gen.load (heap.cells currentState)) fuel stateToIdCallback
        registry with
    | error e =>
      rw [herr e hfun] at h
      cases h
    | ok x =>
      obtain ⟨b0, r0⟩ := x
      obtain ⟨heap0, hon, hframe⟩ := hok b0 r0 hfun
      rw [hon] at h
      simp only [Except.ok.injEq, Prod.mk.injEq] at h
      obtain ⟨rfl, rfl, rfl⟩ := h
      exact ⟨hframe.2 currentState hloaded, hframe.2, rfl⟩
  · intro behavior registry1 h
    obtain ⟨heap1, hon, _⟩ := hok behavior registry1 h
    exact ⟨heap1, hon⟩
  · intro hd i c c1 b b1 heap1 r1 h
    obtain ⟨hse, hso⟩ := expandStepOnHeap_spec gen fuel stateToIdCallback currentState heap
      hloaded hd i c b registry
    cases hfun : expandStep gen fuel stateToIdCallback (heap.cells currentState) hd i
        (c, b, registry) with
    | error e =>
      rw [hse e hfun] at h
      cases h
    | ok x =>
      obtain ⟨c0, b0, r0⟩ := x
      obtain ⟨heap0, hon, hframe⟩ := hso c0 b0 r0 hfun
      rw [hon] at h
      simp only [Except.ok.injEq, Prod.mk.injEq] at h
      obtain ⟨rfl, rfl, rfl, rfl⟩ := h
      exact ⟨hframe.2 currentState hloaded, rfl⟩

theorem expand_preserves_loaded_state_witness :
    expand (exGenerator.load (exHeap.cells 0)) 10 exRegister []
      = .ok ((StateBehavior.new.addChoice
            (((Choice.new 0 true).addProbability 0 3).addProbability 1 4)).setExpanded,
          [ExState.mk 0 [0] [4] false, ExState.mk 0 [5] [] false]) ∧
    ((∀ behavior heap1 registry1,
      expandOnHeap exGenerator 10 exRegister 0 exHeap [] = .ok (behavior, heap1, registry1) →
      heap1.cells 0 = exHeap.cells 0 ∧
      (∀ a, a < exHeap.next → heap1.cells a = exHeap.cells a) ∧
      expand (exGenerator.load (exHeap.cells 0)) 10 exRegister []
        = .ok (behavior, registry1)) ∧
    (∀ behavior registry1,
      expand (exGenerator.load (exHeap.cells 0)) 10 exRegister [] = .ok (behavior, registry1) →
      ∃ heap1, expandOnHeap exGenerator 10 exRegister 0 exHeap []
        = .ok (behavior, heap1, registry1)) ∧
    (∀ (hasDependencies : Bool) (currentFailable : Nat) (choice choice1 : Choice)
        (result result1 : StateBehavior) (heap1 : StateHeap ExState)
        (registry1 : List ExState),
      expandStepOnHeap exGenerator 10 exRegister 0 hasDependencies currentFailable
          (choice, result, exHeap, []) = .ok (choice1, result1, heap1, registry1) →
      heap1.cells 0 = exHeap.cells 0 ∧
      expandStep exGenerator 10 exRegister (exHeap.cells 0) hasDependencies currentFailable
          (choice, result, []) = .ok (choice1, result1, registry1))) :=
  ⟨rfl, expand_preserves_loaded_state exGenerator 10 exRegister 0 exHeap [] (by decide)⟩

end DftNextStateGenerator

namespace Vector

/-- With `choiceIt` at the position of the row, the loop of a block is the loop of the
sequential branch. -/
theorem reduceVectorBlockLoop_eq {T : Type} (source : List T) (rowGrouping : List Nat)
    (filter : T → T → Bool) :
    ∀ (remaining row sourceIt : Nat) (target : List T) (choices : Option (List Nat)),
      reduceVectorBlockLoop source rowGrouping filter remaining row row sourceIt target choices
        = reduceVectorLoop source rowGrouping filter remaining row sourceIt target choices := by
  intro remaining
  induction remaining with
  | zero => intro row sourceIt target choices; rfl
  | succ n ih =>
    intro row sourceIt target choices
    simp only [reduceVectorBlockLoop, reduceVectorLoop, ih]

/-- When `tbb::parallel_for` runs the lambda on the one block of all rows, and the row
grouping starts at offset 0, the branch compiled with `STORM_HAVE_INTELTBB` computes what the
sequential branch computes. -/
theorem reduceVectorTbb_single_block {T : Type} (source target : List T)
    (rowGrouping : List Nat) (filter : T → T → Bool) (choices : Option (List Nat))
    (hstart : rowGrouping[0]? = some 0) :
    reduceVectorTbb source rowGrouping filter [(0, target.length)] target choices
      = reduceVector source target rowGrouping filter choices := by
  simp only [reduceVectorTbb, reduceVectorBlock, hstart, Nat.sub_zero,
    reduceVectorBlockLoop_eq, reduceVector]
  cases reduceVectorLoop source rowGrouping filter target.length 0 0 target choices with
  | none => rfl
  | some r => rfl

/-- C31 fails in the branch of `reduceVector` compiled with `STORM_HAVE_INTELTBB`. For the
source `[1, 2, 3, 0]` with the row groups `[1, 2]` and `[3, 0]`, a target of size 2 and the
choices `[7, 7]`, the sequential branch and the lambda run on the one block `[0, 2)` write the
minima `[1, 0]` and the offsets `[0, 1]` of the claim. When the rows are split into the
blocks `[0, 1)` and `[1, 2)`, the minima are still `[1, 0]`, but both blocks write their
offset to `choices[0]`, because `choiceIt` starts at `choices->begin()` in every block:
`choices[1]` keeps its old value 7 and `choices[0]` is the offset of the block that ran
last. -/
theorem reduceVector_tbb_choices :
    reduceVectorMin ([1, 2, 3, 0] : List Nat) [9, 9] [0, 2, 4] (some [7, 7])
      = some ([1, 0], some [0, 1]) ∧
    reduceVectorTbb ([1, 2, 3, 0] : List Nat) [0, 2, 4] (fun v1 v2 => decide (v1 < v2))
      [(0, 2)] [9, 9] (some [7, 7]) = some ([1, 0], some [0, 1]) ∧
    reduceVectorTbb ([1, 2, 3, 0] : List Nat) [0, 2, 4] (fun v1 v2 => decide (v1 < v2))
      [(0, 1), (1, 2)] [9, 9] (some [7, 7]) = some ([1, 0], some [1, 7]) ∧
    reduceVectorTbb ([1, 2, 3, 0] : List Nat) [0, 2, 4] (fun v1 v2 => decide (v1 < v2))
      [(1, 2), (0, 1)] [9, 9] (some [7, 7]) = some ([1, 0], some [0, 7]) ∧
    reduceVectorTbb ([1, 2, 3, 0] : List Nat) [0, 2, 4] (fun v1 v2 => decide (v1 > v2))
      [(0, 1), (1, 2)] [9, 9] (some [7, 7]) = some ([2, 3], some [0, 7]) := by
  refine ⟨?_, ?_, ?_, ?_, ?_⟩ <;> decide

end Vector

namespace DftNextStateGenerator

variable {σ ρ : Type}

theorem drains_pop_end {pop : Queues → Option (Nat × Queues)}
    {handle : Nat → σ → Queues → σ × Queues} {s : σ} {q : Queues}
    {log : List (Nat × Queues)} {s1 : σ} {q1 : Queues}
    (h : Drains pop handle s q log s1 q1) : pop q1 = none := by
  induction h with
  | done s q hpop => exact hpop
  | step s q next q1 log s2 q2 hpop hrest ih => exact ih

theorem drains_head_eq {pop : Queues → Option (Nat × Queues)}
    {handle : Nat → σ → Queues → σ × Queues} {s : σ} {q : Queues}
    {log : List (Nat × Queues)} {s1 : σ} {q1 : Queues}
    (h : Drains pop handle s q log s1 q1) : log.head? = pop q := by
  induction h with
  | done s q hpop => rw [hpop]; rfl
  | step s q next q1 log s2 q2 hpop hrest ih => rw [hpop]; rfl

/-- A loop of the shape of a drain that returns has drained the queue as the specification
words it, and has handled no more tasks than it was allowed iterations. -/
theorem isDrain_sound {loop : Nat → σ → Queues → Option (σ × Queues)}
    {pop : Queues → Option (Nat × Queues)} {handle : Nat → σ → Queues → σ × Queues}
    (hloop : IsDrain loop pop handle) :
    ∀ (fuel : Nat) (s : σ) (q : Queues) (s1 : σ) (q1 : Queues),
      loop fuel s q = some (s1, q1) →
      ∃ log, Drains pop handle s q log s1 q1 ∧ log.length ≤ fuel := by
  intro fuel
  induction fuel with
  | zero =>
    intro s q s1 q1 h
    cases hpop : pop q with
    | none =>
      rw [hloop.zero_done s q hpop] at h
      simp only [Option.some.injEq, Prod.mk.injEq] at h
      obtain ⟨rfl, rfl⟩ := h
      exact ⟨[], Drains.done s q hpop, le_refl _⟩
    | some task =>
      rw [hloop.zero_pending s q task hpop] at h
      cases h
  | succ n ih =>
    intro s q s1 q1 h
    cases hpop : pop q with
    | none =>
      rw [hloop.succ_done n s q hpop] at h
      simp only [Option.some.injEq, Prod.mk.injEq] at h
      obtain ⟨rfl, rfl⟩ := h
      exact ⟨[], Drains.done s q hpop, Nat.zero_le _⟩
    | some task =>
      obtain ⟨next, q0⟩ := task
      rw [hloop.succ_pending n s q next q0 hpop] at h
      obtain ⟨log, hlog, hlen⟩ := ih _ _ s1 q1 h
      exact ⟨(next, q0) :: log, Drains.step s q next q0 log s1 q1 hpop hlog,
        by simpa using hlen⟩

/-- A queue that the specification drains with `log.length` tasks is drained by a loop of the
shape of a drain that is allowed at least as many iterations. -/
theorem isDrain_complete {loop : Nat → σ → Queues → Option (σ × Queues)}
    {pop : Queues → Option (Nat × Queues)} {handle : Nat → σ → Queues → σ × Queues}
    (hloop : IsDrain loop pop handle) {s : σ} {q : Queues} {log : List (Nat × Queues)}
    {s1 : σ} {q1 : Queues} (h : Drains pop handle s q log s1 q1) :
    ∀ fuel, log.length ≤ fuel → loop fuel s q = some (s1, q1) := by
  induction h with
  | done s q hpop =>
    intro fuel _
    cases fuel with
    | zero => exact hloop.zero_done s q hpop
    | succ n => exact hloop.succ_done n s q hpop
  | step s q next q0 log s2 q2 hpop hrest ih =>
    intro fuel hfuel
    cases fuel with
    | zero => simp at hfuel
    | succ n =>
      rw [hloop.succ_pending n s q next q0 hpop]
      exact ih n (by simpa using hfuel)

/-- Draining with a handler that keeps a log next to the state: the state and the queues are
those of the handler without the log, and the log grows by the handled tasks. -/
theorem drains_logged {pop : Queues → Option (Nat × Queues)}
    (handle : Nat → σ → Queues → σ × Queues)
    {logging : Nat → σ × List CallEvent → Queues → (σ × List CallEvent) × Queues}
    (call : Call)
    (hlogging : ∀ next s l q, logging next (s, l) q
      = (((handle next s q).1, l ++ [{ call := call, element := next, queues := q }]),
          (handle next s q).2))
    {s : σ} {q : Queues} {log : List (Nat × Queues)} {s1 : σ} {q1 : Queues}
    (h : Drains pop handle s q log s1 q1) :
    ∀ l, Drains pop logging (s, l) q log (s1, l ++ events call log) q1 := by
  induction h with
  | done s q hpop =>
    intro l
    simpa [events] using @Drains.done _ pop logging (s, l) q hpop
  | step s q next q0 log s2 q2 hpop hrest ih =>
    intro l
    have h1 := ih (l ++ [{ call := call, element := next, queues := q0 }])
    have h2 : Drains pop logging (logging next (s, l) q0).1 (logging next (s, l) q0).2 log
        (s2, l ++ events call ((next, q0) :: log)) q2 := by
      rw [hlogging]
      simpa [events] using h1
    exact Drains.step (s, l) q next q0 log _ q2 hpop h2

theorem isDrain_failurePropagation (dft : Dft σ) :
    IsDrain (drainFailurePropagation dft) Queues.nextFailurePropagation
      (checkAndUpdate dft) where
  zero_done := by
    intro s q h
    cases hq : q.failurePropagation with
    | nil => simp [drainFailurePropagation, Queues.failurePropagationDone, hq]
    | cons a l => simp [Queues.nextFailurePropagation, hq] at h
  zero_pending := by
    intro s q task h
    cases hq : q.failurePropagation with
    | nil => simp [Queues.nextFailurePropagation, hq] at h
    | cons a l => simp [drainFailurePropagation, Queues.failurePropagationDone, hq]
  succ_done := by
    intro n s q h
    simp only [drainFailurePropagation, h]
  succ_pending := by
    intro n s q next q1 h
    simp only [drainFailurePropagation, h, checkAndUpdate]

theorem isDrain_restrictionChecks (dft : Dft σ) :
    IsDrain (drainRestrictionChecks dft) Queues.nextRestrictionCheck
      (checkAndUpdate dft) where
  zero_done := by
    intro s q h
    cases hq : q.restrictionCheck with
    | nil => simp [drainRestrictionChecks, Queues.restrictionChecksDone, hq]
    | cons a l => simp [Queues.nextRestrictionCheck, hq] at h
  zero_pending := by
    intro s q task h
    cases hq : q.restrictionCheck with
    | nil => simp [Queues.nextRestrictionCheck, hq] at h
    | cons a l => simp [drainRestrictionChecks, Queues.restrictionChecksDone, hq]
  succ_done := by
    intro n s q h
    simp only [drainRestrictionChecks, h]
  succ_pending := by
    intro n s q next q1 h
    simp only [drainRestrictionChecks, h, checkAndUpdate]

theorem isDrain_failsafePropagation (dft : Dft σ) :
    IsDrain (drainFailsafePropagation dft) Queues.nextFailsafePropagation
      dft.checkFailsafe where
  zero_done := by
    intro s q h
    cases hq : q.failsafePropagation with
    | nil => simp [drainFailsafePropagation, Queues.failsafePropagationDone, hq]
    | cons a l => simp [Queues.nextFailsafePropagation, hq] at h
  zero_pending := by
    intro s q task h
    cases hq : q.failsafePropagation with
    | nil => simp [Queues.nextFailsafePropagation, hq] at h
    | cons a l => simp [drainFailsafePropagation, Queues.failsafePropagationDone, hq]
  succ_done := by
    intro n s q h
    simp only [drainFailsafePropagation, h]
  succ_pending := by
    intro n s q next q1 h
    simp only [drainFailsafePropagation, h]

theorem isDrain_dontCarePropagation (dft : Dft σ) :
    IsDrain (drainDontCarePropagation dft true) Queues.nextDontCarePropagation
      dft.checkDontCareAnymore where
  zero_done := by
    intro s q h
    cases hq : q.dontCarePropagation with
    | nil => simp [drainDontCarePropagation, Queues.dontCarePropagationDone, hq]
    | cons a l => simp [Queues.nextDontCarePropagation, hq] at h
  zero_pending := by
    intro s q task h
    cases hq : q.dontCarePropagation with
    | nil => simp [Queues.nextDontCarePropagation, hq] at h
    | cons a l => simp [drainDontCarePropagation, Queues.dontCarePropagationDone, hq]
  succ_done := by
    intro n s q h
    simp only [drainDontCarePropagation, h, if_true]
  succ_pending := by
    intro n s q next q1 h
    simp only [drainDontCarePropagation, h, if_true]

theorem drainDontCarePropagation_disabled (dft : Dft σ) (fuel : Nat) (s : σ) (q : Queues) :
    drainDontCarePropagation dft false fuel s q = some (s, q) := by
  cases fuel <;> simp [drainDontCarePropagation]

end DftNextStateGenerator

namespace DftNextStateGenerator

variable {σ ρ : Type}

theorem foldl_propagateFailure_filter (operational : Nat → Bool) (l : List Nat) :
    ∀ q : Queues,
      l.foldl (fun q parent => if operational parent then q.propagateFailure parent else q) q
        = (l.filter operational).foldl Queues.propagateFailure q := by
  induction l with
  | nil => intro q; rfl
  | cons a rest ih =>
    intro q
    cases h : operational a
    · simp only [List.foldl_cons, h, Bool.false_eq_true, if_false, ih]
      rw [List.filter_cons_of_neg (by simp [h])]
    · simp only [List.foldl_cons, h, if_true, ih]
      rw [List.filter_cons_of_pos h]
      rfl

/-- The queues with which the failure propagation of `failNextBE` starts are the requests to
the operational parents of the failed basic element. -/
theorem parentRequests_eq (dft : Dft σ) (s : σ) (be : DFTBE) :
    be.parents.foldl
        (fun q parent => if dft.isOperational s parent then q.propagateFailure parent else q)
        Queues.empty
      = parentRequests dft s be :=
  foldl_propagateFailure_filter (fun parent => dft.isOperational s parent) be.parents _

/-- Lines 70-129 of `expand`, when they return, have propagated the failure of the candidate
as the specification words it. -/
theorem failNextBE_sound (gen : DftNextStateGenerator σ) (fuel : Nat) (s : σ) (hd : Bool)
    (i : Nat) (s2 : σ) (q2 : Queues) (be : DFTBE)
    (h : failNextBE gen fuel s hd i = .ok (s2, q2, be)) :
    ∃ A B, Propagates gen s hd i be A B s2 q2 ∧ A.length ≤ fuel ∧ B.length ≤ fuel := by
  unfold failNextBE at h
  cases hf : gen.mDft.hasFailed s with
  | true => simp [hf] at h
  | false =>
    simp only [hf, Bool.false_eq_true, if_false] at h
    rcases hlet : gen.mDft.letNextBEFail s i with ⟨s0, obe, flag⟩
    rw [hlet] at h
    cases obe with
    | none => simp at h
    | some nextBE =>
      simp only [] at h
      by_cases hflag : (flag != hd) = true
      · simp [hflag] at h
      · simp only [hflag, Bool.false_eq_true, if_false, parentRequests_eq] at h
        have hflag' : flag = hd := by
          cases flag <;> cases hd <;> simp_all
        cases h1 : drainFailurePropagation gen.mDft fuel s0
            (parentRequests gen.mDft s0 nextBE) with
        | none => simp [h1] at h
        | some r1 =>
          obtain ⟨s1, q1⟩ := r1
          simp only [h1] at h
          cases h2 : drainRestrictionChecks gen.mDft fuel s1
              (nextBE.restrictions.foldl (fun q restr => q.checkRestrictionLater restr)
                q1) with
          | none => simp [h2] at h
          | some r2 =>
            obtain ⟨s2', q2'⟩ := r2
            simp only [h2, Except.ok.injEq, Prod.mk.injEq] at h
            obtain ⟨rfl, rfl, rfl⟩ := h
            obtain ⟨A, hA, lA⟩ := isDrain_sound (isDrain_failurePropagation gen.mDft) fuel _ _ _ _ h1
            obtain ⟨B, hB, lB⟩ := isDrain_sound (isDrain_restrictionChecks gen.mDft) fuel _ _ _ _ h2
            exact ⟨A, B, ⟨hf, s0, s1, q1, by rw [hlet, hflag'], hA, hB⟩, lA, lB⟩

/-- A failure that the specification propagates with the tasks `A` and `B` is propagated by
lines 70-129 of `expand` when the loops are allowed that many iterations. -/
theorem failNextBE_complete (gen : DftNextStateGenerator σ) (s : σ) (hd : Bool) (i : Nat)
    (be : DFTBE) (A B : List (Nat × Queues)) (s2 : σ) (q2 : Queues)
    (h : Propagates gen s hd i be A B s2 q2) (fuel : Nat) (hA : A.length ≤ fuel)
    (hB : B.length ≤ fuel) :
    failNextBE gen fuel s hd i = .ok (s2, q2, be) := by
  obtain ⟨hf, s0, s1, q1, hlet, dA, dB⟩ := h
  have h1 := isDrain_complete (isDrain_failurePropagation gen.mDft) dA fuel hA
  have h2 := isDrain_complete (isDrain_restrictionChecks gen.mDft) dB fuel hB
  have h2' : drainRestrictionChecks gen.mDft fuel s1
      (be.restrictions.foldl (fun q restr => q.checkRestrictionLater restr) q1)
      = some (s2, q2) := h2
  unfold failNextBE
  simp only [hf, Bool.false_eq_true, if_false, hlet, bne_self_eq_false, parentRequests_eq,
    h1, h2']

theorem checkAndUpdate_traced (dft : Dft σ) (next : Nat) (s : σ) (l : List CallEvent)
    (q : Queues) :
    checkAndUpdate dft.traced next (s, l) q
      = (((checkAndUpdate dft next s q).1,
          l ++ [{ call := .checkFails, element := next, queues := q }]),
        (checkAndUpdate dft next s q).2) := rfl

/-- The propagation over the logging collaborators is the propagation without the log, and
the log grows by the `checkFails` calls on the tasks of the failure propagation followed by
those on the tasks of the restriction checks. -/
theorem propagates_traced {gen : DftNextStateGenerator σ} {s : σ} {hd : Bool} {i : Nat}
    {be : DFTBE} {A B : List (Nat × Queues)} {s2 : σ} {q2 : Queues}
    (h : Propagates gen s hd i be A B s2 q2) (l : List CallEvent) :
    Propagates gen.traced (s, l) hd i be A B
      (s2, l ++ events .checkFails A ++ events .checkFails B) q2 := by
  obtain ⟨hf, s0, s1, q1, hlet, dA, dB⟩ := h
  refine ⟨hf, (s0, l), (s1, l ++ events .checkFails A), q1, ?_, ?_, ?_⟩
  · show (((gen.mDft.letNextBEFail s i).1, l), (gen.mDft.letNextBEFail s i).2.1,
      (gen.mDft.letNextBEFail s i).2.2) = _
    rw [hlet]
  · exact drains_logged (checkAndUpdate gen.mDft) .checkFails (checkAndUpdate_traced gen.mDft) dA l
  · exact drains_logged (checkAndUpdate gen.mDft) .checkFails (checkAndUpdate_traced gen.mDft) dB _

end DftNextStateGenerator

namespace DftNextStateGenerator

variable {σ ρ : Type}

/-- The failsafe and the don't-care loop of `expand`, when they return, have run the two
propagations as the specification words it. -/
theorem settle_sound (gen : DftNextStateGenerator σ) (fuel : Nat) (s2 : σ) (q2 : Queues)
    (s3 s4 : σ) (q3 q4 : Queues)
    (h1 : drainFailsafePropagation gen.mDft fuel s2 q2 = some (s3, q3))
    (h2 : drainDontCarePropagation gen.mDft gen.enableDC fuel s3 q3 = some (s4, q4)) :
    ∃ C D, Settles gen s2 q2 C D s4 ∧ C.length ≤ fuel ∧ D.length ≤ fuel := by
  obtain ⟨C, hC, lC⟩ := isDrain_sound (isDrain_failsafePropagation gen.mDft) fuel _ _ _ _ h1
  cases hdc : gen.enableDC with
  | true =>
    rw [hdc] at h2
    obtain ⟨D, hD, lD⟩ := isDrain_sound (isDrain_dontCarePropagation gen.mDft) fuel _ _ _ _ h2
    exact ⟨C, D, ⟨s3, q3, hC, Or.inl ⟨hdc, q4, hD⟩⟩, lC, lD⟩
  | false =>
    rw [hdc, drainDontCarePropagation_disabled] at h2
    simp only [Option.some.injEq, Prod.mk.injEq] at h2
    exact ⟨C, [], ⟨s3, q3, hC, Or.inr ⟨hdc, rfl, h2.1.symm⟩⟩, lC, Nat.zero_le _⟩

/-- Propagations that the specification runs with the tasks `C` and `D` are run by the
failsafe and the don't-care loop of `expand` when they are allowed that many iterations. -/
theorem settle_complete (gen : DftNextStateGenerator σ) (s2 : σ) (q2 : Queues)
    (C D : List (Nat × Queues)) (s4 : σ) (h : Settles gen s2 q2 C D s4) (fuel : Nat)
    (hC : C.length ≤ fuel) (hD : D.length ≤ fuel) :
    ∃ s3 q3 q4, drainFailsafePropagation gen.mDft fuel s2 q2 = some (s3, q3) ∧
      drainDontCarePropagation gen.mDft gen.enableDC fuel s3 q3 = some (s4, q4) := by
  obtain ⟨s3, q3, dC, hdc⟩ := h
  have h1 := isDrain_complete (isDrain_failsafePropagation gen.mDft) dC fuel hC
  rcases hdc with ⟨hdc, q4, dD⟩ | ⟨hdc, _, rfl⟩
  · refine ⟨s3, q3, q4, h1, ?_⟩
    rw [hdc]
    exact isDrain_complete (isDrain_dontCarePropagation gen.mDft) dD fuel hD
  · refine ⟨s4, q3, q3, h1, ?_⟩
    rw [hdc]
    exact drainDontCarePropagation_disabled _ _ _ _

/-- The two propagations over the logging collaborators are the propagations without the
log, and the log grows by the `checkFailsafe` calls followed by the `checkDontCareAnymore`
calls. -/
theorem settles_traced {gen : DftNextStateGenerator σ} {s2 : σ} {q2 : Queues}
    {C D : List (Nat × Queues)} {s4 : σ} (h : Settles gen s2 q2 C D s4)
    (l : List CallEvent) :
    Settles gen.traced (s2, l) q2 C D
      (s4, l ++ events .checkFailsafe C ++ events .checkDontCareAnymore D) := by
  obtain ⟨s3, q3, dC, hdc⟩ := h
  refine ⟨(s3, l ++ events .checkFailsafe C), q3,
    drains_logged gen.mDft.checkFailsafe .checkFailsafe (fun _ _ _ _ => rfl) dC l,
    ?_⟩
  rcases hdc with ⟨hdc, q4, dD⟩ | ⟨hdc, rfl, rfl⟩
  · exact Or.inl ⟨hdc, q4, drains_logged gen.mDft.checkDontCareAnymore
      .checkDontCareAnymore (fun _ _ _ _ => rfl) dD _⟩
  · exact Or.inr ⟨hdc, rfl, by simp [events]⟩

/-- The propagation of a candidate by `successorState`, when it returns, is the one the
specification words, in one of its three outcomes; no phase has handled more tasks than the
loops were allowed iterations. -/
theorem successorState_phases (gen : DftNextStateGenerator σ) (fuel : Nat) (s : σ)
    (hd : Bool) (i : Nat) (o : Option (Successor σ))
    (h : successorState gen fuel s hd i = .ok o) :
    ∃ be A B s2 q2, Propagates gen s hd i be A B s2 q2 ∧ A.length ≤ fuel ∧ B.length ≤ fuel ∧
      failNextBE gen fuel s hd i = .ok (s2, q2, be) ∧
      ((gen.mDft.isInvalid s2 = true ∧ o = none) ∨
        (gen.mDft.isInvalid s2 = false ∧
          gen.mDft.stateHasFailed s2 gen.mDft.getTopLevelIndex = true ∧
          gen.mergeFailedStates = true ∧
          o = some { nextBE := be, newState := s2, merged := true }) ∨
        (gen.mDft.isInvalid s2 = false ∧
          (gen.mDft.stateHasFailed s2 gen.mDft.getTopLevelIndex = false ∨
            gen.mergeFailedStates = false) ∧
          ∃ C D s4, Settles gen s2 q2 C D s4 ∧ C.length ≤ fuel ∧ D.length ≤ fuel ∧
            o = some { nextBE := be,
                       newState := gen.mDft.updateDontCareDependencies
                         (gen.mDft.updateFailableDependencies s4 be.id) be.id,
                       merged := false })) := by
  unfold successorState at h
  cases hfail : failNextBE gen fuel s hd i with
  | error e => simp [hfail] at h
  | ok r =>
    obtain ⟨s2, q2, be⟩ := r
    simp only [hfail] at h
    obtain ⟨A, B, hprop, lA, lB⟩ := failNextBE_sound gen fuel s hd i s2 q2 be hfail
    refine ⟨be, A, B, s2, q2, hprop, lA, lB, rfl, ?_⟩
    cases hinv : gen.mDft.isInvalid s2 with
    | true =>
      simp only [hinv, if_true, Except.ok.injEq] at h
      exact Or.inl ⟨rfl, h.symm⟩
    | false =>
      simp only [hinv, Bool.false_eq_true, if_false] at h
      by_cases hm : (gen.mDft.stateHasFailed s2 gen.mDft.getTopLevelIndex
          && gen.mergeFailedStates) = true
      · simp only [hm, if_true, Except.ok.injEq] at h
        simp only [Bool.and_eq_true] at hm
        exact Or.inr (Or.inl ⟨rfl, hm.1, hm.2, h.symm⟩)
      · simp only [hm, Bool.false_eq_true, if_false] at h
        have hnot : gen.mDft.stateHasFailed s2 gen.mDft.getTopLevelIndex = false ∨
            gen.mergeFailedStates = false := by
          cases h1 : gen.mDft.stateHasFailed s2 gen.mDft.getTopLevelIndex
          · exact Or.inl rfl
          · cases h2 : gen.mergeFailedStates
            · exact Or.inr rfl
            · simp [h1, h2] at hm
        cases h1 : drainFailsafePropagation gen.mDft fuel s2 q2 with
        | none => simp [h1] at h
        | some r1 =>
          obtain ⟨s3, q3⟩ := r1
          simp only [h1] at h
          cases h2 : drainDontCarePropagation gen.mDft gen.enableDC fuel s3 q3 with
          | none => simp [h2] at h
          | some r2 =>
            obtain ⟨s4, q4⟩ := r2
            simp only [h2, Except.ok.injEq] at h
            obtain ⟨C, D, hsettle, lC, lD⟩ := settle_sound gen fuel s2 q2 s3 s4 q3 q4 h1 h2
            exact Or.inr (Or.inr ⟨rfl, hnot, C, D, s4, hsettle, lC, lD, h.symm⟩)

theorem successorState_of_discarded (gen : DftNextStateGenerator σ) (fuel : Nat) (s : σ)
    (hd : Bool) (i : Nat) (be : DFTBE) (s2 : σ) (q2 : Queues)
    (hfail : failNextBE gen fuel s hd i = .ok (s2, q2, be))
    (hinv : gen.mDft.isInvalid s2 = true) :
    successorState gen fuel s hd i = .ok none := by
  simp [successorState, hfail, hinv]

theorem successorState_of_merged (gen : DftNextStateGenerator σ) (fuel : Nat) (s : σ)
    (hd : Bool) (i : Nat) (be : DFTBE) (s2 : σ) (q2 : Queues)
    (hfail : failNextBE gen fuel s hd i = .ok (s2, q2, be))
    (hinv : gen.mDft.isInvalid s2 = false)
    (htop : gen.mDft.stateHasFailed s2 gen.mDft.getTopLevelIndex = true)
    (hmerge : gen.mergeFailedStates = true) :
    successorState gen fuel s hd i
      = .ok (some { nextBE := be, newState := s2, merged := true }) := by
  simp [successorState, hfail, hinv, htop, hmerge]

theorem successorState_of_registered (gen : DftNextStateGenerator σ) (fuel : Nat) (s : σ)
    (hd : Bool) (i : Nat) (be : DFTBE) (s2 s3 s4 : σ) (q2 q3 q4 : Queues)
    (hfail : failNextBE gen fuel s hd i = .ok (s2, q2, be))
    (hinv : gen.mDft.isInvalid s2 = false)
    (hnot : gen.mDft.stateHasFailed s2 gen.mDft.getTopLevelIndex = false ∨
      gen.mergeFailedStates = false)
    (h1 : drainFailsafePropagation gen.mDft fuel s2 q2 = some (s3, q3))
    (h2 : drainDontCarePropagation gen.mDft gen.enableDC fuel s3 q3 = some (s4, q4)) :
    successorState gen fuel s hd i
      = .ok (some { nextBE := be,
                    newState := gen.mDft.updateDontCareDependencies
                      (gen.mDft.updateFailableDependencies s4 be.id) be.id,
                    merged := false }) := by
  have hm : (gen.mDft.stateHasFailed s2 gen.mDft.getTopLevelIndex
      && gen.mergeFailedStates) = false := by
    rcases hnot with h | h <;> simp [h]
  simp [successorState, hfail, hinv, hm, h1, h2]

end DftNextStateGenerator

namespace DftNextStateGenerator

variable {σ ρ : Type}

theorem events_length (call : Call) (log : List (Nat × Queues)) :
    (events call log).length = log.length := by
  simp [events]

/-- What `successorState` returns for a candidate is what the failure of the candidate leads
to as the specification words it. -/
theorem successorState_leadsTo (gen : DftNextStateGenerator σ) (fuel : Nat) (s : σ)
    (hd : Bool) (i : Nat) (o : Option (Successor σ))
    (h : successorState gen fuel s hd i = .ok o) :
    ∃ log, LeadsTo gen s hd i o log := by
  obtain ⟨be, A, B, s2, q2, hprop, _, _, _, hcases⟩ :=
    successorState_phases gen fuel s hd i o h
  rcases hcases with ⟨hinv, rfl⟩ | ⟨hinv, htop, hmerge, rfl⟩ |
    ⟨hinv, hnot, C, D, s4, hsettle, _, _, rfl⟩
  · exact ⟨_, LeadsTo.discarded be A B s2 q2 hprop hinv⟩
  · exact ⟨_, LeadsTo.merged be A B s2 q2 hprop hinv htop hmerge⟩
  · exact ⟨_, LeadsTo.registered be A B C D s2 s4 q2 hprop hinv hnot hsettle⟩

/-- What the failure of a candidate leads to as the specification words it is what
`successorState` returns when its loops are allowed as many iterations as collaborator calls
are made. -/
theorem leadsTo_successorState (gen : DftNextStateGenerator σ) (s : σ) (hd : Bool) (i : Nat)
    (o : Option (Successor σ)) (log : List CallEvent) (h : LeadsTo gen s hd i o log)
    (fuel : Nat) (hfuel : log.length ≤ fuel) :
    successorState gen fuel s hd i = .ok o := by
  cases h with
  | discarded be A B s2 q2 hprop hinv =>
    simp only [List.length_append, events_length] at hfuel
    exact successorState_of_discarded gen fuel s hd i be s2 q2
      (failNextBE_complete gen s hd i be A B s2 q2 hprop fuel (by omega) (by omega)) hinv
  | merged be A B s2 q2 hprop hinv htop hmerge =>
    simp only [List.length_append, events_length] at hfuel
    exact successorState_of_merged gen fuel s hd i be s2 q2
      (failNextBE_complete gen s hd i be A B s2 q2 hprop fuel (by omega) (by omega))
      hinv htop hmerge
  | registered be A B C D s2 s4 q2 hprop hinv hnot hsettle =>
    simp only [List.length_append, events_length] at hfuel
    obtain ⟨s3, q3, q4, h1, h2⟩ :=
      settle_complete gen s2 q2 C D s4 hsettle fuel (by omega) (by omega)
    exact successorState_of_registered gen fuel s hd i be s2 s3 s4 q2 q3 q4
      (failNextBE_complete gen s hd i be A B s2 q2 hprop fuel (by omega) (by omega))
      hinv hnot h1 h2

theorem propagateFailure_head (l : List Nat) :
    ∀ (q : Queues) (a : Nat), q.failurePropagation.head? = some a →
      (l.foldl Queues.propagateFailure q).failurePropagation.head? = some a := by
  induction l with
  | nil => intro q a h; exact h
  | cons x rest ih =>
    intro q a h
    rw [List.foldl_cons]
    apply ih
    simp only [Queues.propagateFailure, Queues.enqueue]
    split
    · exact h
    · cases hq : q.failurePropagation with
      | nil => rw [hq] at h; cases h
      | cons b l => rw [hq] at h; simpa using h

/-- The failure propagation starts with the first operational parent of the failed basic
element, when there is one. -/
theorem parentRequests_head (dft : Dft σ) (s : σ) (be : DFTBE) :
    (parentRequests dft s be).failurePropagation.head?
      = (be.parents.filter (fun parent => dft.isOperational s parent)).head? := by
  unfold parentRequests
  cases (be.parents.filter (fun parent => dft.isOperational s parent)) with
  | nil => rfl
  | cons a rest =>
    rw [List.foldl_cons]
    exact propagateFailure_head rest _ a (by simp [Queues.propagateFailure, Queues.enqueue,
      Queues.empty])

theorem nextFailurePropagation_element (q : Queues) :
    (Queues.nextFailurePropagation q).map Prod.fst = q.failurePropagation.head? := by
  unfold Queues.nextFailurePropagation
  cases q.failurePropagation <;> rfl

theorem nextFailurePropagation_none (q : Queues) (h : q.nextFailurePropagation = none) :
    q.failurePropagation = [] := by
  unfold Queues.nextFailurePropagation at h
  cases hq : q.failurePropagation with
  | nil => rfl
  | cons a l => simp [hq] at h

theorem nextRestrictionCheck_none (q : Queues) (h : q.nextRestrictionCheck = none) :
    q.restrictionCheck = [] := by
  unfold Queues.nextRestrictionCheck at h
  cases hq : q.restrictionCheck with
  | nil => rfl
  | cons a l => simp [hq] at h

theorem nextFailsafePropagation_none (q : Queues) (h : q.nextFailsafePropagation = none) :
    q.failsafePropagation = [] := by
  unfold Queues.nextFailsafePropagation at h
  cases hq : q.failsafePropagation with
  | nil => rfl
  | cons a l => simp [hq] at h

theorem nextRestrictionCheck_keeps (q : Queues) (task : Nat × Queues)
    (h : q.nextRestrictionCheck = some task) :
    task.2.failurePropagation = q.failurePropagation := by
  unfold Queues.nextRestrictionCheck at h
  cases hq : q.restrictionCheck with
  | nil => simp [hq] at h
  | cons a l =>
    simp only [hq, Option.some.injEq] at h
    rw [← h]

theorem nextFailsafePropagation_keeps (q : Queues) (task : Nat × Queues)
    (h : q.nextFailsafePropagation = some task) :
    task.2.restrictionCheck = q.restrictionCheck := by
  unfold Queues.nextFailsafePropagation at h
  cases hq : q.failsafePropagation with
  | nil => simp [hq] at h
  | cons a l =>
    simp only [hq, Option.some.injEq] at h
    rw [← h]

theorem nextDontCarePropagation_keeps (q : Queues) (task : Nat × Queues)
    (h : q.nextDontCarePropagation = some task) :
    task.2.failsafePropagation = q.failsafePropagation := by
  unfold Queues.nextDontCarePropagation at h
  cases hq : q.dontCarePropagation with
  | nil => simp [hq] at h
  | cons a l =>
    simp only [hq, Option.some.injEq] at h
    rw [← h]

theorem foldl_checkRestrictionLater_keeps (l : List Nat) :
    ∀ q : Queues,
      (l.foldl Queues.checkRestrictionLater q).failurePropagation = q.failurePropagation := by
  induction l with
  | nil => intro q; rfl
  | cons a rest ih =>
    intro q
    rw [List.foldl_cons, ih]
    rfl

/-- The facts about the queues between the first two phases: the first task of the failure
propagation is the first operational parent of the failed element, the failure propagation
is empty when the first restriction is checked, and the restriction checks are empty at the
end. -/
theorem propagates_queues {gen : DftNextStateGenerator σ} {s : σ} {hd : Bool} {i : Nat}
    {be : DFTBE} {A B : List (Nat × Queues)} {s2 : σ} {q2 : Queues}
    (h : Propagates gen s hd i be A B s2 q2) :
    (∃ s0 flag, gen.mDft.letNextBEFail s i = (s0, some be, flag) ∧
      A.head?.map Prod.fst
        = (be.parents.filter (fun parent => gen.mDft.isOperational s0 parent)).head?) ∧
    (∀ task, B.head? = some task → task.2.failurePropagation = []) ∧
    q2.restrictionCheck = [] := by
  obtain ⟨hf, s0, s1, q1, hlet, dA, dB⟩ := h
  refine ⟨⟨s0, hd, hlet, ?_⟩, ?_, nextRestrictionCheck_none _ (drains_pop_end dB)⟩
  · rw [drains_head_eq dA, nextFailurePropagation_element, parentRequests_head]
  · intro task htask
    rw [drains_head_eq dB] at htask
    rw [nextRestrictionCheck_keeps _ task htask, foldl_checkRestrictionLater_keeps]
    exact nextFailurePropagation_none _ (drains_pop_end dA)

/-- The facts about the queues in the last two phases: the restriction checks are empty when
the first failsafe task is handled if they were empty at the start, the failsafe propagation
is empty when the first don't-care task is handled, and there is no don't-care task when the
don't-care propagation is disabled. -/
theorem settles_queues {gen : DftNextStateGenerator σ} {s2 : σ} {q2 : Queues}
    {C D : List (Nat × Queues)} {s4 : σ} (h : Settles gen s2 q2 C D s4)
    (hq2 : q2.restrictionCheck = []) :
    (∀ task, C.head? = some task → task.2.restrictionCheck = []) ∧
    (∀ task, D.head? = some task → task.2.failsafePropagation = []) ∧
    (gen.enableDC = false → D = []) := by
  obtain ⟨s3, q3, dC, hdc⟩ := h
  refine ⟨?_, ?_, ?_⟩
  · intro task htask
    rw [drains_head_eq dC] at htask
    rw [nextFailsafePropagation_keeps _ task htask, hq2]
  · intro task htask
    rcases hdc with ⟨_, q4, dD⟩ | ⟨_, rfl, _⟩
    · rw [drains_head_eq dD] at htask
      rw [nextDontCarePropagation_keeps _ task htask]
      exact nextFailsafePropagation_none _ (drains_pop_end dC)
    · cases htask
  · intro hdis
    rcases hdc with ⟨hen, _⟩ | ⟨_, rfl, _⟩
    · rw [hdis] at hen
      cases hen
    · rfl

end DftNextStateGenerator

namespace DftNextStateGenerator

variable {σ ρ : Type}

/-- Draining a work-list is deterministic: the handled tasks, the final state and the final
queues are determined by the state and the queues at the start. -/
theorem drains_unique {pop : Queues → Option (Nat × Queues)}
    {handle : Nat → σ → Queues → σ × Queues} {s : σ} {q : Queues}
    {log : List (Nat × Queues)} {s1 : σ} {q1 : Queues}
    (h : Drains pop handle s q log s1 q1) :
    ∀ {log' : List (Nat × Queues)} {s1' : σ} {q1' : Queues},
      Drains pop handle s q log' s1' q1' → log = log' ∧ s1 = s1' ∧ q1 = q1' := by
  induction h with
  | done s q hpop =>
    intro log' s1' q1' h'
    cases h' with
    | done _ _ _ => exact ⟨rfl, rfl, rfl⟩
    | step _ _ next q0 log0 _ _ hpop' _ => rw [hpop] at hpop'; cases hpop'
  | step s q next q0 log s2 q2 hpop hrest ih =>
    intro log' s1' q1' h'
    cases h' with
    | done _ _ hpop' => rw [hpop] at hpop'; cases hpop'
    | step _ _ next' q0' log0 _ _ hpop' hrest' =>
      rw [hpop] at hpop'
      simp only [Option.some.injEq, Prod.mk.injEq] at hpop'
      obtain ⟨rfl, rfl⟩ := hpop'
      obtain ⟨rfl, rfl, rfl⟩ := ih hrest'
      exact ⟨rfl, rfl, rfl⟩

/-- The propagation of the failure of a candidate is deterministic: the failed element, the
tasks of the two phases and the result are determined by the state and the candidate. -/
theorem propagates_unique {gen : DftNextStateGenerator σ} {s : σ} {hd : Bool} {i : Nat}
    {be be' : DFTBE} {A B A' B' : List (Nat × Queues)} {s2 s2' : σ} {q2 q2' : Queues}
    (h : Propagates gen s hd i be A B s2 q2) (h' : Propagates gen s hd i be' A' B' s2' q2') :
    be = be' ∧ A = A' ∧ B = B' ∧ s2 = s2' ∧ q2 = q2' := by
  obtain ⟨_, s0, s1, q1, hlet, dA, dB⟩ := h
  obtain ⟨_, s0', s1', q1', hlet', dA', dB'⟩ := h'
  rw [hlet] at hlet'
  simp only [Prod.mk.injEq, Option.some.injEq, and_true] at hlet'
  obtain ⟨rfl, rfl⟩ := hlet'
  obtain ⟨rfl, rfl, rfl⟩ := drains_unique dA dA'
  obtain ⟨rfl, rfl, rfl⟩ := drains_unique dB dB'
  exact ⟨rfl, rfl, rfl, rfl, rfl⟩

/-- The failsafe and the don't-care propagation are deterministic. -/
theorem settles_unique {gen : DftNextStateGenerator σ} {s2 : σ} {q2 : Queues}
    {C D C' D' : List (Nat × Queues)} {s4 s4' : σ}
    (h : Settles gen s2 q2 C D s4) (h' : Settles gen s2 q2 C' D' s4') :
    C = C' ∧ D = D' ∧ s4 = s4' := by
  obtain ⟨s3, q3, dC, hdc⟩ := h
  obtain ⟨s3', q3', dC', hdc'⟩ := h'
  obtain ⟨rfl, rfl, rfl⟩ := drains_unique dC dC'
  rcases hdc with ⟨hen, q4, dD⟩ | ⟨hdis, rfl, rfl⟩
  · rcases hdc' with ⟨_, q4', dD'⟩ | ⟨hdis', _, _⟩
    · obtain ⟨rfl, rfl, _⟩ := drains_unique dD dD'
      exact ⟨rfl, rfl, rfl⟩
    · rw [hen] at hdis'
      cases hdis'
  · rcases hdc' with ⟨hen', _, _⟩ | ⟨_, rfl, rfl⟩
    · rw [hdis] at hen'
      cases hen'
    · exact ⟨rfl, rfl, rfl⟩

/-- What the failure of a candidate leads to is determined by the state and the candidate:
the outcome and the collaborator calls are unique. -/
theorem leadsTo_unique {gen : DftNextStateGenerator σ} {s : σ} {hd : Bool} {i : Nat}
    {o o' : Option (Successor σ)} {log log' : List CallEvent}
    (h : LeadsTo gen s hd i o log) (h' : LeadsTo gen s hd i o' log') :
    o = o' ∧ log = log' := by
  cases h with
  | discarded be A B s2 q2 hprop hinv =>
    cases h' with
    | discarded be' A' B' s2' q2' hprop' hinv' =>
      obtain ⟨rfl, rfl, rfl, rfl, rfl⟩ := propagates_unique hprop hprop'
      exact ⟨rfl, rfl⟩
    | merged be' A' B' s2' q2' hprop' hvalid' htop' hmerge' =>
      obtain ⟨rfl, rfl, rfl, rfl, rfl⟩ := propagates_unique hprop hprop'
      rw [hinv] at hvalid'
      cases hvalid'
    | registered be' A' B' C' D' s2' s4' q2' hprop' hvalid' hnot' hsettle' =>
      obtain ⟨rfl, rfl, rfl, rfl, rfl⟩ := propagates_unique hprop hprop'
      rw [hinv] at hvalid'
      cases hvalid'
  | merged be A B s2 q2 hprop hvalid htop hmerge =>
    cases h' with
    | discarded be' A' B' s2' q2' hprop' hinv' =>
      obtain ⟨rfl, rfl, rfl, rfl, rfl⟩ := propagates_unique hprop hprop'
      rw [hvalid] at hinv'
      cases hinv'
    | merged be' A' B' s2' q2' hprop' hvalid' htop' hmerge' =>
      obtain ⟨rfl, rfl, rfl, rfl, rfl⟩ := propagates_unique hprop hprop'
      exact ⟨rfl, rfl⟩
    | registered be' A' B' C' D' s2' s4' q2' hprop' hvalid' hnot' hsettle' =>
      obtain ⟨rfl, rfl, rfl, rfl, rfl⟩ := propagates_unique hprop hprop'
      rcases hnot' with h0 | h0
      · rw [htop] at h0
        cases h0
      · rw [hmerge] at h0
        cases h0
  | registered be A B C D s2 s4 q2 hprop hvalid hnot hsettle =>
    cases h' with
    | discarded be' A' B' s2' q2' hprop' hinv' =>
      obtain ⟨rfl, rfl, rfl, rfl, rfl⟩ := propagates_unique hprop hprop'
      rw [hvalid] at hinv'
      cases hinv'
    | merged be' A' B' s2' q2' hprop' hvalid' htop' hmerge' =>
      obtain ⟨rfl, rfl, rfl, rfl, rfl⟩ := propagates_unique hprop hprop'
      rcases hnot with h0 | h0
      · rw [htop'] at h0
        cases h0
      · rw [hmerge'] at h0
        cases h0
    | registered be' A' B' C' D' s2' s4' q2' hprop' hvalid' hnot' hsettle' =>
      obtain ⟨rfl, rfl, rfl, rfl, rfl⟩ := propagates_unique hprop hprop'
      obtain ⟨rfl, rfl, rfl⟩ := settles_unique hsettle hsettle'
      exact ⟨rfl, rfl⟩

/-- The outcomes of a list of candidates are determined by the state. -/
theorem outcomes_unique (gen : DftNextStateGenerator σ) (s : σ) (hd : Bool) (l : List Nat)
    (os : List (Option (Successor σ)))
    (h : List.Forall₂ (fun i o => ∃ log, LeadsTo gen s hd i o log) l os) :
    ∀ os', List.Forall₂ (fun i o => ∃ log, LeadsTo gen s hd i o log) l os' → os' = os := by
  induction h with
  | nil =>
    intro os' h'
    cases h'
    rfl
  | @cons i o l os hio _ ih =>
    intro os' h'
    cases h' with
    | @cons _ o' _ os'' hio' hrest' =>
      obtain ⟨log, hlog⟩ := hio
      obtain ⟨log', hlog'⟩ := hio'
      rw [(leadsTo_unique hlog' hlog).1, ih os'' hrest']

end DftNextStateGenerator

namespace DftNextStateGenerator

variable {σ ρ : Type}

/-- The first two phases over the logging collaborators, for a propagation that fits the
iterations allowed: the log is the calls on the tasks of the failure propagation followed
by the calls on the tasks of the restriction checks. -/
theorem failNextBE_log (gen : DftNextStateGenerator σ) (s : σ) (hd : Bool) (i : Nat)
    (be : DFTBE) (A B : List (Nat × Queues)) (s2 : σ) (q2 : Queues)
    (h : Propagates gen s hd i be A B s2 q2) (fuel : Nat) (hA : A.length ≤ fuel)
    (hB : B.length ≤ fuel) :
    failNextBE gen.traced fuel (s, []) hd i
      = .ok ((s2, events .checkFails A ++ events .checkFails B), q2, be) := by
  have h1 := failNextBE_complete gen.traced (s, []) hd i be A B _ q2 (propagates_traced h []) fuel hA hB
  simpa using h1

/-- C26: for every candidate processed by `expand`, run over collaborators that log their
calls, the log is four consecutive blocks: the `checkFails` calls on the tasks `A` of the
failure propagation, the `checkFails` calls on the tasks `B` of the restriction checks, the
`checkFailsafe` calls on the tasks `C` and the `checkDontCareAnymore` calls on the tasks `D`.
The blocks are the work-lists drained fully one after the other: `A` is what draining the
failure propagation from the requests to the operational parents of the failed element
handles (its first task is the first operational parent), `B` is what draining the
restriction checks then handles after the restrictions of the element were added, `C` and
`D` are what draining the failsafe and then the don't-care propagation handles. The first
task of each later block is handled with the queue of the block before it empty; there is
no `checkDontCareAnymore` call when `enableDC` is false; and a successor bound to the merged
failed state, like a discarded one, has the first two blocks only. The task lists are the
only ones the specification admits, so the boundary between the blocks is fixed. The logging
does not change what is computed. -/
theorem propagation_order (gen : DftNextStateGenerator σ) (fuel : Nat) (s : σ)
    (hd : Bool) (i : Nat) :
    (∀ newState queues nextBE,
      failNextBE gen fuel s hd i = .ok (newState, queues, nextBE) →
      ∃ A B, Propagates gen s hd i nextBE A B newState queues ∧
        failNextBE gen.traced fuel (s, []) hd i
          = .ok ((newState, events .checkFails A ++ events .checkFails B), queues, nextBE) ∧
        (∃ s0 flag, gen.mDft.letNextBEFail s i = (s0, some nextBE, flag) ∧
          A.head?.map Prod.fst
            = (nextBE.parents.filter
                (fun parent => gen.mDft.isOperational s0 parent)).head?) ∧
        (∀ task, B.head? = some task → task.2.failurePropagation = []) ∧
        queues.restrictionCheck = [] ∧
        (∀ nextBE' A' B' newState' queues',
          Propagates gen s hd i nextBE' A' B' newState' queues' → A' = A ∧ B' = B)) ∧
    (∀ succ, successorState gen fuel s hd i = .ok (some succ) →
      ∃ newState queues A B C D,
        failNextBE gen fuel s hd i = .ok (newState, queues, succ.nextBE) ∧
        Propagates gen s hd i succ.nextBE A B newState queues ∧
        successorState gen.traced fuel (s, []) hd i
          = .ok (some { nextBE := succ.nextBE,
                        newState := (succ.newState,
                          events .checkFails A ++ events .checkFails B
                            ++ events .checkFailsafe C ++ events .checkDontCareAnymore D),
                        merged := succ.merged }) ∧
        (succ.merged = true → C = [] ∧ D = [] ∧ succ.newState = newState) ∧
        (succ.merged = false → ∃ s4, Settles gen newState queues C D s4 ∧
          succ.newState = gen.mDft.updateDontCareDependencies
            (gen.mDft.updateFailableDependencies s4 succ.nextBE.id) succ.nextBE.id) ∧
        (∀ task, C.head? = some task → task.2.restrictionCheck = []) ∧
        (∀ task, D.head? = some task → task.2.failsafePropagation = []) ∧
        (gen.enableDC = false → D = []) ∧
        (∀ nextBE' A' B' newState' queues',
          Propagates gen s hd i nextBE' A' B' newState' queues' → A' = A ∧ B' = B) ∧
        (succ.merged = false → ∀ C' D' s4',
          Settles gen newState queues C' D' s4' → C' = C ∧ D' = D)) := by
  refine ⟨?_, ?_⟩
  · intro newState queues nextBE h
    obtain ⟨A, B, hprop, lA, lB⟩ := failNextBE_sound gen fuel s hd i newState queues nextBE h
    obtain ⟨hhead, hB, hq⟩ := propagates_queues hprop
    exact ⟨A, B, hprop, failNextBE_log gen s hd i nextBE A B newState queues hprop fuel lA lB,
      hhead, hB, hq, fun _ _ _ _ _ h' =>
        ⟨(propagates_unique h' hprop).2.1, (propagates_unique h' hprop).2.2.1⟩⟩
  · intro succ h
    obtain ⟨be, A, B, s2, q2, hprop, lA, lB, hfail, hcases⟩ :=
      successorState_phases gen fuel s hd i (some succ) h
    have hlog := failNextBE_log gen s hd i be A B s2 q2 hprop fuel lA lB
    obtain ⟨_, _, hq2⟩ := propagates_queues hprop
    rcases hcases with ⟨_, hnone⟩ | ⟨hinv, htop, hmerge, hsome⟩ |
      ⟨hinv, hnot, C, D, s4, hsettle, lC, lD, hsome⟩
    · cases hnone
    · simp only [Option.some.injEq] at hsome
      subst hsome
      refine ⟨s2, q2, A, B, [], [], hfail, hprop, ?_, fun _ => ⟨rfl, rfl, rfl⟩,
        fun hm => (by cases hm), fun _ ht => (by cases ht), fun _ ht => (by cases ht),
        fun _ => rfl, fun _ _ _ _ _ h' =>
          ⟨(propagates_unique h' hprop).2.1, (propagates_unique h' hprop).2.2.1⟩,
        fun hm => (by cases hm)⟩
      have := successorState_of_merged gen.traced fuel (s, []) hd i be
        (s2, events .checkFails A ++ events .checkFails B) q2 hlog hinv htop hmerge
      simpa [events] using this
    · simp only [Option.some.injEq] at hsome
      subst hsome
      obtain ⟨hC, hD, hdis⟩ := settles_queues hsettle hq2
      refine ⟨s2, q2, A, B, C, D, hfail, hprop, ?_, fun hm => (by cases hm),
        fun _ => ⟨s4, hsettle, rfl⟩, hC, hD, hdis, fun _ _ _ _ _ h' =>
          ⟨(propagates_unique h' hprop).2.1, (propagates_unique h' hprop).2.2.1⟩,
        fun _ _ _ _ h' => ⟨(settles_unique h' hsettle).1, (settles_unique h' hsettle).2.1⟩⟩
      obtain ⟨s3, q3, q4, h1, h2⟩ := settle_complete gen.traced
        (s2, events .checkFails A ++ events .checkFails B) q2 C D _
        (settles_traced hsettle (events .checkFails A ++ events .checkFails B)) fuel lC lD
      exact successorState_of_registered gen.traced fuel (s, []) hd i be _ s3 _ q2 q3 q4
        hlog hinv hnot h1 h2

theorem propagation_order_witness :
    successorState exPropagatingGenerator.traced 10 (exInitial, []) false 2
      = .ok (some (Successor.mk (exBE 5)
          (ExState.mk 0 [5] [] false,
            [CallEvent.mk .checkFails 2 Queues.empty,
              CallEvent.mk .checkFails 3 (Queues.mk [] [6] [7] []),
              CallEvent.mk .checkFailsafe 6 (Queues.mk [] [] [7] []),
              CallEvent.mk .checkDontCareAnymore 7 Queues.empty]) false)) ∧
    failNextBE exPropagatingGenerator.traced 10 (exInitial, []) false 1
      = .ok ((ExState.mk 0 [1] [] true,
            [CallEvent.mk .checkFails 2 Queues.empty,
              CallEvent.mk .checkFails 3 (Queues.mk [] [6] [7] [])]),
          Queues.mk [] [6] [7] [], exBE 1) ∧
    successorState exPropagatingGenerator 10 exInitial false 1 = .ok none ∧
    (∃ newState queues A B C D,
      failNextBE exPropagatingGenerator 10 exInitial false 2
        = .ok (newState, queues, exBE 5) ∧
      Propagates exPropagatingGenerator exInitial false 2 (exBE 5) A B newState queues ∧
      successorState exPropagatingGenerator.traced 10 (exInitial, []) false 2
        = .ok (some (Successor.mk (exBE 5)
            (ExState.mk 0 [5] [] false,
              events .checkFails A ++ events .checkFails B
                ++ events .checkFailsafe C ++ events .checkDontCareAnymore D) false)) ∧
      (false = true → C = [] ∧ D = [] ∧ ExState.mk 0 [5] [] false = newState) ∧
      (false = false → ∃ s4, Settles exPropagatingGenerator newState queues C D s4 ∧
        ExState.mk 0 [5] [] false = exPropagatingDft.updateDontCareDependencies
          (exPropagatingDft.updateFailableDependencies s4 (exBE 5).id) (exBE 5).id) ∧
      (∀ task, C.head? = some task → task.2.restrictionCheck = []) ∧
      (∀ task, D.head? = some task → task.2.failsafePropagation = []) ∧
      (exPropagatingGenerator.enableDC = false → D = []) ∧
      (∀ nextBE' A' B' newState' queues',
        Propagates exPropagatingGenerator exInitial false 2 nextBE' A' B' newState' queues' →
        A' = A ∧ B' = B) ∧
      (false = false → ∀ C' D' s4',
        Settles exPropagatingGenerator newState queues C' D' s4' → C' = C ∧ D' = D)) ∧
    ∃ A B, Propagates exPropagatingGenerator exInitial false 1 (exBE 1) A B
        (ExState.mk 0 [1] [] true) (Queues.mk [] [6] [7] []) ∧
      failNextBE exPropagatingGenerator.traced 10 (exInitial, []) false 1
        = .ok ((ExState.mk 0 [1] [] true, events .checkFails A ++ events .checkFails B),
            Queues.mk [] [6] [7] [], exBE 1) ∧
      (∃ s0 flag, exPropagatingGenerator.mDft.letNextBEFail exInitial 1
          = (s0, some (exBE 1), flag) ∧
        A.head?.map Prod.fst
          = ((exBE 1).parents.filter
              (fun parent => exPropagatingGenerator.mDft.isOperational s0 parent)).head?) ∧
      (∀ task, B.head? = some task → task.2.failurePropagation = []) ∧
      (Queues.mk [] [6] [7] []).restrictionCheck = [] ∧
      (∀ nextBE' A' B' newState' queues',
        Propagates exPropagatingGenerator exInitial false 1 nextBE' A' B' newState' queues' →
        A' = A ∧ B' = B) :=
  ⟨rfl, rfl, rfl, (propagation_order exPropagatingGenerator 10 exInitial false 2).2
    (Successor.mk (exBE 5) (ExState.mk 0 [5] [] false) false) exPropagating_successor,
    (propagation_order exPropagatingGenerator 10 exInitial false 1).1
      (ExState.mk 0 [1] [] true) (Queues.mk [] [6] [7] []) (exBE 1) rfl⟩

end DftNextStateGenerator

namespace DftNextStateGenerator

variable {σ ρ : Type}

theorem newStateId_eq_boundId (gen : DftNextStateGenerator σ) (cb : σ → ρ → Nat × ρ)
    (succ : Successor σ) (reg : ρ) :
    newStateId gen cb succ reg = boundId gen cb succ reg := rfl

/-- The loop of `expand` in mode B over candidates with known outcomes accumulates the
transitions of the specification. -/
theorem expandOver_rateTransitions (gen : DftNextStateGenerator σ) (fuel : Nat)
    (cb : σ → ρ → Nat × ρ) (s : σ) (l : List Nat) (os : List (Option (Successor σ)))
    (hos : List.Forall₂ (fun i o => successorState gen fuel s false i = .ok o) l os) :
    (∀ succ, some succ ∈ os → selectedRate gen s succ.nextBE ≠ 0) →
    ∀ (c : Choice) (result : StateBehavior) (reg : ρ),
      expandOver gen fuel cb s false l (c, result, reg)
        = .ok ((rateTransitions gen cb s os reg).1.foldl
            (fun c t => c.addProbability t.1 t.2) c, result,
            (rateTransitions gen cb s os reg).2) := by
  induction hos with
  | nil => intro _ c result reg; rfl
  | @cons i o l os hio _ ih =>
    intro hrate c result reg
    have hrest : ∀ succ, some succ ∈ os → selectedRate gen s succ.nextBE ≠ 0 :=
      fun succ h => hrate succ (List.mem_cons_of_mem _ h)
    cases o with
    | none =>
      simp only [expandOver, expandStep_invalid gen fuel cb s false i _ hio, rateTransitions]
      exact ih hrest c result reg
    | some succ =>
      have hr := hrate succ (List.mem_cons_self _ _)
      simp only [expandOver, expandStep_modeB gen fuel cb s i _ succ hio hr, rateTransitions,
        List.foldl_cons, newStateId_eq_boundId]
      exact ih hrest _ result _

/-- The loop of `expand` in mode B, when it returns, has found an outcome for every
candidate, with a selected rate that is not 0 for every successor. -/
theorem expandOver_modeB_outcomes (gen : DftNextStateGenerator σ) (fuel : Nat)
    (cb : σ → ρ → Nat × ρ) (s : σ) (l : List Nat) :
    ∀ (acc acc1 : Choice × StateBehavior × ρ),
      expandOver gen fuel cb s false l acc = .ok acc1 →
      ∃ os, List.Forall₂ (fun i o => successorState gen fuel s false i = .ok o) l os ∧
        ∀ succ, some succ ∈ os → selectedRate gen s succ.nextBE ≠ 0 := by
  induction l with
  | nil => intro acc acc1 _; exact ⟨[], List.Forall₂.nil, fun _ h => by cases h⟩
  | cons i rest ih =>
    intro acc acc1 h
    simp only [expandOver] at h
    cases hstep : expandStep gen fuel cb s false i acc with
    | error e => simp [hstep] at h
    | ok acc2 =>
      simp only [hstep] at h
      obtain ⟨os, hos, hrate⟩ := ih acc2 acc1 h
      cases hs : successorState gen fuel s false i with
      | error e => simp [expandStep, hs] at hstep
      | ok o =>
        cases o with
        | none =>
          refine ⟨none :: os, List.Forall₂.cons hs hos, ?_⟩
          intro succ hmem
          simp only [List.mem_cons, reduceCtorEq, false_or] at hmem
          exact hrate succ hmem
        | some succ =>
          have hr : selectedRate gen s succ.nextBE ≠ 0 := by
            intro h0
            simp only [expandStep, hs, rate_eq_selectedRate, h0] at hstep
            simp at hstep
          refine ⟨some succ :: os, List.Forall₂.cons hs hos, ?_⟩
          intro succ1 hmem
          simp only [List.mem_cons, Option.some.injEq] at hmem
          rcases hmem with rfl | hmem
          · exact hr
          · exact hrate succ1 hmem

/-- Outcomes that the specification gives for a list of candidates are returned by
`successorState` for all of them when the loops are allowed enough iterations. -/
theorem leadsTo_enough_fuel (gen : DftNextStateGenerator σ) (s : σ) (hd : Bool)
    (l : List Nat) (os : List (Option (Successor σ)))
    (h : List.Forall₂ (fun i o => ∃ log, LeadsTo gen s hd i o log) l os) :
    ∃ fuel0, ∀ fuel, fuel0 ≤ fuel →
      List.Forall₂ (fun i o => successorState gen fuel s hd i = .ok o) l os := by
  induction h with
  | nil => exact ⟨0, fun _ _ => List.Forall₂.nil⟩
  | @cons i o l os hio _ ih =>
    obtain ⟨log, hlog⟩ := hio
    obtain ⟨fuel0, hrest⟩ := ih
    refine ⟨max log.length fuel0, fun fuel hfuel => List.Forall₂.cons ?_ (hrest fuel ?_)⟩
    · exact leadsTo_successorState gen s hd i o log hlog fuel (le_trans (le_max_left _ _) hfuel)
    · exact le_trans (le_max_right _ _) hfuel

theorem outcomes_leadTo (gen : DftNextStateGenerator σ) (fuel : Nat) (s : σ) (hd : Bool)
    (l : List Nat) (os : List (Option (Successor σ)))
    (h : List.Forall₂ (fun i o => successorState gen fuel s hd i = .ok o) l os) :
    List.Forall₂ (fun i o => ∃ log, LeadsTo gen s hd i o log) l os :=
  h.imp (fun _ _ hio => successorState_leadsTo gen fuel s hd _ _ hio)

/-- Mode B of `expand` for candidates with known outcomes. -/
theorem expand_modeB_of_outcomes (gen : DftNextStateGenerator σ) (fuel : Nat)
    (cb : σ → ρ → Nat × ρ) (s : σ) (registry : ρ)
    (hf : gen.mDft.hasFailed s = false) (hfs : gen.mDft.isFailsafe s = false)
    (hbe : gen.mDft.nrFailableBEs s ≠ 0) (hdep : gen.mDft.nrFailableDependencies s = 0)
    (os : List (Option (Successor σ)))
    (hos : List.Forall₂ (fun i o => successorState gen fuel s false i = .ok o)
      (List.range (gen.mDft.nrFailableBEs s)) os)
    (hrate : ∀ succ, some succ ∈ os → selectedRate gen s succ.nextBE ≠ 0) :
    expand (gen.load s) fuel cb registry
      = .ok ({ choices := [(rateTransitions gen cb s os registry).1.foldl
                  (fun c t => c.addProbability t.1 t.2) (Choice.new 0 true)],
               expanded := true }, (rateTransitions gen cb s os registry).2) := by
  have hd : decide (gen.mDft.nrFailableDependencies s > 0) = false := by simp [hdep]
  rw [expand_load_loop gen fuel cb s registry hf hfs hbe]
  simp only [hd, Bool.not_false, Bool.false_eq_true, if_false,
    expandOver_rateTransitions gen fuel cb s _ os hos hrate, if_true]
  rfl

end DftNextStateGenerator

namespace DftNextStateGenerator

variable {σ ρ : Type}

theorem resolveDependency_eq (gen : DftNextStateGenerator σ) (cb : σ → ρ → Nat × ρ)
    (s : σ) (i : Nat) (succ : Successor σ) (reg : ρ) :
    resolveDependency gen cb s i succ reg = dependencyResolution gen cb s i succ reg := by
  by_cases hp : gen.mDft.dependencyProbability (gen.mDft.getDependencyId s i) = 1
  · simp [resolveDependency, dependencyResolution, hp, Choice.addProbability, Choice.new,
      addToDistribution, newStateId_eq_boundId]
  · simp [resolveDependency, dependencyResolution, hp, Choice.addProbability, Choice.new,
      addToDistribution, newStateId_eq_boundId]

/-- The loop of `expand` in mode D over candidates with known outcomes emits the choices of
the specification. -/
theorem expandOver_dependencyResolutions (gen : DftNextStateGenerator σ) (fuel : Nat)
    (cb : σ → ρ → Nat × ρ) (s : σ) (os : List (Option (Successor σ))) :
    ∀ (k : Nat) (result : StateBehavior) (reg : ρ),
      List.Forall₂ (fun i o => successorState gen fuel s true i = .ok o)
        (List.range' k os.length) os →
      expandOver gen fuel cb s true (List.range' k os.length)
          (Choice.new 0 false, result, reg)
        = .ok (Choice.new 0 false,
            { choices := result.choices ++ (dependencyResolutions gen cb s k os reg).1,
              expanded := result.expanded },
            (dependencyResolutions gen cb s k os reg).2) := by
  induction os with
  | nil => intro k result reg _; simp [expandOver, dependencyResolutions]
  | cons o os ih =>
    intro k result reg h
    simp only [List.length_cons, List.range'_succ, List.forall₂_cons] at h ⊢
    obtain ⟨hio, hrest⟩ := h
    cases o with
    | none =>
      simp only [expandOver, expandStep_invalid gen fuel cb s true k _ hio,
        dependencyResolutions]
      exact ih (k + 1) result reg hrest
    | some succ =>
      rw [expandOver, expandStep_modeD gen fuel cb s k _ _ succ hio]
      simp only []
      rw [ih (k + 1) _ _ hrest]
      simp [dependencyResolutions, StateBehavior.addChoice, resolveDependency_eq]

/-- A loop of `expand` that returns has found an outcome for every candidate. -/
theorem expandOver_outcomes (gen : DftNextStateGenerator σ) (fuel : Nat)
    (cb : σ → ρ → Nat × ρ) (s : σ) (hd : Bool) (l : List Nat) :
    ∀ (acc acc1 : Choice × StateBehavior × ρ),
      expandOver gen fuel cb s hd l acc = .ok acc1 →
      ∃ os, List.Forall₂ (fun i o => successorState gen fuel s hd i = .ok o) l os := by
  induction l with
  | nil => intro acc acc1 _; exact ⟨[], List.Forall₂.nil⟩
  | cons i rest ih =>
    intro acc acc1 h
    simp only [expandOver] at h
    cases hstep : expandStep gen fuel cb s hd i acc with
    | error e => simp [hstep] at h
    | ok acc2 =>
      simp only [hstep] at h
      obtain ⟨os, hos⟩ := ih acc2 acc1 h
      cases hs : successorState gen fuel s hd i with
      | error e => simp [expandStep, hs] at hstep
      | ok o => exact ⟨o :: os, List.Forall₂.cons hs hos⟩

/-- Mode D of `expand` for candidates with known outcomes. -/
theorem expand_modeD_of_outcomes (gen : DftNextStateGenerator σ) (fuel : Nat)
    (cb : σ → ρ → Nat × ρ) (s : σ) (registry : ρ)
    (hf : gen.mDft.hasFailed s = false) (hfs : gen.mDft.isFailsafe s = false)
    (hbe : gen.mDft.nrFailableBEs s ≠ 0) (hdep : 0 < gen.mDft.nrFailableDependencies s)
    (os : List (Option (Successor σ)))
    (hos : List.Forall₂ (fun i o => successorState gen fuel s true i = .ok o)
      (List.range (gen.mDft.nrFailableDependencies s)) os) :
    expand (gen.load s) fuel cb registry
      = .ok ({ choices := (dependencyResolutions gen cb s 0 os registry).1,
               expanded := true }, (dependencyResolutions gen cb s 0 os registry).2) := by
  have hd : decide (gen.mDft.nrFailableDependencies s > 0) = true := by simp [hdep]
  have hlen : os.length = gen.mDft.nrFailableDependencies s := by
    rw [← hos.length_eq, List.length_range]
  have hos' : List.Forall₂ (fun i o => successorState gen fuel s true i = .ok o)
      (List.range' 0 os.length) os := by
    rw [hlen, ← List.range_eq_range']
    exact hos
  have hloop := expandOver_dependencyResolutions gen fuel cb s os 0 StateBehavior.new
    registry hos'
  rw [hlen, ← List.range_eq_range'] at hloop
  rw [expand_load_loop gen fuel cb s registry hf hfs hbe]
  simp only [hd, Bool.not_true, if_true, hloop, Bool.false_eq_true, if_false]
  simp [StateBehavior.setExpanded, StateBehavior.new]

theorem successorIndices_bounds {σ : Type} (os : List (Option (Successor σ))) :
    ∀ (k i : Nat), i ∈ successorIndices k os → k ≤ i ∧ i < k + os.length := by
  induction os with
  | nil => intro k i h; simp [successorIndices] at h
  | cons o os ih =>
    intro k i h
    cases o with
    | none =>
      simp only [successorIndices] at h
      have := ih (k + 1) i h
      simp only [List.length_cons]
      omega
    | some succ =>
      simp only [successorIndices, List.mem_cons] at h
      simp only [List.length_cons]
      rcases h with rfl | h
      · omega
      · have := ih (k + 1) i h
        omega

theorem successorIndices_length_le {σ : Type} (os : List (Option (Successor σ))) :
    ∀ k : Nat, (successorIndices k os).length ≤ os.length := by
  induction os with
  | nil => intro k; simp [successorIndices]
  | cons o os ih =>
    intro k
    cases o with
    | none =>
      simp only [successorIndices, List.length_cons]
      exact Nat.le_succ_of_le (ih (k + 1))
    | some succ =>
      simp only [successorIndices, List.length_cons]
      exact Nat.succ_le_succ (ih (k + 1))

theorem successorIndices_all {σ : Type} (os : List (Option (Successor σ)))
    (hall : ∀ o ∈ os, o ≠ none) :
    ∀ k : Nat, successorIndices k os = List.range' k os.length := by
  induction os with
  | nil => intro k; rfl
  | cons o os ih =>
    intro k
    cases o with
    | none => exact absurd rfl (hall none (List.mem_cons_self _ _))
    | some succ =>
      simp only [successorIndices, List.length_cons, List.range'_succ]
      rw [ih (fun o ho => hall o (List.mem_cons_of_mem _ ho)) (k + 1)]

/-- The choices of the specification correspond one to one, in order, to the candidates with
a successor; each is the resolution of its dependency. -/
theorem dependencyResolutions_forall₂ (gen : DftNextStateGenerator σ)
    (cb : σ → ρ → Nat × ρ) (s : σ) (P : Nat → Option (Successor σ) → Prop)
    (os : List (Option (Successor σ))) :
    ∀ (k : Nat) (reg : ρ), List.Forall₂ P (List.range' k os.length) os →
      List.Forall₂
        (fun i choice => ∃ succ reg0, P i (some succ) ∧
          choice = (dependencyResolution gen cb s i succ reg0).1)
        (successorIndices k os) (dependencyResolutions gen cb s k os reg).1 := by
  induction os with
  | nil => intro k reg _; exact List.Forall₂.nil
  | cons o os ih =>
    intro k reg h
    simp only [List.length_cons, List.range'_succ, List.forall₂_cons] at h
    obtain ⟨hio, hrest⟩ := h
    cases o with
    | none =>
      simp only [successorIndices, dependencyResolutions]
      exact ih (k + 1) reg hrest
    | some succ =>
      simp only [successorIndices, dependencyResolutions]
      exact List.Forall₂.cons ⟨succ, reg, hio, rfl⟩ (ih (k + 1) _ hrest)

theorem forall₂_mem_right {α β : Type} {R : α → β → Prop} {l1 : List α} {l2 : List β}
    (h : List.Forall₂ R l1 l2) : ∀ b ∈ l2, ∃ a ∈ l1, R a b := by
  induction h with
  | nil => intro b hb; cases hb
  | @cons a b l1 l2 hab _ ih =>
    intro b' hb'
    rcases List.mem_cons.mp hb' with rfl | hb'
    · exact ⟨a, List.mem_cons_self _ _, hab⟩
    · obtain ⟨a', ha', hR⟩ := ih b' hb'
      exact ⟨a', List.mem_cons_of_mem _ ha', hR⟩

/-- The choice of the specification for a dependency: its weights sum to 1, it is the one
transition `(successor, p)` exactly when `p` is 1, and otherwise that transition followed by
`(unsuccessful, 1 - p)`. -/
theorem dependencyResolution_choice (gen : DftNextStateGenerator σ) (cb : σ → ρ → Nat × ρ)
    (s : σ) (i : Nat) (succ : Successor σ) (reg0 : ρ) (p : ℚ) (succId unsuccId : Nat)
    (hp : p = gen.mDft.dependencyProbability (gen.mDft.getDependencyId s i))
    (hsucc : succId = (boundId gen cb succ reg0).1)
    (hunsucc : unsuccId
      = (cb (gen.mDft.letDependencyBeUnsuccessful s i) (boundId gen cb succ reg0).2).1) :
    (dependencyResolution gen cb s i succ reg0).1.totalWeight = 1 ∧
    (p = 1 → (dependencyResolution gen cb s i succ reg0).1.distribution = [(succId, p)]) ∧
    (p ≠ 1 → (dependencyResolution gen cb s i succ reg0).1.distribution
      = addToDistribution [(succId, p)] unsuccId (1 - p)) ∧
    (p ≠ 1 → succId ≠ unsuccId →
      (dependencyResolution gen cb s i succ reg0).1.distribution
        = [(succId, p), (unsuccId, 1 - p)]) ∧
    (p = 7 / 10 → succId ≠ unsuccId →
      (dependencyResolution gen cb s i succ reg0).1.distribution
        = [(succId, 7 / 10), (unsuccId, 3 / 10)]) := by
  subst hp hsucc hunsucc
  by_cases hp : gen.mDft.dependencyProbability (gen.mDft.getDependencyId s i) = 1
  · refine ⟨?_, ?_, ?_, ?_, ?_⟩
    · simp [dependencyResolution, hp, Choice.totalWeight]
    · intro _; simp [dependencyResolution, hp]
    · intro h; exact absurd hp h
    · intro h; exact absurd hp h
    · intro h; rw [hp] at h; norm_num at h
  · refine ⟨?_, ?_, ?_, ?_, ?_⟩
    · simp only [dependencyResolution, hp, if_false, Choice.totalWeight, addToDistribution]
      split
      · simp
      · simp
    · intro h; exact absurd h hp
    · intro _; simp [dependencyResolution, hp]
    · intro _ hne
      simp [dependencyResolution, hp, addToDistribution, hne]
    · intro h7 hne
      simp only [dependencyResolution, hp, if_false, addToDistribution, hne, h7]
      norm_num

end DftNextStateGenerator

namespace DftNextStateGenerator

variable {σ ρ : Type}

/-- C6: for a non-absorbing loaded state `s` without failable dependencies, what `expand`
returns is exactly one choice, and the choice is determined by what the failures of the
candidates `0, ..., nrFailableBEs s - 1` lead to as the specification words it (`LeadsTo`,
which admits one outcome for each candidate): it accumulates, in candidate order, for every
candidate whose failure leads to a successor, the transition to the id bound to that
successor with the selected rate of the basic element that failed. So the weight the choice gives to a successor id is the sum of the selected
rates of the failable BEs whose failure leads to that successor, and its total weight is
the sum of those rates. `expand` does return this choice whenever the failure of every
candidate leads to an outcome and no selected rate is 0, once the propagation loops are
allowed enough iterations. -/
theorem expand_modeB_conservation (gen : DftNextStateGenerator σ)
    (cb : σ → ρ → Nat × ρ) (s : σ) (registry : ρ)
    (hf : gen.mDft.hasFailed s = false) (hfs : gen.mDft.isFailsafe s = false)
    (hbe : gen.mDft.nrFailableBEs s ≠ 0) (hdep : gen.mDft.nrFailableDependencies s = 0) :
    (∀ fuel behavior registry1,
      expand (gen.load s) fuel cb registry = .ok (behavior, registry1) →
      ∃ outcomes choice,
        List.Forall₂ (fun i o => ∃ log, LeadsTo gen s false i o log)
          (List.range (gen.mDft.nrFailableBEs s)) outcomes ∧
        (∀ outcomes', List.Forall₂ (fun i o => ∃ log, LeadsTo gen s false i o log)
          (List.range (gen.mDft.nrFailableBEs s)) outcomes' → outcomes' = outcomes) ∧
        behavior = { choices := [choice], expanded := true } ∧
        registry1 = (rateTransitions gen cb s outcomes registry).2 ∧
        choice = (rateTransitions gen cb s outcomes registry).1.foldl
          (fun c t => c.addProbability t.1 t.2) (Choice.new 0 true) ∧
        (∀ id, choice.weight id
          = (((rateTransitions gen cb s outcomes registry).1.filter
              (fun t => t.1 = id)).map (fun t => t.2)).sum) ∧
        choice.totalWeight
          = ((rateTransitions gen cb s outcomes registry).1.map (fun t => t.2)).sum) ∧
    (∀ outcomes,
      List.Forall₂ (fun i o => ∃ log, LeadsTo gen s false i o log)
        (List.range (gen.mDft.nrFailableBEs s)) outcomes →
      (∀ succ, some succ ∈ outcomes → selectedRate gen s succ.nextBE ≠ 0) →
      ∃ fuel0, ∀ fuel, fuel0 ≤ fuel →
        expand (gen.load s) fuel cb registry
          = .ok ({ choices := [(rateTransitions gen cb s outcomes registry).1.foldl
                      (fun c t => c.addProbability t.1 t.2) (Choice.new 0 true)],
                   expanded := true }, (rateTransitions gen cb s outcomes registry).2)) := by
  refine ⟨?_, ?_⟩
  · intro fuel behavior registry1 h
    have hd : decide (gen.mDft.nrFailableDependencies s > 0) = false := by simp [hdep]
    have hloop := expand_load_loop gen fuel cb s registry hf hfs hbe
    rw [h] at hloop
    simp only [hd, Bool.false_eq_true, if_false, Bool.not_false] at hloop
    cases hover : expandOver gen fuel cb s false (List.range (gen.mDft.nrFailableBEs s))
        (Choice.new 0 true, StateBehavior.new, registry) with
    | error e =>
      rw [hover] at hloop
      cases hloop
    | ok acc1 =>
      obtain ⟨os, hos, hrate⟩ := expandOver_modeB_outcomes gen fuel cb s _ _ acc1 hover
      have hexp := expand_modeB_of_outcomes gen fuel cb s registry hf hfs hbe hdep os hos hrate
      rw [h] at hexp
      simp only [Except.ok.injEq, Prod.mk.injEq] at hexp
      refine ⟨os, _, outcomes_leadTo gen fuel s false _ os hos,
        outcomes_unique gen s false _ os (outcomes_leadTo gen fuel s false _ os hos),
        hexp.1, hexp.2, rfl, ?_, ?_⟩
      · intro id
        rw [Choice.weight_foldl]
        simp [Choice.weight, Choice.new]
      · rw [Choice.totalWeight_foldl]
        simp [Choice.totalWeight, Choice.new]
  · intro outcomes hleads hrate
    obtain ⟨fuel0, hfuel⟩ := leadsTo_enough_fuel gen s false _ outcomes hleads
    exact ⟨fuel0, fun fuel h => expand_modeB_of_outcomes gen fuel cb s registry hf hfs hbe
      hdep outcomes (hfuel fuel h) hrate⟩

theorem expand_modeB_conservation_witness :
    expand (exGenerator.load exInitial) 10 exRegister []
      = .ok ({ choices := [{ actionIndex := 0, markovian := true,
                             distribution := [(0, 3), (1, 4)] }],
               expanded := true },
          [ExState.mk 0 [0] [4] false, ExState.mk 0 [5] [] false]) ∧
    successorState exGenerator 10 exInitial false 0
      = .ok (some (Successor.mk (exBE 0) (ExState.mk 0 [0] [4] false) false)) ∧
    successorState exGenerator 10 exInitial false 1 = .ok none ∧
    successorState exGenerator 10 exInitial false 2
      = .ok (some (Successor.mk (exBE 5) (ExState.mk 0 [5] [] false) false)) ∧
    rateTransitions exGenerator exRegister exInitial
        [some (Successor.mk (exBE 0) (ExState.mk 0 [0] [4] false) false), none,
          some (Successor.mk (exBE 5) (ExState.mk 0 [5] [] false) false)] []
      = ([(0, 3), (1, 4)], [ExState.mk 0 [0] [4] false, ExState.mk 0 [5] [] false]) ∧
    ∃ outcomes choice,
      List.Forall₂ (fun i o => ∃ log, LeadsTo exGenerator exInitial false i o log)
        (List.range (exGenerator.mDft.nrFailableBEs exInitial)) outcomes ∧
      (∀ outcomes', List.Forall₂ (fun i o => ∃ log, LeadsTo exGenerator exInitial false i o log)
        (List.range (exGenerator.mDft.nrFailableBEs exInitial)) outcomes' →
        outcomes' = outcomes) ∧
      ({ choices := [{ actionIndex := 0, markovian := true,
                       distribution := [(0, 3), (1, 4)] }],
         expanded := true } : StateBehavior) = { choices := [choice], expanded := true } ∧
      [ExState.mk 0 [0] [4] false, ExState.mk 0 [5] [] false]
        = (rateTransitions exGenerator exRegister exInitial outcomes []).2 ∧
      choice = (rateTransitions exGenerator exRegister exInitial outcomes []).1.foldl
        (fun c t => c.addProbability t.1 t.2) (Choice.new 0 true) ∧
      (∀ id, choice.weight id
        = (((rateTransitions exGenerator exRegister exInitial outcomes []).1.filter
            (fun t => t.1 = id)).map (fun t => t.2)).sum) ∧
      choice.totalWeight
        = ((rateTransitions exGenerator exRegister exInitial outcomes []).1.map
            (fun t => t.2)).sum :=
  ⟨rfl, rfl, rfl, rfl, rfl,
    (expand_modeB_conservation exGenerator exRegister exInitial [] (by decide)
      (by decide) (by decide) (by decide)).1 10 _ _ rfl⟩

end DftNextStateGenerator

namespace DftNextStateGenerator

variable {σ ρ : Type}

/-- In the state `exReady` the dependency 4 lets BE 1 fail after BE 5: the successor is valid,
and `expand` emits the one choice with the weights 7/10 and 3/10. -/
theorem exReady_expand :
    expand (exGenerator.load exReady) 10 exRegister []
      = .ok ({ choices := [{ actionIndex := 0, markovian := false,
                             distribution := [(0, 7 / 10), (1, 3 / 10)] }],
               expanded := true },
          [ExState.mk 2 [2, 1, 0, 5] [] false, ExState.mk 2 [0, 5] [] false]) := by
  have hs : successorState exGenerator 10 exReady true 0
      = .ok (some (Successor.mk (exBE 1) (ExState.mk 2 [2, 1, 0, 5] [] false) false)) := rfl
  have hos : List.Forall₂ (fun i o => successorState exGenerator 10 exReady true i = .ok o)
      (List.range (exGenerator.mDft.nrFailableDependencies exReady))
      [some (Successor.mk (exBE 1) (ExState.mk 2 [2, 1, 0, 5] [] false) false)] :=
    List.Forall₂.cons hs List.Forall₂.nil
  rw [expand_modeD_of_outcomes exGenerator 10 exRegister exReady [] (by decide) (by decide)
    (by decide) (by decide) _ hos]
  have hp : exGenerator.mDft.dependencyProbability
      (exGenerator.mDft.getDependencyId exReady 0) = 7 / 10 := rfl
  have hb : boundId exGenerator exRegister
      (Successor.mk (exBE 1) (ExState.mk 2 [2, 1, 0, 5] [] false) false) []
      = (0, [ExState.mk 2 [2, 1, 0, 5] [] false]) := rfl
  have hu : exRegister (exGenerator.mDft.letDependencyBeUnsuccessful exReady 0)
      [ExState.mk 2 [2, 1, 0, 5] [] false]
      = (1, [ExState.mk 2 [2, 1, 0, 5] [] false, ExState.mk 2 [0, 5] [] false]) := rfl
  simp only [dependencyResolutions, dependencyResolution, hp, hb, hu, addToDistribution]
  norm_num

/-- C7: for a non-absorbing loaded state `s` with failable dependencies, what `expand`
returns is determined by what the dependencies `0, ..., nrFailableDependencies s - 1` lead
to as the specification words it (`LeadsTo`, which admits one outcome for each dependency):
it emits, in order, one choice for every dependency that leads to a successor, so as many
choices as there are such dependencies. Every emitted choice has total weight 1 and is the
resolution of a dependency `i` with probability `p`: the transition `(successor, p)` alone
exactly when `p` is 1, and otherwise that transition followed by `(unsuccessful, 1 - p)`,
where the unsuccessful id is the answer of the callback for the loaded state with
`letDependencyBeUnsuccessful i` applied; with `p = 7/10` the two weights are `7/10` and
`3/10`. `expand` does return these choices whenever every dependency leads to an outcome,
once the propagation loops are allowed enough iterations. -/
theorem expand_modeD_choice (gen : DftNextStateGenerator σ)
    (cb : σ → ρ → Nat × ρ) (s : σ) (registry : ρ)
    (hf : gen.mDft.hasFailed s = false) (hfs : gen.mDft.isFailsafe s = false)
    (hbe : gen.mDft.nrFailableBEs s ≠ 0) (hdep : 0 < gen.mDft.nrFailableDependencies s) :
    (∀ fuel behavior registry1,
      expand (gen.load s) fuel cb registry = .ok (behavior, registry1) →
      ∃ outcomes,
        List.Forall₂ (fun i o => ∃ log, LeadsTo gen s true i o log)
          (List.range (gen.mDft.nrFailableDependencies s)) outcomes ∧
        (∀ outcomes', List.Forall₂ (fun i o => ∃ log, LeadsTo gen s true i o log)
          (List.range (gen.mDft.nrFailableDependencies s)) outcomes' → outcomes' = outcomes) ∧
        behavior = { choices := (dependencyResolutions gen cb s 0 outcomes registry).1,
                     expanded := true } ∧
        registry1 = (dependencyResolutions gen cb s 0 outcomes registry).2 ∧
        behavior.choices.length = (successorIndices 0 outcomes).length ∧
        ∀ choice ∈ behavior.choices, choice.totalWeight = 1 ∧
          ∃ i succ reg0 p succId unsuccId, i < gen.mDft.nrFailableDependencies s ∧
            (∃ log, LeadsTo gen s true i (some succ) log) ∧
            p = gen.mDft.dependencyProbability (gen.mDft.getDependencyId s i) ∧
            succId = (boundId gen cb succ reg0).1 ∧
            unsuccId = (cb (gen.mDft.letDependencyBeUnsuccessful s i)
              (boundId gen cb succ reg0).2).1 ∧
            (p = 1 → choice.distribution = [(succId, p)]) ∧
            (p ≠ 1 → choice.distribution = addToDistribution [(succId, p)] unsuccId (1 - p)) ∧
            (p ≠ 1 → succId ≠ unsuccId →
              choice.distribution = [(succId, p), (unsuccId, 1 - p)]) ∧
            (p = 7 / 10 → succId ≠ unsuccId →
              choice.distribution = [(succId, 7 / 10), (unsuccId, 3 / 10)])) ∧
    (∀ outcomes,
      List.Forall₂ (fun i o => ∃ log, LeadsTo gen s true i o log)
        (List.range (gen.mDft.nrFailableDependencies s)) outcomes →
      ∃ fuel0, ∀ fuel, fuel0 ≤ fuel →
        expand (gen.load s) fuel cb registry
          = .ok ({ choices := (dependencyResolutions gen cb s 0 outcomes registry).1,
                   expanded := true },
              (dependencyResolutions gen cb s 0 outcomes registry).2)) := by
  refine ⟨?_, ?_⟩
  · intro fuel behavior registry1 h
    have hd : decide (gen.mDft.nrFailableDependencies s > 0) = true := by simp [hdep]
    have hloop := expand_load_loop gen fuel cb s registry hf hfs hbe
    rw [h] at hloop
    simp only [hd, if_true] at hloop
    cases hover : expandOver gen fuel cb s true
        (List.range (gen.mDft.nrFailableDependencies s))
        (Choice.new 0 (!true), StateBehavior.new, registry) with
    | error e =>
      rw [hover] at hloop
      cases hloop
    | ok acc1 =>
      obtain ⟨os, hos⟩ := expandOver_outcomes gen fuel cb s true _ _ acc1 hover
      have hexp := expand_modeD_of_outcomes gen fuel cb s registry hf hfs hbe hdep os hos
      rw [h] at hexp
      simp only [Except.ok.injEq, Prod.mk.injEq] at hexp
      obtain ⟨hb, hr⟩ := hexp
      have hleads := outcomes_leadTo gen fuel s true _ os hos
      have hlen : os.length = gen.mDft.nrFailableDependencies s := by
        rw [← hos.length_eq, List.length_range]
      have hleads' : List.Forall₂ (fun i o => ∃ log, LeadsTo gen s true i o log)
          (List.range' 0 os.length) os := by
        rw [hlen, ← List.range_eq_range']
        exact hleads
      have hall := dependencyResolutions_forall₂ gen cb s
        (fun i o => ∃ log, LeadsTo gen s true i o log) os 0 registry hleads'
      refine ⟨os, hleads, outcomes_unique gen s true _ os hleads, hb, hr, ?_, ?_⟩
      · rw [hb]
        exact hall.length_eq.symm
      · intro choice hc
        rw [hb] at hc
        obtain ⟨i, hi, succ, reg0, hlead, rfl⟩ := forall₂_mem_right hall choice hc
        have hbound := successorIndices_bounds os 0 i hi
        obtain ⟨h1, h2, h3, h4, h5⟩ := dependencyResolution_choice gen cb s i succ reg0 _ _ _
          rfl rfl rfl
        exact ⟨h1, i, succ, reg0, _, _, _, by omega, hlead, rfl, rfl, rfl, h2, h3, h4, h5⟩
  · intro outcomes hleads
    obtain ⟨fuel0, hfuel⟩ := leadsTo_enough_fuel gen s true _ outcomes hleads
    exact ⟨fuel0, fun fuel h => expand_modeD_of_outcomes gen fuel cb s registry hf hfs hbe
      hdep outcomes (hfuel fuel h)⟩

theorem expand_modeD_choice_witness :
    expand (exGenerator.load exReady) 10 exRegister []
      = .ok ({ choices := [{ actionIndex := 0, markovian := false,
                             distribution := [(0, 7 / 10), (1, 3 / 10)] }],
               expanded := true },
          [ExState.mk 2 [2, 1, 0, 5] [] false, ExState.mk 2 [0, 5] [] false]) ∧
    ∃ outcomes,
      List.Forall₂ (fun i o => ∃ log, LeadsTo exGenerator exReady true i o log)
        (List.range (exGenerator.mDft.nrFailableDependencies exReady)) outcomes ∧
      (∀ outcomes', List.Forall₂ (fun i o => ∃ log, LeadsTo exGenerator exReady true i o log)
        (List.range (exGenerator.mDft.nrFailableDependencies exReady)) outcomes' →
        outcomes' = outcomes) ∧
      StateBehavior.mk [Choice.mk 0 false [(0, 7 / 10), (1, 3 / 10)]] true
        = { choices := (dependencyResolutions exGenerator exRegister exReady 0 outcomes []).1,
            expanded := true } ∧
      [ExState.mk 2 [2, 1, 0, 5] [] false, ExState.mk 2 [0, 5] [] false]
        = (dependencyResolutions exGenerator exRegister exReady 0 outcomes []).2 ∧
      [Choice.mk 0 false [(0, 7 / 10), (1, 3 / 10)]].length
        = (successorIndices 0 outcomes).length ∧
      ∀ choice ∈ [Choice.mk 0 false [(0, 7 / 10), (1, 3 / 10)]],
        choice.totalWeight = 1 ∧
        ∃ i succ reg0 p succId unsuccId,
          i < exGenerator.mDft.nrFailableDependencies exReady ∧
          (∃ log, LeadsTo exGenerator exReady true i (some succ) log) ∧
          p = exGenerator.mDft.dependencyProbability
            (exGenerator.mDft.getDependencyId exReady i) ∧
          succId = (boundId exGenerator exRegister succ reg0).1 ∧
          unsuccId = (exRegister (exGenerator.mDft.letDependencyBeUnsuccessful exReady i)
            (boundId exGenerator exRegister succ reg0).2).1 ∧
          (p = 1 → choice.distribution = [(succId, p)]) ∧
          (p ≠ 1 → choice.distribution = addToDistribution [(succId, p)] unsuccId (1 - p)) ∧
          (p ≠ 1 → succId ≠ unsuccId →
            choice.distribution = [(succId, p), (unsuccId, 1 - p)]) ∧
          (p = 7 / 10 → succId ≠ unsuccId →
            choice.distribution = [(succId, 7 / 10), (unsuccId, 3 / 10)]) :=
  ⟨exReady_expand, (expand_modeD_choice exGenerator exRegister exReady [] (by decide)
    (by decide) (by decide) (by decide)).1 10 _ _ exReady_expand⟩

end DftNextStateGenerator

namespace DftNextStateGenerator

variable {σ ρ : Type}

/-- C8 (amended): for a non-absorbing loaded state `s` with `n > 0` failable dependencies,
what `expand` returns has one choice per failable dependency that leads to a successor as
the specification words it (`LeadsTo`, which admits one outcome for each dependency); a
dependency whose successor is discarded as invalid yields no choice. The choices correspond one to one, in the order of the failable-dependency
sequence, to the dependencies with a successor, each being the resolution of its dependency;
there are at most `n` choices, and `n`, one for each of the dependencies `0, ..., n - 1`,
when no successor is discarded. `expand` does return these choices whenever every dependency
leads to an outcome, once the propagation loops are allowed enough iterations. -/
theorem expand_choice_per_valid_dependency (gen : DftNextStateGenerator σ)
    (cb : σ → ρ → Nat × ρ) (s : σ) (registry : ρ)
    (hf : gen.mDft.hasFailed s = false) (hfs : gen.mDft.isFailsafe s = false)
    (hbe : gen.mDft.nrFailableBEs s ≠ 0) (hdep : 0 < gen.mDft.nrFailableDependencies s) :
    (∀ fuel behavior registry1,
      expand (gen.load s) fuel cb registry = .ok (behavior, registry1) →
      ∃ outcomes,
        List.Forall₂ (fun i o => ∃ log, LeadsTo gen s true i o log)
          (List.range (gen.mDft.nrFailableDependencies s)) outcomes ∧
        (∀ outcomes', List.Forall₂ (fun i o => ∃ log, LeadsTo gen s true i o log)
          (List.range (gen.mDft.nrFailableDependencies s)) outcomes' → outcomes' = outcomes) ∧
        behavior.choices = (dependencyResolutions gen cb s 0 outcomes registry).1 ∧
        List.Forall₂
          (fun i choice => ∃ succ reg0, (∃ log, LeadsTo gen s true i (some succ) log) ∧
            choice = (dependencyResolution gen cb s i succ reg0).1)
          (successorIndices 0 outcomes) behavior.choices ∧
        (∀ i ∈ successorIndices 0 outcomes, i < gen.mDft.nrFailableDependencies s) ∧
        behavior.choices.length ≤ gen.mDft.nrFailableDependencies s ∧
        ((∀ o ∈ outcomes, o ≠ none) →
          successorIndices 0 outcomes = List.range (gen.mDft.nrFailableDependencies s) ∧
          behavior.choices.length = gen.mDft.nrFailableDependencies s)) ∧
    (∀ outcomes,
      List.Forall₂ (fun i o => ∃ log, LeadsTo gen s true i o log)
        (List.range (gen.mDft.nrFailableDependencies s)) outcomes →
      ∃ fuel0, ∀ fuel, fuel0 ≤ fuel →
        ∃ behavior registry1,
          expand (gen.load s) fuel cb registry = .ok (behavior, registry1) ∧
          behavior.choices = (dependencyResolutions gen cb s 0 outcomes registry).1 ∧
          behavior.choices.length = (successorIndices 0 outcomes).length) := by
  refine ⟨?_, ?_⟩
  · intro fuel behavior registry1 h
    have hd : decide (gen.mDft.nrFailableDependencies s > 0) = true := by simp [hdep]
    have hloop := expand_load_loop gen fuel cb s registry hf hfs hbe
    rw [h] at hloop
    simp only [hd, if_true] at hloop
    cases hover : expandOver gen fuel cb s true
        (List.range (gen.mDft.nrFailableDependencies s))
        (Choice.new 0 (!true), StateBehavior.new, registry) with
    | error e =>
      rw [hover] at hloop
      cases hloop
    | ok acc1 =>
      obtain ⟨os, hos⟩ := expandOver_outcomes gen fuel cb s true _ _ acc1 hover
      have hexp := expand_modeD_of_outcomes gen fuel cb s registry hf hfs hbe hdep os hos
      rw [h] at hexp
      simp only [Except.ok.injEq, Prod.mk.injEq] at hexp
      obtain ⟨hb, _⟩ := hexp
      have hleads := outcomes_leadTo gen fuel s true _ os hos
      have hlen : os.length = gen.mDft.nrFailableDependencies s := by
        rw [← hos.length_eq, List.length_range]
      have hleads' : List.Forall₂ (fun i o => ∃ log, LeadsTo gen s true i o log)
          (List.range' 0 os.length) os := by
        rw [hlen, ← List.range_eq_range']
        exact hleads
      have hall := dependencyResolutions_forall₂ gen cb s
        (fun i o => ∃ log, LeadsTo gen s true i o log) os 0 registry hleads'
      have hchoices : behavior.choices = (dependencyResolutions gen cb s 0 os registry).1 := by
        rw [hb]
      refine ⟨os, hleads, outcomes_unique gen s true _ os hleads, hchoices, ?_, ?_, ?_, ?_⟩
      · rw [hchoices]
        exact hall
      · intro i hi
        have := successorIndices_bounds os 0 i hi
        omega
      · rw [hchoices, ← hall.length_eq, ← hlen]
        exact successorIndices_length_le os 0
      · intro hvalid
        have hidx := successorIndices_all os hvalid 0
        rw [hlen, ← List.range_eq_range'] at hidx
        refine ⟨hidx, ?_⟩
        rw [hchoices, ← hall.length_eq, hidx, List.length_range]
  · intro outcomes hleads
    obtain ⟨fuel0, hfuel⟩ := leadsTo_enough_fuel gen s true _ outcomes hleads
    refine ⟨fuel0, fun fuel h => ⟨_, _, expand_modeD_of_outcomes gen fuel cb s registry hf hfs
      hbe hdep outcomes (hfuel fuel h), rfl, ?_⟩⟩
    have hlen : outcomes.length = gen.mDft.nrFailableDependencies s := by
      rw [← hleads.length_eq, List.length_range]
    have hleads' : List.Forall₂ (fun i o => ∃ log, LeadsTo gen s true i o log)
        (List.range' 0 outcomes.length) outcomes := by
      rw [hlen, ← List.range_eq_range']
      exact hleads
    exact (dependencyResolutions_forall₂ gen cb s
      (fun i o => ∃ log, LeadsTo gen s true i o log) outcomes 0 registry
      hleads').length_eq.symm

theorem expand_choice_per_valid_dependency_witness :
    expand (exGenerator.load exReady) 10 exRegister []
      = .ok (StateBehavior.mk [Choice.mk 0 false [(0, 7 / 10), (1, 3 / 10)]] true,
          [ExState.mk 2 [2, 1, 0, 5] [] false, ExState.mk 2 [0, 5] [] false]) ∧
    expand (exGenerator.load exTriggered) 10 exRegister []
      = .ok (StateBehavior.mk [] true, []) ∧
    ∃ outcomes,
      List.Forall₂ (fun i o => ∃ log, LeadsTo exGenerator exReady true i o log)
        (List.range (exGenerator.mDft.nrFailableDependencies exReady)) outcomes ∧
      (∀ outcomes', List.Forall₂ (fun i o => ∃ log, LeadsTo exGenerator exReady true i o log)
        (List.range (exGenerator.mDft.nrFailableDependencies exReady)) outcomes' →
        outcomes' = outcomes) ∧
      [Choice.mk 0 false [(0, 7 / 10), (1, 3 / 10)]]
        = (dependencyResolutions exGenerator exRegister exReady 0 outcomes []).1 ∧
      List.Forall₂
        (fun i choice => ∃ succ reg0,
          (∃ log, LeadsTo exGenerator exReady true i (some succ) log) ∧
          choice = (dependencyResolution exGenerator exRegister exReady i succ reg0).1)
        (successorIndices 0 outcomes) [Choice.mk 0 false [(0, 7 / 10), (1, 3 / 10)]] ∧
      (∀ i ∈ successorIndices 0 outcomes,
        i < exGenerator.mDft.nrFailableDependencies exReady) ∧
      [Choice.mk 0 false [(0, 7 / 10), (1, 3 / 10)]].length
        ≤ exGenerator.mDft.nrFailableDependencies exReady ∧
      ((∀ o ∈ outcomes, o ≠ none) →
        successorIndices 0 outcomes
          = List.range (exGenerator.mDft.nrFailableDependencies exReady) ∧
        [Choice.mk 0 false [(0, 7 / 10), (1, 3 / 10)]].length
          = exGenerator.mDft.nrFailableDependencies exReady) :=
  ⟨exReady_expand, rfl, (expand_choice_per_valid_dependency exGenerator exRegister exReady []
    (by decide) (by decide) (by decide) (by decide)).1 10 _ _ exReady_expand⟩

end DftNextStateGenerator

end Storm
